import Mathlib

/-!
# xml-node: the node tree of `lib/xml_node.js`

A shallow embedding of the mutable document tree implemented by
`src/node_modules/xml-node/lib/xml_node.js`, followed by the object
transformer of `lib/simple_transformer.js` and the event handlers of the
parser of `lib/xml_parser.js`.

JavaScript objects are identified by reference, and a child holds a
back-reference to its parent, so the tree is a graph of objects.  The
embedding makes the object store explicit: a `Heap` is the list of all
`XmlNode` objects created so far, a reference is a position in it (a natural
number), and every method takes the heap and the receiver and returns the new
heap together with its result.  `new XmlNode(...)` appends to the heap.

Conventions.
* A field that is `undefined` in JavaScript is `none`.
* Names, text, cdata and comment payloads are strings, attribute and
  instruction mappings are association lists from strings to strings, as in
  the descriptor type of the library's documentation.
* Index arguments are integers.
* A method that can raise returns `Heap × Except Err α`: the heap component is
  the store at the moment the method returned or raised.
* The calls into lodash (`_.find`, `_.filter`) are modelled by their documented
  behaviour on the three iteratee shorthands the library uses (property name,
  partial match against an object, predicate function).  A property name is
  a single key: the deep paths lodash also accepts (`"a.b"`) are not modelled
  and count as an absent key.
* A recursion or loop over the object graph (`getAncestors`, `getDescendants`,
  `toString`, `getPath`, `toObject`, `getRoot`) takes a bound `fuel` on its
  depth and returns `none` when the bound is reached; the theorems give a
  bound that suffices.
* The keys of a plain mapping are enumerated in insertion order (keys that
  look like array indices are not modelled).
* A lookup by a computed name on a plain object also finds the members of
  `Object.prototype` (`constructor`, `toString`, ...).  `getAttribute` and the
  field selectors model them (`objectPrototypeKeys`); the merging step of
  `simplify` looks among the entries of the mapping only, and the statements
  about it exclude these names.
-/

namespace XmlNode

/-! ## Data model -/

/-- An attribute or instruction mapping. -/
abbrev Attrs := List (String × String)

/-- The own data fields of an `XmlNode` object. -/
structure Node where
  name : Option String := none
  attributes : Option Attrs := none
  parent : Option Nat := none
  value : Option (List Nat) := none
  text : Option String := none
  cdata : Option String := none
  comment : Option String := none
  instructions : Option Attrs := none
deriving DecidableEq, Repr

/-- The object store. -/
abbrev Heap := List Node

/-- The data fields of a plain descriptor object, its `value` list apart. -/
structure Fields where
  name : Option String := none
  attributes : Option Attrs := none
  text : Option String := none
  cdata : Option String := none
  comment : Option String := none
  instructions : Option Attrs := none
deriving DecidableEq, Repr

/-- A value that is either an `XmlNode` instance or a plain descriptor object:
`node r` is the instance `r`, `leaf f` a descriptor without a `value` list,
`obj f vs` a descriptor whose `value` list is `vs`. -/
inductive Spec where
  | node (r : Nat)
  | leaf (f : Fields)
  | obj (f : Fields) (value : List Spec)

/-- The polymorphic `child` argument of `addChild` and `insert`. -/
inductive Child where
  | undefined
  | null
  | name (s : String)
  | spec (d : Spec)

/-- Errors raised by the library (`throw new Error(message)`) or by the engine
(property access on `undefined`). -/
inductive Err where
  | error (message : String)
  | typeError
deriving DecidableEq, Repr

/-- The results the query and removal methods can return; `inherited name` is
the member `name` of `Object.prototype`, which a property lookup on a plain
object finds when the object has no entry of that name. -/
inductive Value where
  | undefined
  | str (s : String)
  | node (r : Nat)
  | array (rs : List Nat)
  | inherited (name : String)
deriving DecidableEq, Repr

/-- A value in an object pattern: a string or a nested string mapping. -/
inductive PatVal where
  | str (s : String)
  | map (m : Attrs)
deriving DecidableEq, Repr

/-- A plain object used as a structural-match selector. -/
abbrev Pattern := List (String × PatVal)

/-- The polymorphic `query` argument of `getChild` and `removeChild`. -/
inductive Query where
  | index (i : Int)
  | str (s : String)
  | obj (m : Pattern)
  | fn (p : Heap → Nat → Bool)

/-- The iteratee shorthands of lodash: `_.property(key)`, `_.matches(object)`,
or a function. -/
inductive Iteratee where
  | property (key : String)
  | matching (m : Pattern)
  | fn (p : Heap → Nat → Bool)

/-! ## Heap access -/

/-- The object a reference points to. -/
def Heap.node (h : Heap) (r : Nat) : Node := h.getD r {}

/-- Replace the object a reference points to. -/
def Heap.put (h : Heap) (r : Nat) (n : Node) : Heap := h.set r n

/-- Allocate a new object; its reference is the old size of the heap. -/
def Heap.alloc (h : Heap) (n : Node) : Heap × Nat := (h ++ [n], h.length)

/-- JavaScript truthiness of an optional string: defined and not empty. -/
def truthy : Option String → Bool
  | some s => s != ""
  | none => false

/-- The children list of a node, empty when the `value` field is undefined
(`this.value || []`). -/
def children (h : Heap) (r : Nat) : List Nat := ((h.node r).value).getD []

/-- The statement `if (!this.value) this.value = [];`. -/
def initValue (h : Heap) (r : Nat) : Heap :=
  match (h.node r).value with
  | some _ => h
  | none => h.put r { h.node r with value := some [] }

/-- The assignment `this.value = cs`. -/
def setValue (h : Heap) (r : Nat) (cs : List Nat) : Heap :=
  h.put r { h.node r with value := some cs }

/-- The assignment `child.parent = p`. -/
def setParent (h : Heap) (child p : Nat) : Heap :=
  h.put child { h.node child with parent := some p }

/-- The call `self.value.push(child)` on an existing `value` array. -/
def pushValue (h : Heap) (self child : Nat) : Heap :=
  setValue h self (children h self ++ [child])

/-- `Array.prototype.indexOf`: the first position of `r`, or `-1`. -/
def indexOf (cs : List Nat) (r : Nat) : Int :=
  if r ∈ cs then (cs.indexOf r : Int) else -1

/-- The start position `Array.prototype.splice` computes from its first
argument. -/
def spliceStart (len : Nat) (i : Int) : Nat :=
  if i < 0 then (len + i).toNat else min i.toNat len

/-- The array after `splice(i, 0, c)`. -/
def spliceInsert (cs : List Nat) (i : Int) (c : Nat) : List Nat :=
  cs.take (spliceStart cs.length i) ++ c :: cs.drop (spliceStart cs.length i)

/-- The array returned by `splice(i, 1)`: the removed elements. -/
def spliceRemoved (cs : List Nat) (i : Int) : List Nat :=
  (cs.drop (spliceStart cs.length i)).take 1

/-- The array left after `splice(i, 1)`. -/
def spliceRemaining (cs : List Nat) (i : Int) : List Nat :=
  cs.take (spliceStart cs.length i) ++ cs.drop (spliceStart cs.length i + 1)

/-! ## Construction -/

/-- The node a descriptor's own fields give (`this[i] = name[i]` for every key
but `value`). -/
def Fields.toNode (f : Fields) : Node :=
  { name := f.name, attributes := f.attributes, text := f.text, cdata := f.cdata,
    comment := f.comment, instructions := f.instructions }

/-- The call `new XmlNode(name, attributes, parent)` with a non-object `name`
(a string or `undefined`). -/
def newNode (h : Heap) (name : Option String) (attributes : Option Attrs)
    (parent : Option Nat) : Heap × Nat :=
  h.alloc { name := name, attributes := attributes, parent := parent }

mutual
/-- The expression `(x instanceof XmlNode) ? x : new XmlNode(x)`: an instance
is used as it is, a descriptor is built by the constructor's bulk branch.  The
new object is allocated before its children. -/
def instantiate (h : Heap) : Spec → Heap × Nat
  | .node r => (h, r)
  | .leaf f => h.alloc f.toNode
  | .obj f vs =>
    (fill (h.alloc { f.toNode with value := some [] }).1 h.length vs, h.length)
/-- The loop `name.value.forEach(...)` of the constructor, `self` being the
object under construction. -/
def fill (h : Heap) (self : Nat) : List Spec → Heap
  | [] => h
  | .node r :: vs => fill (pushValue h self r) self vs
  | .leaf f :: vs =>
    fill (pushValue (setParent (instantiate h (.leaf f)).1 (instantiate h (.leaf f)).2 self)
      self (instantiate h (.leaf f)).2) self vs
  | .obj f ws :: vs =>
    fill (pushValue (setParent (instantiate h (.obj f ws)).1 (instantiate h (.obj f ws)).2 self)
      self (instantiate h (.obj f ws)).2) self vs
end

/-! ## Classification and simple queries -/

/-- The method `isEmpty`. -/
def isEmpty (h : Heap) (r : Nat) : Bool :=
  let n := h.node r
  !truthy n.name && !n.value.isSome &&
    (!truthy n.comment && n.comment != some "") &&
    (!truthy n.text && n.text != some "") &&
    (!truthy n.cdata && n.cdata != some "")

/-- The method `isRoot`. -/
def isRoot (h : Heap) (r : Nat) : Bool :=
  !(h.node r).parent.isSome && (h.node r).value.isSome

/-- The method `isLeaf`. -/
def isLeaf (h : Heap) (r : Nat) : Bool :=
  !(h.node r).value.isSome || (children h r).length == 0

/-- The method `getParent`: `this.parent || new XmlNode()`. -/
def getParent (h : Heap) (r : Nat) : Heap × Nat :=
  match (h.node r).parent with
  | some p => (h, p)
  | none => newNode h none none none

/-- The method `getIndex`. -/
def getIndex (h : Heap) (r : Nat) : Except Err Int :=
  if isRoot h r then .ok (-1)
  else match (h.node r).parent with
    | none => .error .typeError
    | some p => .ok (indexOf (children h p) r)

/-- The names of the members of `Object.prototype`, which every object inherits:
looked up by name on an object without an entry of that name they are
functions (the prototype object for `__proto__`), hence truthy. -/
def objectPrototypeKeys : List String :=
  ["constructor", "hasOwnProperty", "isPrototypeOf", "propertyIsEnumerable",
   "toLocaleString", "toString", "valueOf", "__proto__", "__defineGetter__",
   "__defineSetter__", "__lookupGetter__", "__lookupSetter__"]

/-- The method `getAttribute`: `if (!this.attributes) return "";
return this.attributes[name] || "";`.  The lookup finds the entry of the
attribute mapping, or else the member of `Object.prototype` of that name. -/
def getAttribute (h : Heap) (r : Nat) (name : String) : Value :=
  match (h.node r).attributes with
  | none => .str ""
  | some a =>
    match a.lookup name with
    | some v => .str v
    | none => if objectPrototypeKeys.contains name then .inherited name else .str ""

/-- The method `setAttribute`. -/
def setAttribute (h : Heap) (r : Nat) (name content : String) : Heap :=
  let a := ((h.node r).attributes).getD []
  let a1 := if (a.lookup name).isSome
    then a.map (fun kv => if kv.1 = name then (kv.1, content) else kv)
    else a ++ [(name, content)]
  h.put r { h.node r with attributes := some a1 }

/-- The method `removeAttribute`. -/
def removeAttribute (h : Heap) (r : Nat) (name : String) : Heap :=
  let a := ((h.node r).attributes).getD []
  h.put r { h.node r with attributes := some (a.filter (fun kv => kv.1 != name)) }

/-! ## Selectors -/

/-- The characters the regular-expression dot does not match. -/
def isLineTerminator (c : Char) : Bool :=
  c.toNat = 10 || c.toNat = 13 || c.toNat = 0x2028 || c.toNat = 0x2029

/-- The first capture group of `query.match(/^S(.+)/)` for the sigil `S`. -/
def sigilMatch (sigil : Char) (query : String) : Option String :=
  match query.data with
  | [] => none
  | c :: rest =>
    if c = sigil then
      match rest.takeWhile (fun x => !isLineTerminator x) with
      | [] => none
      | g :: gs => some (String.mk (g :: gs))
    else none

/-- The capture of `query.match(/^@(.+)/)`. -/
def attrMatch (query : String) : Option String := sigilMatch '@' query

/-- The capture of `query.match(/^\$(.+)/)`. -/
def fieldMatch (query : String) : Option String := sigilMatch '$' query

/-- The members every `XmlNode` inherits, from `XmlNode.prototype` and from
`Object.prototype`: looked up by name they are truthy. -/
def prototypeKeys : List String :=
  ["addInstruction", "addComment", "addCData", "addChild", "removeChild", "insert",
   "delete", "addText", "isEmpty", "isRoot", "isLeaf", "getIndex", "getAttributes",
   "getAttribute", "setAttribute", "removeAttribute", "getChild", "getChildren",
   "getAncestors", "getDescendants", "getPrevious", "getNext", "getParent", "getRoot",
   "getPath", "getName", "toString", "toObject", "toXml", "toXmlFragment"] ++
    objectPrototypeKeys

/-- Truthiness of `node[key]`, as tested by the `_.property(key)` shorthand. -/
def fieldTruthy (n : Node) (key : String) : Bool :=
  if key = "name" then truthy n.name
  else if key = "text" then truthy n.text
  else if key = "cdata" then truthy n.cdata
  else if key = "comment" then truthy n.comment
  else if key = "attributes" then n.attributes.isSome
  else if key = "instructions" then n.instructions.isSome
  else if key = "value" then n.value.isSome
  else if key = "parent" then n.parent.isSome
  else prototypeKeys.contains key

/-- Partial match of a string mapping against an optional mapping. -/
def attrsMatch (m : Attrs) : Option Attrs → Bool
  | none => false
  | some a => m.all (fun kv => a.lookup kv.1 == some kv.2)

/-- One entry of a `_.matches(object)` comparison against a node. -/
def fieldMatches (n : Node) (key : String) : PatVal → Bool
  | .str s =>
    if key = "name" then n.name == some s
    else if key = "text" then n.text == some s
    else if key = "cdata" then n.cdata == some s
    else if key = "comment" then n.comment == some s
    else false
  | .map m =>
    if key = "attributes" then attrsMatch m n.attributes
    else if key = "instructions" then attrsMatch m n.instructions
    else false

/-- Whether the iteratee lodash builds from a shorthand accepts the node `c`. -/
def Iteratee.test (h : Heap) (c : Nat) : Iteratee → Bool
  | .property key => fieldTruthy (h.node c) key
  | .matching m => m.all (fun kv => fieldMatches (h.node c) kv.1 kv.2)
  | .fn p => p h c

/-- The call `_.find(cs, iteratee)`. -/
def lodashFind (h : Heap) (cs : List Nat) (it : Iteratee) : Option Nat :=
  cs.find? (fun c => it.test h c)

/-- The call `_.filter(cs, iteratee)`. -/
def lodashFilter (h : Heap) (cs : List Nat) (it : Iteratee) : List Nat :=
  cs.filter (fun c => it.test h c)

/-- The rewriting of a string query that is not an attribute query:
`"$field"` becomes the property shorthand `field`, any other string `s` the
object `{ name: s }`. -/
def stringIteratee (s : String) : Iteratee :=
  match fieldMatch s with
  | some f => .property f
  | none => .matching [("name", .str s)]

/-- The method `getChildren` without a query. -/
def getChildren (h : Heap) (r : Nat) : List Nat := children h r

/-- The statement `return new XmlNode();` of a failed lookup. -/
def notFound (h : Heap) : Heap × Value :=
  ((newNode h none none none).1, .node (newNode h none none none).2)

/-- The tail of `getChild`: the child `_.find` returned, or a new empty node. -/
def foundOrNew (h : Heap) : Option Nat → Heap × Value
  | some c => (h, .node c)
  | none => notFound h

/-- The method `getChild`. -/
def getChild (h : Heap) (self : Nat) (query : Query) : Heap × Value :=
  match (h.node self).value with
  | none => notFound h
  | some cs =>
    match query with
    | .index i => foundOrNew h (if 0 ≤ i then cs.get? i.toNat else none)
    | .str s =>
      match attrMatch s with
      | some a => (h, getAttribute h self a)
      | none => foundOrNew h (lodashFind h cs (stringIteratee s))
    | .obj m => foundOrNew h (lodashFind h cs (.matching m))
    | .fn p => foundOrNew h (lodashFind h cs (.fn p))

/-! ## Mutation -/

/-- The last statements of `addChild`: `child.parent = this;` followed by the
push or the splice. -/
def attachChild (h : Heap) (self c : Nat) (index : Option Int) : Heap :=
  match index with
  | none => pushValue (setParent h c self) self c
  | some i =>
    if 0 ≤ i then
      setValue (setParent h c self) self (spliceInsert (children (setParent h c self) self) i c)
    else setParent h c self

/-- The method `addChild`. -/
def addChild (h : Heap) (self : Nat) (child : Child) (index : Option Int) :
    Heap × Except Err Unit :=
  match child with
  | .undefined => (h, .ok ())
  | .null => (h, .ok ())
  | .name s =>
    if s = "" then (h, .ok ())
    else (attachChild (newNode (initValue h self) (some s) none none).1 self
      (newNode (initValue h self) (some s) none none).2 index, .ok ())
  | .spec (.node r) =>
    if r = self then
      (initValue h self, .error (.error "The child cannot be the parent itself."))
    else (attachChild (initValue h self) self r index, .ok ())
  | .spec (.leaf f) =>
    (attachChild (instantiate (initValue h self) (.leaf f)).1 self
      (instantiate (initValue h self) (.leaf f)).2 index, .ok ())
  | .spec (.obj f vs) =>
    (attachChild (instantiate (initValue h self) (.obj f vs)).1 self
      (instantiate (initValue h self) (.obj f vs)).2 index, .ok ())

/-- The tail of `removeChild`: remove the child `_.find` returned, if any. -/
def removeFound (h : Heap) (self : Nat) : Option Nat → Heap × Value
  | none => (h, .undefined)
  | some c =>
    if indexOf (children h self) c < 0 then (h, .undefined)
    else (setValue h self (spliceRemaining (children h self) (indexOf (children h self) c)),
      .node c)

/-- The method `removeChild`. -/
def removeChild (h : Heap) (self : Nat) (query : Query) : Heap × Value :=
  let h1 := initValue h self
  let cs := children h1 self
  match query with
  | .index i =>
    if i < cs.length then
      (setValue h1 self (spliceRemaining cs i), .array (spliceRemoved cs i))
    else removeFound h1 self (lodashFind h1 cs (.property (toString i)))
  | .str s =>
    match attrMatch s with
    | some a => (removeAttribute h1 self a, .undefined)
    | none => removeFound h1 self (lodashFind h1 cs (stringIteratee s))
  | .obj m => removeFound h1 self (lodashFind h1 cs (.matching m))
  | .fn p => removeFound h1 self (lodashFind h1 cs (.fn p))

/-- The method `delete`. -/
def delete (h : Heap) (self : Nat) : Heap × Except Err Unit :=
  if isRoot h self then (h, .ok ())
  else
    match (h.node self).parent with
    | none => (h, .error .typeError)
    | some p =>
      match getIndex h self with
      | .error e => (h, .error e)
      | .ok i => ((removeChild h p (.index i)).1, .ok ())

/-- The last two statements of `insert`: clamp `before` at the first position
and add the sibling to the parent. -/
def placeSibling (h : Heap) (self : Nat) (node : Child) (before : Bool) :
    Heap × Except Err Unit :=
  match getIndex h self with
  | .error e => (h, .error e)
  | .ok j =>
    match (h.node self).parent with
    | none => (h, .error .typeError)
    | some p => addChild h p node (some (j + (if (before && !decide (j < 1)) then 0 else 1)))

/-- The second statement of `insert`: a plain descriptor object is replaced by
the node built from it, any other argument is kept. -/
def siblingNode (h : Heap) : Child → Heap × Child
  | .spec (.leaf f) =>
    ((instantiate h (.leaf f)).1, .spec (.node (instantiate h (.leaf f)).2))
  | .spec (.obj f vs) =>
    ((instantiate h (.obj f vs)).1, .spec (.node (instantiate h (.obj f vs)).2))
  | other => (h, other)

/-- The method `insert`.  For `null` the constructor call of the second
statement reads a property of `null`. -/
def insert (h : Heap) (self : Nat) (node : Child) (before : Bool) :
    Heap × Except Err Unit :=
  match getIndex h self with
  | .error e => (h, .error e)
  | .ok i =>
    if i < 0 then (h, .ok ())
    else
      match node with
      | .null => (h, .error .typeError)
      | other => placeSibling (siblingNode h other).1 self (siblingNode h other).2 before

/-- The statements `var newTextNode = new XmlNode(); newTextNode.text = text;`. -/
def newTextNode (h : Heap) (text : String) : Heap × Nat :=
  ((newNode h none none none).1.put (newNode h none none none).2
    { ((newNode h none none none).1.node (newNode h none none none).2) with
      text := some text }, (newNode h none none none).2)

/-- The method `addText` for a string argument. -/
def addText (h : Heap) (self : Nat) (text : String) (index : Option Int) :
    Heap × Except Err Unit :=
  match (children (initValue h self) self).getLast? with
  | none =>
    addChild (newTextNode (initValue h self) text).1 self
      (.spec (.node (newTextNode (initValue h self) text).2)) index
  | some last =>
    if truthy ((initValue h self).node last).text then
      ((initValue h self).put last { (initValue h self).node last with
        text := some ((((initValue h self).node last).text).getD "" ++ text) }, .ok ())
    else
      addChild (newTextNode (initValue h self) text).1 self
        (.spec (.node (newTextNode (initValue h self) text).2)) index

/-! ## Queries over ancestors, descendants and siblings -/

/-- JavaScript truthiness of a query value: `0` and the empty string are
falsy, objects and functions are truthy. -/
def Query.truthy : Query → Bool
  | .index i => i != 0
  | .str s => s != ""
  | .obj _ => true
  | .fn _ => true

/-- The iteratee `getChildren` and `getDescendants` hand to `_.filter`: a string
is rewritten by `stringIteratee`, a number is a property shorthand. -/
def filterIteratee : Query → Iteratee
  | .index i => .property (toString i)
  | .str s => stringIteratee s
  | .obj m => .matching m
  | .fn p => .fn p

/-- The iteratee `getAncestors` hands to `_.filter`: a string `s` becomes the
object `{ name: s }`, with no treatment of a leading `$`. -/
def ancestorIteratee : Query → Iteratee
  | .index i => .property (toString i)
  | .str s => .matching [("name", .str s)]
  | .obj m => .matching m
  | .fn p => .fn p

/-- The method `getChildren` with its optional query. -/
def getChildrenBy (h : Heap) (r : Nat) (query : Option Query) : List Nat :=
  match (h.node r).value with
  | none => []
  | some cs =>
    match query with
    | none => cs
    | some q => if q.truthy then lodashFilter h cs (filterIteratee q) else cs

/-- The method `getAncestors` without a query.  The recursion follows the
parent back-references; `fuel` bounds its depth, and `none` is returned when
the bound is reached. -/
def getAncestorsAll : Nat → Heap → Nat → Option (Heap × List Nat)
  | 0, _, _ => none
  | fuel + 1, h, n =>
    if isRoot h n || isEmpty h n then some (h, [])
    else
      match getAncestorsAll fuel (getParent h n).1 (getParent h n).2 with
      | none => none
      | some (h2, as) => some ((getParent h2 n).1, as ++ [(getParent h2 n).2])

/-- The method `getAncestors`. -/
def getAncestors (fuel : Nat) (h : Heap) (n : Nat) (query : Option Query) :
    Option (Heap × List Nat) :=
  match query with
  | none => getAncestorsAll fuel h n
  | some q =>
    if q.truthy then
      (getAncestorsAll fuel h n).map
        (fun r => (r.1, lodashFilter r.1 r.2 (ancestorIteratee q)))
    else getAncestorsAll fuel h n

/-- The method `getDescendants` without a query.  The recursion follows the
children lists; `fuel` bounds its depth, and `none` is returned when the bound
is reached. -/
def getDescendantsAll : Nat → Heap → Nat → Option (List Nat)
  | 0, _, _ => none
  | fuel + 1, h, n =>
    if isLeaf h n then some []
    else
      ((children h n).mapM (fun c => (getDescendantsAll fuel h c).map (fun ds => ds ++ [c]))).map
        List.flatten

/-- The method `getDescendants`. -/
def getDescendants (fuel : Nat) (h : Heap) (n : Nat) (query : Option Query) :
    Option (List Nat) :=
  match query with
  | none => getDescendantsAll fuel h n
  | some q =>
    if q.truthy then
      (getDescendantsAll fuel h n).map (fun ds => lodashFilter h ds (filterIteratee q))
    else getDescendantsAll fuel h n

/-- The method `toString`.  The recursion follows the children lists; `fuel`
bounds its depth, and `none` is returned when the bound is reached. -/
def nodeToString : Nat → Heap → Nat → Option String
  | 0, _, _ => none
  | fuel + 1, h, n =>
    if truthy (h.node n).cdata then (h.node n).cdata
    else if truthy (h.node n).text then (h.node n).text
    else
      match (h.node n).value with
      | none => some ""
      | some cs => (cs.mapM (fun c => nodeToString fuel h c)).map String.join

/-- The characters `String.prototype.trim` removes: white space and line
terminators. -/
def isJsSpace (c : Char) : Bool :=
  c.toNat = 9 || c.toNat = 10 || c.toNat = 11 || c.toNat = 12 || c.toNat = 13 ||
  c.toNat = 32 || c.toNat = 160 || c.toNat = 0x1680 ||
  (0x2000 ≤ c.toNat && c.toNat ≤ 0x200A) ||
  c.toNat = 0x2028 || c.toNat = 0x2029 || c.toNat = 0x202F || c.toNat = 0x205F ||
  c.toNat = 0x3000 || c.toNat = 0xFEFF

/-- The method `String.prototype.trim`. -/
def jsTrim (s : String) : String :=
  String.mk ((s.data.dropWhile isJsSpace).reverse.dropWhile isJsSpace).reverse

/-- The options of `getPrevious` and `getNext`; an absent field is `false`. -/
structure SiblingOptions where
  skipEmptyText : Bool := false
  skipComments : Bool := false
deriving DecidableEq, Repr

/-- The expression `options || {skipEmptyText: true, skipComments: true}`. -/
def siblingOptions : Option SiblingOptions → SiblingOptions
  | some o => o
  | none => { skipEmptyText := true, skipComments := true }

/-- The two `continue` tests of the sibling loops: whether the candidate is
passed over.  Under the guard `prev.text` the call `prev.toString()` returns
without recursing, so one unit of fuel is enough. -/
def skipped (h : Heap) (opts : SiblingOptions) (c : Nat) : Bool :=
  (opts.skipEmptyText && truthy (h.node c).text &&
      (jsTrim ((nodeToString 1 h c).getD "") == "")) ||
    (opts.skipComments && truthy (h.node c).comment)

/-- The siblings the loop of `getPrevious` visits, in the order it visits
them: the entries before position `index`, last first. -/
def previousCandidates (siblings : List Nat) (index : Int) : List Nat :=
  if 0 < index ∧ index < siblings.length then (siblings.take index.toNat).reverse else []

/-- The siblings the loop of `getNext` visits, in the order it visits them: the
entries after position `index`. -/
def nextCandidates (siblings : List Nat) (index : Int) : List Nat :=
  if 0 ≤ index ∧ index < (siblings.length : Int) - 1 then siblings.drop (index.toNat + 1)
  else []

/-- The result of a sibling loop: the first candidate that is not passed over,
or a new empty node. -/
def firstKept (h : Heap) (opts : SiblingOptions) (candidates : List Nat) : Heap × Nat :=
  match candidates.find? (fun c => !skipped h opts c) with
  | some c => (h, c)
  | none => newNode h none none none

/-- The method `getPrevious`. -/
def getPrevious (h : Heap) (self : Nat) (options : Option SiblingOptions) :
    Heap × Except Err Nat :=
  if isRoot h self then ((newNode h none none none).1, .ok (newNode h none none none).2)
  else
    match getIndex h self with
    | .error e => (h, .error e)
    | .ok index =>
      match (h.node self).parent with
      | none => (h, .error .typeError)
      | some p =>
        ((firstKept h (siblingOptions options) (previousCandidates (children h p) index)).1,
          .ok (firstKept h (siblingOptions options) (previousCandidates (children h p) index)).2)

/-- The method `getNext`. -/
def getNext (h : Heap) (self : Nat) (options : Option SiblingOptions) :
    Heap × Except Err Nat :=
  if isRoot h self then ((newNode h none none none).1, .ok (newNode h none none none).2)
  else
    match getIndex h self with
    | .error e => (h, .error e)
    | .ok index =>
      match (h.node self).parent with
      | none => (h, .error .typeError)
      | some p =>
        ((firstKept h (siblingOptions options) (nextCandidates (children h p) index)).1,
          .ok (firstKept h (siblingOptions options) (nextCandidates (children h p) index)).2)

/-- The content tag `getPath` computes for a node that is neither empty nor the
root, with the heap after the `getParent` call of the name branch. -/
def pathContent (h : Heap) (n : Nat) : Heap × String :=
  if truthy (h.node n).text then (h, "#text")
  else if truthy (h.node n).cdata then (h, "#cdata")
  else if truthy (h.node n).comment then (h, "#comment")
  else if truthy (h.node n).name then
    ((getParent h n).1,
      ((h.node n).name).getD "" ++ "[" ++
        toString (indexOf (getChildrenBy (getParent h n).1 (getParent h n).2
          (some (.str (((h.node n).name).getD "")))) n) ++ "]")
  else (h, "")

/-- The method `getPath`.  The recursion follows the parent back-references;
`fuel` bounds its depth, and `none` is returned when the bound is reached. -/
def getPath : Nat → Heap → Nat → Option (Heap × Except Err String)
  | 0, _, _ => none
  | fuel + 1, h, n =>
    if isEmpty h n then some (h, .ok "-")
    else if isRoot h n then some (h, .ok ".")
    else
      match getPath fuel (getParent (pathContent h n).1 n).1 (getParent (pathContent h n).1 n).2 with
      | none => none
      | some (h3, .error e) => some (h3, .error e)
      | some (h3, .ok parentPath) =>
        match getIndex h3 n with
        | .error e => some (h3, .error e)
        | .ok index =>
          some (h3, .ok (parentPath ++ "/" ++ toString index ++ ":" ++ (pathContent h n).2))

/-! ## Predicates used in the statements, and sample trees -/

/-- Whether a query is an attribute query `"@name"`. -/
def Query.isAttribute : Query → Bool
  | .str s => (attrMatch s).isSome
  | _ => false

/-- Whether a selector designates no child of `self`: for an integer, no child
at that position; for a name, field, mapping or predicate, no child the
structural match or the predicate accepts. -/
def matchesNoChild (h : Heap) (self : Nat) : Query → Bool
  | .index i => decide (i < 0) || decide ((children h self).length ≤ i.toNat)
  | .str s => (children h self).all (fun c => !(stringIteratee s).test h c)
  | .obj m => (children h self).all (fun c => !(Iteratee.matching m).test h c)
  | .fn p => (children h self).all (fun c => !p h c)


/-- The tree of the test-suite after `first`, `mid` and `second` were added
under the document element `root`. -/
def sampleTree : Heap :=
  [ { value := some [1] },
    { name := some "root", parent := some 0, value := some [2, 4, 3] },
    { name := some "first", parent := some 1 },
    { name := some "second", parent := some 1 },
    { name := some "mid", parent := some 1 } ]


/-- The node `addChild` attaches for a child argument: the instance itself, or
the object the constructor allocates, whose reference is the size of the heap
at the call. -/
def Child.ref (h : Heap) : Child → Nat
  | .spec (.node r) => r
  | _ => h.length

/-- Whether the argument is one `addChild` on `self` attaches: a non-empty
name, a descriptor, or an instance of the heap other than `self`. -/
def Child.addable (h : Heap) (self : Nat) : Child → Bool
  | .undefined => false
  | .null => false
  | .name s => s != ""
  | .spec (.node r) => decide (r ≠ self) && decide (r < h.length)
  | .spec _ => true

/-- The list `cs` with `c` placed as `addChild` is documented to place it:
appended when the index is omitted, inserted at position `i` (at the end when
`i` exceeds the length) otherwise. -/
def placedAt (cs : List Nat) (c : Nat) : Option Int → List Nat
  | none => cs ++ [c]
  | some i => cs.take i.toNat ++ c :: cs.drop i.toNat

/-- The position at which `placedAt` puts the new entry. -/
def placedPos (cs : List Nat) : Option Int → Nat
  | none => cs.length
  | some i => min i.toNat cs.length

/-- An attribute name the query `"@" ++ a` designates: it is not empty and has
no line terminator, the characters the pattern `/^@(.+)/` captures. -/
def attributeName (a : String) : Bool :=
  !a.data.isEmpty && a.data.all (fun c => !isLineTerminator c)

/-- A node with two attributes and one child. -/
def attrTree : Heap :=
  [ { name := some "n", attributes := some [("a", "v"), ("b", "w")], value := some [1] },
    { name := some "k", parent := some 0 } ]

/-- An element whose only attribute is named `constructor`, like a member of
`Object.prototype`. -/
def constructorAttrTree : Heap :=
  [ { name := some "e", attributes := some [("constructor", "v")] } ]

/-- A heap holding one node that has no parent. -/
def orphanHeap : Heap := [ { name := some "orphan" } ]

mutual
/-- The number of objects the constructor allocates for a value: none for an
instance, one for a descriptor plus those of its `value` entries. -/
def Spec.size : Spec → Nat
  | .node _ => 0
  | .leaf _ => 1
  | .obj _ vs => 1 + Spec.sizes vs
/-- The number of objects the constructor allocates for a `value` list. -/
def Spec.sizes : List Spec → Nat
  | [] => 0
  | v :: vs => v.size + Spec.sizes vs
end

/-- The nodes the entries of a `value` list stand for when the list is built on
a heap of size `start`: an instance stands for itself, a descriptor for the
object allocated next. -/
def entryRefs (start : Nat) : List Spec → List Nat
  | [] => []
  | .node r :: vs => r :: entryRefs start vs
  | .leaf f :: vs => start :: entryRefs (start + (Spec.leaf f).size) vs
  | .obj f ws :: vs => start :: entryRefs (start + (Spec.obj f ws).size) vs

/-- Whether a value is a plain descriptor object (not an instance). -/
def Spec.isDescriptor : Spec → Bool
  | .node _ => false
  | _ => true

deriving instance DecidableEq for Except

/-- The heap after the failed lookup `root.getChild("bad")` on the test-suite
tree: node 5 is the empty node the lookup returned. -/
def lookupFailed : Heap := (getChild sampleTree 1 (.str "bad")).1

/-- A leaf element with an attribute and no children list, as built by
`new XmlNode("node", { "with-attribute": "true" })`, and the same element with
an empty children list. -/
def leafWithAttribute : Heap :=
  [ { name := some "node", attributes := some [("with-attribute", "true")] },
    { name := some "node", attributes := some [("with-attribute", "true")], value := some [] } ]

/-- The tree of the `getPath` test: `base` holds `child` and `second`, `child`
holds a Text, a CData and a Comment node. -/
def pathTree : Heap :=
  [ { value := some [1] },
    { name := some "base", parent := some 0, value := some [2, 6] },
    { name := some "child", parent := some 1, value := some [3, 4, 5] },
    { text := some "text", parent := some 2 },
    { cdata := some "cdata", parent := some 2 },
    { comment := some "comment", parent := some 2 },
    { name := some "second", parent := some 1 } ]

/-- An element `e` whose children are an element, a Comment, a Text and a CData
node with empty content, a CData node with content, and an element. -/
def payloadTree : Heap :=
  [ { value := some [1] },
    { name := some "e", parent := some 0, value := some [2, 3, 4, 5, 6, 7] },
    { name := some "a", parent := some 1 },
    { comment := some "", parent := some 1 },
    { text := some "", parent := some 1 },
    { cdata := some "", parent := some 1 },
    { cdata := some "x", parent := some 1 },
    { name := some "b", parent := some 1 } ]

/-- An element `e` whose children are an element, a blank Text node, a Comment
node with content, and an element. -/
def blankTree : Heap :=
  [ { value := some [1] },
    { name := some "e", parent := some 0, value := some [2, 3, 4, 5] },
    { name := some "a", parent := some 1 },
    { text := some " \n ", parent := some 1 },
    { comment := some "note", parent := some 1 },
    { name := some "b", parent := some 1 } ]

/-! ## Trees and ancestor chains used in the statements -/

/-- The ancestors of `n`, root first: `n` is listed by its parent, which is
listed by its parent, and so on `d` times up to a root. -/
def ancestorChain (h : Heap) : Nat → Nat → Option (List Nat)
  | 0, n => if isRoot h n then some [] else none
  | d + 1, n =>
    match (h.node n).parent with
    | none => none
    | some p =>
      if n ∈ children h p then (ancestorChain h d p).map (fun as => as ++ [p]) else none

/-- A finite tree of references. -/
inductive Tree where
  | mk (root : Nat) (kids : List Tree)

/-- The reference at the top of a tree. -/
def Tree.root : Tree → Nat
  | .mk r _ => r

/-- The subtrees of a tree. -/
def Tree.kids : Tree → List Tree
  | .mk _ ks => ks

mutual
/-- Whether the heap below the root of the tree has the shape of the tree: the
children list of every node of the tree is the list of the roots of its
subtrees. -/
def Tree.fits (h : Heap) : Tree → Bool
  | .mk r ks => decide (children h r = ks.map Tree.root) && Tree.fitsAll h ks
/-- Whether the heap has the shape of every tree of the list. -/
def Tree.fitsAll (h : Heap) : List Tree → Bool
  | [] => true
  | t :: ts => t.fits h && Tree.fitsAll h ts
end

mutual
/-- The number of levels of a tree. -/
def Tree.height : Tree → Nat
  | .mk _ ks => Tree.heightAll ks + 1
/-- The largest height in a list of trees. -/
def Tree.heightAll : List Tree → Nat
  | [] => 0
  | t :: ts => max t.height (Tree.heightAll ts)
end

mutual
/-- The nodes of a tree in document order, the root first. -/
def Tree.refs : Tree → List Nat
  | .mk r ks => r :: Tree.refsAll ks
/-- The nodes of a list of trees in document order. -/
def Tree.refsAll : List Tree → List Nat
  | [] => []
  | t :: ts => t.refs ++ Tree.refsAll ts
end

mutual
/-- The descendants of the root in the order of the specification: for each
subtree in sibling order, its descendants followed by its root. -/
def Tree.descendants : Tree → List Nat
  | .mk _ ks => Tree.descendantsAll ks
/-- The concatenation, over a list of trees, of the descendants of each root
followed by that root. -/
def Tree.descendantsAll : List Tree → List Nat
  | [] => []
  | t :: ts => (t.descendants ++ [t.root]) ++ Tree.descendantsAll ts
end

/-- Whether a node is of one of the five kinds of the data model: a Text,
CData or Comment node carries its payload and nothing else, an Element has a
name and no payload, a Root has a children list and neither name nor payload. -/
def Node.kinded (n : Node) : Bool :=
  (n.text.isSome && n.cdata.isNone && n.comment.isNone && n.value.isNone && n.name.isNone) ||
  (n.cdata.isSome && n.text.isNone && n.comment.isNone && n.value.isNone && n.name.isNone) ||
  (n.comment.isSome && n.text.isNone && n.cdata.isNone && n.value.isNone && n.name.isNone) ||
  (n.name.isSome && n.text.isNone && n.cdata.isNone && n.comment.isNone) ||
  (n.value.isSome && n.name.isNone && n.text.isNone && n.cdata.isNone && n.comment.isNone)

/-- The content of a Text or CData node, the empty string for any other
node. -/
def Node.payload (n : Node) : String :=
  match n.text with
  | some s => s
  | none => (n.cdata).getD ""

/-- The tree of `pathTree` below its root. -/
def pathShape : Tree :=
  .mk 0 [.mk 1 [.mk 2 [.mk 3 [], .mk 4 [], .mk 5 []], .mk 6 []]]

/-! ## Serialization options and text escaping -/

/-- The options of `toXml` and `toXmlFragment` the statements are about; a key
the caller did not give is `none`. -/
structure XmlOptions where
  headless : Option Bool := none
  pretty : Option Bool := none
  escapeText : Option Bool := none
deriving DecidableEq, Repr

/-- The call `_.assign(defaults, opts)`: a key present in `opts` wins. -/
def assignOptions (defaults opts : XmlOptions) : XmlOptions :=
  { headless := opts.headless.orElse (fun _ => defaults.headless),
    pretty := opts.pretty.orElse (fun _ => defaults.pretty),
    escapeText := opts.escapeText.orElse (fun _ => defaults.escapeText) }

/-- The statement `var opts = _.assign({ headless: true }, opts);` of
`toXmlFragment`. -/
def fragmentOptions (opts : Option XmlOptions) : XmlOptions :=
  assignOptions { headless := some true } (opts.getD {})

/-- The `headless` entry of the options `toXml` hands to the builder: `true`
by default when the root has an `xml` instruction and the caller gave no
`headless`, the caller's value otherwise. -/
def buildHeadless (hasXmlInstruction : Bool) (opts : XmlOptions) : Option Bool :=
  (assignOptions (if hasXmlInstruction && opts.headless.isNone
    then { headless := some true } else {}) opts).headless

/-- The `headless` entry `toXmlFragment` hands to the builder: the temporary
root it serializes has no instruction. -/
def toXmlFragmentHeadless (opts : Option XmlOptions) : Option Bool :=
  buildHeadless false (fragmentOptions opts)

/-- Modelled from the documentation of the external builder (xmlbuilder): the
XML declaration is written unless the `headless` option is set. -/
def declarationWritten (headless : Option Bool) : Bool := !(headless.getD false)

/-- Whether the pattern `\S+;` matches at the start of the characters: one or
more characters that are not white space, then a semicolon. -/
def matchNonSpacesSemicolon : List Char → Bool
  | [] => false
  | c :: rest => !isJsSpace c && (rest.head? == some ';' || matchNonSpacesSemicolon rest)

/-- The replacement `str.replace(/(?!&\S+;)&/g, '&amp;')`. -/
def escapeAmpersands : List Char → List Char
  | [] => []
  | c :: rest =>
    if c = '&' && !matchNonSpacesSemicolon rest then "&amp;".data ++ escapeAmpersands rest
    else c :: escapeAmpersands rest

/-- The replacement `str.replace(/"/g, '&quot;')`. -/
def escapeQuotes : List Char → List Char
  | [] => []
  | c :: rest =>
    if c = '"' then "&quot;".data ++ escapeQuotes rest else c :: escapeQuotes rest

/-- The function `escapeText`. -/
def escapeText (str : String) : String :=
  String.mk (escapeQuotes (escapeAmpersands str.data))

/-- Whether the characters start with a run of one or more characters that are
not white space, followed by a semicolon: the semicolon is in the leading run
of non-space characters, past its first character. -/
def runThenSemicolon (rest : List Char) : Bool :=
  ((rest.takeWhile (fun c => !isJsSpace c)).drop 1).contains ';'

/-- What the amended statement says of one character followed by `rest`. -/
def escapedChar (c : Char) (rest : List Char) : List Char :=
  if c = '"' then "&quot;".data
  else if c = '&' && !runThenSemicolon rest then "&amp;".data
  else [c]

/-- The text with every character replaced by `escapedChar`. -/
def escapedText : List Char → List Char
  | [] => []
  | c :: rest => escapedChar c rest ++ escapedText rest

/-- A character of an entity name: a letter, a digit, or one of `#_-.:`. -/
def isNameChar (c : Char) : Bool :=
  c.isAlphanum || c = '#' || c = '_' || c = '-' || c = '.' || c = ':'

/-- Whether the characters start with a name followed by a semicolon. -/
def nameThenSemicolon (rest : List Char) : Bool :=
  !(rest.takeWhile isNameChar).isEmpty &&
    (rest.dropWhile isNameChar).head? == some ';'

/-- The text the statement about entity references describes: a double quote
becomes `&quot;`, an ampersand that does not start an entity reference
becomes `&amp;`. -/
def escapedByName : List Char → List Char
  | [] => []
  | c :: rest =>
    (if c = '"' then "&quot;".data
      else if c = '&' && !nameThenSemicolon rest then "&amp;".data
      else [c]) ++ escapedByName rest

/-! ## The object transformer of `lib/simple_transformer.js`

A plain JavaScript value is a `Plain`; a mapping is the list of its entries in
enumeration order.  An object representation of a node, as `nodify` returns it
and `simplify` and `toObject` read it, is an `Obj`.  Property lookups see own
properties only: names that are members of `Object.prototype` (`constructor`,
`toString`, ...) are outside the model of the transformer, and the statements
exclude them (`keysRoundTrip`, `elementKey`). -/

/-- A plain JavaScript value: `null` stands for `null` and `undefined`, numbers
are integers (of less than 22 digits, which `Number.prototype.toString` writes
without an exponent). -/
inductive Plain where
  | null
  | str (s : String)
  | bool (b : Bool)
  | num (n : Int)
  | arr (xs : List Plain)
  | map (kvs : List (String × Plain))

/-- The data fields of an object representation of a node. -/
structure ObjFields where
  name : Option String := none
  attributes : Option Plain := none
  text : Option String := none
  cdata : Option String := none
  comment : Option String := none
  instructions : Option Plain := none

/-- An object representation of a node: `undefined`, an object without a
`value` list, or an object with one. -/
inductive Obj where
  | undefined
  | leaf (f : ObjFields)
  | node (f : ObjFields) (value : List Obj)

/-- JavaScript truthiness of a plain value. -/
def Plain.truthy : Plain → Bool
  | .null => false
  | .str s => s != ""
  | .bool b => b
  | .num n => n != 0
  | .arr _ => true
  | .map _ => true

/-- The number of keys `_.keys` finds on a value: the entries of a mapping, the
positions of a sequence or of a string, none on a number or a boolean. -/
def Plain.keyCount : Plain → Nat
  | .null => 0
  | .str s => s.length
  | .bool _ => 0
  | .num _ => 0
  | .arr xs => xs.length
  | .map kvs => kvs.length

/-- The `name` field of an object representation. -/
def Obj.name : Obj → Option String
  | .undefined => none
  | .leaf f => f.name
  | .node f _ => f.name

/-- The array `nodify(x).value` contributes to a sequence after `flatten` and
`compact`: the defined entries of the `value` list, nothing when there is no
such list. -/
def Obj.definedValue : Obj → List Obj
  | .node _ vs => vs.filter (fun v => match v with
      | .undefined => false
      | _ => true)
  | _ => []

mutual
/-- The function `nodify`. -/
def nodify : Plain → Option String → Obj
  | .str s, _ => .leaf { text := some s }
  | .bool b, _ => .leaf { text := some (if b then "true" else "false") }
  | .num n, _ => .leaf { text := some (toString n) }
  | .null, _ => .undefined
  | .arr xs, name => .node { name := name } (nodifyItems xs)
  | .map kvs, name =>
    .node { name := name,
            attributes := match kvs.lookup "$" with
              | some a => if a.truthy then some a else none
              | none => none }
      (nodifyEntries kvs)
/-- The expression
`_(input).map(function(x){ return x ? nodify(x).value : null; }).flatten().compact().value()`
of the sequence branch. -/
def nodifyItems : List Plain → List Obj
  | [] => []
  | x :: xs =>
    (if x.truthy then (nodify x none).definedValue else []) ++ nodifyItems xs
/-- The loop `for (var i in input)` of the mapping branch. -/
def nodifyEntries : List (String × Plain) → List Obj
  | [] => []
  | (k, v) :: kvs =>
    if k = "$" then nodifyEntries kvs
    else
      match v with
      | .str s =>
        if k = "_" then .leaf { text := some s } :: nodifyEntries kvs
        else nodify (.str s) (some k) :: nodifyEntries kvs
      | other => nodify other (some k) :: nodifyEntries kvs
end

/-- The key under which `simplify` stores a child: `"_"` for a string child
without a name, the name otherwise (`undefined` is the key `"undefined"`). -/
def childKey (name : Option String) (child : Plain) : String :=
  match child with
  | .str _ => if truthy name then name.getD "undefined" else "_"
  | _ => name.getD "undefined"

/-- The assignment `out[key] = v` on a mapping: in place when the key is
present, at the end otherwise. -/
def setKey (out : List (String × Plain)) (key : String) (v : Plain) :
    List (String × Plain) :=
  if (out.lookup key).isSome then out.map (fun (kv : String × Plain) => if kv.1 = key then (kv.1, v) else kv)
  else out ++ [(key, v)]

/-- One turn of the `forEach` of `simplify`, after `child` and `name` have been
computed.  The test `out[name]` is made on the entries of `out`: for a name in
`objectPrototypeKeys` that is not an entry the code finds the inherited member
instead, and the statements exclude these names. -/
def mergeChild (out : List (String × Plain)) (name : Option String) (child : Plain) :
    List (String × Plain) :=
  if !child.truthy then out
  else
    match out.lookup (childKey name child) with
    | some (.arr xs) => setKey out (childKey name child) (.arr (xs ++ [child]))
    | some old =>
      if old.truthy then setKey out (childKey name child) (.arr [old, child])
      else setKey out (childKey name child) child
    | none => setKey out (childKey name child) child

/-- The statements of `simplify` after the `forEach`. -/
def finishSimple (out : List (String × Plain)) : Plain :=
  let out1 := match out.lookup "$" with
    | some a => if a.truthy && a.keyCount == 0 then out.filter (fun (kv : String × Plain) => kv.1 != "$") else out
    | none => out
  let out2 : Plain := match out1.lookup "_" with
    | some t => if out1.length == 1 && t.truthy then t else .map out1
    | none => .map out1
  if out2.keyCount == 0 then .null else out2

/-- The first statements of `simplify` on an object: the string it returns when
`text` or `cdata` is truthy. -/
def simpleText (f : ObjFields) : Option String :=
  if truthy f.text || truthy f.cdata then
    some ((if truthy f.text then jsTrim (f.text.getD "") else "") ++
      (if truthy f.cdata then jsTrim (f.cdata.getD "") else ""))
  else none

/-- The mapping `simplify` starts from: the attributes under `"$"` when they
are truthy. -/
def simpleStart (f : ObjFields) : List (String × Plain) :=
  match f.attributes with
  | some a => if a.truthy then [("$", a)] else []
  | none => []

mutual
/-- The function `simplify`. -/
def simplify : Obj → Except Err Plain
  | .undefined => .ok .null
  | .leaf f =>
    match simpleText f with
    | some s => .ok (.str s)
    | none => .ok (finishSimple (simpleStart f))
  | .node f vs =>
    match simpleText f with
    | some s => .ok (.str s)
    | none =>
      match simplifyInto (simpleStart f) vs with
      | .ok out => .ok (finishSimple out)
      | .error e => .error e
/-- The loop `input.value.forEach(...)` of `simplify`, started with the mapping
`out`.  Reading `val.name` of an `undefined` entry raises. -/
def simplifyInto (out : List (String × Plain)) : List Obj → Except Err (List (String × Plain))
  | [] => .ok out
  | .undefined :: _ => .error .typeError
  | .leaf f :: vs =>
    match simplify (.leaf f) with
    | .ok child => simplifyInto (mergeChild out f.name child) vs
    | .error e => .error e
  | .node f ws :: vs =>
    match simplify (.node f ws) with
    | .ok child => simplifyInto (mergeChild out f.name child) vs
    | .error e => .error e
end

/-- The `value` list of an object representation, empty when it has none. -/
def Obj.value : Obj → List Obj
  | .node _ vs => vs
  | _ => []

/-- A scalar or `null`: neither a sequence nor a mapping. -/
def Plain.isScalarOrNull : Plain → Bool
  | .arr _ => false
  | .map _ => false
  | _ => true

/-- A string value. -/
def Plain.isString : Plain → Bool
  | .str _ => true
  | _ => false

/-- A mapping. -/
def Plain.isMapping : Plain → Bool
  | .map _ => true
  | _ => false

/-- A mapping with at least one entry. -/
def Plain.isAttributes : Plain → Bool
  | .map (_ :: _) => true
  | _ => false

/-- The condition on the keys of a mapping that `simplify` gives back from the
result of `nodify`: the keys are distinct, there is one at least, `"_"` is not
the only one, and none is the name of a member of `Object.prototype`. -/
def keysRoundTrip (keys : List String) : Bool :=
  decide keys.Nodup && !keys.isEmpty && (keys != ["_"]) &&
    keys.all (fun k => !objectPrototypeKeys.contains k)

/-- The condition on the value of the key `"$"`: it is truthy and `_.keys` finds
a key on it, as on a mapping with one entry at least. -/
def Plain.isKept (a : Plain) : Bool := a.truthy && a.keyCount != 0

mutual
/-- The values `simplify` gives back from the result of `nodify`: a non-empty
string without surrounding white space, or a mapping whose keys satisfy
`keysRoundTrip` and whose entries satisfy `entriesRoundTrip`. -/
def Plain.roundTrips : Plain → Bool
  | .str s => s != "" && jsTrim s == s
  | .map kvs => keysRoundTrip (kvs.map Prod.fst) && entriesRoundTrip kvs
  | _ => false
/-- The condition on the entries: `"$"` holds a value that is kept, `"_"` holds
a string or a mapping that round-trips, every other key holds a mapping that
round-trips. -/
def entriesRoundTrip : List (String × Plain) → Bool
  | [] => true
  | (k, v) :: kvs =>
    (if k = "$" then v.isKept
     else if k = "_" then (v.isString || v.isMapping) && v.roundTrips
     else v.isMapping && v.roundTrips) && entriesRoundTrip kvs
end

/-- The entry of the key `"$"` of a mapping, as a list of one entry or none. -/
def attrsFront (kvs : List (String × Plain)) : List (String × Plain) :=
  match kvs.lookup "$" with
  | some a => [("$", a)]
  | none => []

mutual
/-- A plain value with the key `"$"` moved in front of the other keys, in every
mapping that is not under a key `"$"`. -/
def Plain.attrsFirst : Plain → Plain
  | .map kvs => .map (attrsFront kvs ++ attrsFirstEntries kvs)
  | .null => .null
  | .str s => .str s
  | .bool b => .bool b
  | .num n => .num n
  | .arr xs => .arr xs
/-- The entries of a mapping other than `"$"`, their values with the key `"$"`
moved in front. -/
def attrsFirstEntries : List (String × Plain) → List (String × Plain)
  | [] => []
  | (k, v) :: kvs =>
    if k = "$" then attrsFirstEntries kvs else (k, v.attrsFirst) :: attrsFirstEntries kvs
end

mutual
/-- Equality of plain values up to the order of the keys of mappings. -/
def Plain.sameAs : Plain → Plain → Bool
  | .null, .null => true
  | .str a, .str b => a == b
  | .bool a, .bool b => a == b
  | .num a, .num b => a == b
  | .arr xs, .arr ys => sameItems xs ys
  | .map kvs, .map other => kvs.length == other.length && sameEntries kvs other
  | _, _ => false
/-- Equality of sequences, member by member. -/
def sameItems : List Plain → List Plain → Bool
  | [], [] => true
  | x :: xs, y :: ys => x.sameAs y && sameItems xs ys
  | _, _ => false
/-- Every entry of the first mapping has an entry of the same key and the same
value, up to the order of keys, in the second mapping. -/
def sameEntries : List (String × Plain) → List (String × Plain) → Bool
  | [], _ => true
  | (k, v) :: kvs, other =>
    other.any (fun (kw : String × Plain) => kw.1 == k && v.sameAs kw.2) &&
      sameEntries kvs other
end

/-- Whether `escapeText` leaves the characters as they are: there is no double
quote, and every ampersand is followed by a run of characters that are not
white space and then a semicolon. -/
def escapedAlready : List Char → Bool
  | [] => true
  | c :: rest => (c != '"') && (c != '&' || runThenSemicolon rest) && escapedAlready rest

/-! ## Snapshots -/

/-- The fields `toObject` copies from a node: every own data field but `parent`
and `value`. -/
def Node.toFields (n : Node) : Fields :=
  { name := n.name, attributes := n.attributes, text := n.text, cdata := n.cdata,
    comment := n.comment, instructions := n.instructions }

/-- The method `toObject`.  The recursion follows the children lists; `fuel`
bounds its depth, and `none` is returned when the bound is reached. -/
def toObject : Nat → Heap → Nat → Option Spec
  | 0, _, _ => none
  | fuel + 1, h, r =>
    match (h.node r).value with
    | none => some (.leaf (h.node r).toFields)
    | some cs => (cs.mapM (fun c => toObject fuel h c)).map (.obj (h.node r).toFields)

mutual
/-- The number of levels of a descriptor. -/
def Spec.height : Spec → Nat
  | .node _ => 1
  | .leaf _ => 1
  | .obj _ vs => Spec.heights vs + 1
/-- The largest height in a list of descriptors. -/
def Spec.heights : List Spec → Nat
  | [] => 0
  | v :: vs => max v.height (Spec.heights vs)
end

mutual
/-- Whether a descriptor holds no instance at any depth. -/
def Spec.plain : Spec → Bool
  | .node _ => false
  | .leaf _ => true
  | .obj _ vs => Spec.plainAll vs
/-- Whether no descriptor of the list holds an instance. -/
def Spec.plainAll : List Spec → Bool
  | [] => true
  | v :: vs => v.plain && Spec.plainAll vs
end

mutual
/-- The snapshot of the part of the heap that has the shape of the tree: the
copied fields of each node, with the snapshots of the subtrees as `value` list
when the node has a children list. -/
def Tree.snapshot (h : Heap) : Tree → Spec
  | .mk r ks =>
    match (h.node r).value with
    | none => .leaf (h.node r).toFields
    | some _ => .obj (h.node r).toFields (Tree.snapshots h ks)
/-- The snapshots of a list of trees. -/
def Tree.snapshots (h : Heap) : List Tree → List Spec
  | [] => []
  | t :: ts => t.snapshot h :: Tree.snapshots h ts
end

/-! ## Comments, CDATA sections and the consistency of parents and children -/

/-- The method `addComment`: `var commentNode = new XmlNode();
commentNode.comment = comment; this.addChild(commentNode, index);`. -/
def addComment (h : Heap) (self : Nat) (comment : Option String) (index : Option Int) :
    Heap × Except Err Unit :=
  addChild (h.alloc { comment := comment }).1 self (.spec (.node h.length)) index

/-- The method `addCData`: `var cdataNode = new XmlNode(); cdataNode.cdata = cdata;
this.addChild(cdataNode, index);`. -/
def addCData (h : Heap) (self : Nat) (cdata : Option String) (index : Option Int) :
    Heap × Except Err Unit :=
  addChild (h.alloc { cdata := cdata }).1 self (.spec (.node h.length)) index

/-- Parent/child consistency: every member of every children list has the
listing node as its parent. -/
def consistent (h : Heap) : Bool :=
  (List.range h.length).all (fun p =>
    (children h p).all (fun c => (h.node c).parent == some p))

/-- Whether some children list holds the node. -/
def listed (h : Heap) (c : Nat) : Bool :=
  (List.range h.length).any (fun q => decide (c ∈ children h q))

/-- Whether every node that has in `h1` a parent reference it did not have in
`h` (a node that is new in `h1` had none) is a member of the children list of
that parent in `h1`. -/
def parentsListed (h h1 : Heap) : Bool :=
  (List.range h1.length).all (fun x =>
    match (h1.node x).parent with
    | none => true
    | some q => (h.node x).parent == some q || decide (x ∈ children h1 q))

/-- The heap `h1` is grown from `h`: a parent reference of `h1` is the one of
`h` or is matched by a membership in the children list of that parent, and the
children lists of `h` are kept. -/
def Heap.grown (h h1 : Heap) : Prop :=
  (∀ x q, (h1.node x).parent = some q →
      (h.node x).parent = some q ∨ x ∈ children h1 q) ∧
    ∀ q x, x ∈ children h q → x ∈ children h1 q

/-- An index that is omitted or not negative. -/
def indexOk : Option Int → Bool
  | none => true
  | some i => decide (0 ≤ i)

/-- A child argument that is not attached anywhere: no node at all, a name, a
descriptor without instances, or a node of the heap, other than `self`, that
no children list holds. -/
def Child.fresh (h : Heap) (self : Nat) : Child → Bool
  | .undefined => true
  | .null => true
  | .name _ => true
  | .spec (.node r) => decide (r ≠ self) && decide (r < h.length) && !listed h r
  | .spec (.leaf _) => true
  | .spec (.obj _ vs) => Spec.plainAll vs

/-! ## Snapshots as input of the object transformer -/

/-- An attribute or instruction mapping as a plain value. -/
def Attrs.toPlain (a : Attrs) : Plain :=
  .map (a.map (fun (kv : String × String) => (kv.1, Plain.str kv.2)))

/-- The fields of a descriptor as the transformer reads them. -/
def Fields.toObjFields (f : Fields) : ObjFields :=
  { name := f.name, attributes := f.attributes.map Attrs.toPlain, text := f.text,
    cdata := f.cdata, comment := f.comment,
    instructions := f.instructions.map Attrs.toPlain }

mutual
/-- A descriptor without instances as an object representation; `none` when
it holds an instance. -/
def Spec.toObj : Spec → Option Obj
  | .node _ => none
  | .leaf f => some (.leaf f.toObjFields)
  | .obj f vs => (Spec.toObjs vs).map (.node f.toObjFields)
/-- The entries of a `value` list as object representations. -/
def Spec.toObjs : List Spec → Option (List Obj)
  | [] => some []
  | v :: vs =>
    match v.toObj, Spec.toObjs vs with
    | some o, some os => some (o :: os)
    | _, _ => none
end

/-- A plain value as an attribute mapping: a mapping from strings to strings;
`none` for any other value. -/
def Plain.toAttrs : Plain → Option Attrs
  | .map kvs =>
    kvs.mapM (fun (kv : String × Plain) =>
      match kv.2 with
      | .str s => some (kv.1, s)
      | _ => none)
  | _ => none

/-- An optional field holding an attribute mapping. -/
def optionalAttrs : Option Plain → Option (Option Attrs)
  | none => some none
  | some p => p.toAttrs.map some

/-- The fields of an object representation as descriptor fields; `none` when
`attributes` or `instructions` is not a mapping from strings to strings. -/
def ObjFields.toFields (f : ObjFields) : Option Fields :=
  match optionalAttrs f.attributes, optionalAttrs f.instructions with
  | some a, some i =>
    some { name := f.name, attributes := a, text := f.text, cdata := f.cdata,
           comment := f.comment, instructions := i }
  | _, _ => none

mutual
/-- An object representation as the descriptor the constructor takes.  An
`undefined` entry of a `value` list gives a blank node (`new XmlNode(undefined)`). -/
def Obj.toSpec : Obj → Option Spec
  | .undefined => some (.leaf {})
  | .leaf f => f.toFields.map .leaf
  | .node f vs =>
    match f.toFields, Obj.toSpecs vs with
    | some g, some ws => some (.obj g ws)
    | _, _ => none
/-- The entries of a `value` list as descriptors. -/
def Obj.toSpecs : List Obj → Option (List Spec)
  | [] => some []
  | v :: vs =>
    match v.toSpec, Obj.toSpecs vs with
    | some d, some ds => some (d :: ds)
    | _, _ => none
end

/-- The tree `new XmlNode(nodify(simplify(n.toObject())))`, built on the heap
of `n`; `none` when one of the steps gives no result. -/
def rebuild (fuel : Nat) (h : Heap) (n : Nat) : Option (Heap × Nat) :=
  match toObject fuel h n with
  | none => none
  | some d =>
    match d.toObj with
    | none => none
    | some o =>
      match simplify o with
      | .error _ => none
      | .ok p => ((nodify p none).toSpec).map (instantiate h)

/-- The tree of the document `<a><b>x</b></a>` as the parser builds it. -/
def nestedTree : Heap :=
  [ { value := some [1] },
    { name := some "a", attributes := some [], parent := some 0, value := some [2] },
    { name := some "b", attributes := some [], parent := some 1, value := some [3] },
    { text := some "x", parent := some 2 } ]

/-- The tree of the document `<a k="v"><b/></a>` as the parser builds it. -/
def emptyChildTree : Heap :=
  [ { value := some [1] },
    { name := some "a", attributes := some [("k", "v")], parent := some 0, value := some [2] },
    { name := some "b", attributes := some [], parent := some 1 } ]

/-- The snapshot of the document
`<tag foo="bar"> test<a k="v"/><!--c--><b><c x="1"/><![CDATA[d ]]></b></tag>`
as the parser builds it: every element has an attribute mapping, which is empty
for `b`, and the elements `a` and `c` have no children list. -/
def keptSnapshot : Spec :=
  .obj {} [.obj { name := some "tag", attributes := some [("foo", "bar")] }
    [.leaf { text := some " test" },
     .leaf { name := some "a", attributes := some [("k", "v")] },
     .leaf { comment := some "c" },
     .obj { name := some "b", attributes := some [] }
       [.leaf { name := some "c", attributes := some [("x", "1")] },
        .leaf { cdata := some "d " }]]]

/-- The tree of `keptSnapshot`; its root is the node `0`. -/
def keptTree : Heap := (instantiate [] keptSnapshot).1

/-- The descriptor `keptSnapshot` as the transformer reads it. -/
def keptExample : Obj :=
  .node {} [.node { name := some "tag", attributes := some (.map [("foo", .str "bar")]) }
    [.leaf { text := some " test" },
     .leaf { name := some "a", attributes := some (.map [("k", .str "v")]) },
     .leaf { comment := some "c" },
     .node { name := some "b", attributes := some (.map []) }
       [.leaf { name := some "c", attributes := some (.map [("x", .str "1")]) },
        .leaf { cdata := some "d " }]]]

/-- The fields of a Text descriptor: `text` and nothing else. -/
def ObjFields.isText (f : ObjFields) : Bool :=
  f.text.isSome && f.name.isNone && f.attributes.isNone && f.cdata.isNone &&
    f.comment.isNone && f.instructions.isNone

/-- The fields of a Comment descriptor: `comment` and nothing else. -/
def ObjFields.isComment (f : ObjFields) : Bool :=
  f.comment.isSome && f.name.isNone && f.attributes.isNone && f.text.isNone &&
    f.cdata.isNone && f.instructions.isNone

/-- The fields of a CData descriptor: `cdata` and nothing else. -/
def ObjFields.isCData (f : ObjFields) : Bool :=
  f.cdata.isSome && f.name.isNone && f.attributes.isNone && f.text.isNone &&
    f.comment.isNone && f.instructions.isNone

/-- The character data of a Text or CData descriptor. -/
def ObjFields.content (f : ObjFields) : Option String :=
  if f.isText then f.text else if f.isCData then f.cdata else none

/-- The fields of an element descriptor: no `text`, `cdata` or `comment`. -/
def ObjFields.isElement (f : ObjFields) : Bool :=
  f.text.isNone && f.cdata.isNone && f.comment.isNone

/-- Whether `simplify` keeps the attributes of a descriptor: they are truthy and
`_.keys` finds a key on them. -/
def ObjFields.attrsKept (f : ObjFields) : Bool :=
  match f.attributes with
  | some a => a.isKept
  | none => false

/-- The entry `"$"` of the mapping `simplify` returns for an element. -/
def ObjFields.front (f : ObjFields) : List (String × Plain) :=
  match f.attributes with
  | some a => if a.isKept then [("$", a)] else []
  | none => []

/-- The names a child element can have for `simplify` and `nodify` to keep it
in its place: not one of the reserved keys `"$"` and `"_"`, not the name of a
member of `Object.prototype`, and not starting with a digit (a key that is an
array index is enumerated before the other keys). -/
def elementKey (k : String) : Bool :=
  k != "$" && k != "_" && !objectPrototypeKeys.contains k &&
    !((k.data.head?.map Char.isDigit).getD false)

/-- The condition of `elementKey` on a `name` field. -/
def elementName : Option String → Bool
  | some k => elementKey k
  | none => false

/-- Whether an entry of a `value` list is an element descriptor. -/
def Obj.isElementEntry : Obj → Bool
  | .undefined => false
  | .leaf f => f.isElement
  | .node f _ => f.isElement

mutual
/-- The plain value an element descriptor stands for: its attributes, when
they are kept, under `"$"`, then the entries of its children. -/
def Obj.simple : Obj → Plain
  | .undefined => .null
  | .leaf f => .map f.front
  | .node f vs => .map (f.front ++ Obj.simpleEntries vs)
/-- The entries of the children in the plain value: the trimmed character data
of a Text or CData child that is not blank under `"_"`, the plain value of a
child element under its name, nothing for a Comment child and for blank
character data. -/
def Obj.simpleEntries : List Obj → List (String × Plain)
  | [] => []
  | .undefined :: vs => Obj.simpleEntries vs
  | .leaf f :: vs =>
    match f.content with
    | some t =>
      if jsTrim t != "" then ("_", .str (jsTrim t)) :: Obj.simpleEntries vs
      else Obj.simpleEntries vs
    | none =>
      if f.isElement then (f.name.getD "undefined", .map f.front) :: Obj.simpleEntries vs
      else Obj.simpleEntries vs
  | .node f ws :: vs =>
    (f.name.getD "undefined", Obj.simple (.node f ws)) :: Obj.simpleEntries vs
end

/-- The fields of an element with the same name and attributes: an attribute
mapping that `simplify` does not keep (an empty one) is left out. -/
def ObjFields.canonical (f : ObjFields) : ObjFields :=
  { name := f.name, attributes := if f.attrsKept then f.attributes else none }

mutual
/-- An element descriptor with the same elements, names, attributes and text:
every element has a `value` list, the character data of a Text or CData child
is trimmed and held by a Text child, an attribute mapping without entries is
left out, and there are no Comment children and no blank character data. -/
def Obj.canonical : Obj → Obj
  | .undefined => .undefined
  | .leaf f => .node f.canonical []
  | .node f vs => .node f.canonical (Obj.canonicalAll vs)
/-- The entries of a `value` list in the form of `Obj.canonical`. -/
def Obj.canonicalAll : List Obj → List Obj
  | [] => []
  | .undefined :: vs => Obj.canonicalAll vs
  | .leaf f :: vs =>
    match f.content with
    | some t =>
      if jsTrim t != "" then .leaf { text := some (jsTrim t) } :: Obj.canonicalAll vs
      else Obj.canonicalAll vs
    | none =>
      if f.isElement then .node f.canonical [] :: Obj.canonicalAll vs
      else Obj.canonicalAll vs
  | .node f ws :: vs => Obj.canonical (.node f ws) :: Obj.canonicalAll vs
end

mutual
/-- The element descriptors that `nodify(simplify(...))` gives back: an element
has no `text`, `cdata` or `comment` field, and has attributes that are kept or
one child element at least; its children are Text and CData children, at most
one of which is not blank, Comment children, and child elements of the same
kind whose names are distinct and satisfy `elementKey`. -/
def Obj.kept : Obj → Bool
  | .undefined => false
  | .leaf f => f.isElement && f.attrsKept
  | .node f vs =>
    f.isElement && (f.attrsKept || vs.any Obj.isElementEntry) &&
      decide ((Obj.simpleEntries vs).map Prod.fst).Nodup && Obj.keptAll vs
/-- The condition of `Obj.kept` on the entries of a `value` list. -/
def Obj.keptAll : List Obj → Bool
  | [] => true
  | .undefined :: _ => false
  | .leaf f :: vs =>
    (f.content.isSome || f.isComment ||
      (f.isElement && f.attrsKept && elementName f.name)) && Obj.keptAll vs
  | .node f ws :: vs => (elementName f.name && Obj.kept (.node f ws)) && Obj.keptAll vs
end

/-! ## The parser of `lib/xml_parser.js`

The tokenizer (`sax`) is outside the library; the input of the model is the
sequence of events it delivers to the handlers that `toNode` installs. -/

/-- The method `getRoot`.  The loop follows the parents; `fuel` bounds the
number of turns, and `none` is returned when the bound is reached. -/
def getRoot : Nat → Heap → Nat → Option (Heap × Nat)
  | 0, _, _ => none
  | fuel + 1, h, n =>
    if !isEmpty h n && !isRoot h n then getRoot fuel (getParent h n).1 (getParent h n).2
    else some (h, n)

/-- The statements `if (!root.instructions) root.instructions = {};
root.instructions[name] = value;`. -/
def setInstruction (h : Heap) (r : Nat) (name value : String) : Heap :=
  let i := ((h.node r).instructions).getD []
  let i1 := if (i.lookup name).isSome
    then i.map (fun kv => if kv.1 = name then (kv.1, value) else kv)
    else i ++ [(name, value)]
  h.put r { h.node r with instructions := some i1 }

/-- The method `addInstruction`. -/
def addInstruction (fuel : Nat) (h : Heap) (self : Nat) (name value : String) : Option Heap :=
  (getRoot fuel h self).map (fun r => setInstruction r.1 r.2 name value)

/-- The events of the tokenizer that `toNode` handles, the final `end` event
apart. -/
inductive SaxEvent where
  | error (err : String)
  | text (text : String)
  | processinginstruction (name body : String)
  | opentag (name : String) (attributes : Attrs)
  | closetag (name : String)
  | attr (name value : String)
  | comment (comment : String)
  | opencdata
  | cdata (cdata : String)
  | closecdata
deriving DecidableEq, Repr

/-- The variables of `toNode` that the handlers share: the heap, the captured
errors `errs`, the cursor `node`, and `cDataBlock` (`none` is `null`). -/
structure ParserState where
  heap : Heap
  errs : List String
  node : Nat
  cDataBlock : Option String
deriving DecidableEq, Repr

/-- The state in which `toNode` starts the tokenizer: no error, the cursor on a
new node `new XmlNode()`, no CDATA block. -/
def ParserState.initial : ParserState :=
  { heap := [{}], errs := [], node := 0, cDataBlock := none }

/-- The result of a call that may raise, as the state after it: `none` when it
raised. -/
def ParserState.after (s : ParserState) : Heap × Except Err Unit → Option ParserState
  | (h, .ok _) => some { s with heap := h }
  | (_, .error _) => none

/-- One event handler of `toNode`.  The result is `none` when the handler does
not return: a call in it raises, or the loop of `getRoot` does not end within
`fuel` turns. -/
def handle (fuel : Nat) (s : ParserState) : SaxEvent → Option ParserState
  | .error err => some { s with errs := s.errs ++ [err] }
  | .text text =>
    if jsTrim text != "" then s.after (addText s.heap s.node text none) else some s
  | .processinginstruction name body =>
    (addInstruction fuel s.heap s.node name body).map (fun h => { s with heap := h })
  | .opentag name attributes =>
    some { s with heap := (newNode s.heap (some name) (some attributes) (some s.node)).1,
                  node := (newNode s.heap (some name) (some attributes) (some s.node)).2 }
  | .closetag _ =>
    match addChild (getParent s.heap s.node).1 (getParent s.heap s.node).2
        (.spec (.node s.node)) none with
    | (h, .ok _) => some { s with heap := h, node := (getParent s.heap s.node).2 }
    | (_, .error _) => none
  | .attr _ _ => some s
  | .comment comment => s.after (addComment s.heap s.node (some comment) none)
  | .opencdata => some { s with cDataBlock := some "" }
  | .cdata cdata =>
    match s.cDataBlock with
    | some block => some { s with cDataBlock := some (block ++ cdata) }
    | none => some s
  | .closecdata =>
    (s.after (addCData s.heap s.node s.cDataBlock none)).map
      (fun s1 => { s1 with cDataBlock := none })

/-- The handlers run on the events in order. -/
def run (fuel : Nat) : ParserState → List SaxEvent → Option ParserState
  | s, [] => some s
  | s, e :: es =>
    match handle fuel s e with
    | none => none
    | some s1 => run fuel s1 es

/-- The handler `onend`: the first captured error if there is one, the cursor
otherwise. -/
def onend (s : ParserState) : Except String Nat :=
  match s.errs with
  | [] => .ok s.node
  | e :: _ => .error e

/-- The method `toNode` on the events the tokenizer delivers for a text input:
the final heap and what the callback receives. -/
def toNode (fuel : Nat) (events : List SaxEvent) : Option (Heap × Except String Nat) :=
  (run fuel ParserState.initial events).map (fun s => (s.heap, onend s))

/-- The messages of the error events, in order. -/
def capturedErrors : List SaxEvent → List String
  | [] => []
  | .error err :: es => err :: capturedErrors es
  | _ :: es => capturedErrors es

/-- Whether an event is not an error event. -/
def SaxEvent.isData : SaxEvent → Bool
  | .error _ => false
  | _ => true

/-- An item of a document: an element with its content, character data, or a
comment. -/
inductive Item where
  | element (name : String) (attributes : Attrs) (content : List Item)
  | text (text : String)
  | comment (comment : String)

mutual
/-- The events of an item: an element is its open tag, the events of its
content, and its close tag. -/
def Item.events : Item → List SaxEvent
  | .element name attributes content =>
    .opentag name attributes :: (Item.eventsAll content ++ [.closetag name])
  | .text t => [.text t]
  | .comment c => [.comment c]
/-- The events of a list of items: a well-nested sequence. -/
def Item.eventsAll : List Item → List SaxEvent
  | [] => []
  | i :: rest => i.events ++ Item.eventsAll rest
end

mutual
/-- The descriptor of the node an item stands for: an element without content
has no `value` list. -/
def Item.spec : Item → Spec
  | .element name attributes content =>
    if content.isEmpty then .leaf { name := some name, attributes := some attributes }
    else .obj { name := some name, attributes := some attributes } (Item.specs content)
  | .text t => .leaf { text := some t }
  | .comment c => .leaf { comment := some c }
/-- The descriptors of a list of items. -/
def Item.specs : List Item → List Spec
  | [] => []
  | i :: rest => i.spec :: Item.specs rest
end

/-- Whether an item is character data. -/
def Item.isText : Item → Bool
  | .text _ => true
  | _ => false

/-- Whether an item is an element. -/
def Item.isElement : Item → Bool
  | .element _ _ _ => true
  | _ => false

mutual
/-- The condition on the character data of an item: it is not blank. -/
def Item.nonBlank : Item → Bool
  | .element _ _ content => Item.nonBlankAll content
  | .text t => jsTrim t != ""
  | .comment _ => true
/-- The condition of `Item.nonBlank` on a list of items. -/
def Item.nonBlankAll : List Item → Bool
  | [] => true
  | i :: rest => i.nonBlank && Item.nonBlankAll rest
end

/-- An item in front of a list of items: character data in front of character
data makes one piece of character data. -/
def Item.mergeHead (i : Item) (rest : List Item) : List Item :=
  match i, rest with
  | .text a, .text b :: r => .text (a ++ b) :: r
  | i, rest => i :: rest

mutual
/-- An item with the pieces of character data that follow each other joined,
at every depth. -/
def Item.merged : Item → Item
  | .element name attributes content => .element name attributes (Item.mergedAll content)
  | .text t => .text t
  | .comment c => .comment c
/-- A list of items with the pieces of character data that follow each other
joined, at every depth. -/
def Item.mergedAll : List Item → List Item
  | [] => []
  | i :: rest => Item.mergeHead i.merged (Item.mergedAll rest)
end

/-- The heap after the items are added under `c`, whose last child `last` is a
Text node holding `old`: leading character data is appended to that node, the
other items are built by the constructor's loop. -/
def appendItems (h : Heap) (c last : Nat) (old : String) : List Item → Heap
  | .text t :: rest =>
    fill (h.put last { h.node last with text := some (old ++ t) }) c (Item.specs rest)
  | items => fill h c (Item.specs items)

/-- Whether an event is an open tag or a close tag. -/
def SaxEvent.isTag : SaxEvent → Bool
  | .opentag _ _ => true
  | .closetag _ => true
  | _ => false

/-- A part of a document as the tokenizer reports it: an element with the
parts of its content, or a single event. -/
inductive Part where
  | element (name : String) (attributes : Attrs) (content : List Part)
  | single (event : SaxEvent)

mutual
/-- The events of a part: an element is its open tag, the events of its
content, and its close tag. -/
def Part.events : Part → List SaxEvent
  | .element name attributes content =>
    .opentag name attributes :: (Part.eventsAll content ++ [.closetag name])
  | .single event => [event]
/-- The events of a list of parts. -/
def Part.eventsAll : List Part → List SaxEvent
  | [] => []
  | i :: rest => i.events ++ Part.eventsAll rest
end

mutual
/-- Whether the tags of a part are the tags of its elements only: a single
event is any event other than an open tag, a close tag and an error
(character data, blank or not, a comment, a processing instruction, an
attribute, or one of the three CDATA events). -/
def Part.nested : Part → Bool
  | .element _ _ content => Part.nestedAll content
  | .single event => !event.isTag && event.isData
/-- The condition of `Part.nested` on a list of parts: their events are a
well-nested sequence. -/
def Part.nestedAll : List Part → Bool
  | [] => true
  | i :: rest => i.nested && Part.nestedAll rest
end

/-- The nodes of `h` are nodes of `h1` with the parent they have in `h`. -/
def Heap.parentsKept (h h1 : Heap) : Prop :=
  h.length ≤ h1.length ∧ ∀ r, r < h.length → (h1.node r).parent = (h.node r).parent

/-- The parents of the heap are well founded: every parent reference is a node
of the heap, and a rank below the size of the heap decreases from every node
to its parent. -/
def Heap.ranked (h : Heap) : Prop :=
  (∀ r p, (h.node r).parent = some p → p < h.length) ∧
    ∃ rank : Nat → Nat, (∀ r p, (h.node r).parent = some p → rank p < rank r) ∧
      ∀ r, r < h.length → rank r < h.length

/-- The invariant of the parser: the cursor is a node of the heap and the
parents are well founded. -/
def ParserState.sound (s : ParserState) : Prop :=
  s.node < s.heap.length ∧ s.heap.ranked

/-! # Theorems -/

/-! ## Heap lemmas -/

theorem node_put_self (h : Heap) (r : Nat) (n : Node) (hr : r < h.length) :
    (h.put r n).node r = n := by
  simp [Heap.node, Heap.put, List.getD_eq_getElem?_getD, hr]

theorem node_put_ne (h : Heap) (r r1 : Nat) (n : Node) (hne : r ≠ r1) :
    (h.put r n).node r1 = h.node r1 := by
  simp [Heap.node, Heap.put, List.getD_eq_getElem?_getD, List.getElem?_set_ne hne]

theorem length_put (h : Heap) (r : Nat) (n : Node) : (h.put r n).length = h.length := by
  simp [Heap.put]

theorem node_append_lt (h e : Heap) (r : Nat) (hr : r < h.length) :
    (h ++ e).node r = h.node r := by
  simp [Heap.node, List.getD_eq_getElem?_getD, List.getElem?_append_left hr]

theorem node_append_new (h : Heap) (n : Node) : (h ++ [n]).node h.length = n := by
  simp [Heap.node, List.getD_eq_getElem?_getD]

theorem node_out_of_range (h : Heap) (r : Nat) (hr : h.length ≤ r) : h.node r = {} := by
  simp [Heap.node, List.getD_eq_getElem?_getD, List.getElem?_eq_none hr]

theorem put_out_of_range (h : Heap) (r : Nat) (n : Node) (hr : h.length ≤ r) :
    h.put r n = h := by
  simp [Heap.put, List.set_eq_of_length_le hr]

theorem children_initValue (h : Heap) (r r1 : Nat) :
    children (initValue h r) r1 = children h r1 := by
  unfold initValue
  cases hv : (h.node r).value with
  | some cs => rfl
  | none =>
    simp only [children]
    by_cases hrr : r = r1
    · subst hrr
      by_cases hr : r < h.length
      · rw [node_put_self _ _ _ hr]; simp [hv]
      · rw [put_out_of_range _ _ _ (Nat.le_of_not_lt hr)]
    · rw [node_put_ne _ _ _ _ hrr]

theorem lodashFind_eq_none (h : Heap) (cs : List Nat) (it : Iteratee)
    (hall : cs.all (fun c => !it.test h c) = true) : lodashFind h cs it = none := by
  simp only [lodashFind, List.find?_eq_none]
  intro c hc
  have := (List.all_eq_true.mp hall) c hc
  simpa using this

theorem isEmpty_of_blank (h : Heap) (r : Nat) (hn : h.node r = {}) : isEmpty h r = true := by
  simp [isEmpty, hn, truthy]

theorem getChild_eq_notFound (h : Heap) (self : Nat) (query : Query)
    (hq : query.isAttribute = false) (hno : matchesNoChild h self query = true) :
    getChild h self query = notFound h := by
  unfold getChild
  cases hv : (h.node self).value with
  | none => rfl
  | some cs =>
    have hcs : children h self = cs := by simp [children, hv]
    cases query with
    | index i =>
      simp only [matchesNoChild, hcs, Bool.or_eq_true, decide_eq_true_eq] at hno
      by_cases hi : 0 ≤ i
      · have hlen : cs.length ≤ i.toNat := by
          rcases hno with h1 | h1
          · omega
          · exact h1
        simp [hi, foundOrNew, List.getElem?_eq_none hlen]
      · simp [hi, foundOrNew]
    | str s =>
      simp only [matchesNoChild, hcs] at hno
      cases hm : attrMatch s with
      | some a => simp [Query.isAttribute, hm] at hq
      | none => simp [hm, lodashFind_eq_none h cs _ hno, foundOrNew]
    | obj m =>
      simp only [matchesNoChild, hcs] at hno
      simp [lodashFind_eq_none h cs _ hno, foundOrNew]
    | fn p =>
      simp only [matchesNoChild, hcs] at hno
      have := lodashFind_eq_none h cs (.fn p) (by simpa [Iteratee.test] using hno)
      simp [this, foundOrNew]

/-- C1: a name, field, integer, mapping or predicate selector that matches no
child makes `getChild` return a node, never an absent value, that is empty and
whose parent is empty too. -/
theorem getChild_no_match (h : Heap) (self : Nat) (query : Query)
    (hq : query.isAttribute = false) (hno : matchesNoChild h self query = true) :
    ∃ r, (getChild h self query).2 = .node r ∧
      isEmpty (getChild h self query).1 r = true ∧
      isEmpty (getParent (getChild h self query).1 r).1
        (getParent (getChild h self query).1 r).2 = true := by
  rw [getChild_eq_notFound h self query hq hno]
  have hn : (h ++ [({} : Node)]).node h.length = {} := node_append_new h {}
  have hp : getParent (h ++ [({} : Node)]) h.length
      = ((h ++ [({} : Node)]) ++ [({} : Node)], (h ++ [({} : Node)]).length) := by
    simp [getParent, hn, newNode, Heap.alloc]
  refine ⟨h.length, rfl, ?_, ?_⟩
  · exact isEmpty_of_blank _ _ hn
  · simp only [notFound, newNode, Heap.alloc]
    rw [hp]
    exact isEmpty_of_blank _ _ (node_append_new _ _)

theorem getChild_no_match_witness :
    ∃ r, (getChild sampleTree 1 (.str "bad")).2 = .node r ∧
      isEmpty (getChild sampleTree 1 (.str "bad")).1 r = true ∧
      isEmpty (getParent (getChild sampleTree 1 (.str "bad")).1 r).1
        (getParent (getChild sampleTree 1 (.str "bad")).1 r).2 = true :=
  getChild_no_match sampleTree 1 (.str "bad") (by decide) (by decide)
theorem children_put_ne (h : Heap) (r r1 : Nat) (n : Node) (hne : r ≠ r1) :
    children (h.put r n) r1 = children h r1 := by
  simp [children, node_put_ne h r r1 n hne]

theorem children_setValue_self (h : Heap) (r : Nat) (cs : List Nat) (hr : r < h.length) :
    children (setValue h r cs) r = cs := by
  simp [children, setValue, node_put_self _ _ _ hr]

theorem length_setValue (h : Heap) (r : Nat) (cs : List Nat) :
    (setValue h r cs).length = h.length := length_put _ _ _

theorem length_setParent (h : Heap) (c p : Nat) : (setParent h c p).length = h.length :=
  length_put _ _ _

theorem length_initValue (h : Heap) (r : Nat) : (initValue h r).length = h.length := by
  unfold initValue
  cases (h.node r).value <;> simp [length_put]

theorem length_pushValue (h : Heap) (r c : Nat) : (pushValue h r c).length = h.length :=
  length_put _ _ _

theorem node_setValue_ne (h : Heap) (r r1 : Nat) (cs : List Nat) (hne : r ≠ r1) :
    (setValue h r cs).node r1 = h.node r1 := node_put_ne _ _ _ _ hne

theorem node_setParent_ne (h : Heap) (c p r1 : Nat) (hne : c ≠ r1) :
    (setParent h c p).node r1 = h.node r1 := node_put_ne _ _ _ _ hne

theorem node_pushValue_ne (h : Heap) (r c r1 : Nat) (hne : r ≠ r1) :
    (pushValue h r c).node r1 = h.node r1 := node_put_ne _ _ _ _ hne

theorem node_initValue_ne (h : Heap) (r r1 : Nat) (hne : r ≠ r1) :
    (initValue h r).node r1 = h.node r1 := by
  unfold initValue
  cases (h.node r).value with
  | some cs => rfl
  | none => exact node_put_ne _ _ _ _ hne

mutual
theorem instantiate_frame : ∀ (d : Spec) (h : Heap),
    h.length ≤ (instantiate h d).1.length ∧
      ∀ r, r < h.length → (instantiate h d).1.node r = h.node r
  | .node r, h => by simp [instantiate]
  | .leaf f, h => by
    simp only [instantiate, Heap.alloc]
    exact ⟨by simp, fun r hr => node_append_lt _ _ _ hr⟩
  | .obj f vs, h => by
    simp only [instantiate, Heap.alloc]
    have hf := fill_frame vs (h ++ [{ f.toNode with value := some [] }]) h.length (by simp)
    refine ⟨?_, fun r hr => ?_⟩
    · have := hf.1; simp at this; omega
    · rw [hf.2 r (by simp; omega) (by omega)]
      exact node_append_lt _ _ _ hr
theorem fill_frame : ∀ (vs : List Spec) (h : Heap) (self : Nat), self < h.length →
    h.length ≤ (fill h self vs).length ∧
      ∀ r, r < h.length → r ≠ self → (fill h self vs).node r = h.node r
  | [], h, self, _ => by simp [fill]
  | .node c :: vs, h, self, hs => by
    simp only [fill]
    have hf := fill_frame vs (pushValue h self c) self (by rw [length_pushValue]; exact hs)
    rw [length_pushValue] at hf
    refine ⟨hf.1, fun r hr hne => ?_⟩
    rw [hf.2 r hr hne]
    exact node_pushValue_ne _ _ _ _ (Ne.symm hne)
  | .leaf f :: vs, h, self, hs => by
    simp only [fill]
    obtain ⟨hi1, hi2⟩ := instantiate_frame (.leaf f) h
    have hf := fill_frame vs (pushValue (setParent (instantiate h (.leaf f)).1
      (instantiate h (.leaf f)).2 self) self (instantiate h (.leaf f)).2) self
      (by rw [length_pushValue, length_setParent]; omega)
    rw [length_pushValue, length_setParent] at hf
    obtain ⟨hf1, hf2⟩ := hf
    refine ⟨by omega, fun r hr hne => ?_⟩
    rw [hf2 r (by omega) hne, node_pushValue_ne _ _ _ _ (Ne.symm hne),
      node_setParent_ne _ _ _ _ (by simp [instantiate, Heap.alloc]; omega)]
    exact hi2 r hr
  | .obj f ws :: vs, h, self, hs => by
    simp only [fill]
    obtain ⟨hi1, hi2⟩ := instantiate_frame (.obj f ws) h
    have hf := fill_frame vs (pushValue (setParent (instantiate h (.obj f ws)).1
      (instantiate h (.obj f ws)).2 self) self (instantiate h (.obj f ws)).2) self
      (by rw [length_pushValue, length_setParent]; omega)
    rw [length_pushValue, length_setParent] at hf
    obtain ⟨hf1, hf2⟩ := hf
    refine ⟨by omega, fun r hr hne => ?_⟩
    rw [hf2 r (by omega) hne, node_pushValue_ne _ _ _ _ (Ne.symm hne),
      node_setParent_ne _ _ _ _ (by simp [instantiate, Heap.alloc]; omega)]
    exact hi2 r hr
end
theorem spliceInsert_nonneg (cs : List Nat) (i : Int) (c : Nat) (hi : 0 ≤ i) :
    spliceInsert cs i c = cs.take i.toNat ++ c :: cs.drop i.toNat := by
  have hs : spliceStart cs.length i = min i.toNat cs.length := by
    simp [spliceStart, Int.not_lt.mpr hi]
  unfold spliceInsert
  rw [hs]
  by_cases hle : i.toNat ≤ cs.length
  · rw [Nat.min_eq_left hle]
  · have hge : cs.length ≤ i.toNat := by omega
    rw [Nat.min_eq_right hge, List.take_of_length_le hge, List.drop_of_length_le hge]
    simp

theorem children_attachChild (h : Heap) (p c : Nat) (index : Option Int)
    (hp : p < h.length) (hne : c ≠ p) :
    children (attachChild h p c index) p =
      match index with
      | none => children h p ++ [c]
      | some i => if 0 ≤ i then spliceInsert (children h p) i c else children h p := by
  have hcs : children (setParent h c p) p = children h p := children_put_ne _ _ _ _ hne
  have hlen : p < (setParent h c p).length := by rw [length_setParent]; exact hp
  cases index with
  | none =>
    simp only [attachChild, pushValue]
    rw [children_setValue_self _ _ _ hlen, hcs]
  | some i =>
    simp only [attachChild]
    by_cases hi : 0 ≤ i
    · simp only [hi, if_true]
      rw [children_setValue_self _ _ _ hlen, hcs]
    · simp only [hi, if_false]
      exact hcs

theorem node_attachChild_child (h : Heap) (p c : Nat) (index : Option Int)
    (hc : c < h.length) (hne : c ≠ p) :
    (attachChild h p c index).node c = { h.node c with parent := some p } := by
  have hset : (setParent h c p).node c = { h.node c with parent := some p } :=
    node_put_self _ _ _ hc
  cases index with
  | none =>
    simp only [attachChild]
    rw [node_pushValue_ne _ _ _ _ (Ne.symm hne), hset]
  | some i =>
    simp only [attachChild]
    by_cases hi : 0 ≤ i
    · simp only [hi, if_true]
      rw [node_setValue_ne _ _ _ _ (Ne.symm hne), hset]
    · simp only [hi, if_false]
      exact hset

theorem node_attachChild_ne (h : Heap) (p c r : Nat) (index : Option Int)
    (hp : r ≠ p) (hc : r ≠ c) :
    (attachChild h p c index).node r = h.node r := by
  cases index with
  | none =>
    simp only [attachChild]
    rw [node_pushValue_ne _ _ _ _ (Ne.symm hp), node_setParent_ne _ _ _ _ (Ne.symm hc)]
  | some i =>
    simp only [attachChild]
    by_cases hi : 0 ≤ i
    · simp only [hi, if_true]
      rw [node_setValue_ne _ _ _ _ (Ne.symm hp), node_setParent_ne _ _ _ _ (Ne.symm hc)]
    · simp only [hi, if_false]
      exact node_setParent_ne _ _ _ _ (Ne.symm hc)

theorem length_attachChild (h : Heap) (p c : Nat) (index : Option Int) :
    (attachChild h p c index).length = h.length := by
  cases index with
  | none => simp only [attachChild, length_pushValue, length_setParent]
  | some i =>
    simp only [attachChild]
    by_cases hi : 0 ≤ i
    · simp only [hi, if_true, length_setValue, length_setParent]
    · simp only [hi, if_false, length_setParent]

theorem instantiate_leaf_ref (h : Heap) (f : Fields) :
    (instantiate h (.leaf f)).2 = h.length ∧ h.length < (instantiate h (.leaf f)).1.length := by
  simp [instantiate, Heap.alloc]

theorem instantiate_obj_ref (h : Heap) (f : Fields) (vs : List Spec) :
    (instantiate h (.obj f vs)).2 = h.length ∧
      h.length < (instantiate h (.obj f vs)).1.length := by
  simp only [instantiate, Heap.alloc, true_and]
  have := (fill_frame vs (h ++ [{ f.toNode with value := some [] }]) h.length (by simp)).1
  simp at this
  omega

/-- What `addChild` does with an argument it attaches. -/
theorem addChild_addable (h : Heap) (p : Nat) (child : Child) (index : Option Int)
    (hp : p < h.length) (ha : child.addable h p = true) :
    (addChild h p child index).2 = .ok () ∧
    children (addChild h p child index).1 p =
      (match index with
        | none => children h p ++ [child.ref h]
        | some i =>
          if 0 ≤ i then spliceInsert (children h p) i (child.ref h) else children h p) ∧
    ((addChild h p child index).1.node (child.ref h)).parent = some p := by
  have hlen : (initValue h p).length = h.length := length_initValue h p
  have hcs : children (initValue h p) p = children h p := children_initValue h p p
  cases child with
  | undefined => simp [Child.addable] at ha
  | null => simp [Child.addable] at ha
  | name s =>
    have hs : s ≠ "" := by simpa [Child.addable] using ha
    simp only [addChild, hs, if_false, Child.ref, newNode, Heap.alloc, hlen]
    have hp1 : p < (initValue h p ++ [({ name := some s } : Node)]).length := by
      simp [hlen]; omega
    have hc1 : h.length < (initValue h p ++ [({ name := some s } : Node)]).length := by
      simp [hlen]
    refine ⟨trivial, ?_, ?_⟩
    · rw [children_attachChild _ _ _ _ hp1 (by omega)]
      have : children (initValue h p ++ [({ name := some s } : Node)]) p = children h p := by
        rw [← hcs]; simp only [children]
        rw [node_append_lt _ _ _ (by rw [hlen]; exact hp)]
      rw [this]
    · rw [node_attachChild_child _ _ _ _ hc1 (by omega)]
  | spec d =>
    cases d with
    | node r =>
      have hr : r ≠ p ∧ r < h.length := by simpa [Child.addable] using ha
      simp only [addChild, hr.1, if_false, Child.ref]
      refine ⟨trivial, ?_, ?_⟩
      · rw [children_attachChild _ _ _ _ (by rw [hlen]; exact hp) hr.1, hcs]
      · rw [node_attachChild_child _ _ _ _ (by rw [hlen]; exact hr.2) hr.1]
    | leaf f =>
      obtain ⟨h1, h2⟩ := instantiate_leaf_ref (initValue h p) f
      obtain ⟨h3, h4⟩ := instantiate_frame (.leaf f) (initValue h p)
      rw [hlen] at h1 h2 h3
      simp only [addChild, Child.ref, h1]
      refine ⟨trivial, ?_, ?_⟩
      · rw [children_attachChild _ _ _ _ (by omega) (by omega)]
        have : children (instantiate (initValue h p) (.leaf f)).1 p = children h p := by
          rw [← hcs]; simp only [children]
          rw [h4 p (by rw [hlen]; exact hp)]
        rw [this]
      · rw [node_attachChild_child _ _ _ _ h2 (by omega)]
    | obj f vs =>
      obtain ⟨h1, h2⟩ := instantiate_obj_ref (initValue h p) f vs
      obtain ⟨h3, h4⟩ := instantiate_frame (.obj f vs) (initValue h p)
      rw [hlen] at h1 h2 h3
      simp only [addChild, Child.ref, h1]
      refine ⟨trivial, ?_, ?_⟩
      · rw [children_attachChild _ _ _ _ (by omega) (by omega)]
        have : children (instantiate (initValue h p) (.obj f vs)).1 p = children h p := by
          rw [← hcs]; simp only [children]
          rw [h4 p (by rw [hlen]; exact hp)]
        rw [this]
      · rw [node_attachChild_child _ _ _ _ h2 (by omega)]
/-- C3: adding a node to itself raises "The child cannot be the parent itself."
and leaves its children list as it was; no other argument raises. -/
theorem addChild_self_error (h : Heap) (n : Nat) (index : Option Int) :
    (addChild h n (.spec (.node n)) index).2
        = .error (.error "The child cannot be the parent itself.") ∧
      children (addChild h n (.spec (.node n)) index).1 n = children h n ∧
      ∀ (child : Child) (idx : Option Int) (h1 : Heap), child ≠ .spec (.node n) →
        (addChild h1 n child idx).2 = .ok () := by
  refine ⟨by simp [addChild], by simp [addChild, children_initValue], ?_⟩
  intro child idx h1 hne
  cases child with
  | undefined => rfl
  | null => rfl
  | name s =>
    by_cases hs : s = ""
    · simp [addChild, hs]
    · simp [addChild, hs]
  | spec d =>
    cases d with
    | node r =>
      have hr : r ≠ n := fun hrn => hne (by rw [hrn])
      simp [addChild, hr]
    | leaf f => simp [addChild]
    | obj f vs => simp [addChild]

theorem addChild_self_error_witness :
    (addChild sampleTree 1 (.spec (.node 1)) none).2
        = .error (.error "The child cannot be the parent itself.") ∧
      children (addChild sampleTree 1 (.spec (.node 1)) none).1 1 = [2, 4, 3] ∧
      (addChild sampleTree 1 (.name "third") (some 1)).2 = .ok () :=
  ⟨(addChild_self_error sampleTree 1 none).1, (addChild_self_error sampleTree 1 none).2.1,
    (addChild_self_error sampleTree 1 none).2.2 (.name "third") (some 1) sampleTree
      (by simp)⟩

theorem placedAt_length (cs : List Nat) (c : Nat) (index : Option Int) :
    (placedAt cs c index).length = cs.length + 1 := by
  cases index with
  | none => simp [placedAt]
  | some i =>
    simp only [placedAt, List.length_append, List.length_cons, List.length_take,
      List.length_drop]
    omega

theorem placedAt_eraseIdx (cs : List Nat) (c : Nat) (index : Option Int) :
    (placedAt cs c index).eraseIdx (placedPos cs index) = cs := by
  cases index with
  | none =>
    simp only [placedAt, placedPos]
    rw [List.eraseIdx_append_of_length_le (Nat.le_refl _)]
    simp
  | some i =>
    simp only [placedAt, placedPos]
    have hlen : (cs.take i.toNat).length = min i.toNat cs.length := List.length_take _ _
    rw [List.eraseIdx_append_of_length_le (by rw [hlen]), hlen]
    simp

theorem placedAt_getElem (cs : List Nat) (c : Nat) (index : Option Int) :
    (placedAt cs c index)[placedPos cs index]? = some c := by
  cases index with
  | none => simp [placedAt, placedPos]
  | some i =>
    simp only [placedAt, placedPos]
    have hlen : (cs.take i.toNat).length = min i.toNat cs.length := List.length_take _ _
    rw [List.getElem?_append_right (by rw [hlen]), hlen]
    simp

/-- What `addChild` does with an argument it attaches and an index that is
omitted or not negative. -/
theorem addChild_placed (h : Heap) (p : Nat) (child : Child) (index : Option Int)
    (hp : p < h.length) (ha : child.addable h p = true)
    (hidx : ∀ i, index = some i → 0 ≤ i) :
    (addChild h p child index).2 = .ok () ∧
      children (addChild h p child index).1 p
        = placedAt (children h p) (child.ref h) index ∧
      ((addChild h p child index).1.node (child.ref h)).parent = some p := by
  obtain ⟨hok, hcs, hpar⟩ := addChild_addable h p child index hp ha
  refine ⟨hok, ?_, hpar⟩
  rw [hcs]
  cases index with
  | none => rfl
  | some i =>
    have hi := hidx i rfl
    simp only [hi, if_true, placedAt]
    exact spliceInsert_nonneg _ _ _ hi

/-- C4 (as amended): for a node `p` of the heap, a child that is a non-empty
name, a descriptor or a node other than `p`, and an index that is omitted or
not negative, `addChild` succeeds, the children list becomes the old list with
the (instantiated) child appended, or inserted at the index (at the end when
the index exceeds the length), the list grows by exactly one entry, the child's
parent is `p`, and erasing the new entry gives back the old list in its
order. -/
theorem addChild_places_child (h : Heap) (p : Nat) (child : Child) (index : Option Int)
    (hp : p < h.length) (ha : child.addable h p = true)
    (hidx : ∀ i, index = some i → 0 ≤ i) :
    (addChild h p child index).2 = .ok () ∧
      children (addChild h p child index).1 p
        = placedAt (children h p) (child.ref h) index ∧
      (children (addChild h p child index).1 p).length = (children h p).length + 1 ∧
      ((addChild h p child index).1.node (child.ref h)).parent = some p ∧
      (children (addChild h p child index).1 p)[placedPos (children h p) index]?
        = some (child.ref h) ∧
      (children (addChild h p child index).1 p).eraseIdx (placedPos (children h p) index)
        = children h p := by
  obtain ⟨hok, hplaced, hpar⟩ := addChild_placed h p child index hp ha hidx
  refine ⟨hok, hplaced, ?_, hpar, ?_, ?_⟩
  · rw [hplaced, placedAt_length]
  · rw [hplaced, placedAt_getElem]
  · rw [hplaced, placedAt_eraseIdx]

theorem addChild_places_child_witness :
    children (addChild sampleTree 1 (.spec (.leaf { name := some "x" })) (some 1)).1 1
      = [2, 5, 4, 3] :=
  (addChild_places_child sampleTree 1 (.spec (.leaf { name := some "x" })) (some 1)
    (by decide) (by decide) (by simp)).2.1

/-- C4 (as stated) fails: with a negative index, or with the empty string as
the name, `addChild` does not make the children list grow. -/
theorem addChild_no_growth :
    (children (addChild sampleTree 1 (.spec (.leaf { name := some "x" })) (some (-1))).1 1).length
        ≠ (children sampleTree 1).length + 1 ∧
      (children (addChild sampleTree 1 (.name "") none).1 1).length
        ≠ (children sampleTree 1).length + 1 := by
  decide
theorem valid_of_parent (h : Heap) (n p : Nat) (hpar : (h.node n).parent = some p) :
    n < h.length := by
  by_contra hn
  rw [node_out_of_range h n (by omega)] at hpar
  simp at hpar

theorem value_of_mem_children (h : Heap) (p c : Nat) (hmem : c ∈ children h p) :
    (h.node p).value = some (children h p) := by
  unfold children at hmem ⊢
  cases hv : (h.node p).value with
  | none => simp [hv] at hmem
  | some cs => simp

theorem valid_of_mem_children (h : Heap) (p c : Nat) (hmem : c ∈ children h p) :
    p < h.length := by
  by_contra hn
  have := value_of_mem_children h p c hmem
  rw [node_out_of_range h p (by omega)] at this
  simp at this

theorem initValue_of_value (h : Heap) (p : Nat) (cs : List Nat)
    (hv : (h.node p).value = some cs) : initValue h p = h := by
  simp [initValue, hv]

theorem spliceStart_nonneg (len : Nat) (i : Int) (hi : 0 ≤ i) (hlt : i.toNat < len) :
    spliceStart len i = i.toNat := by
  simp only [spliceStart, Int.not_lt.mpr hi, if_false]
  omega

theorem indexOf_mem (cs : List Nat) (c : Nat) (hmem : c ∈ cs) :
    indexOf cs c = (cs.indexOf c : Int) ∧ cs.indexOf c < cs.length :=
  ⟨by simp [indexOf, hmem], List.indexOf_lt_length.mpr hmem⟩

/-- What `removeChild` does with an integer selector in range: the entry at
that position is spliced out, and the spliced-out array is returned. -/
theorem removeChild_index (h : Heap) (p : Nat) (i : Int) (c : Nat)
    (hi : 0 ≤ i) (hc : (children h p)[i.toNat]? = some c) :
    removeChild h p (.index i)
      = (setValue h p ((children h p).eraseIdx i.toNat), .array [c]) := by
  obtain ⟨hlt, hget⟩ := List.getElem?_eq_some.mp hc
  have hmem : c ∈ children h p := by rw [← hget]; exact List.getElem_mem _
  have hinit : initValue h p = h := initValue_of_value h p _ (value_of_mem_children h p c hmem)
  have hcond : i < ((children h p).length : Int) := by omega
  simp only [removeChild, hinit, hcond, if_true, spliceRemaining, spliceRemoved,
    spliceStart_nonneg _ i hi hlt, List.eraseIdx_eq_take_drop_succ]
  rw [List.drop_eq_getElem_cons hlt, hget]
  simp

theorem isRoot_of_parent (h : Heap) (n p : Nat) (hpar : (h.node n).parent = some p) :
    isRoot h n = false := by
  simp [isRoot, hpar]

/-- What `delete` does on a node listed by its parent: the first occurrence of
the node is spliced out of the parent's children list. -/
theorem delete_attached (h : Heap) (n p : Nat) (hpar : (h.node n).parent = some p)
    (hmem : n ∈ children h p) :
    delete h n = (setValue h p ((children h p).erase n), .ok ()) := by
  obtain ⟨hidx, hlt⟩ := indexOf_mem _ _ hmem
  have hget : (children h p)[((children h p).indexOf n : Int).toNat]? = some n := by
    simp [List.getElem?_eq_getElem hlt]
  have hrm := removeChild_index h p ((children h p).indexOf n : Int) n (by omega) hget
  simp only [delete, isRoot_of_parent h n p hpar, hpar, getIndex, hidx, Bool.false_eq_true,
    if_false]
  rw [hrm]
  simp
theorem foundOrNew_node (h : Heap) (o : Option Nat) (c : Nat)
    (hres : (foundOrNew h o).2 = .node c) : o = some c ∨ c = h.length := by
  cases o with
  | none =>
    right
    simp only [foundOrNew, notFound, newNode, Heap.alloc, Value.node.injEq] at hres
    exact hres.symm
  | some d =>
    left
    simp only [foundOrNew, Value.node.injEq] at hres
    rw [hres]

theorem lodashFind_mem (h : Heap) (cs : List Nat) (it : Iteratee) (c : Nat)
    (hf : lodashFind h cs it = some c) : c ∈ cs :=
  List.mem_of_find?_eq_some hf

theorem getAttribute_ne_node (h : Heap) (r : Nat) (a : String) (c : Nat) :
    getAttribute h r a ≠ .node c := by
  unfold getAttribute
  cases (h.node r).attributes with
  | none => simp
  | some m =>
    simp only []
    cases hl : m.lookup a with
    | some v => simp
    | none =>
      simp only []
      split
      · simp
      · simp

/-- A node returned by `getChild` is listed among the children, or is the
object the call created. -/
theorem getChild_node (h : Heap) (p : Nat) (q : Query) (c : Nat)
    (hres : (getChild h p q).2 = .node c) : c ∈ children h p ∨ c = h.length := by
  unfold getChild at hres
  cases hv : (h.node p).value with
  | none =>
    rw [hv] at hres
    right
    simp only [notFound, newNode, Heap.alloc, Value.node.injEq] at hres
    exact hres.symm
  | some cs =>
    rw [hv] at hres
    have hcs : children h p = cs := by simp [children, hv]
    rw [hcs]
    cases q with
    | index i =>
      rcases foundOrNew_node _ _ _ hres with hsome | hnew
      · left
        by_cases hi : 0 ≤ i
        · simp only [hi, if_true] at hsome
          rw [List.get?_eq_getElem?] at hsome
          exact List.getElem?_mem hsome
        · simp [hi] at hsome
      · exact Or.inr hnew
    | str s =>
      cases hm : attrMatch s with
      | some a =>
        simp only [hm] at hres
        exact absurd hres (getAttribute_ne_node h p a c)
      | none =>
        simp only [hm] at hres
        rcases foundOrNew_node _ _ _ hres with hsome | hnew
        · exact Or.inl (lodashFind_mem _ _ _ _ hsome)
        · exact Or.inr hnew
    | obj m =>
      rcases foundOrNew_node _ _ _ hres with hsome | hnew
      · exact Or.inl (lodashFind_mem _ _ _ _ hsome)
      · exact Or.inr hnew
    | fn f =>
      rcases foundOrNew_node _ _ _ hres with hsome | hnew
      · exact Or.inl (lodashFind_mem _ _ _ _ hsome)
      · exact Or.inr hnew

/-- C5: `delete` on the root changes nothing; on a node `n` that its parent `p`
lists, it removes exactly one entry of `p`'s children list, the (first) entry
`n`, and when `n` was listed once, no `getChild` by name on `p` returns `n`
afterwards. -/
theorem delete_removes_self (h : Heap) (n p : Nat)
    (hpar : (h.node n).parent = some p) (hmem : n ∈ children h p) :
    (∀ r, isRoot h r = true →
        delete h r = (h, .ok ()) ∧ children (delete h r).1 r = children h r) ∧
      (delete h n).2 = .ok () ∧
      children (delete h n).1 p = (children h p).erase n ∧
      (children (delete h n).1 p).length + 1 = (children h p).length ∧
      ((children h p).count n = 1 →
        n ∉ children (delete h n).1 p ∧
        ∀ s, (getChild (delete h n).1 p (.str s)).2 ≠ .node n) := by
  have hp : p < h.length := valid_of_mem_children h p n hmem
  have hn : n < h.length := valid_of_parent h n p hpar
  have hdel := delete_attached h n p hpar hmem
  have hcs : children (delete h n).1 p = (children h p).erase n := by
    rw [hdel]
    exact children_setValue_self _ _ _ hp
  refine ⟨?_, by rw [hdel], hcs, ?_, ?_⟩
  · intro r hr
    simp [delete, hr]
  · rw [hcs, List.length_erase_of_mem hmem]
    have : 0 < (children h p).length := List.length_pos_of_mem hmem
    omega
  · intro hcount
    have hnot : n ∉ children (delete h n).1 p := by
      rw [hcs]
      intro hin
      have h1 : 0 < ((children h p).erase n).count n := List.count_pos_iff.mpr hin
      rw [List.count_erase_self, hcount] at h1
      omega
    refine ⟨hnot, fun s hres => ?_⟩
    rcases getChild_node _ _ _ _ hres with hin | hnew
    · exact hnot hin
    · rw [hdel] at hnew
      simp only [length_setValue] at hnew
      omega

theorem delete_removes_self_witness :
    (delete sampleTree 0).1 = sampleTree ∧
      children (delete sampleTree 4).1 1 = [2, 3] ∧
      (getChild (delete sampleTree 4).1 1 (.str "mid")).2 ≠ .node 4 :=
  ⟨by rw [((delete_removes_self sampleTree 4 1 (by decide) (by decide)).1 0 (by decide)).1],
    (delete_removes_self sampleTree 4 1 (by decide) (by decide)).2.2.1,
    ((delete_removes_self sampleTree 4 1 (by decide) (by decide)).2.2.2.2 (by decide)).2 "mid"⟩

/-- C7: `removeChild` with an integer selector in range returns the array
`splice` produced, `[a]`, not the removed child `a` itself. -/
theorem removeChild_index_returns_array :
    (removeChild sampleTree 1 (.index 1)).2 = .array [4] ∧
      (removeChild sampleTree 1 (.index 1)).2 ≠ .node 4 ∧
      children (removeChild sampleTree 1 (.index 1)).1 1 = [2, 3] ∧
      (removeChild sampleTree 1 (.str "mid")).2 = .node 4 := by
  decide
theorem parent_put (h : Heap) (r r1 : Nat) (n : Node)
    (hn : n.parent = (h.node r).parent) :
    ((h.put r n).node r1).parent = (h.node r1).parent := by
  by_cases hrr : r = r1
  · subst hrr
    by_cases hr : r < h.length
    · rw [node_put_self _ _ _ hr, hn]
    · rw [put_out_of_range _ _ _ (Nat.le_of_not_lt hr)]
  · rw [node_put_ne _ _ _ _ hrr]

theorem parent_initValue (h : Heap) (r r1 : Nat) :
    ((initValue h r).node r1).parent = (h.node r1).parent := by
  unfold initValue
  cases (h.node r).value with
  | some cs => rfl
  | none => exact parent_put _ _ _ _ rfl

theorem parent_setValue (h : Heap) (r r1 : Nat) (cs : List Nat) :
    ((setValue h r cs).node r1).parent = (h.node r1).parent :=
  parent_put _ _ _ _ rfl

theorem parent_removeAttribute (h : Heap) (r r1 : Nat) (a : String) :
    ((removeAttribute h r a).node r1).parent = (h.node r1).parent :=
  parent_put _ _ _ _ rfl

theorem parent_removeFound (h : Heap) (p r1 : Nat) (o : Option Nat) :
    ((removeFound h p o).1.node r1).parent = (h.node r1).parent := by
  cases o with
  | none => rfl
  | some c =>
    simp only [removeFound]
    split
    · rfl
    · exact parent_setValue _ _ _ _

/-- The method `removeChild` never writes a parent back-reference. -/
theorem parent_removeChild (h : Heap) (p r1 : Nat) (q : Query) :
    ((removeChild h p q).1.node r1).parent = (h.node r1).parent := by
  cases q with
  | index i =>
    simp only [removeChild]
    split
    · rw [parent_setValue, parent_initValue]
    · rw [parent_removeFound, parent_initValue]
  | str s =>
    simp only [removeChild]
    split
    · rw [parent_removeAttribute, parent_initValue]
    · rw [parent_removeFound, parent_initValue]
  | obj m => simp only [removeChild]; rw [parent_removeFound, parent_initValue]
  | fn f => simp only [removeChild]; rw [parent_removeFound, parent_initValue]

theorem value_initValue (h : Heap) (p : Nat) (hp : p < h.length) :
    ((initValue h p).node p).value.isSome = true := by
  unfold initValue
  cases hv : (h.node p).value with
  | some cs => simp [hv]
  | none => simp [node_put_self _ _ _ hp]

theorem value_setValue (h : Heap) (p : Nat) (cs : List Nat) (hp : p < h.length) :
    ((setValue h p cs).node p).value.isSome = true := by
  simp [setValue, node_put_self _ _ _ hp]

theorem value_removeAttribute (h : Heap) (p : Nat) (a : String) (hp : p < h.length) :
    ((removeAttribute h p a).node p).value = (h.node p).value := by
  simp [removeAttribute, node_put_self _ _ _ hp]

theorem value_removeFound (h : Heap) (p : Nat) (o : Option Nat) (hp : p < h.length)
    (hv : (h.node p).value.isSome = true) :
    ((removeFound h p o).1.node p).value.isSome = true := by
  cases o with
  | none => exact hv
  | some c =>
    simp only [removeFound]
    split
    · exact hv
    · exact value_setValue _ _ _ hp

/-- After `removeChild` the receiver has a children list. -/
theorem value_removeChild (h : Heap) (p : Nat) (q : Query) (hp : p < h.length) :
    ((removeChild h p q).1.node p).value.isSome = true := by
  have hp1 : p < (initValue h p).length := by rw [length_initValue]; exact hp
  have hv1 := value_initValue h p hp
  cases q with
  | index i =>
    simp only [removeChild]
    split
    · exact value_setValue _ _ _ hp1
    · exact value_removeFound _ _ _ hp1 hv1
  | str s =>
    simp only [removeChild]
    split
    · rw [value_removeAttribute _ _ _ hp1]; exact hv1
    · exact value_removeFound _ _ _ hp1 hv1
  | obj m => simp only [removeChild]; exact value_removeFound _ _ _ hp1 hv1
  | fn f => simp only [removeChild]; exact value_removeFound _ _ _ hp1 hv1

theorem isEmpty_of_value (h : Heap) (p : Nat) (hv : (h.node p).value.isSome = true) :
    isEmpty h p = false := by
  simp [isEmpty, hv]

theorem getParent_of_parent (h : Heap) (c p : Nat) (hpar : (h.node c).parent = some p) :
    getParent h c = (h, p) := by
  simp [getParent, hpar]

/-- C9 (as amended): removing a child `c` from its parent `p`, by `removeChild`
with any selector or by `delete`, leaves the parent back-reference of `c` as it
was: `getParent` on `c` still returns `p`, which is not empty. -/
theorem removal_keeps_parent (h : Heap) (c p : Nat)
    (hpar : (h.node c).parent = some p) (hmem : c ∈ children h p) :
    (∀ q, getParent (removeChild h p q).1 c = ((removeChild h p q).1, p) ∧
        isEmpty (removeChild h p q).1 p = false) ∧
      getParent (delete h c).1 c = ((delete h c).1, p) ∧
      isEmpty (delete h c).1 p = false := by
  have hp : p < h.length := valid_of_mem_children h p c hmem
  have hdel := delete_attached h c p hpar hmem
  refine ⟨fun q => ⟨?_, ?_⟩, ?_, ?_⟩
  · exact getParent_of_parent _ _ _ (by rw [parent_removeChild]; exact hpar)
  · exact isEmpty_of_value _ _ (value_removeChild h p q hp)
  · exact getParent_of_parent _ _ _ (by rw [hdel, parent_setValue]; exact hpar)
  · rw [hdel]
    exact isEmpty_of_value _ _ (value_setValue _ _ _ hp)

theorem removal_keeps_parent_witness :
    (getParent (removeChild sampleTree 1 (.str "mid")).1 4).2 = 1 ∧
      (getParent (delete sampleTree 4).1 4).2 = 1 :=
  ⟨by rw [((removal_keeps_parent sampleTree 4 1 (by decide) (by decide)).1 (.str "mid")).1],
    by rw [(removal_keeps_parent sampleTree 4 1 (by decide) (by decide)).2.1]⟩

/-- C9 (as stated) fails: after `mid` is removed from `root`, by `delete` or by
`removeChild`, its `getParent` is still `root`, which is not empty. -/
theorem removed_child_parent_not_empty :
    isEmpty (getParent (delete sampleTree 4).1 4).1 (getParent (delete sampleTree 4).1 4).2
        = false ∧
      isEmpty (getParent (removeChild sampleTree 1 (.str "mid")).1 4).1
        (getParent (removeChild sampleTree 1 (.str "mid")).1 4).2 = false ∧
      children (delete sampleTree 4).1 1 = [2, 3] := by
  decide
theorem getIndex_attached (h : Heap) (c p : Nat) (hpar : (h.node c).parent = some p)
    (hmem : c ∈ children h p) :
    getIndex h c = .ok ((children h p).indexOf c : Int) := by
  simp [getIndex, isRoot_of_parent h c p hpar, hpar, (indexOf_mem _ _ hmem).1]

/-- The index `insert` passes to `addChild` for a node at position `k`. -/
theorem placeSibling_attached (h : Heap) (c p : Nat) (x : Child) (before : Bool)
    (hpar : (h.node c).parent = some p) (hmem : c ∈ children h p) :
    placeSibling h c x before
      = addChild h p x (some (((children h p).indexOf c : Int)
          + (if (before && !decide (((children h p).indexOf c : Int) < 1)) then 0 else 1))) := by
  simp only [placeSibling, getIndex_attached h c p hpar hmem, hpar]

/-- The heap `siblingNode` returns extends the heap it was given; the argument
it returns is attached by `addChild` whenever the original one is, and stands
for the same node. -/
theorem siblingNode_frame (h : Heap) (p : Nat) (x : Child) (hp : p < h.length)
    (hx : x.addable h p = true) :
    (∀ r, r < h.length → (siblingNode h x).1.node r = h.node r) ∧
      h.length ≤ (siblingNode h x).1.length ∧
      (siblingNode h x).2.addable (siblingNode h x).1 p = true ∧
      (siblingNode h x).2.ref (siblingNode h x).1 = x.ref h := by
  cases x with
  | undefined => simp [Child.addable] at hx
  | null => simp [Child.addable] at hx
  | name s => exact ⟨fun _ _ => rfl, Nat.le_refl _, hx, rfl⟩
  | spec d =>
    cases d with
    | node r => exact ⟨fun _ _ => rfl, Nat.le_refl _, hx, rfl⟩
    | leaf f =>
      obtain ⟨e1, e2⟩ := instantiate_leaf_ref h f
      obtain ⟨e3, e4⟩ := instantiate_frame (.leaf f) h
      refine ⟨e4, e3, ?_, ?_⟩
      · simp only [siblingNode, Child.addable, Bool.and_eq_true, decide_eq_true_eq, e1]
        exact ⟨by omega, e2⟩
      · simp only [siblingNode, Child.ref, e1]
    | obj f vs =>
      obtain ⟨e1, e2⟩ := instantiate_obj_ref h f vs
      obtain ⟨e3, e4⟩ := instantiate_frame (.obj f vs) h
      refine ⟨e4, e3, ?_, ?_⟩
      · simp only [siblingNode, Child.addable, Bool.and_eq_true, decide_eq_true_eq, e1]
        exact ⟨by omega, e2⟩
      · simp only [siblingNode, Child.ref, e1]

/-- On a node `c` listed by its parent `p`, `insert` is a call of `addChild` on
`p` with the position of `c`, or the next one, as the index. -/
theorem insert_eq_addChild (h : Heap) (c p : Nat) (x : Child) (before : Bool)
    (hpar : (h.node c).parent = some p) (hmem : c ∈ children h p)
    (hx : x.addable h p = true) :
    insert h c x before
      = addChild (siblingNode h x).1 p (siblingNode h x).2
          (some (((children h p).indexOf c : Int)
            + (if (before && !decide (((children h p).indexOf c : Int) < 1)) then 0 else 1))) := by
  have hp : p < h.length := valid_of_mem_children h p c hmem
  have hc : c < h.length := valid_of_parent h c p hpar
  obtain ⟨e4, _, _, _⟩ := siblingNode_frame h p x hp hx
  have hcs : children (siblingNode h x).1 p = children h p := by
    simp only [children]; rw [e4 p hp]
  have hpar1 : ((siblingNode h x).1.node c).parent = some p := by rw [e4 c hc]; exact hpar
  have hmem1 : c ∈ children (siblingNode h x).1 p := by rw [hcs]; exact hmem
  have hge : ¬ ((children h p).indexOf c : Int) < 0 := by omega
  have hplace := placeSibling_attached (siblingNode h x).1 c p (siblingNode h x).2 before
    hpar1 hmem1
  rw [hcs] at hplace
  rw [← hplace]
  cases x with
  | null => simp [Child.addable] at hx
  | undefined => simp only [insert, getIndex_attached h c p hpar hmem, hge, if_false]
  | name s => simp only [insert, getIndex_attached h c p hpar hmem, hge, if_false]
  | spec d => simp only [insert, getIndex_attached h c p hpar hmem, hge, if_false]

/-- What `insert` does on a node `c` listed by its parent `p`, for a sibling
argument `addChild` attaches: the sibling is placed at the position of `c`
when `before` is set and `c` is not first, right after `c` otherwise. -/
theorem insert_attached (h : Heap) (c p : Nat) (x : Child) (before : Bool)
    (hpar : (h.node c).parent = some p) (hmem : c ∈ children h p)
    (hx : x.addable h p = true) :
    (insert h c x before).2 = .ok () ∧
      children (insert h c x before).1 p
        = placedAt (children h p) (x.ref h)
            (some (((children h p).indexOf c : Int)
              + (if (before && !decide (((children h p).indexOf c : Int) < 1)) then 0 else 1))) ∧
      ((insert h c x before).1.node (x.ref h)).parent = some p := by
  have hp : p < h.length := valid_of_mem_children h p c hmem
  obtain ⟨e4, e3, hx1, href⟩ := siblingNode_frame h p x hp hx
  have hcs : children (siblingNode h x).1 p = children h p := by
    simp only [children]; rw [e4 p hp]
  have hidx : ∀ i, some (((children h p).indexOf c : Int)
      + (if (before && !decide (((children h p).indexOf c : Int) < 1)) then 0 else 1))
        = some i → 0 ≤ i := by
    intro i hi
    simp only [Option.some.injEq] at hi
    rw [← hi]
    split <;> omega
  rw [insert_eq_addChild h c p x before hpar hmem hx]
  obtain ⟨h1, h2, h3⟩ := addChild_placed (siblingNode h x).1 p (siblingNode h x).2 _
    (by omega) hx1 hidx
  rw [hcs, href] at h2
  rw [href] at h3
  exact ⟨h1, h2, h3⟩
theorem placedAt_at (cs : List Nat) (r n : Nat) (hn : n ≤ cs.length) :
    (placedAt cs r (some (n : Int)))[n]? = some r := by
  simp only [placedAt, Int.toNat_ofNat]
  have hlen : (cs.take n).length = n := by simp [List.length_take, hn]
  rw [List.getElem?_append_right (by rw [hlen]), hlen]
  simp

theorem placedAt_before (cs : List Nat) (r n j : Nat) (hj : j < n) (hjl : j < cs.length) :
    (placedAt cs r (some (n : Int)))[j]? = cs[j]? := by
  simp only [placedAt, Int.toNat_ofNat]
  have hlen : j < (cs.take n).length := by simp [List.length_take]; omega
  rw [List.getElem?_append_left hlen, List.getElem?_take_of_lt hj]

theorem placedAt_after (cs : List Nat) (r n j : Nat) (hn : n ≤ j) (hjl : j < cs.length) :
    (placedAt cs r (some (n : Int)))[j + 1]? = cs[j]? := by
  simp only [placedAt, Int.toNat_ofNat]
  have hlen : (cs.take n).length = n := by simp [List.length_take]; omega
  rw [List.getElem?_append_right (by rw [hlen]; omega), hlen]
  have : j + 1 - n = (j - n) + 1 := by omega
  rw [this, List.getElem?_cons_succ, List.getElem?_drop]
  congr 1
  omega

/-- C6 (as amended): for a node `c` that its parent `p` lists, and a sibling
argument `addChild` attaches (a non-empty name, a descriptor, or a node other
than `p`): when `c` is the first child, `insert` with `before` set does exactly
what `insert` without it does, and the sibling ends up at index 1, right after
`c`; when `c` is at index `k ≥ 1`, `insert` with `before` set places the
sibling at `k` and moves `c` to `k + 1`, and `insert` without it places the
sibling at `k + 1` and leaves `c` at `k`. -/
theorem insert_positions (h : Heap) (c p : Nat) (x : Child)
    (hpar : (h.node c).parent = some p) (hmem : c ∈ children h p)
    (hx : x.addable h p = true) :
    ((children h p).indexOf c = 0 →
        insert h c x true = insert h c x false ∧
        (children (insert h c x true).1 p)[0]? = some c ∧
        (children (insert h c x true).1 p)[1]? = some (x.ref h)) ∧
      (1 ≤ (children h p).indexOf c →
        (children (insert h c x true).1 p)[(children h p).indexOf c]? = some (x.ref h) ∧
        (children (insert h c x true).1 p)[(children h p).indexOf c + 1]? = some c ∧
        (children (insert h c x false).1 p)[(children h p).indexOf c]? = some c ∧
        (children (insert h c x false).1 p)[(children h p).indexOf c + 1]? = some (x.ref h)) ∧
      (insert h c x true).2 = .ok () ∧ (insert h c x false).2 = .ok () ∧
      (children (insert h c x true).1 p).length = (children h p).length + 1 ∧
      (children (insert h c x false).1 p).length = (children h p).length + 1 := by
  obtain ⟨t1, t2, _⟩ := insert_attached h c p x true hpar hmem hx
  obtain ⟨f1, f2, _⟩ := insert_attached h c p x false hpar hmem hx
  have hlt : (children h p).indexOf c < (children h p).length := (indexOf_mem _ _ hmem).2
  have hget : (children h p)[(children h p).indexOf c]? = some c := List.getElem?_indexOf hmem
  have hf : ((children h p).indexOf c : Int)
      + (if (false && !decide (((children h p).indexOf c : Int) < 1)) then 0 else 1)
        = (((children h p).indexOf c + 1 : Nat) : Int) := by simp
  rw [hf] at f2
  refine ⟨fun hk => ?_, fun hk => ?_, t1, f1, ?_, ?_⟩
  · have heq : insert h c x true = insert h c x false := by
      rw [insert_eq_addChild h c p x true hpar hmem hx,
        insert_eq_addChild h c p x false hpar hmem hx, hk]
      rfl
    refine ⟨heq, ?_, ?_⟩
    · rw [heq, f2, placedAt_before _ _ _ 0 (by omega) (by omega), ← hk]
      exact hget
    · rw [heq, f2, hk]
      exact placedAt_at _ _ 1 (by omega)
  · have ht : ((children h p).indexOf c : Int)
        + (if (true && !decide (((children h p).indexOf c : Int) < 1)) then 0 else 1)
          = (((children h p).indexOf c : Nat) : Int) := by
      have : ¬ ((children h p).indexOf c : Int) < 1 := by omega
      simp [this]
    rw [ht] at t2
    refine ⟨?_, ?_, ?_, ?_⟩
    · rw [t2]; exact placedAt_at _ _ _ (by omega)
    · rw [t2, placedAt_after _ _ _ _ (Nat.le_refl _) hlt]; exact hget
    · rw [f2, placedAt_before _ _ _ _ (by omega) hlt]; exact hget
    · rw [f2]; exact placedAt_at _ _ _ (by omega)
  · rw [t2, placedAt_length]
  · rw [f2, placedAt_length]

theorem insert_positions_witness :
    children (insert sampleTree 2 (.spec (.leaf { name := some "x" })) true).1 1
        = children (insert sampleTree 2 (.spec (.leaf { name := some "x" })) false).1 1 ∧
      (children (insert sampleTree 4 (.name "mid-prev") true).1 1)[1]? = some 5 ∧
      (children (insert sampleTree 4 (.name "mid-next") false).1 1)[2]? = some 5 :=
  ⟨by rw [((insert_positions sampleTree 2 1 (.spec (.leaf { name := some "x" }))
      (by decide) (by decide) (by decide)).1 (by decide)).1],
    ((insert_positions sampleTree 4 1 (.name "mid-prev")
      (by decide) (by decide) (by decide)).2.1 (by decide)).1,
    ((insert_positions sampleTree 4 1 (.name "mid-next")
      (by decide) (by decide) (by decide)).2.1 (by decide)).2.2.2⟩

/-- C6 (as stated) fails: with the parent itself as the sibling argument both
calls raise, and with the empty name both do nothing; in neither case does the
argument end up at index 1. -/
theorem insert_sibling_not_placed :
    (insert sampleTree 2 (.spec (.node 1)) true).2
        = .error (.error "The child cannot be the parent itself.") ∧
      (insert sampleTree 2 (.spec (.node 1)) false).2
        = .error (.error "The child cannot be the parent itself.") ∧
      children (insert sampleTree 2 (.spec (.node 1)) true).1 1 = [2, 4, 3] ∧
      children (insert sampleTree 2 (.name "") true).1 1 = [2, 4, 3] :=
  ⟨rfl, rfl, by decide, by decide⟩
theorem attrMatch_at (a : String) (ha : attributeName a = true) :
    attrMatch ("@" ++ a) = some a := by
  simp only [attributeName, Bool.and_eq_true, Bool.not_eq_true', List.all_eq_true] at ha
  obtain ⟨hne, hall⟩ := ha
  have hdata : ("@" ++ a).data = '@' :: a.data := by simp [String.data_append]
  have htake : a.data.takeWhile (fun x => !isLineTerminator x) = a.data :=
    List.takeWhile_eq_self_iff.mpr (fun x hx => by simp [hall x hx])
  simp only [attrMatch, sigilMatch, hdata, if_true, htake]
  cases hd : a.data with
  | nil => simp [hd] at hne
  | cons g gs =>
    simp only [Option.some.injEq]
    rw [← hd]

theorem lookup_filter_ne (attrs : Attrs) (a b : String) (hb : b ≠ a) :
    (attrs.filter (fun kv => kv.1 != a)).lookup b = attrs.lookup b := by
  induction attrs with
  | nil => rfl
  | cons kv rest ih =>
    obtain ⟨k, v⟩ := kv
    by_cases hk : k = a
    · subst hk
      have hbk : (b == k) = false := by simpa using hb
      simp [List.filter, List.lookup, hbk, ih]
    · have hka : (k != a) = true := by simpa using hk
      simp only [List.filter, hka, List.lookup]
      cases hbk : b == k with
      | true => rfl
      | false => exact ih

theorem lookup_filter_self (attrs : Attrs) (a : String) :
    (attrs.filter (fun kv => kv.1 != a)).lookup a = none := by
  induction attrs with
  | nil => rfl
  | cons kv rest ih =>
    obtain ⟨k, v⟩ := kv
    by_cases hk : k = a
    · subst hk
      simp [List.filter, ih]
    · have hka : (k != a) = true := by simpa using hk
      have hak : (a == k) = false := by simpa using Ne.symm hk
      simp only [List.filter, hka, List.lookup, hak]
      exact ih

/-- C8 (as amended): for a node of the heap that has an attribute `a` with value
`v`, where `a` is not empty and has no line terminator, `removeChild("@a")`
removes the attribute `a`, leaves the children and every other attribute as
they were, and returns `undefined`, not the old value.  Afterwards
`getAttribute(a)` gives the empty string, unless `a` is the name of a member
of `Object.prototype`: then it gives that inherited member. -/
theorem removeChild_attribute (h : Heap) (n : Nat) (a v : String) (attrs : Attrs)
    (hn : n < h.length) (ha : attributeName a = true)
    (hattrs : (h.node n).attributes = some attrs) (hv : attrs.lookup a = some v) :
    getAttribute h n a = .str v ∧
      (removeChild h n (.str ("@" ++ a))).2 = .undefined ∧
      (removeChild h n (.str ("@" ++ a))).2 ≠ .str v ∧
      ((removeChild h n (.str ("@" ++ a))).1.node n).attributes
        = some (attrs.filter (fun kv => kv.1 != a)) ∧
      getAttribute (removeChild h n (.str ("@" ++ a))).1 n a =
        (if objectPrototypeKeys.contains a then .inherited a else .str "") ∧
      (∀ b, b ≠ a →
        getAttribute (removeChild h n (.str ("@" ++ a))).1 n b = getAttribute h n b) ∧
      children (removeChild h n (.str ("@" ++ a))).1 n = children h n := by
  have hrm : removeChild h n (.str ("@" ++ a))
      = (removeAttribute (initValue h n) n a, .undefined) := by
    simp only [removeChild, attrMatch_at a ha]
  have hlen : n < (initValue h n).length := by rw [length_initValue]; exact hn
  have hinit : ((initValue h n).node n).attributes = some attrs := by
    unfold initValue
    cases hval : (h.node n).value with
    | some cs => exact hattrs
    | none => simp [node_put_self _ _ _ hn, hattrs]
  have hnode : ((removeAttribute (initValue h n) n a).node n).attributes
      = some (attrs.filter (fun kv => kv.1 != a)) := by
    simp [removeAttribute, node_put_self _ _ _ hlen, hinit]
  have hcs : children (removeAttribute (initValue h n) n a) n = children h n := by
    rw [← children_initValue h n n]
    simp [children, removeAttribute, node_put_self _ _ _ hlen]
  rw [hrm]
  refine ⟨by simp [getAttribute, hattrs, hv], rfl, by simp, hnode, ?_, fun b hb => ?_, hcs⟩
  · simp only [getAttribute, hnode, lookup_filter_self]
  · simp [getAttribute, hnode, hattrs, lookup_filter_ne _ _ _ hb]

/-- C8, witness: the attribute `a` of the root of `attrTree`, and the attribute
`constructor` of an element whose only attribute it is. -/
theorem removeChild_attribute_witness :
    ((removeChild attrTree 0 (.str ("@" ++ "a"))).1.node 0).attributes = some [("b", "w")] ∧
      getAttribute (removeChild attrTree 0 (.str ("@" ++ "a"))).1 0 "a" = .str "" ∧
      children (removeChild attrTree 0 (.str ("@" ++ "a"))).1 0 = [1] ∧
      getAttribute constructorAttrTree 0 "constructor" = .str "v" ∧
      getAttribute (removeChild constructorAttrTree 0 (.str ("@" ++ "constructor"))).1 0
        "constructor" = .inherited "constructor" :=
  ⟨(removeChild_attribute attrTree 0 "a" "v" [("a", "v"), ("b", "w")]
      (by decide) (by decide) (by decide) (by decide)).2.2.2.1,
    (removeChild_attribute attrTree 0 "a" "v" [("a", "v"), ("b", "w")]
      (by decide) (by decide) (by decide) (by decide)).2.2.2.2.1,
    (removeChild_attribute attrTree 0 "a" "v" [("a", "v"), ("b", "w")]
      (by decide) (by decide) (by decide) (by decide)).2.2.2.2.2.2,
    (removeChild_attribute constructorAttrTree 0 "constructor" "v" [("constructor", "v")]
      (by decide) (by decide) (by decide) (by decide)).1,
    (removeChild_attribute constructorAttrTree 0 "constructor" "v" [("constructor", "v")]
      (by decide) (by decide) (by decide) (by decide)).2.2.2.2.1⟩

/-- C8 (as stated) fails: `removeChild("@a")` on a node whose attribute `a` is
`"v"` returns `undefined`, not `"v"`. -/
theorem removeChild_attribute_returns_undefined :
    getAttribute attrTree 0 "a" = .str "v" ∧
      (removeChild attrTree 0 (.str "@a")).2 = .undefined ∧
      (removeChild attrTree 0 (.str "@a")).2 ≠ .str "v" := by
  decide
/-- C2: after `addText("")`, which creates a Text child with empty content,
`addText("x")` does not append to that Text child but creates a second one:
two children are added, not one. -/
theorem addText_after_empty_text :
    children sampleTree 4 = [] ∧
      children (addText (addText sampleTree 4 "" none).1 4 "x" none).1 4 = [5, 6] ∧
      ((addText (addText sampleTree 4 "" none).1 4 "x" none).1.node 5).text = some "" ∧
      ((addText (addText sampleTree 4 "" none).1 4 "x" none).1.node 6).text = some "x" ∧
      children (addText (addText sampleTree 4 "text" none).1 4 " is" none).1 4 = [5] ∧
      ((addText (addText sampleTree 4 "text" none).1 4 " is" none).1.node 5).text
        = some "text is" := by
  decide

/-- C10: bulk construction from a descriptor whose `value` list holds an
existing node and a descriptor lists both as children, in order, but sets the
parent back-reference of the instantiated entry only: the existing node keeps
the parent it had (here none). -/
theorem instantiate_node_entry_parent :
    (instantiate orphanHeap (.obj { name := some "n" } [.node 0, .leaf { name := some "d" }])).2
        = 1 ∧
      children (instantiate orphanHeap
        (.obj { name := some "n" } [.node 0, .leaf { name := some "d" }])).1 1 = [0, 2] ∧
      ((instantiate orphanHeap
        (.obj { name := some "n" } [.node 0, .leaf { name := some "d" }])).1.node 2).parent
        = some 1 ∧
      ((instantiate orphanHeap
        (.obj { name := some "n" } [.node 0, .leaf { name := some "d" }])).1.node 0).parent
        = none := by
  decide
theorem text_initValue (h : Heap) (r r1 : Nat) :
    ((initValue h r).node r1).text = (h.node r1).text := by
  unfold initValue
  cases (h.node r).value with
  | some cs => rfl
  | none =>
    by_cases hrr : r = r1
    · subst hrr
      by_cases hr : r < h.length
      · rw [node_put_self _ _ _ hr]
      · rw [put_out_of_range _ _ _ (Nat.le_of_not_lt hr)]
    · rw [node_put_ne _ _ _ _ hrr]

theorem newTextNode_eq (h : Heap) (text : String) :
    newTextNode h text = (h ++ [({ text := some text } : Node)], h.length) := by
  simp only [newTextNode, newNode, Heap.alloc, Heap.put, Heap.node]
  simp [List.getD_eq_getElem?_getD]

/-- The branch of `addText` that creates a Text child: taken when the last
child, if any, has no non-empty `text`. -/
theorem addText_fresh (h : Heap) (n : Nat) (s : String) (hn : n < h.length)
    (hlast : ∀ l, (children h n).getLast? = some l → truthy (h.node l).text = false) :
    (addText h n s none).1.length = h.length + 1 ∧
      children (addText h n s none).1 n = children h n ++ [h.length] ∧
      (addText h n s none).1.node h.length = { text := some s, parent := some n } := by
  have hlen : (initValue h n).length = h.length := length_initValue h n
  have hcs : children (initValue h n) n = children h n := children_initValue h n n
  have hadd : addText h n s none
      = addChild (initValue h n ++ [({ text := some s } : Node)]) n
          (.spec (.node h.length)) none := by
    unfold addText
    rw [hcs, newTextNode_eq, hlen]
    cases hl : (children h n).getLast? with
    | none => rfl
    | some l =>
      have := hlast l hl
      rw [← text_initValue h n l] at this
      simp [this]
  have hne : h.length ≠ n := by omega
  have hn1 : n < (initValue h n ++ [({ text := some s } : Node)]).length := by
    simp [hlen]; omega
  have hc1 : h.length < (initValue (initValue h n ++ [({ text := some s } : Node)]) n).length := by
    rw [length_initValue]; simp [hlen]
  have hnew : (initValue (initValue h n ++ [({ text := some s } : Node)]) n).node h.length
      = { text := some s } := by
    rw [node_initValue_ne _ _ _ (Ne.symm hne), ← hlen]
    exact node_append_new _ _
  have hcs1 : children (initValue h n ++ [({ text := some s } : Node)]) n = children h n := by
    rw [← hcs]; simp only [children]
    rw [node_append_lt _ _ _ (by rw [hlen]; exact hn)]
  rw [hadd]
  simp only [addChild, hne, if_false]
  refine ⟨?_, ?_, ?_⟩
  · rw [length_attachChild, length_initValue]; simp [hlen]
  · rw [children_attachChild _ _ _ _ (by rw [length_initValue]; exact hn1) hne,
      children_initValue, hcs1]
  · rw [node_attachChild_child _ _ _ _ hc1 hne, hnew]

/-- The branch of `addText` that appends to the last child: taken when that
child has a non-empty `text`. -/
theorem addText_append (h : Heap) (n l : Nat) (s t : String)
    (hl : (children h n).getLast? = some l) (htext : (h.node l).text = some s)
    (hs : s ≠ "") :
    addText h n t none = (h.put l { h.node l with text := some (s ++ t) }, .ok ()) := by
  have hmem : l ∈ children h n := List.mem_of_getLast?_eq_some hl
  have hinit : initValue h n = h := initValue_of_value h n _ (value_of_mem_children h n l hmem)
  have htr : truthy (some s) = true := by simp [truthy, hs]
  simp only [addText, hinit, hl, htext, htr, if_true, Option.getD_some]

/-- Two `addText` calls, the first with a non-empty text, on a node whose last
child is not a Text node add one child, a Text node holding both texts. -/
theorem addText_twice (h : Heap) (n : Nat) (s t : String) (hn : n < h.length)
    (hs : s ≠ "")
    (hlast : ∀ l, (children h n).getLast? = some l → (h.node l).text = none) :
    children (addText (addText h n s none).1 n t none).1 n = children h n ++ [h.length] ∧
      ((addText (addText h n s none).1 n t none).1.node h.length).text = some (s ++ t) := by
  obtain ⟨h1, h2, h3⟩ := addText_fresh h n s hn
    (fun l hl => by rw [hlast l hl]; rfl)
  have hl : (children (addText h n s none).1 n).getLast? = some h.length := by
    rw [h2]; simp
  have htext : ((addText h n s none).1.node h.length).text = some s := by rw [h3]
  rw [addText_append _ n h.length s t hl htext hs]
  have hne : h.length ≠ n := by omega
  refine ⟨?_, ?_⟩
  · rw [children_put_ne _ _ _ _ hne, h2]
  · rw [node_put_self _ _ _ (by rw [h1]; omega)]
mutual
theorem length_instantiate : ∀ (d : Spec) (h : Heap),
    (instantiate h d).1.length = h.length + d.size
  | .node r, h => by simp [instantiate, Spec.size]
  | .leaf f, h => by simp [instantiate, Spec.size, Heap.alloc]
  | .obj f vs, h => by
    simp only [instantiate, Spec.size, Heap.alloc]
    rw [length_fill vs _ h.length]
    simp; omega
theorem length_fill : ∀ (vs : List Spec) (h : Heap) (self : Nat),
    (fill h self vs).length = h.length + Spec.sizes vs
  | [], h, self => by simp [fill, Spec.sizes]
  | .node c :: vs, h, self => by
    simp only [fill, Spec.sizes, Spec.size]
    rw [length_fill vs _ self, length_pushValue]; omega
  | .leaf f :: vs, h, self => by
    simp only [fill, Spec.sizes]
    rw [length_fill vs _ self, length_pushValue, length_setParent,
      length_instantiate (.leaf f) h]; omega
  | .obj f ws :: vs, h, self => by
    simp only [fill, Spec.sizes]
    rw [length_fill vs _ self, length_pushValue, length_setParent,
      length_instantiate (.obj f ws) h]; omega
end

theorem entryRefs_length (start : Nat) (vs : List Spec) :
    (entryRefs start vs).length = vs.length := by
  induction vs generalizing start with
  | nil => rfl
  | cons v vs ih =>
    cases v with
    | node r => simp [entryRefs, ih]
    | leaf f => simp [entryRefs, ih]
    | obj f ws => simp [entryRefs, ih]

theorem children_setParent_ne (h : Heap) (c p r : Nat) (hne : c ≠ r) :
    children (setParent h c p) r = children h r :=
  children_put_ne _ _ _ _ hne

theorem children_pushValue_self (h : Heap) (self c : Nat) (hs : self < h.length) :
    children (pushValue h self c) self = children h self ++ [c] :=
  children_setValue_self _ _ _ hs

/-- One step of the constructor's loop on a descriptor entry `d`: the new
object is listed last and has the object under construction as its parent. -/
theorem fill_step (h : Heap) (self : Nat) (d : Spec) (hs : self < h.length)
    (hd : d.isDescriptor = true) :
    children (pushValue (setParent (instantiate h d).1 (instantiate h d).2 self) self
        (instantiate h d).2) self = children h self ++ [h.length] ∧
      ((pushValue (setParent (instantiate h d).1 (instantiate h d).2 self) self
        (instantiate h d).2).node h.length).parent = some self := by
  have href : (instantiate h d).2 = h.length ∧ h.length < (instantiate h d).1.length := by
    cases d with
    | node r => simp [Spec.isDescriptor] at hd
    | leaf f => exact instantiate_leaf_ref h f
    | obj f ws => exact instantiate_obj_ref h f ws
  obtain ⟨e1, e2⟩ := href
  obtain ⟨_, e4⟩ := instantiate_frame d h
  rw [e1]
  have hne : h.length ≠ self := by omega
  refine ⟨?_, ?_⟩
  · rw [children_pushValue_self _ _ _ (by rw [length_setParent]; omega),
      children_setParent_ne _ _ _ _ hne]
    simp only [children]; rw [e4 self hs]
  · rw [node_pushValue_ne _ _ _ _ (Ne.symm hne)]
    simp [setParent, node_put_self _ _ _ e2]

/-- The constructor's loop appends one child per entry, in order. -/
theorem children_fill (vs : List Spec) (h : Heap) (self : Nat) (hs : self < h.length) :
    children (fill h self vs) self = children h self ++ entryRefs h.length vs := by
  induction vs generalizing h with
  | nil => simp [fill, entryRefs]
  | cons v vs ih =>
    cases v with
    | node r =>
      simp only [fill, entryRefs]
      rw [ih _ (by rw [length_pushValue]; exact hs), children_pushValue_self _ _ _ hs,
        length_pushValue]
      simp
    | leaf f =>
      simp only [fill, entryRefs]
      rw [ih _ (by rw [length_pushValue, length_setParent, length_instantiate]; omega),
        (fill_step h self (.leaf f) hs rfl).1, length_pushValue, length_setParent,
        length_instantiate]
      simp
    | obj f ws =>
      simp only [fill, entryRefs]
      rw [ih _ (by rw [length_pushValue, length_setParent, length_instantiate]; omega),
        (fill_step h self (.obj f ws) hs rfl).1, length_pushValue, length_setParent,
        length_instantiate]
      simp

/-- The constructor's loop sets the parent of every child it instantiates from
a descriptor entry. -/
theorem parent_fill (vs : List Spec) (h : Heap) (self : Nat) (hs : self < h.length)
    (i : Nat) (d : Spec) (hi : vs[i]? = some d) (hd : d.isDescriptor = true) :
    ∃ c, (entryRefs h.length vs)[i]? = some c ∧
      ((fill h self vs).node c).parent = some self := by
  induction vs generalizing h i with
  | nil => simp at hi
  | cons v vs ih =>
    have hstep : ∀ (e : Spec), e.isDescriptor = true →
        self < (pushValue (setParent (instantiate h e).1 (instantiate h e).2 self) self
          (instantiate h e).2).length := by
      intro e _
      rw [length_pushValue, length_setParent, length_instantiate]; omega
    cases i with
    | zero =>
      simp only [List.getElem?_cons_zero, Option.some.injEq] at hi
      subst hi
      cases v with
      | node r => simp [Spec.isDescriptor] at hd
      | leaf f =>
        refine ⟨h.length, by simp [entryRefs], ?_⟩
        simp only [fill]
        rw [(fill_frame vs _ self (hstep (.leaf f) rfl)).2 h.length
          (by rw [length_pushValue, length_setParent, length_instantiate]; simp [Spec.size])
          (by omega)]
        exact (fill_step h self (.leaf f) hs rfl).2
      | obj f ws =>
        refine ⟨h.length, by simp [entryRefs], ?_⟩
        simp only [fill]
        rw [(fill_frame vs _ self (hstep (.obj f ws) rfl)).2 h.length
          (by rw [length_pushValue, length_setParent, length_instantiate]; simp [Spec.size])
          (by omega)]
        exact (fill_step h self (.obj f ws) hs rfl).2
    | succ j =>
      simp only [List.getElem?_cons_succ] at hi
      cases v with
      | node r =>
        obtain ⟨c, hc1, hc2⟩ := ih (pushValue h self r) (by rw [length_pushValue]; exact hs) j hi
        rw [length_pushValue] at hc1
        exact ⟨c, by simpa [entryRefs] using hc1, by simpa [fill] using hc2⟩
      | leaf f =>
        obtain ⟨c, hc1, hc2⟩ := ih _ (hstep (.leaf f) rfl) j hi
        rw [length_pushValue, length_setParent, length_instantiate] at hc1
        exact ⟨c, by simpa [entryRefs] using hc1, by simpa [fill] using hc2⟩
      | obj f ws =>
        obtain ⟨c, hc1, hc2⟩ := ih _ (hstep (.obj f ws) rfl) j hi
        rw [length_pushValue, length_setParent, length_instantiate] at hc1
        exact ⟨c, by simpa [entryRefs] using hc1, by simpa [fill] using hc2⟩

/-- The node built from a descriptor with a `value` list has one child per
entry, in order, and every child instantiated from a descriptor entry has the
built node as its parent. -/
theorem instantiate_children (h : Heap) (f : Fields) (vs : List Spec) :
    (instantiate h (.obj f vs)).2 = h.length ∧
      children (instantiate h (.obj f vs)).1 h.length = entryRefs (h.length + 1) vs ∧
      (children (instantiate h (.obj f vs)).1 h.length).length = vs.length ∧
      ∀ (i : Nat) (d : Spec), vs[i]? = some d → d.isDescriptor = true →
        ∃ c, (children (instantiate h (.obj f vs)).1 h.length)[i]? = some c ∧
          ((instantiate h (.obj f vs)).1.node c).parent = some h.length := by
  have hs : h.length < (h ++ [({ f.toNode with value := some [] } : Node)]).length := by simp
  have hcs : children (instantiate h (.obj f vs)).1 h.length = entryRefs (h.length + 1) vs := by
    simp only [instantiate, Heap.alloc]
    rw [children_fill vs _ h.length hs]
    simp [children, node_append_new]
  refine ⟨rfl, hcs, by rw [hcs, entryRefs_length], fun i d hi hd => ?_⟩
  obtain ⟨c, hc1, hc2⟩ := parent_fill vs _ h.length hs i d hi hd
  rw [hcs]
  refine ⟨c, by simpa using hc1, ?_⟩
  simpa [instantiate, Heap.alloc] using hc2
/-! ## Queries on empty nodes, attributes, payload tests -/

/-- On a node that is empty and has no parent, `getIndex` raises. -/
theorem getIndex_empty (h : Heap) (e : Nat) (he : isEmpty h e = true)
    (hp : (h.node e).parent = none) : getIndex h e = .error .typeError := by
  have hv : (h.node e).value = none := by
    simp only [isEmpty, Bool.and_eq_true, Bool.not_eq_true'] at he
    cases hval : (h.node e).value with
    | none => rfl
    | some cs => simp [hval] at he
  simp [getIndex, isRoot, hv, hp]

/-- C11: on the empty node a failed `getChild` returned, `getIndex`,
`getPrevious` and `getNext` raise (they read a property of the absent parent)
where the claim says `-1` and the empty node; `getAncestors`, `getDescendants`
and `getChildren` do return the empty list, `getIndex` is `-1` on the root and
the position among the siblings on an attached child. -/
theorem empty_node_queries :
    (getChild sampleTree 1 (.str "bad")).2 = .node 5 ∧
      isEmpty lookupFailed 5 = true ∧
      getIndex lookupFailed 5 = .error .typeError ∧
      (getPrevious lookupFailed 5 none).2 = .error .typeError ∧
      (getNext lookupFailed 5 none).2 = .error .typeError ∧
      getAncestors 1 lookupFailed 5 none = some (lookupFailed, []) ∧
      getDescendants 1 lookupFailed 5 none = some [] ∧
      getChildrenBy lookupFailed 5 none = [] ∧
      getIndex lookupFailed 0 = .ok (-1) ∧
      getIndex lookupFailed 4 = .ok 1 := by
  decide

/-- On a node with a children list, `getChild("@a")` reads the attribute `a`. -/
theorem getChild_attribute (h : Heap) (n : Nat) (a v : String) (cs : List Nat)
    (attrs : Attrs) (hcs : (h.node n).value = some cs) (ha : attributeName a = true)
    (hattrs : (h.node n).attributes = some attrs) (hv : attrs.lookup a = some v) :
    getChild h n (.str ("@" ++ a)) = (h, .str v) := by
  simp [getChild, hcs, attrMatch_at a ha, getAttribute, hattrs, hv]

/-- C12: on an element that has the attribute `with-attribute` and no children
list, `getChild("@with-attribute")` returns a new empty node, not the value
`"true"`; with an (empty) children list it returns the value. -/
theorem getChild_attribute_without_children :
    getAttribute leafWithAttribute 0 "with-attribute" = .str "true" ∧
      (getChild leafWithAttribute 0 (.str "@with-attribute")).2 = .node 2 ∧
      (getChild leafWithAttribute 0 (.str "@with-attribute")).2 ≠ .str "true" ∧
      isEmpty (getChild leafWithAttribute 0 (.str "@with-attribute")).1 2 = true ∧
      (getChild leafWithAttribute 1 (.str "@with-attribute")).2 = .str "true" := by
  decide

/-- C15: `getDescendants("$cdata")` on the root returns the CData node with
content `"x"` but not the CData node with empty content. -/
theorem getDescendants_cdata_misses_empty :
    getDescendants 3 payloadTree 0 none = some [2, 3, 4, 5, 6, 7, 1] ∧
      (payloadTree.node 5).cdata = some "" ∧
      getDescendants 3 payloadTree 0 (some (.str "$cdata")) = some [6] ∧
      getDescendants 4 pathTree 0 (some (.str "$cdata")) = some [4] := by
  decide

/-- C16: with default options `getNext` on `a` returns the Comment node with
empty content that follows it, and `getPrevious` on the Text node returns that
Comment node too, where the claim says Comment nodes are passed over; a blank
Text node and a Comment node with content are passed over. -/
theorem getNext_returns_empty_comment :
    (payloadTree.node 3).comment = some "" ∧
      (getNext payloadTree 2 none).2 = .ok 3 ∧
      (getPrevious payloadTree 4 none).2 = .ok 3 ∧
      (getNext blankTree 2 none).2 = .ok 5 ∧
      (getPrevious blankTree 5 none).2 = .ok 2 ∧
      (getNext blankTree 5 none).2 = .ok 6 ∧
      isEmpty (getNext blankTree 5 none).1 6 = true := by
  decide

/-- C17 (as amended): `isEmpty` holds exactly when the name is absent or the
empty string, there is no children list, and comment, text and cdata are all
absent; for these three fields the empty string counts as present. -/
theorem isEmpty_iff (h : Heap) (n : Nat) :
    isEmpty h n = true ↔
      (((h.node n).name = none ∨ (h.node n).name = some "") ∧
        (h.node n).value = none ∧ (h.node n).comment = none ∧
        (h.node n).text = none ∧ (h.node n).cdata = none) := by
  cases hname : (h.node n).name <;> cases hval : (h.node n).value <;>
    cases hcom : (h.node n).comment <;> cases htext : (h.node n).text <;>
    cases hcd : (h.node n).cdata <;>
    simp [isEmpty, truthy, hname, hval, hcom, htext, hcd]

/-- C17 (as stated) fails: a node whose name is the empty string, and that has
nothing else, is empty although its name field is present; a Text node with
empty content is not empty. -/
theorem isEmpty_empty_name :
    isEmpty [({ name := some "" } : Node)] 0 = true ∧
      isEmpty [({ text := some "" } : Node)] 0 = false := by
  decide

/-- C18: the path of a Text, CData or Comment node with empty content ends in
an empty tag, not in `#text`, `#cdata` or `#comment`; the paths of the
test-suite are as documented. -/
theorem getPath_empty_payload :
    (getPath 3 payloadTree 4).map (fun r => r.2) = some (.ok "./0:e[0]/2:") ∧
      (getPath 3 payloadTree 5).map (fun r => r.2) = some (.ok "./0:e[0]/3:") ∧
      (getPath 3 payloadTree 3).map (fun r => r.2) = some (.ok "./0:e[0]/1:") ∧
      (getPath 1 [({} : Node)] 0).map (fun r => r.2) = some (.ok "-") ∧
      (getPath 1 pathTree 0).map (fun r => r.2) = some (.ok ".") ∧
      (getPath 2 pathTree 1).map (fun r => r.2) = some (.ok "./0:base[0]") ∧
      (getPath 4 pathTree 3).map (fun r => r.2) = some (.ok "./0:base[0]/0:child[0]/0:#text") ∧
      (getPath 4 pathTree 4).map (fun r => r.2) = some (.ok "./0:base[0]/0:child[0]/1:#cdata") ∧
      (getPath 4 pathTree 5).map (fun r => r.2)
        = some (.ok "./0:base[0]/0:child[0]/2:#comment") ∧
      (getPath 3 pathTree 6).map (fun r => r.2) = some (.ok "./0:base[0]/1:second[0]") := by
  decide
/-! ## Ancestors -/

theorem isEmpty_of_children (h : Heap) (p c : Nat) (hmem : c ∈ children h p) :
    isEmpty h p = false := by
  have hv := value_of_mem_children h p c hmem
  simp [isEmpty, hv]

/-- With enough fuel `getAncestors` returns the ancestor chain and allocates
nothing. -/
theorem getAncestorsAll_chain (h : Heap) :
    ∀ (d n : Nat) (chain : List Nat), ancestorChain h d n = some chain →
      isEmpty h n = false → ∀ fuel, d < fuel → getAncestorsAll fuel h n = some (h, chain) := by
  intro d
  induction d with
  | zero =>
    intro n chain hc _ fuel hf
    cases fuel with
    | zero => omega
    | succ fuel =>
      simp only [ancestorChain] at hc
      by_cases hr : isRoot h n = true
      · simp only [hr, if_true, Option.some.injEq] at hc
        simp [getAncestorsAll, hr, ← hc]
      · simp [hr] at hc
  | succ d ih =>
    intro n chain hc hne fuel hf
    cases fuel with
    | zero => omega
    | succ fuel =>
      simp only [ancestorChain] at hc
      cases hp : (h.node n).parent with
      | none => simp [hp] at hc
      | some p =>
        simp only [hp] at hc
        by_cases hmem : n ∈ children h p
        · simp only [hmem, if_true, Option.map_eq_some'] at hc
          obtain ⟨as, has, hchain⟩ := hc
          have hrec := ih p as has (isEmpty_of_children h p n hmem) fuel (by omega)
          have hgp : getParent h n = (h, p) := getParent_of_parent h n p hp
          simp [getAncestorsAll, isRoot_of_parent h n p hp, hne, hgp, hrec, hchain]
        · simp [hmem] at hc

theorem ancestorChain_length (h : Heap) :
    ∀ (d n : Nat) (chain : List Nat), ancestorChain h d n = some chain → chain.length = d := by
  intro d
  induction d with
  | zero =>
    intro n chain hc
    simp only [ancestorChain] at hc
    split at hc
    · simp only [Option.some.injEq] at hc; rw [← hc]; rfl
    · simp at hc
  | succ d ih =>
    intro n chain hc
    simp only [ancestorChain] at hc
    cases hp : (h.node n).parent with
    | none => simp [hp] at hc
    | some p =>
      simp only [hp] at hc
      split at hc
      · simp only [Option.map_eq_some'] at hc
        obtain ⟨as, has, hchain⟩ := hc
        rw [← hchain, List.length_append, ih p as has]
        rfl
      · simp at hc

/-- The depth of a node below the root is unique. -/
theorem ancestorChain_depth_unique (h : Heap) :
    ∀ (d e n : Nat) (c1 c2 : List Nat), ancestorChain h d n = some c1 →
      ancestorChain h e n = some c2 → d = e := by
  intro d
  induction d with
  | zero =>
    intro e n c1 c2 h1 h2
    cases e with
    | zero => rfl
    | succ e =>
      simp only [ancestorChain] at h1 h2
      by_cases hr : isRoot h n = true
      · have hpn : (h.node n).parent = none := by
          simp only [isRoot, Bool.and_eq_true, Bool.not_eq_true'] at hr
          cases hp : (h.node n).parent with
          | none => rfl
          | some p => simp [hp] at hr
        simp [hpn] at h2
      · simp [hr] at h1
  | succ d ih =>
    intro e n c1 c2 h1 h2
    cases e with
    | zero =>
      simp only [ancestorChain] at h1 h2
      by_cases hr : isRoot h n = true
      · have hpn : (h.node n).parent = none := by
          simp only [isRoot, Bool.and_eq_true, Bool.not_eq_true'] at hr
          cases hp : (h.node n).parent with
          | none => rfl
          | some p => simp [hp] at hr
        simp [hpn] at h1
      · simp [hr] at h2
    | succ e =>
      simp only [ancestorChain] at h1 h2
      cases hp : (h.node n).parent with
      | none => simp [hp] at h1
      | some p =>
        simp only [hp] at h1 h2
        by_cases hmem : n ∈ children h p
        · simp only [hmem, if_true, Option.map_eq_some'] at h1 h2
          obtain ⟨a1, ha1, _⟩ := h1
          obtain ⟨a2, ha2, _⟩ := h2
          rw [ih e p a1 a2 ha1 ha2]
        · simp [hmem] at h1

/-- Every member of the ancestor chain of a node is at a smaller depth. -/
theorem ancestorChain_mem_depth (h : Heap) :
    ∀ (d n : Nat) (chain : List Nat), ancestorChain h d n = some chain →
      ∀ a, a ∈ chain → ∃ e c, e < d ∧ ancestorChain h e a = some c := by
  intro d
  induction d with
  | zero =>
    intro n chain hc a ha
    simp only [ancestorChain] at hc
    split at hc
    · simp only [Option.some.injEq] at hc; rw [← hc] at ha; simp at ha
    · simp at hc
  | succ d ih =>
    intro n chain hc a ha
    simp only [ancestorChain] at hc
    cases hp : (h.node n).parent with
    | none => simp [hp] at hc
    | some p =>
      simp only [hp] at hc
      split at hc
      · simp only [Option.map_eq_some'] at hc
        obtain ⟨as, has, hchain⟩ := hc
        rw [← hchain, List.mem_append] at ha
        rcases ha with hin | hlast
        · obtain ⟨e, c, he, hec⟩ := ih p as has a hin
          exact ⟨e, c, by omega, hec⟩
        · simp only [List.mem_singleton] at hlast
          exact ⟨d, as, by omega, by rw [hlast]; exact has⟩
      · simp at hc

theorem ancestorChain_not_mem (h : Heap) (d n : Nat) (chain : List Nat)
    (hc : ancestorChain h d n = some chain) : n ∉ chain := by
  intro hin
  obtain ⟨e, c, he, hec⟩ := ancestorChain_mem_depth h d n chain hc n hin
  have := ancestorChain_depth_unique h d e n chain c hc hec
  omega

theorem ancestorChain_last (h : Heap) (d n : Nat) (chain : List Nat)
    (hc : ancestorChain h (d + 1) n = some chain) :
    chain.getLast? = (h.node n).parent := by
  simp only [ancestorChain] at hc
  cases hp : (h.node n).parent with
  | none => simp [hp] at hc
  | some p =>
    simp only [hp] at hc
    split at hc
    · simp only [Option.map_eq_some'] at hc
      obtain ⟨as, _, hchain⟩ := hc
      rw [← hchain]; simp
    · simp at hc

theorem ancestorChain_head (h : Heap) :
    ∀ (d n : Nat) (chain : List Nat), ancestorChain h (d + 1) n = some chain →
      ∃ r, chain.head? = some r ∧ isRoot h r = true := by
  intro d
  induction d with
  | zero =>
    intro n chain hc
    simp only [ancestorChain] at hc
    cases hp : (h.node n).parent with
    | none => simp [hp] at hc
    | some p =>
      simp only [hp] at hc
      split at hc
      · by_cases hr : isRoot h p = true
        · simp only [hr, if_true, Option.map_some', Option.some.injEq] at hc
          exact ⟨p, by rw [← hc]; rfl, hr⟩
        · simp [hr] at hc
      · simp at hc
  | succ d ih =>
    intro n chain hc
    rw [ancestorChain] at hc
    cases hp : (h.node n).parent with
    | none => simp [hp] at hc
    | some p =>
      simp only [hp] at hc
      split at hc
      · simp only [Option.map_eq_some'] at hc
        obtain ⟨as, has, hchain⟩ := hc
        obtain ⟨r, hr1, hr2⟩ := ih p as has
        refine ⟨r, ?_, hr2⟩
        rw [← hchain]
        cases as with
        | nil => simp at hr1
        | cons x xs => simpa using hr1
      · simp at hc
/-- C13 (as amended): for a non-empty node `n` attached at depth `d` below the
root, `getAncestors()` returns, given enough fuel and without changing the
heap, the chain of the ancestors of `n`, root first and the parent of `n`
last; the chain has `d` members and never contains `n`.  With a non-empty
string selector the chain is filtered by name (a leading `$` is not
interpreted), with a mapping by structural match, with a predicate by the
predicate, in the same order.  Root and empty nodes have no ancestors. -/
theorem getAncestors_chain (h : Heap) (d n : Nat) (chain : List Nat) (fuel : Nat)
    (hc : ancestorChain h d n = some chain) (hne : isEmpty h n = false) (hf : d < fuel) :
    getAncestors fuel h n none = some (h, chain) ∧
      chain.length = d ∧ n ∉ chain ∧
      (0 < d → chain.getLast? = (h.node n).parent ∧
        ∃ r, chain.head? = some r ∧ isRoot h r = true) ∧
      (∀ s, s ≠ "" → getAncestors fuel h n (some (.str s))
        = some (h, chain.filter (fun a => (h.node a).name == some s))) ∧
      (∀ m, getAncestors fuel h n (some (.obj m))
        = some (h, chain.filter (fun a => m.all (fun kv => fieldMatches (h.node a) kv.1 kv.2)))) ∧
      (∀ p, getAncestors fuel h n (some (.fn p)) = some (h, chain.filter (fun a => p h a))) ∧
      (∀ r, isRoot h r = true ∨ isEmpty h r = true →
        getAncestors fuel h r none = some (h, [])) := by
  have hall := getAncestorsAll_chain h d n chain hc hne fuel hf
  refine ⟨hall, ancestorChain_length h d n chain hc, ancestorChain_not_mem h d n chain hc,
    ?_, ?_, ?_, ?_, ?_⟩
  · intro hd
    cases d with
    | zero => omega
    | succ d => exact ⟨ancestorChain_last h d n chain hc, ancestorChain_head h d n chain hc⟩
  · intro s hs
    have : (Query.str s).truthy = true := by simpa [Query.truthy] using hs
    simp only [getAncestors, this, if_true, hall, Option.map_some', lodashFilter,
      ancestorIteratee, Iteratee.test]
    congr 2
    apply List.filter_congr
    intro a _
    simp [fieldMatches]
  · intro m
    simp only [getAncestors, Query.truthy, if_true, hall, Option.map_some', lodashFilter,
      ancestorIteratee, Iteratee.test]
  · intro p
    simp only [getAncestors, Query.truthy, if_true, hall, Option.map_some', lodashFilter,
      ancestorIteratee, Iteratee.test]
  · intro r hr
    cases fuel with
    | zero => omega
    | succ fuel =>
      have : (isRoot h r || isEmpty h r) = true := by
        rcases hr with h1 | h1 <;> simp [h1]
      simp [getAncestors, getAncestorsAll, this]

theorem getAncestors_chain_witness :
    getAncestors 4 pathTree 3 none = some (pathTree, [0, 1, 2]) ∧
      getAncestors 4 pathTree 3 (some (.str "base")) = some (pathTree, [1]) :=
  ⟨(getAncestors_chain pathTree 3 3 [0, 1, 2] 4 (by decide) (by decide) (by decide)).1,
    by
      rw [(getAncestors_chain pathTree 3 3 [0, 1, 2] 4 (by decide) (by decide)
        (by decide)).2.2.2.2.1 "base" (by decide)]
      decide⟩

/-- C13 (as stated) fails: the ancestors of the Text node of the test tree are
the root, `base` and `child`; the field selector `"$name"` designates those
with a name, `base` and `child`, but `getAncestors("$name")` looks for
ancestors named `"$name"` and returns none. -/
theorem getAncestors_field_selector :
    getAncestors 4 pathTree 3 none = some (pathTree, [0, 1, 2]) ∧
      lodashFilter pathTree [0, 1, 2] (filterIteratee (.str "$name")) = [1, 2] ∧
      getAncestors 4 pathTree 3 (some (.str "$name")) = some (pathTree, []) := by
  decide
/-! ## Descendants and string content of a tree -/

theorem mapM_option_map {α β γ : Type} (f : α → Option β) (g : γ → α) (r : γ → β)
    (l : List γ) (hyp : ∀ x, x ∈ l → f (g x) = some (r x)) :
    (l.map g).mapM f = some (l.map r) := by
  induction l with
  | nil => rfl
  | cons x xs ih =>
    have hx := hyp x (List.mem_cons_self _ _)
    have hxs := ih (fun y hy => hyp y (List.mem_cons_of_mem _ hy))
    simp only [List.map_cons, List.mapM_cons, hx, hxs]
    rfl

theorem fits_of_fitsAll (h : Heap) (ks : List Tree) (hfit : Tree.fitsAll h ks = true) :
    ∀ k, k ∈ ks → k.fits h = true := by
  induction ks with
  | nil => intro k hk; simp at hk
  | cons t ts ih =>
    simp only [Tree.fitsAll, Bool.and_eq_true] at hfit
    intro k hk
    rcases List.mem_cons.mp hk with h1 | h1
    · rw [h1]; exact hfit.1
    · exact ih hfit.2 k h1

theorem height_le_heightAll (ks : List Tree) : ∀ k, k ∈ ks → k.height ≤ Tree.heightAll ks := by
  induction ks with
  | nil => intro k hk; simp at hk
  | cons t ts ih =>
    intro k hk
    simp only [Tree.heightAll]
    rcases List.mem_cons.mp hk with h1 | h1
    · rw [h1]; omega
    · have := ih k h1; omega

theorem descendantsAll_eq_flatten (ks : List Tree) :
    Tree.descendantsAll ks = (ks.map (fun k => k.descendants ++ [k.root])).flatten := by
  induction ks with
  | nil => rfl
  | cons t ts ih => simp [Tree.descendantsAll, ih]

theorem refs_mem_of_kid (ks : List Tree) : ∀ k, k ∈ ks → ∀ r, r ∈ k.refs → r ∈ Tree.refsAll ks := by
  induction ks with
  | nil => intro k hk; simp at hk
  | cons t ts ih =>
    intro k hk r hr
    simp only [Tree.refsAll, List.mem_append]
    rcases List.mem_cons.mp hk with h1 | h1
    · left; rw [← h1]; exact hr
    · right; exact ih k h1 r hr

/-- With enough fuel `getDescendants` without a query returns the descendants of
the tree in the order of the specification. -/
theorem getDescendantsAll_tree (h : Heap) :
    ∀ (fuel : Nat) (t : Tree), t.fits h = true → t.height ≤ fuel →
      getDescendantsAll fuel h t.root = some t.descendants := by
  intro fuel
  induction fuel with
  | zero => intro t _ hf; cases t with | mk r ks => simp [Tree.height] at hf
  | succ fuel ih =>
    intro t hfit hf
    cases t with
    | mk r ks =>
      simp only [Tree.fits, Bool.and_eq_true, decide_eq_true_eq] at hfit
      obtain ⟨hcs, hall⟩ := hfit
      simp only [Tree.height] at hf
      simp only [Tree.root, Tree.descendants, getDescendantsAll]
      by_cases hleaf : isLeaf h r = true
      · have hnil : ks = [] := by
          cases hv : (h.node r).value with
          | none =>
            have : children h r = [] := by simp [children, hv]
            rw [this] at hcs
            exact List.map_eq_nil_iff.mp hcs.symm
          | some cs =>
            simp only [isLeaf, hv, Option.isSome_some, Bool.not_true, Bool.false_or,
              beq_iff_eq] at hleaf
            rw [hcs] at hleaf
            simpa using hleaf
        simp [hleaf, hnil, Tree.descendantsAll]
      · simp only [hleaf, Bool.false_eq_true, if_false, hcs]
        have hkids : ∀ k, k ∈ ks →
            (fun c => (getDescendantsAll fuel h c).map (fun ds => ds ++ [c])) (Tree.root k)
              = some (k.descendants ++ [k.root]) := by
          intro k hk
          have := ih k (fits_of_fitsAll h ks hall k hk)
            (by have := height_le_heightAll ks k hk; omega)
          simp [this]
        rw [mapM_option_map _ Tree.root (fun k => k.descendants ++ [k.root]) ks hkids]
        simp [descendantsAll_eq_flatten]

mutual
theorem descendants_perm : ∀ (t : Tree), t.descendants.Perm (Tree.refsAll t.kids)
  | .mk r ks => by
    simp only [Tree.descendants, Tree.kids]
    exact descendantsAll_perm ks
theorem descendantsAll_perm : ∀ (ks : List Tree),
    (Tree.descendantsAll ks).Perm (Tree.refsAll ks)
  | [] => by simp [Tree.descendantsAll, Tree.refsAll]
  | .mk r ks :: ts => by
    simp only [Tree.descendantsAll, Tree.refsAll, Tree.refs, Tree.root]
    have h1 := descendants_perm (.mk r ks)
    simp only [Tree.kids] at h1
    have h2 := descendantsAll_perm ts
    have h3 : ((Tree.mk r ks).descendants ++ [r]).Perm (r :: Tree.refsAll ks) := by
      have hcomm : ((Tree.mk r ks).descendants ++ [r]).Perm
          ([r] ++ (Tree.mk r ks).descendants) := List.perm_append_comm
      exact hcomm.trans (List.Perm.cons r h1)
    exact List.Perm.append h3 h2
end

/-- C14: for a node whose part of the heap is a tree, `getDescendants()`
returns, given enough fuel, the concatenation over the children in sibling
order of the descendants of each child followed by that child, each child's
own `getDescendants()` being its part of the concatenation; when no node occurs
twice in the tree the result holds every proper descendant exactly once and
never the node itself; with a selector the list is filtered by it (a name, a
`$field`, a mapping or a predicate; a falsy selector counts as no selector). -/
theorem getDescendants_tree (h : Heap) (t : Tree) (fuel : Nat)
    (hfit : t.fits h = true) (hf : t.height ≤ fuel) :
    getDescendants fuel h t.root none
        = some (t.kids.map (fun k => k.descendants ++ [k.root])).flatten ∧
      children h t.root = t.kids.map Tree.root ∧
      (∀ k, k ∈ t.kids → getDescendants fuel h k.root none = some k.descendants) ∧
      (t.refs.Nodup →
        (t.kids.map (fun k => k.descendants ++ [k.root])).flatten.Nodup ∧
        t.root ∉ (t.kids.map (fun k => k.descendants ++ [k.root])).flatten ∧
        ∀ r, r ∈ (t.kids.map (fun k => k.descendants ++ [k.root])).flatten
          ↔ r ∈ Tree.refsAll t.kids) ∧
      (∀ q, getDescendants fuel h t.root (some q)
        = some (if q.truthy then
            (t.kids.map (fun k => k.descendants ++ [k.root])).flatten.filter
              (fun c => (filterIteratee q).test h c)
          else (t.kids.map (fun k => k.descendants ++ [k.root])).flatten)) := by
  have hall := getDescendantsAll_tree h fuel t hfit hf
  have hdesc : t.descendants = (t.kids.map (fun k => k.descendants ++ [k.root])).flatten := by
    cases t with
    | mk r ks => simp [Tree.descendants, Tree.kids, descendantsAll_eq_flatten]
  rw [← hdesc]
  have hperm := descendants_perm t
  cases t with
  | mk r ks =>
    simp only [Tree.fits, Bool.and_eq_true, decide_eq_true_eq] at hfit
    simp only [Tree.height] at hf
    refine ⟨hall, hfit.1, ?_, ?_, ?_⟩
    · intro k hk
      exact getDescendantsAll_tree h fuel k (fits_of_fitsAll h ks hfit.2 k hk)
        (by have := height_le_heightAll ks k hk; omega)
    · intro hnd
      simp only [Tree.refs, List.nodup_cons] at hnd
      simp only [Tree.kids] at hperm
      exact ⟨hperm.nodup_iff.mpr hnd.2, fun hin => hnd.1 (hperm.mem_iff.mp hin),
        fun r => hperm.mem_iff⟩
    · intro q
      simp only [Tree.root] at hall
      by_cases hq : q.truthy = true
      · simp [getDescendants, hq, hall, lodashFilter, Tree.root]
      · simp [getDescendants, hq, hall, Tree.root]

theorem getDescendants_tree_witness :
    getDescendants 4 pathTree 0 none = some [3, 4, 5, 2, 6, 1] ∧
      getDescendants 4 pathTree 0 (some (.str "second")) = some [6] :=
  ⟨(getDescendants_tree pathTree pathShape 4 (by decide) (by decide)).1,
    by
      have hq := (getDescendants_tree pathTree pathShape 4 (by decide) (by decide)).2.2.2.2
        (.str "second")
      rw [show pathShape.root = 0 from rfl] at hq
      rw [hq]
      decide⟩
theorem join_foldl (l : List String) (acc : String) :
    l.foldl (fun r s => r ++ s) acc = acc ++ String.join l := by
  induction l generalizing acc with
  | nil => simp [String.join]
  | cons s l ih =>
    simp only [List.foldl_cons, String.join]
    rw [ih (acc ++ s), ih ("" ++ s)]
    simp [String.append_assoc]

theorem join_cons (s : String) (l : List String) : String.join (s :: l) = s ++ String.join l := by
  rw [String.join, List.foldl_cons, join_foldl]
  simp

theorem join_append (l1 l2 : List String) :
    String.join (l1 ++ l2) = String.join l1 ++ String.join l2 := by
  induction l1 with
  | nil => simp [String.join]
  | cons s l ih => simp [join_cons, ih, String.append_assoc]

theorem join_payloads (f : Nat → String) (ks : List Tree) :
    String.join (ks.map (fun k => String.join (k.refs.map f)))
      = String.join ((Tree.refsAll ks).map f) := by
  induction ks with
  | nil => rfl
  | cons t ts ih => simp [Tree.refsAll, join_cons, join_append, ih]

theorem kids_nil_of_children_nil (h : Heap) (r : Nat) (ks : List Tree)
    (hcs : children h r = ks.map Tree.root) (hnil : children h r = []) : ks = [] := by
  rw [hnil] at hcs
  exact List.map_eq_nil_iff.mp hcs.symm

/-- With enough fuel `toString` on the root of a tree of well-kinded nodes is
the concatenation of the payloads of the nodes in document order. -/
theorem nodeToString_payloads (h : Heap) :
    ∀ (fuel : Nat) (t : Tree), t.fits h = true → t.height ≤ fuel →
      (∀ r, r ∈ t.refs → (h.node r).kinded = true) →
      nodeToString fuel h t.root = some (String.join (t.refs.map (fun r => (h.node r).payload))) := by
  intro fuel
  induction fuel with
  | zero => intro t _ hf; cases t with | mk r ks => simp [Tree.height] at hf
  | succ fuel ih =>
    intro t hfit hf hk
    cases t with
    | mk r ks =>
      simp only [Tree.fits, Bool.and_eq_true, decide_eq_true_eq] at hfit
      obtain ⟨hcs, hall⟩ := hfit
      simp only [Tree.height] at hf
      have hkr := hk r (by simp [Tree.refs])
      have hkids : ∀ k, k ∈ ks →
          nodeToString fuel h (Tree.root k)
            = some (String.join (k.refs.map (fun r => (h.node r).payload))) := by
        intro k hkin
        exact ih k (fits_of_fitsAll h ks hall k hkin)
          (by have := height_le_heightAll ks k hkin; omega)
          (fun x hx => hk x (by
            simp only [Tree.refs, List.mem_cons]
            exact Or.inr (refs_mem_of_kid ks k hkin x hx)))
      simp only [Tree.root, Tree.refs, List.map_cons, join_cons, nodeToString]
      cases htext : (h.node r).text with
      | some s =>
        have hrest : (h.node r).cdata = none ∧ (h.node r).value = none := by
          simp only [Node.kinded, htext] at hkr
          cases hc : (h.node r).cdata <;> cases hv : (h.node r).value <;> simp_all
        have hnil : ks = [] :=
          kids_nil_of_children_nil h r ks hcs (by simp [children, hrest.2])
        by_cases hs : s = ""
        · simp [hrest.1, hrest.2, truthy, hs, hnil, Tree.refsAll, Node.payload, htext,
            String.join]
        · simp [hrest.1, truthy, hs, hnil, Tree.refsAll, Node.payload, htext, String.join]
      | none =>
        cases hcd : (h.node r).cdata with
        | some s =>
          have hv : (h.node r).value = none := by
            simp only [Node.kinded, htext, hcd] at hkr
            cases hv : (h.node r).value <;> simp_all
          have hnil : ks = [] :=
            kids_nil_of_children_nil h r ks hcs (by simp [children, hv])
          by_cases hs : s = ""
          · simp [hv, truthy, hs, hnil, Tree.refsAll, Node.payload, htext, hcd, String.join]
          · simp [truthy, hs, hnil, Tree.refsAll, Node.payload, htext, hcd, String.join]
        | none =>
          cases hv : (h.node r).value with
          | none =>
            have hnil : ks = [] :=
              kids_nil_of_children_nil h r ks hcs (by simp [children, hv])
            simp [truthy, hnil, Tree.refsAll, Node.payload, htext, hcd, String.join]
          | some cs =>
            have hcs2 : cs = ks.map Tree.root := by
              rw [← hcs]; simp [children, hv]
            simp only [truthy, Bool.false_eq_true, if_false, hcs2]
            rw [mapM_option_map _ Tree.root
              (fun k => String.join (k.refs.map (fun r => (h.node r).payload))) ks hkids]
            simp [Node.payload, htext, hcd, join_payloads]

/-- C19: on a tree of nodes of the five kinds, `toString`, given enough fuel,
is the raw content of a Text or CData node, and for any other node the
concatenation in child order of the `toString` of its children, to which a
Comment child and a childless element contribute the empty string; that is
the concatenation, in document order, of the Text and CData contents of the
subtree. -/
theorem nodeToString_tree (h : Heap) (t : Tree) (fuel : Nat)
    (hfit : t.fits h = true) (hf : t.height ≤ fuel)
    (hk : ∀ r, r ∈ t.refs → (h.node r).kinded = true) :
    nodeToString fuel h t.root
        = some (String.join (t.refs.map (fun r => (h.node r).payload))) ∧
      (∀ s, (h.node t.root).text = some s ∨ (h.node t.root).cdata = some s →
        nodeToString fuel h t.root = some s) ∧
      ((h.node t.root).text = none → (h.node t.root).cdata = none →
        ∃ parts : List String,
          t.kids.map (fun k => nodeToString fuel h k.root) = parts.map some ∧
          nodeToString fuel h t.root = some (String.join parts)) ∧
      (∀ k, k ∈ t.kids →
        ((h.node k.root).comment.isSome = true ∨ k.kids = []) →
        (h.node k.root).text = none → (h.node k.root).cdata = none →
        nodeToString fuel h k.root = some "") := by
  have hmain := nodeToString_payloads h fuel t hfit hf hk
  cases t with
  | mk r ks =>
    simp only [Tree.fits, Bool.and_eq_true, decide_eq_true_eq] at hfit
    obtain ⟨hcs, hall⟩ := hfit
    simp only [Tree.height] at hf
    have hkr := hk r (by simp [Tree.refs])
    have hkid : ∀ k, k ∈ ks →
        nodeToString fuel h (Tree.root k)
          = some (String.join (k.refs.map (fun r => (h.node r).payload))) := by
      intro k hkin
      exact nodeToString_payloads h fuel k (fits_of_fitsAll h ks hall k hkin)
        (by have := height_le_heightAll ks k hkin; omega)
        (fun x hx => hk x (by
          simp only [Tree.refs, List.mem_cons]
          exact Or.inr (refs_mem_of_kid ks k hkin x hx)))
    refine ⟨hmain, ?_, ?_, ?_⟩
    · intro s hs
      have hv : (h.node r).value = none ∧ (h.node r).payload = s := by
        simp only [Tree.root] at hs
        simp only [Node.kinded] at hkr
        rcases hs with h1 | h1
        · cases hv : (h.node r).value <;> cases hc : (h.node r).cdata <;>
            simp_all [Node.payload]
        · cases hv : (h.node r).value <;> cases ht : (h.node r).text <;>
            simp_all [Node.payload]
      have hnil : ks = [] :=
        kids_nil_of_children_nil h r ks hcs (by simp [children, hv.1])
      rw [hmain]
      simp [Tree.refs, hnil, Tree.refsAll, join_cons, hv.2, String.join]
    · intro ht hc
      refine ⟨ks.map (fun k => String.join (k.refs.map (fun r => (h.node r).payload))), ?_, ?_⟩
      · simp only [Tree.kids, List.map_map]
        apply List.map_congr_left
        intro k hkin
        exact hkid k hkin
      · rw [hmain]
        simp only [Tree.root] at ht hc
        simp [Tree.refs, join_cons, Node.payload, ht, hc, join_payloads]
    · intro k hkin hkind ht hc
      rw [hkid k hkin]
      cases k with
      | mk kr kks =>
        have hkk := hk kr (by
          simp only [Tree.refs, List.mem_cons]
          exact Or.inr (refs_mem_of_kid ks (.mk kr kks) hkin kr (by simp [Tree.refs])))
        have hfitk := fits_of_fitsAll h ks hall (.mk kr kks) hkin
        simp only [Tree.fits, Bool.and_eq_true, decide_eq_true_eq] at hfitk
        simp only [Tree.root, Tree.kids] at hkind ht hc
        have hnil : kks = [] := by
          rcases hkind with h1 | h1
          · have hv : (h.node kr).value = none := by
              simp only [Node.kinded] at hkk
              cases hv : (h.node kr).value <;> cases hn : (h.node kr).name <;> simp_all
            exact kids_nil_of_children_nil h kr kks hfitk.1 (by simp [children, hv])
          · exact h1
        simp [Tree.refs, hnil, Tree.refsAll, join_cons, Node.payload, ht, hc, String.join]

theorem nodeToString_tree_witness :
    nodeToString 4 pathTree pathShape.root = some "textcdata" :=
  by
    rw [(nodeToString_tree pathTree pathShape 4 (by decide) (by decide) (by decide)).1]
    decide
/-! ## Atomicity of the failing `addChild`, fragment options, escaping -/

/-- On a node that has a children list the failing call changes nothing. -/
theorem addChild_self_unchanged (h : Heap) (n : Nat) (cs : List Nat) (index : Option Int)
    (hv : (h.node n).value = some cs) :
    (addChild h n (.spec (.node n)) index).1 = h := by
  simp [addChild, initValue_of_value h n cs hv]

/-- C29: on a fresh empty node the failing call `n.addChild(n)` creates the
children list before it raises: afterwards the node is no longer empty, is a
root, and its path is `"."` instead of `"-"`. -/
theorem addChild_self_not_atomic :
    (addChild [({} : Node)] 0 (.spec (.node 0)) none).2
        = .error (.error "The child cannot be the parent itself.") ∧
      (addChild [({} : Node)] 0 (.spec (.node 0)) none).1 = [({ value := some [] } : Node)] ∧
      isEmpty [({} : Node)] 0 = true ∧
      isEmpty (addChild [({} : Node)] 0 (.spec (.node 0)) none).1 0 = false ∧
      isRoot [({} : Node)] 0 = false ∧
      isRoot (addChild [({} : Node)] 0 (.spec (.node 0)) none).1 0 = true ∧
      (getPath 1 [({} : Node)] 0).map (fun r => r.2) = some (.ok "-") ∧
      (getPath 1 (addChild [({} : Node)] 0 (.spec (.node 0)) none).1 0).map (fun r => r.2)
        = some (.ok ".") := by
  decide

/-- C26 (as amended): `toXmlFragment` hands the builder the caller's `headless`
option when the caller gave one, and `headless: true` otherwise; without a
`headless` option of the caller no declaration is written. -/
theorem toXmlFragment_headless (opts : Option XmlOptions) :
    toXmlFragmentHeadless opts
        = some (((opts.getD {}).headless).getD true) ∧
      ((opts.getD {}).headless = none →
        declarationWritten (toXmlFragmentHeadless opts) = false) ∧
      ((opts.getD {}).headless = some true →
        declarationWritten (toXmlFragmentHeadless opts) = false) := by
  cases opts with
  | none => simp [toXmlFragmentHeadless, buildHeadless, fragmentOptions, assignOptions,
      declarationWritten]
  | some o =>
    cases hh : o.headless with
    | none => simp [toXmlFragmentHeadless, buildHeadless, fragmentOptions, assignOptions,
        declarationWritten, hh]
    | some b => cases b <;> simp [toXmlFragmentHeadless, buildHeadless, fragmentOptions,
        assignOptions, declarationWritten, hh]

theorem toXmlFragment_headless_witness :
    declarationWritten (toXmlFragmentHeadless (some { pretty := some true })) = false :=
  (toXmlFragment_headless (some { pretty := some true })).2.1 rfl

/-- C26 (as stated) fails: with the caller's option `headless: false` the
builder gets `headless: false`, and the declaration is written. -/
theorem toXmlFragment_headless_false :
    toXmlFragmentHeadless (some { headless := some false }) = some false ∧
      declarationWritten (toXmlFragmentHeadless (some { headless := some false })) = true := by
  decide

theorem matchNonSpacesSemicolon_eq (rest : List Char) :
    matchNonSpacesSemicolon rest = runThenSemicolon rest := by
  induction rest with
  | nil => rfl
  | cons c rest ih =>
    simp only [matchNonSpacesSemicolon, runThenSemicolon, List.takeWhile_cons]
    by_cases hc : isJsSpace c = true
    · simp [hc]
    · simp only [hc, Bool.not_false, Bool.true_and, if_true, List.drop_succ_cons, List.drop_zero]
      rw [ih]
      cases rest with
      | nil => simp [runThenSemicolon]
      | cons d rest =>
        simp only [List.head?_cons, runThenSemicolon, List.takeWhile_cons]
        by_cases hd : isJsSpace d = true
        · have hne : d ≠ ';' := by
            intro hsemi; rw [hsemi] at hd; revert hd; decide
          simp [hd, hne]
        · simp only [hd, Bool.not_false, if_true, List.drop_succ_cons, List.drop_zero,
            List.contains_cons]
          by_cases hsemi : d = ';'
          · simp [hsemi]
          · have h1 : (some d == some ';') = false := by simpa using hsemi
            have h2 : (';' == d) = false := by simpa using Ne.symm hsemi
            simp [h1, h2]

theorem escapeQuotes_append (l1 l2 : List Char) :
    escapeQuotes (l1 ++ l2) = escapeQuotes l1 ++ escapeQuotes l2 := by
  induction l1 with
  | nil => rfl
  | cons c l ih =>
    simp only [List.cons_append, escapeQuotes]
    split <;> simp [ih]

theorem escapeText_data (l : List Char) :
    escapeQuotes (escapeAmpersands l) = escapedText l := by
  induction l with
  | nil => rfl
  | cons c rest ih =>
    simp only [escapeAmpersands, escapedText, escapedChar, matchNonSpacesSemicolon_eq]
    by_cases hq : c = '"'
    · subst hq
      simp [escapeQuotes, ih]
    · by_cases ha : c = '&'
      · subst ha
        by_cases hr : runThenSemicolon rest = true
        · simp [hr, escapeQuotes, ih]
        · simp only [hr, hq, Bool.not_false, Bool.and_true, decide_True, if_true, if_false,
            escapeQuotes_append, ih]
          rfl
      · simp [hq, ha, escapeQuotes, ih]

/-- C27 (as amended): `escapeText(s)` is `s` with every double quote replaced by
`&quot;` and every ampersand replaced by `&amp;` unless it is followed by one
or more characters that are not white space and then a semicolon; such an
ampersand and every other character are left as they are. -/
theorem escapeText_spec (s : String) :
    (escapeText s).data = escapedText s.data ∧
      (∀ c rest, c ≠ '"' → c ≠ '&' → escapedChar c rest = [c]) ∧
      (∀ rest, escapedChar '"' rest = "&quot;".data) ∧
      (∀ rest, runThenSemicolon rest = true → escapedChar '&' rest = ['&']) ∧
      (∀ rest, runThenSemicolon rest = false → escapedChar '&' rest = "&amp;".data) := by
  refine ⟨by simp [escapeText, escapeText_data], ?_, ?_, ?_, ?_⟩
  · intro c rest h1 h2
    simp [escapedChar, h1, h2]
  · intro rest
    simp [escapedChar]
  · intro rest hr
    simp [escapedChar, hr]
  · intro rest hr
    simp [escapedChar, hr]

theorem escapeText_spec_witness :
    escapedChar '&' "amp; x".data = ['&'] :=
  (escapeText_spec "x").2.2.2.1 "amp; x".data (by decide)

/-- C27 (as stated) fails: in `"?a=1&b=2;"` the ampersand is followed by `b`
and `=`, not by a name and a semicolon, yet `escapeText` leaves it as it is,
where the statement about entity references gives `&amp;`. -/
theorem escapeText_not_entity :
    escapeText "?a=1&b=2;" = "?a=1&b=2;" ∧
      String.mk (escapedByName "?a=1&b=2;".data) = "?a=1&amp;b=2;" ∧
      escapeText "a & \"b\" &lt;" = "a &amp; &quot;b&quot; &lt;" ∧
      String.mk (escapedByName "a & \"b\" &lt;".data) = "a &amp; &quot;b&quot; &lt;" := by
  decide
theorem lookup_append_single (out : List (String × Plain)) (k k' : String) (v : Plain)
    (hk : k' ≠ k) (h : out.lookup k' = none) : (out ++ [(k, v)]).lookup k' = none := by
  induction out with
  | nil =>
    simp [List.lookup]
    have : (k' == k) = false := by simpa using hk
    simp [this]
  | cons kv out ih =>
    obtain ⟨a, b⟩ := kv
    simp only [List.cons_append, List.lookup] at h ⊢
    cases hab : (k' == a) with
    | true => rw [hab] at h; simp at h
    | false => rw [hab] at h; simp only at h ⊢; exact ih h

theorem setKey_absent (out : List (String × Plain)) (k : String) (v : Plain)
    (h : out.lookup k = none) : setKey out k v = out ++ [(k, v)] := by
  simp [setKey, h]

theorem mergeChild_absent (out : List (String × Plain)) (name : Option String) (child : Plain)
    (ht : child.truthy = true) (h : out.lookup (childKey name child) = none) :
    mergeChild out name child = out ++ [(childKey name child, child)] := by
  simp [mergeChild, ht, h, setKey_absent]

theorem simplify_text_leaf (s : String) (hs : (s != "") = true) :
    simplify (.leaf { text := some s }) = .ok (.str (jsTrim s)) := by
  simp [simplify, simpleText, truthy, hs]
theorem lookup_absent (kvs : List (String × Plain)) (k : String)
    (h : k ∉ kvs.map Prod.fst) : kvs.lookup k = none := by
  induction kvs with
  | nil => rfl
  | cons kv kvs ih =>
    obtain ⟨a, b⟩ := kv
    simp only [List.map_cons, List.mem_cons, not_or] at h
    have hab : (k == a) = false := by simpa using h.1
    simp only [List.lookup, hab]
    exact ih h.2

theorem filter_keeps (kvs : List (String × Plain)) (h : "$" ∉ kvs.map Prod.fst) :
    kvs.filter (fun (kv : String × Plain) => kv.1 != "$") = kvs := by
  rw [List.filter_eq_self]
  intro kv hkv
  have : kv.1 ≠ "$" := by
    intro heq
    exact h (by rw [← heq]; exact List.mem_map_of_mem Prod.fst hkv)
  simpa using this

theorem finishSimple_keep (out : List (String × Plain))
    (h1 : ∀ a, out.lookup "$" = some a → a.isKept = true)
    (h2 : out ≠ [])
    (h3 : out.length = 1 → out.lookup "_" = none) :
    finishSimple out = .map out := by
  have e1 : (match out.lookup "$" with
      | some a => if a.truthy && a.keyCount == 0 then
          out.filter (fun (kv : String × Plain) => kv.1 != "$") else out
      | none => out) = out := by
    cases hl : out.lookup "$" with
    | none => rfl
    | some a =>
      have ha := h1 a hl
      simp only [Plain.isKept, Bool.and_eq_true, bne_iff_ne, ne_eq] at ha
      simp [ha.1, ha.2]
  have e2 : (match out.lookup "_" with
      | some t => if out.length == 1 && t.truthy then t else Plain.map out
      | none => Plain.map out) = Plain.map out := by
    cases hl : out.lookup "_" with
    | none => rfl
    | some t =>
      have : ¬ out.length = 1 := fun hlen => by
        rw [h3 hlen] at hl; cases hl
      simp [this]
  have e3 : (Plain.map out).keyCount ≠ 0 := by
    simp [Plain.keyCount, h2]
  unfold finishSimple
  simp only [e1, e2]
  simp [e3]

theorem nodify_map_eq (kvs : List (String × Plain)) (name : Option String) :
    nodify (.map kvs) name =
      .node { name := name,
              attributes := match kvs.lookup "$" with
                | some a => if a.truthy then some a else none
                | none => none }
        (nodifyEntries kvs) := by
  simp [nodify]

theorem simplify_node_eq (f : ObjFields) (vs : List Obj) (out : List (String × Plain))
    (ht : simpleText f = none) (h : simplifyInto (simpleStart f) vs = .ok out) :
    simplify (.node f vs) = .ok (finishSimple out) := by
  simp [simplify, ht, h]

theorem lookup_present (kvs : List (String × Plain)) (k : String)
    (h : k ∈ kvs.map Prod.fst) : ∃ v, kvs.lookup k = some v := by
  induction kvs with
  | nil => simp at h
  | cons kv kvs ih =>
    obtain ⟨a, b⟩ := kv
    by_cases hka : k = a
    · subst hka
      exact ⟨b, by simp [List.lookup]⟩
    · have hab : (k == a) = false := by simpa using hka
      simp only [List.map_cons, List.mem_cons, hka, false_or] at h
      simp only [List.lookup, hab]
      exact ih h

theorem attrsFront_of_absent (kvs : List (String × Plain)) (h : "$" ∉ kvs.map Prod.fst) :
    attrsFront kvs = [] := by
  simp [attrsFront, lookup_absent kvs "$" h]

theorem attrsFront_length (kvs : List (String × Plain)) :
    (attrsFront kvs).length = if "$" ∈ kvs.map Prod.fst then 1 else 0 := by
  by_cases h : "$" ∈ kvs.map Prod.fst
  · obtain ⟨v, hv⟩ := lookup_present kvs "$" h
    simp [attrsFront, hv, h]
  · simp [attrsFront_of_absent kvs h, h]

theorem attrsFirstEntries_keys (kvs : List (String × Plain)) (k : String)
    (h : k ∈ (attrsFirstEntries kvs).map Prod.fst) : k ∈ kvs.map Prod.fst ∧ k ≠ "$" := by
  induction kvs with
  | nil => simp [attrsFirstEntries] at h
  | cons kv kvs ih =>
    obtain ⟨a, b⟩ := kv
    by_cases ha : a = "$"
    · simp only [attrsFirstEntries, ha, if_true] at h
      exact ⟨by simp [(ih h).1], (ih h).2⟩
    · simp only [attrsFirstEntries, ha, if_false, List.map_cons, List.mem_cons] at h
      rcases h with h | h
      · subst h
        exact ⟨by simp, ha⟩
      · exact ⟨by simp [(ih h).1], (ih h).2⟩

theorem attrsFirstEntries_length (kvs : List (String × Plain))
    (hn : (kvs.map Prod.fst).Nodup) :
    (attrsFirstEntries kvs).length + (if "$" ∈ kvs.map Prod.fst then 1 else 0) =
      kvs.length := by
  induction kvs with
  | nil => simp [attrsFirstEntries]
  | cons kv kvs ih =>
    obtain ⟨a, b⟩ := kv
    simp only [List.map_cons, List.nodup_cons] at hn
    have ih := ih hn.2
    by_cases ha : a = "$"
    · subst ha
      have hno : "$" ∉ kvs.map Prod.fst := hn.1
      simp only [hno, if_false, Nat.add_zero] at ih
      simp [attrsFirstEntries, ih]
    · have hne : ¬ "$" = a := fun h => ha h.symm
      simp only [attrsFirstEntries, ha, if_false, List.length_cons, List.map_cons,
        List.mem_cons, hne, false_or]
      omega

theorem attrsFirst_length (kvs : List (String × Plain)) (hn : (kvs.map Prod.fst).Nodup) :
    (attrsFront kvs ++ attrsFirstEntries kvs).length = kvs.length := by
  rw [List.length_append, attrsFront_length, Nat.add_comm]
  exact attrsFirstEntries_length kvs hn

theorem entries_attrs_kept (kvs : List (String × Plain)) (a : Plain)
    (he : entriesRoundTrip kvs = true) (hl : kvs.lookup "$" = some a) : a.isKept = true := by
  induction kvs with
  | nil => simp at hl
  | cons kv kvs ih =>
    obtain ⟨k, v⟩ := kv
    simp only [entriesRoundTrip, Bool.and_eq_true] at he
    by_cases hk : k = "$"
    · subst hk
      simp only [List.lookup, beq_self_eq_true, Option.some.injEq] at hl
      subst hl
      simpa using he.1
    · have hab : ("$" == k) = false := by simpa using fun h => hk h.symm
      simp only [List.lookup, hab] at hl
      exact ih he.2 hl

theorem isKept_truthy (a : Plain) (h : a.isKept = true) : a.truthy = true := by
  simp only [Plain.isKept, Bool.and_eq_true] at h
  exact h.1

theorem simpleStart_nodify (kvs : List (String × Plain)) (name : Option String)
    (he : entriesRoundTrip kvs = true) :
    simpleStart { name := name,
                  attributes := match kvs.lookup "$" with
                    | some a => if a.truthy then some a else none
                    | none => none } = attrsFront kvs := by
  cases hl : kvs.lookup "$" with
  | none => simp [simpleStart, attrsFront, hl]
  | some a =>
    have ht := isKept_truthy a (entries_attrs_kept kvs a he hl)
    simp [simpleStart, attrsFront, hl, ht]

mutual
theorem simplify_nodify_roundTrips : ∀ (x : Plain) (name : Option String),
    x.roundTrips = true → simplify (nodify x name) = .ok x.attrsFirst
  | .null, _, h => by simp [Plain.roundTrips] at h
  | .bool _, _, h => by simp [Plain.roundTrips] at h
  | .num _, _, h => by simp [Plain.roundTrips] at h
  | .arr _, _, h => by simp [Plain.roundTrips] at h
  | .str s, _, h => by
    simp only [Plain.roundTrips, Bool.and_eq_true, beq_iff_eq] at h
    simp only [nodify, Plain.attrsFirst]
    rw [simplify_text_leaf s h.1, h.2]
  | .map kvs, name, h => by
    simp only [Plain.roundTrips, Bool.and_eq_true] at h
    obtain ⟨hk, he⟩ := h
    simp only [keysRoundTrip, Bool.and_eq_true, decide_eq_true_eq, Bool.not_eq_true',
      bne_iff_ne, ne_eq, List.isEmpty_eq_false] at hk
    obtain ⟨⟨⟨hn, hne⟩, hunder⟩, _⟩ := hk
    have hin := simplifyInto_nodifyEntries kvs (attrsFront kvs) he hn
      (fun k _ hk' => by
        unfold attrsFront
        cases kvs.lookup "$" with
        | none => rfl
        | some a =>
          have : (k == "$") = false := by simpa using hk'
          simp [List.lookup, this])
    rw [nodify_map_eq]
    rw [simplify_node_eq _ _ (attrsFront kvs ++ attrsFirstEntries kvs)
      (by simp [simpleText, truthy]) (by rw [simpleStart_nodify kvs name he]; exact hin)]
    have hlen := attrsFirst_length kvs hn
    rw [finishSimple_keep]
    · rfl
    · intro a ha
      cases hl : kvs.lookup "$" with
      | none =>
        have hno : (attrsFirstEntries kvs).lookup "$" = none :=
          lookup_absent _ _ (fun hm => (attrsFirstEntries_keys kvs "$" hm).2 rfl)
        simp only [attrsFront, hl, List.nil_append, hno] at ha
        cases ha
      | some a1 =>
        simp only [attrsFront, hl, List.singleton_append, List.lookup, beq_self_eq_true,
          Option.some.injEq] at ha
        rw [← ha]
        exact entries_attrs_kept kvs a1 he hl
    · intro hnil
      rw [hnil] at hlen
      cases kvs with
      | nil => exact hne rfl
      | cons _ _ => simp at hlen
    · intro h1
      rw [hlen] at h1
      cases kvs with
      | nil => simp at h1
      | cons kv rest =>
        cases rest with
        | cons _ _ => simp at h1
        | nil =>
          obtain ⟨k, v⟩ := kv
          have hku : k ≠ "_" := by
            intro heq; apply hunder; simp [heq]
          have hku2 : ("_" == k) = false := by simpa using fun heq => hku heq.symm
          by_cases hd : k = "$"
          · subst hd
            simp [attrsFront, attrsFirstEntries, List.lookup]
          · have hd2 : ("$" == k) = false := by simpa using fun heq => hd heq.symm
            simp [attrsFront, attrsFirstEntries, List.lookup, hd, hd2, hku2]
theorem simplifyInto_nodifyEntries : ∀ (kvs : List (String × Plain))
    (out : List (String × Plain)),
    entriesRoundTrip kvs = true → (kvs.map Prod.fst).Nodup →
    (∀ k ∈ kvs.map Prod.fst, k ≠ "$" → out.lookup k = none) →
    simplifyInto out (nodifyEntries kvs) = .ok (out ++ attrsFirstEntries kvs)
  | [], out, _, _, _ => by simp [nodifyEntries, simplifyInto, attrsFirstEntries]
  | (k, v) :: kvs, out, he, hn, ho => by
    simp only [entriesRoundTrip, Bool.and_eq_true] at he
    obtain ⟨hv, he⟩ := he
    simp only [List.map_cons, List.nodup_cons] at hn
    obtain ⟨hk, hn⟩ := hn
    by_cases hd : k = "$"
    · subst hd
      have ih := simplifyInto_nodifyEntries kvs out he hn
        (fun k' hk' hne => ho k' (by simp [hk']) hne)
      simp [nodifyEntries, attrsFirstEntries, ih]
    · have hrest : ∀ (c : Plain), ∀ k' ∈ kvs.map Prod.fst, k' ≠ "$" →
          (out ++ [(k, c)]).lookup k' = none := by
        intro c k' hk' hne
        apply lookup_append_single
        · intro heq; subst heq; exact hk hk'
        · exact ho k' (by simp [hk']) hne
      have hok : out.lookup k = none := ho k (by simp) hd
      simp only [hd, if_false] at hv
      have hr : v.roundTrips = true := by
        by_cases hu : k = "_"
        · simp only [hu, if_true, Bool.and_eq_true] at hv; exact hv.2
        · simp only [hu, if_false, Bool.and_eq_true] at hv; exact hv.2
      cases v with
      | str s =>
        have hu : k = "_" := by
          by_contra hu
          simp [hu, Plain.isMapping] at hv
        subst hu
        simp only [Plain.roundTrips, Bool.and_eq_true, beq_iff_eq] at hr
        have ih := simplifyInto_nodifyEntries kvs (out ++ [("_", .str s)]) he hn
          (hrest (.str s))
        have hm : mergeChild out none (.str s) = out ++ [("_", .str s)] := by
          rw [mergeChild_absent]
          · simp [childKey, truthy]
          · simpa [Plain.truthy] using hr.1
          · simpa [childKey, truthy] using hok
        simp only [nodifyEntries, hd, if_false, if_true, simplifyInto]
        rw [simplify_text_leaf s hr.1, hr.2]
        simp only [hm, ih, attrsFirstEntries, hd, if_false, Plain.attrsFirst]
        simp
      | map m =>
        have hv2 := simplify_nodify_roundTrips (.map m) (some k) hr
        have ih := simplifyInto_nodifyEntries kvs (out ++ [(k, (Plain.map m).attrsFirst)]) he hn
          (hrest _)
        have hm : mergeChild out (some k) (Plain.map m).attrsFirst =
            out ++ [(k, (Plain.map m).attrsFirst)] := by
          rw [mergeChild_absent]
          · simp [childKey, Plain.attrsFirst]
          · simp [Plain.truthy, Plain.attrsFirst]
          · simpa [childKey, Plain.attrsFirst] using hok
        rw [nodify_map_eq] at hv2
        simp only [nodifyEntries, hd, if_false, nodify_map_eq, simplifyInto, hv2, hm, ih,
          attrsFirstEntries]
        simp
      | null => simp [Plain.roundTrips] at hr
      | bool _ => simp [Plain.roundTrips] at hr
      | num _ => simp [Plain.roundTrips] at hr
      | arr _ => simp [Plain.roundTrips] at hr
end

theorem nodifyItems_scalars (xs : List Plain) (h : ∀ x ∈ xs, x.isScalarOrNull = true) :
    nodifyItems xs = [] := by
  induction xs with
  | nil => rfl
  | cons x xs ih =>
    have hx := h x (by simp)
    have hxs := ih (fun y hy => h y (by simp [hy]))
    cases x with
    | arr _ => simp [Plain.isScalarOrNull] at hx
    | map _ => simp [Plain.isScalarOrNull] at hx
    | null => simp [nodifyItems, Plain.truthy, hxs]
    | str s => simp [nodifyItems, nodify, Obj.definedValue, hxs]
    | bool b => simp [nodifyItems, nodify, Obj.definedValue, hxs]
    | num n => simp [nodifyItems, nodify, Obj.definedValue, hxs]

/-- The documented example of `nodify`: the mapping
`{ $: { foo: "bar" }, _: "test" }` under the name `"tag"` is the element `tag`
with the attribute `foo="bar"` and the one Text child `"test"`. -/
theorem nodify_documented_example :
    nodify (.map [("$", .map [("foo", .str "bar")]), ("_", .str "test")]) (some "tag") =
      .node { name := some "tag", attributes := some (.map [("foo", .str "bar")]) }
        [.leaf { text := some "test" }] := by
  rfl

mutual
theorem sameAs_refl : ∀ (x : Plain), x.sameAs x = true
  | .null => rfl
  | .str s => by simp [Plain.sameAs]
  | .bool b => by simp [Plain.sameAs]
  | .num n => by simp [Plain.sameAs]
  | .arr xs => by
    simp only [Plain.sameAs]
    exact sameItems_refl xs
  | .map kvs => by
    simp only [Plain.sameAs, beq_self_eq_true, Bool.true_and]
    exact sameEntries_subset kvs kvs (fun _ he => he)
theorem sameItems_refl : ∀ (xs : List Plain), sameItems xs xs = true
  | [] => rfl
  | x :: xs => by
    simp only [sameItems, Bool.and_eq_true]
    exact ⟨sameAs_refl x, sameItems_refl xs⟩
theorem sameEntries_subset : ∀ (kvs other : List (String × Plain)),
    (∀ e ∈ kvs, e ∈ other) → sameEntries kvs other = true
  | [], _, _ => rfl
  | (k, v) :: kvs, other, h => by
    simp only [sameEntries, Bool.and_eq_true, List.any_eq_true]
    refine ⟨⟨(k, v), h (k, v) (by simp), ?_⟩,
      sameEntries_subset kvs other (fun e he => h e (by simp [he]))⟩
    simp only [beq_self_eq_true, Bool.true_and, Bool.and_eq_true]
    exact ⟨trivial, sameAs_refl v⟩
end

theorem lookup_of_mem_nodup (kvs : List (String × Plain)) (k : String) (v : Plain)
    (hn : (kvs.map Prod.fst).Nodup) (hm : (k, v) ∈ kvs) : kvs.lookup k = some v := by
  induction kvs with
  | nil => simp at hm
  | cons kv kvs ih =>
    obtain ⟨a, b⟩ := kv
    simp only [List.map_cons, List.nodup_cons] at hn
    simp only [List.mem_cons, Prod.mk.injEq] at hm
    rcases hm with ⟨h1, h2⟩ | hm
    · subst h1; subst h2
      simp [List.lookup]
    · have hka : k ≠ a := by
        intro heq
        subst heq
        exact hn.1 (List.mem_map_of_mem Prod.fst hm)
      have hab : (k == a) = false := by simpa using hka
      simp only [List.lookup, hab]
      exact ih hn.2 hm

mutual
theorem sameAs_attrsFirst : ∀ (x : Plain), x.roundTrips = true →
    x.sameAs x.attrsFirst = true
  | .null, h => by simp [Plain.roundTrips] at h
  | .bool _, h => by simp [Plain.roundTrips] at h
  | .num _, h => by simp [Plain.roundTrips] at h
  | .arr _, h => by simp [Plain.roundTrips] at h
  | .str s, _ => by simp [Plain.attrsFirst, Plain.sameAs]
  | .map kvs, h => by
    simp only [Plain.roundTrips, Bool.and_eq_true] at h
    obtain ⟨hk, he⟩ := h
    simp only [keysRoundTrip, Bool.and_eq_true, decide_eq_true_eq] at hk
    have hn := hk.1.1.1
    simp only [Plain.attrsFirst, Plain.sameAs, Bool.and_eq_true, beq_iff_eq]
    refine ⟨(attrsFirst_length kvs hn).symm, ?_⟩
    refine sameEntries_attrsFirst kvs _ he (fun v hv => ?_) (fun e he => by simp [he])
    have hl := lookup_of_mem_nodup kvs "$" v hn hv
    simp [attrsFront, hl]
theorem sameEntries_attrsFirst : ∀ (kvs other : List (String × Plain)),
    entriesRoundTrip kvs = true →
    (∀ v, ("$", v) ∈ kvs → ("$", v) ∈ other) →
    (∀ e ∈ attrsFirstEntries kvs, e ∈ other) → sameEntries kvs other = true
  | [], _, _, _, _ => rfl
  | (k, v) :: kvs, other, he, h1, h2 => by
    simp only [entriesRoundTrip, Bool.and_eq_true] at he
    obtain ⟨hv, he⟩ := he
    simp only [sameEntries, Bool.and_eq_true, List.any_eq_true]
    by_cases hd : k = "$"
    · subst hd
      refine ⟨⟨("$", v), h1 v (by simp), ?_⟩,
        sameEntries_attrsFirst kvs other he (fun w hw => h1 w (by simp [hw]))
          (fun e hm => h2 e (by simpa [attrsFirstEntries] using hm))⟩
      simp only [beq_self_eq_true, Bool.true_and, Bool.and_eq_true]
      exact ⟨trivial, sameAs_refl v⟩
    · have hr : v.roundTrips = true := by
        simp only [hd, if_false] at hv
        by_cases hu : k = "_"
        · simp only [hu, if_true, Bool.and_eq_true] at hv; exact hv.2
        · simp only [hu, if_false, Bool.and_eq_true] at hv; exact hv.2
      refine ⟨⟨(k, v.attrsFirst), h2 _ (by simp [attrsFirstEntries, hd]), ?_⟩,
        sameEntries_attrsFirst kvs other he (fun w hw => h1 w (by simp [hw]))
          (fun e hm => h2 e (by simp [attrsFirstEntries, hd, hm]))⟩
      simp only [beq_self_eq_true, Bool.true_and, Bool.and_eq_true]
      exact ⟨trivial, sameAs_attrsFirst v hr⟩
end

/-- C20 (amended). For every plain value `x` that is a non-empty string without
surrounding white space, or a mapping with distinct keys, one at least, none of
them the name of a member of `Object.prototype`, in which `"_"` is not the
only key, `"$"` holds a truthy value with a key, `"_"` holds such a string or
such a mapping and every other key holds such a mapping, and for every name:
`simplify(nodify(x, name))` returns `x` with the key `"$"` in front of the
other keys of each mapping, which is `x` up to the order of the keys. -/
theorem simplify_nodify_round_trip (x : Plain) (name : Option String)
    (h : x.roundTrips = true) :
    simplify (nodify x name) = .ok x.attrsFirst ∧ x.sameAs x.attrsFirst = true :=
  ⟨simplify_nodify_roundTrips x name h, sameAs_attrsFirst x h⟩

/-- C20, witness: the mapping
`{ a: { b: { $: { k: "v" } }, $: { id: "1" } }, $: { foo: "bar" }, _: "test" }`
is in the class and comes back with `"$"` in front at both levels. -/
theorem simplify_nodify_round_trip_witness :
    Plain.roundTrips (.map [("a", .map [("b", .map [("$", .map [("k", .str "v")])]),
          ("$", .map [("id", .str "1")])]),
        ("$", .map [("foo", .str "bar")]), ("_", .str "test")]) = true ∧
      simplify (nodify (.map [("a", .map [("b", .map [("$", .map [("k", .str "v")])]),
          ("$", .map [("id", .str "1")])]),
        ("$", .map [("foo", .str "bar")]), ("_", .str "test")]) (some "tag")) =
        .ok (.map [("$", .map [("foo", .str "bar")]),
          ("a", .map [("$", .map [("id", .str "1")]),
            ("b", .map [("$", .map [("k", .str "v")])])]),
          ("_", .str "test")]) ∧
      Plain.sameAs (.map [("a", .map [("b", .map [("$", .map [("k", .str "v")])]),
          ("$", .map [("id", .str "1")])]),
        ("$", .map [("foo", .str "bar")]), ("_", .str "test")])
        (.map [("$", .map [("foo", .str "bar")]),
          ("a", .map [("$", .map [("id", .str "1")]),
            ("b", .map [("$", .map [("k", .str "v")])])]),
          ("_", .str "test")]) = true :=
  ⟨by decide,
    (simplify_nodify_round_trip (.map [("a", .map [("b", .map [("$", .map [("k", .str "v")])]),
          ("$", .map [("id", .str "1")])]),
        ("$", .map [("foo", .str "bar")]), ("_", .str "test")]) (some "tag") (by decide)).1,
    (simplify_nodify_round_trip (.map [("a", .map [("b", .map [("$", .map [("k", .str "v")])]),
          ("$", .map [("id", .str "1")])]),
        ("$", .map [("foo", .str "bar")]), ("_", .str "test")]) (some "tag") (by decide)).2⟩

/-- C20, counterexample. None of these values has an empty mapping or sequence
or more than one key, and none comes back: `true` comes back as the string
`"true"`, `1` as the string `"1"`, the string `" a "` as `"a"`, and the mapping
`{ _: "x" }` as the string `"x"`. -/
theorem simplify_nodify_not_identity :
    simplify (nodify (.bool true) none) = .ok (.str "true") ∧
    simplify (nodify (.bool true) none) ≠ .ok (.bool true) ∧
    Plain.sameAs (.bool true) (.str "true") = false ∧
    simplify (nodify (.num 1) none) = .ok (.str "1") ∧
    Plain.sameAs (.num 1) (.str "1") = false ∧
    simplify (nodify (.str " a ") none) = .ok (.str "a") ∧
    Plain.sameAs (.str " a ") (.str "a") = false ∧
    simplify (nodify (.map [("_", .str "x")]) none) = .ok (.str "x") ∧
    Plain.sameAs (.map [("_", .str "x")]) (.str "x") = false := by
  refine ⟨rfl, ?_, rfl, rfl, rfl, rfl, by decide, rfl, rfl⟩
  intro h
  have h2 : simplify (nodify (.bool true) none) = .ok (.str "true") := rfl
  rw [h2] at h
  cases h

/-- Values outside the class `Plain.roundTrips` whose keys or members `nodify`
does not keep: the mapping `{ a: "x" }` comes back as `"x"`,
`{ a: { b: "x" } }` as `{ a: "x" }`, and the sequence `["a", "b"]` as `null`. -/
theorem simplify_nodify_scalar_entries :
    simplify (nodify (.map [("a", .str "x")]) none) = .ok (.str "x") ∧
    simplify (nodify (.map [("a", .map [("b", .str "x")])]) none) =
      .ok (.map [("a", .str "x")]) ∧
    simplify (nodify (.arr [.str "a", .str "b"]) none) = .ok .null := by
  exact ⟨rfl, rfl, rfl⟩

/-- C22. For every sequence `xs` of scalars and `null`s and every name `n`,
`nodify(xs, n)` is the element descriptor named `n` with an empty children
list: no member of `xs` gives a Text child. -/
theorem nodify_scalar_sequence (xs : List Plain) (n : Option String)
    (h : ∀ x ∈ xs, x.isScalarOrNull = true) :
    nodify (.arr xs) n = .node { name := n } [] := by
  simp [nodify, nodifyItems_scalars xs h]

/-- C22, witness: `nodify(["a", "b"], "n")` is `{ name: "n", value: [] }`. -/
theorem nodify_scalar_sequence_witness :
    (∀ x ∈ [Plain.str "a", Plain.str "b"], x.isScalarOrNull = true) ∧
      nodify (.arr [.str "a", .str "b"]) (some "n") = .node { name := some "n" } [] :=
  ⟨by decide, nodify_scalar_sequence _ _ (by decide)⟩

/-- C23. For every key `k` other than `"$"`, every string `s`, every mapping
that starts with the entry `k: s` and every name `n`, the first child of
`nodify` of the mapping is the Text descriptor `{ text: s }`, which has no
name: the child of a string-valued key is not named after the key. -/
theorem nodify_string_entry_unnamed (k s : String) (rest : List (String × Plain))
    (n : Option String) (hk : k ≠ "$") :
    (nodify (.map ((k, .str s) :: rest)) n).value.head? = some (.leaf { text := some s }) ∧
      ((nodify (.map ((k, .str s) :: rest)) n).value.head?).map Obj.name = some none := by
  have h : (nodify (.map ((k, .str s) :: rest)) n).value =
      .leaf { text := some s } :: nodifyEntries rest := by
    by_cases hu : k = "_"
    · simp [nodify, Obj.value, nodifyEntries, hk, hu]
    · simp [nodify, Obj.value, nodifyEntries, hk, hu]
  rw [h]
  simp [Obj.name]

/-- C23, witness: `nodify({ a: "x" }, "tag")` is
`{ name: "tag", value: [{ text: "x" }] }`. -/
theorem nodify_string_entry_unnamed_witness :
    "a" ≠ "$" ∧
      (nodify (.map [("a", .str "x")]) (some "tag")).value.head? =
        some (.leaf { text := some "x" }) ∧
      ((nodify (.map [("a", .str "x")]) (some "tag")).value.head?).map Obj.name = some none :=
  ⟨by decide, nodify_string_entry_unnamed "a" "x" [] (some "tag") (by decide)⟩

/-- C28. The element `e` has two children named `a`; the first simplifies to
the sequence `["x", "y"]`, the second to `"z"`; `simplify` maps `a` to the
sequence `["x", "y", "z"]` of three values, not to the sequence of the two
simplified values. -/
theorem simplify_flattens_sequence_child :
    simplify (.node { name := some "a" }
      [.leaf { text := some "x" }, .leaf { comment := some "c" }, .leaf { text := some "y" }]) =
      .ok (.arr [.str "x", .str "y"]) ∧
    simplify (.node { name := some "a" } [.leaf { text := some "z" }]) = .ok (.str "z") ∧
    simplify (.node { name := some "e" }
      [.node { name := some "a" }
        [.leaf { text := some "x" }, .leaf { comment := some "c" }, .leaf { text := some "y" }],
       .node { name := some "a" } [.leaf { text := some "z" }]]) =
      .ok (.map [("a", .arr [.str "x", .str "y", .str "z"])]) :=
  ⟨rfl, rfl, rfl⟩

/-- C31. In the test-suite tree `root` lists `first`, `mid`, `second` and `mid`
has the parent `root`.  The first `mid.delete()` removes `mid`; the second one,
on the removed node, removes `second`, the last child of `root`. -/
theorem delete_twice_removes_sibling :
    children sampleTree 1 = [2, 4, 3] ∧
      children (delete sampleTree 4).1 1 = [2, 3] ∧
      ((delete sampleTree 4).1.node 4).parent = some 1 ∧
      getIndex (delete sampleTree 4).1 4 = .ok (-1) ∧
      (delete (delete sampleTree 4).1 4).2 = .ok () ∧
      children (delete (delete sampleTree 4).1 4).1 1 = [2] := by
  decide

theorem escapedText_fixed (l : List Char) (h : escapedAlready l = true) :
    escapedText l = l := by
  induction l with
  | nil => rfl
  | cons c rest ih =>
    simp only [escapedAlready, Bool.and_eq_true, bne_iff_ne, ne_eq, Bool.or_eq_true] at h
    obtain ⟨⟨hq, ha⟩, hr⟩ := h
    rw [escapedText, ih hr]
    rcases ha with ha | ha
    · simp [escapedChar, hq, ha]
    · simp [escapedChar, hq, ha]

theorem escapedChar_nonSpace (c : Char) (rest : List Char) (hc : isJsSpace c = false) :
    ∀ x ∈ escapedChar c rest, (!isJsSpace x) = true := by
  unfold escapedChar
  split
  · decide
  · split
    · decide
    · intro x hx
      simp only [List.mem_singleton] at hx
      subst hx
      simp [hc]

theorem escapedChar_ne_nil (c : Char) (rest : List Char) : escapedChar c rest ≠ [] := by
  unfold escapedChar
  split
  · decide
  · split
    · decide
    · simp

theorem takeWhile_append_all (p : Char → Bool) (l1 l2 : List Char)
    (h : ∀ x ∈ l1, p x = true) :
    (l1 ++ l2).takeWhile p = l1 ++ l2.takeWhile p := by
  induction l1 with
  | nil => rfl
  | cons a l ih =>
    have ha := h a (by simp)
    simp only [List.cons_append, List.takeWhile_cons, ha, if_true]
    rw [ih (fun x hx => h x (by simp [hx]))]

theorem semicolon_in_run (l : List Char)
    (h : ';' ∈ l.takeWhile (fun c => !isJsSpace c)) :
    ';' ∈ (escapedText l).takeWhile (fun c => !isJsSpace c) := by
  induction l with
  | nil => simp at h
  | cons d t ih =>
    simp only [List.takeWhile_cons] at h
    by_cases hd : isJsSpace d = true
    · simp [hd] at h
    · have hd2 : isJsSpace d = false := by simpa using hd
      simp only [hd2, Bool.not_false, if_true, List.mem_cons] at h
      rw [escapedText, takeWhile_append_all _ _ _ (escapedChar_nonSpace d t hd2)]
      rcases h with h | h
      · subst h
        simp [escapedChar]
      · exact List.mem_append_right _ (ih h)

theorem runThenSemicolon_iff (l : List Char) :
    runThenSemicolon l = true ↔ ';' ∈ (l.takeWhile (fun c => !isJsSpace c)).drop 1 := by
  simp [runThenSemicolon]

theorem runThenSemicolon_prefix (p x : List Char) (hp : ∀ c ∈ p, (!isJsSpace c) = true)
    (hs : ';' ∈ p.drop 1) : runThenSemicolon (p ++ x) = true := by
  rw [runThenSemicolon_iff, takeWhile_append_all _ _ _ hp]
  cases p with
  | nil => simp at hs
  | cons a as =>
    simp only [List.drop_succ_cons, List.drop_zero] at hs
    simp only [List.cons_append, List.drop_succ_cons, List.drop_zero]
    exact List.mem_append_left _ hs

theorem runThenSemicolon_escaped (rest : List Char) (h : runThenSemicolon rest = true) :
    runThenSemicolon (escapedText rest) = true := by
  rw [runThenSemicolon_iff] at h ⊢
  cases rest with
  | nil => simp at h
  | cons c t =>
    simp only [List.takeWhile_cons] at h
    by_cases hc : isJsSpace c = true
    · simp [hc] at h
    · have hc2 : isJsSpace c = false := by simpa using hc
      simp only [hc2, Bool.not_false, if_true, List.drop_succ_cons, List.drop_zero] at h
      have hrun := semicolon_in_run t h
      rw [escapedText, takeWhile_append_all _ _ _ (escapedChar_nonSpace c t hc2)]
      have hne := escapedChar_ne_nil c t
      cases he : escapedChar c t with
      | nil => exact absurd he hne
      | cons a as =>
        simp only [List.cons_append, List.drop_succ_cons, List.drop_zero]
        exact List.mem_append_right _ hrun

theorem escapedAlready_append (p x : List Char) (hp : ∀ c ∈ p, c ≠ '"' ∧ c ≠ '&') :
    escapedAlready (p ++ x) = escapedAlready x := by
  induction p with
  | nil => rfl
  | cons a as ih =>
    have ha := hp a (by simp)
    simp only [List.cons_append, escapedAlready, List.append_eq]
    rw [ih (fun c hc => hp c (by simp [hc]))]
    simp [ha.1, ha.2]

theorem escapedAlready_entity (p x : List Char) (hp : ∀ c ∈ p, c ≠ '"' ∧ c ≠ '&')
    (hn : ∀ c ∈ p, (!isJsSpace c) = true) (hs : ';' ∈ p.drop 1)
    (hx : escapedAlready x = true) : escapedAlready ('&' :: p ++ x) = true := by
  simp only [List.cons_append, escapedAlready, List.append_eq]
  rw [escapedAlready_append p x hp, hx, runThenSemicolon_prefix p x hn hs]
  decide

theorem escapedAlready_escapedText (l : List Char) : escapedAlready (escapedText l) = true := by
  induction l with
  | nil => rfl
  | cons c rest ih =>
    rw [escapedText]
    unfold escapedChar
    split
    · exact escapedAlready_entity "quot;".data _ (by decide) (by decide) (by decide) ih
    · split
      · exact escapedAlready_entity "amp;".data _ (by decide) (by decide) (by decide) ih
      · rename_i hq ha
        show escapedAlready (c :: escapedText rest) = true
        simp only [escapedAlready, ih, Bool.and_true, Bool.and_eq_true,
          bne_iff_ne, ne_eq, Bool.or_eq_true]
        refine ⟨hq, ?_⟩
        by_cases hamp : c = '&'
        · right
          subst hamp
          have hr : runThenSemicolon rest = true := by simpa using ha
          exact runThenSemicolon_escaped rest hr
        · left; exact hamp

theorem quote_not_mem_escapedAlready (l : List Char) (h : escapedAlready l = true) :
    '"' ∉ l := by
  induction l with
  | nil => simp
  | cons c rest ih =>
    simp only [escapedAlready, Bool.and_eq_true, bne_iff_ne, ne_eq] at h
    simp only [List.mem_cons, not_or]
    exact ⟨fun heq => h.1.1 heq.symm, ih h.2⟩

/-- C32. For every string `s`, `escapeText(escapeText(s))` is `escapeText(s)`,
and `escapeText(s)` has no double-quote character. -/
theorem escapeText_idempotent (s : String) :
    escapeText (escapeText s) = escapeText s ∧ '"' ∉ (escapeText s).data := by
  have h1 : (escapeText s).data = escapedText s.data := by simp [escapeText, escapeText_data]
  have h2 := escapedAlready_escapedText s.data
  refine ⟨?_, ?_⟩
  · have : escapeText (escapeText s) = String.mk (escapedText (escapeText s).data) := by
      simp [escapeText, escapeText_data]
    rw [this, h1, escapedText_fixed _ h2]
    simp [escapeText, escapeText_data]
  · rw [h1]
    exact quote_not_mem_escapedAlready _ h2

theorem toFields_toNode (f : Fields) : f.toNode.toFields = f := rfl

theorem data_setParent (h : Heap) (c p r : Nat) :
    ((setParent h c p).node r).toFields = (h.node r).toFields ∧
      ((setParent h c p).node r).value = (h.node r).value := by
  by_cases hne : c = r
  · subst hne
    by_cases hc : c < h.length
    · simp [setParent, node_put_self _ _ _ hc, Node.toFields]
    · simp [setParent, put_out_of_range _ _ _ (by omega : h.length ≤ c)]
  · simp [setParent, node_put_ne _ _ _ _ hne]

theorem fill_self (vs : List Spec) : ∀ (h : Heap) (self : Nat) (cs : List Nat),
    self < h.length → (h.node self).value = some cs →
    (fill h self vs).node self =
      { h.node self with value := some (cs ++ entryRefs h.length vs) } := by
  induction vs with
  | nil =>
    intro h self cs _ hv
    simp [fill, entryRefs, ← hv]
  | cons v vs ih =>
    intro h self cs hs hv
    have hstep : ∀ (d : Spec), d.isDescriptor = true →
        (pushValue (setParent (instantiate h d).1 (instantiate h d).2 self) self
          (instantiate h d).2).node self =
          { h.node self with value := some (cs ++ [h.length]) } := by
      intro d hd
      have href : (instantiate h d).2 = h.length ∧ h.length < (instantiate h d).1.length := by
        cases d with
        | node r => simp [Spec.isDescriptor] at hd
        | leaf f => exact instantiate_leaf_ref h f
        | obj f ws => exact instantiate_obj_ref h f ws
      obtain ⟨e1, e2⟩ := href
      obtain ⟨_, e4⟩ := instantiate_frame d h
      rw [e1]
      have hne : h.length ≠ self := by omega
      simp only [pushValue, setValue]
      rw [node_put_self _ _ _ (by rw [length_setParent]; omega)]
      rw [children_setParent_ne _ _ _ _ hne, node_setParent_ne _ _ _ _ hne, e4 self hs]
      simp [children, e4 self hs, hv]
    cases v with
    | node r =>
      simp only [fill, entryRefs]
      have h1 : (pushValue h self r).node self = { h.node self with value := some (cs ++ [r]) } := by
        simp only [pushValue, setValue]
        rw [node_put_self _ _ _ hs]
        simp [children, hv]
      rw [ih (pushValue h self r) self (cs ++ [r]) (by rw [length_pushValue]; exact hs)
        (by rw [h1]), h1, length_pushValue]
      simp
    | leaf f =>
      simp only [fill, entryRefs]
      have h1 := hstep (.leaf f) rfl
      rw [ih _ self (cs ++ [h.length])
        (by rw [length_pushValue, length_setParent, length_instantiate]; omega)
        (by rw [h1]), h1, length_pushValue, length_setParent, length_instantiate]
      simp
    | obj f ws =>
      simp only [fill, entryRefs]
      have h1 := hstep (.obj f ws) rfl
      rw [ih _ self (cs ++ [h.length])
        (by rw [length_pushValue, length_setParent, length_instantiate]; omega)
        (by rw [h1]), h1, length_pushValue, length_setParent, length_instantiate]
      simp

theorem toObject_leaf (fuel : Nat) (h : Heap) (r : Nat) (hv : (h.node r).value = none) :
    toObject (fuel + 1) h r = some (.leaf (h.node r).toFields) := by
  simp [toObject, hv]

theorem toObject_obj (fuel : Nat) (h : Heap) (r : Nat) (cs : List Nat) (vs : List Spec)
    (hv : (h.node r).value = some cs)
    (hm : cs.mapM (fun c => toObject fuel h c) = some vs) :
    toObject (fuel + 1) h r = some (.obj (h.node r).toFields vs) := by
  simp only [toObject, hv]
  rw [hm]
  rfl

theorem node_fill_child (vs : List Spec) (h : Heap) (self c r : Nat) (hs : self < h.length)
    (hr : r < h.length) (hne : r ≠ self) :
    ((fill (pushValue (setParent h c self) self c) self vs).node r).toFields =
        (h.node r).toFields ∧
      ((fill (pushValue (setParent h c self) self c) self vs).node r).value =
        (h.node r).value := by
  rw [(fill_frame vs _ self (by rw [length_pushValue, length_setParent]; exact hs)).2 r
    (by rw [length_pushValue, length_setParent]; exact hr) hne,
    node_pushValue_ne _ _ _ _ (Ne.symm hne)]
  exact data_setParent h c self r

mutual
theorem toObject_instantiate : ∀ (d : Spec) (h h2 : Heap) (fuel : Nat),
    d.plain = true → d.height ≤ fuel →
    (∀ r, h.length ≤ r → r < h.length + d.size →
      (h2.node r).toFields = ((instantiate h d).1.node r).toFields ∧
      (h2.node r).value = ((instantiate h d).1.node r).value) →
    toObject fuel h2 h.length = some d
  | .node r, _, _, _, hp, _, _ => by simp [Spec.plain] at hp
  | .leaf f, h, h2, fuel, _, hf, hag => by
    cases fuel with
    | zero => simp [Spec.height] at hf
    | succ fuel =>
      obtain ⟨e1, e2⟩ := hag h.length (Nat.le_refl _) (by simp [Spec.size])
      simp only [instantiate, Heap.alloc, node_append_new] at e1 e2
      rw [toObject_leaf fuel h2 h.length (by rw [e2]; rfl), e1]
      rfl
  | .obj f vs, h, h2, fuel, hp, hf, hag => by
    cases fuel with
    | zero => simp [Spec.height] at hf
    | succ fuel =>
      simp only [Spec.plain] at hp
      simp only [Spec.height] at hf
      have hs : h.length < (h ++ [({ f.toNode with value := some [] } : Node)]).length := by simp
      have hroot := fill_self vs (h ++ [({ f.toNode with value := some [] } : Node)]) h.length []
        hs (by rw [node_append_new])
      rw [node_append_new] at hroot
      obtain ⟨e1, e2⟩ := hag h.length (Nat.le_refl _) (by simp only [Spec.size]; omega)
      simp only [instantiate, Heap.alloc] at e1 e2
      rw [hroot] at e1 e2
      have hkids := toObject_fill vs (h ++ [({ f.toNode with value := some [] } : Node)]) h2
        h.length fuel hs hp (by omega)
        (fun r hr1 hr2 => by
          have := hag r (by simp at hr1; omega) (by simp [Spec.size] at hr2 ⊢; omega)
          simpa [instantiate, Heap.alloc] using this)
      simp only [List.nil_append] at e2
      rw [toObject_obj fuel h2 h.length _ vs e2 hkids, e1]
      rfl
theorem toObject_fill : ∀ (vs : List Spec) (h h2 : Heap) (self fuel : Nat),
    self < h.length → Spec.plainAll vs = true → Spec.heights vs ≤ fuel →
    (∀ r, h.length ≤ r → r < h.length + Spec.sizes vs →
      (h2.node r).toFields = ((fill h self vs).node r).toFields ∧
      (h2.node r).value = ((fill h self vs).node r).value) →
    (entryRefs h.length vs).mapM (fun c => toObject fuel h2 c) = some vs
  | [], _, _, _, _, _, _, _, _ => rfl
  | .node r :: vs, _, _, _, _, _, hp, _, _ => by simp [Spec.plainAll, Spec.plain] at hp
  | .leaf f :: vs, h, h2, self, fuel, hs, hp, hf, hag => by
    simp only [Spec.plainAll, Bool.and_eq_true] at hp
    simp only [Spec.heights] at hf
    have hlen : (instantiate h (.leaf f)).1.length = h.length + (Spec.leaf f).size :=
      length_instantiate _ h
    have href := (instantiate_leaf_ref h f).1
    have hhead := toObject_instantiate (.leaf f) h h2 fuel hp.1 (by omega)
      (fun r hr1 hr2 => by
        have h1 := hag r hr1 (by simp only [Spec.sizes]; omega)
        simp only [fill] at h1
        have h2' := node_fill_child vs (instantiate h (.leaf f)).1 self
          (instantiate h (.leaf f)).2 r (by omega) (by omega) (by omega)
        rw [h1.1, h1.2]
        exact h2')
    have htail := toObject_fill vs (pushValue (setParent (instantiate h (.leaf f)).1
        (instantiate h (.leaf f)).2 self) self (instantiate h (.leaf f)).2) h2 self fuel
      (by rw [length_pushValue, length_setParent]; omega) hp.2 (by omega)
      (fun r hr1 hr2 => by
        rw [length_pushValue, length_setParent, hlen] at hr1 hr2
        have h1 := hag r (by omega) (by simp only [Spec.sizes]; omega)
        simpa only [fill] using h1)
    rw [length_pushValue, length_setParent, hlen] at htail
    simp only [entryRefs, List.mapM_cons, hhead, htail]
    rfl
  | .obj f ws :: vs, h, h2, self, fuel, hs, hp, hf, hag => by
    simp only [Spec.plainAll, Bool.and_eq_true] at hp
    simp only [Spec.heights] at hf
    have hlen : (instantiate h (.obj f ws)).1.length = h.length + (Spec.obj f ws).size :=
      length_instantiate _ h
    have hhead := toObject_instantiate (.obj f ws) h h2 fuel hp.1 (by omega)
      (fun r hr1 hr2 => by
        have h1 := hag r hr1 (by simp only [Spec.sizes]; omega)
        simp only [fill] at h1
        have h2' := node_fill_child vs (instantiate h (.obj f ws)).1 self
          (instantiate h (.obj f ws)).2 r (by omega) (by omega) (by omega)
        rw [h1.1, h1.2]
        exact h2')
    have htail := toObject_fill vs (pushValue (setParent (instantiate h (.obj f ws)).1
        (instantiate h (.obj f ws)).2 self) self (instantiate h (.obj f ws)).2) h2 self fuel
      (by rw [length_pushValue, length_setParent]; omega) hp.2 (by omega)
      (fun r hr1 hr2 => by
        rw [length_pushValue, length_setParent, hlen] at hr1 hr2
        have h1 := hag r (by omega) (by simp only [Spec.sizes]; omega)
        simpa only [fill] using h1)
    rw [length_pushValue, length_setParent, hlen] at htail
    simp only [entryRefs, List.mapM_cons, hhead, htail]
    rfl
end

theorem snapshots_eq_map (h : Heap) (ks : List Tree) :
    Tree.snapshots h ks = ks.map (fun k => k.snapshot h) := by
  induction ks with
  | nil => rfl
  | cons k ks ih => simp [Tree.snapshots, ih]

theorem toObject_tree (h : Heap) :
    ∀ (fuel : Nat) (t : Tree), t.fits h = true → t.height ≤ fuel →
      toObject fuel h t.root = some (t.snapshot h) := by
  intro fuel
  induction fuel with
  | zero => intro t _ hf; cases t with | mk r ks => simp [Tree.height] at hf
  | succ fuel ih =>
    intro t hfit hf
    cases t with
    | mk r ks =>
      simp only [Tree.fits, Bool.and_eq_true, decide_eq_true_eq] at hfit
      obtain ⟨hcs, hall⟩ := hfit
      simp only [Tree.height] at hf
      simp only [Tree.root, Tree.snapshot]
      cases hv : (h.node r).value with
      | none => exact toObject_leaf fuel h r hv
      | some cs =>
        have hcs2 : cs = ks.map Tree.root := by
          rw [← hcs]; simp [children, hv]
        refine toObject_obj fuel h r cs _ hv ?_
        rw [hcs2, snapshots_eq_map]
        exact mapM_option_map _ Tree.root (fun k => k.snapshot h) ks
          (fun k hk => ih k (fits_of_fitsAll h ks hall k hk)
            (by have := height_le_heightAll ks k hk; omega))

mutual
theorem snapshot_plain (h : Heap) : ∀ (t : Tree),
    (t.snapshot h).plain = true ∧ (t.snapshot h).height ≤ t.height
  | .mk r ks => by
    simp only [Tree.snapshot, Tree.height]
    cases (h.node r).value with
    | none => simp [Spec.plain, Spec.height]
    | some cs =>
      have := snapshots_plain h ks
      simp only [Spec.plain, Spec.height]
      exact ⟨this.1, by omega⟩
theorem snapshots_plain (h : Heap) : ∀ (ks : List Tree),
    Spec.plainAll (Tree.snapshots h ks) = true ∧
      Spec.heights (Tree.snapshots h ks) ≤ Tree.heightAll ks
  | [] => by simp [Tree.snapshots, Spec.plainAll, Spec.heights]
  | k :: ks => by
    have h1 := snapshot_plain h k
    have h2 := snapshots_plain h ks
    simp only [Tree.snapshots, Spec.plainAll, Spec.heights, Tree.heightAll, Bool.and_eq_true]
    exact ⟨⟨h1.1, h2.1⟩, by omega⟩
end

theorem instantiate_plain_parent (d : Spec) (h : Heap) (hp : d.plain = true) :
    (instantiate h d).2 = h.length ∧
      ((instantiate h d).1.node (instantiate h d).2).parent = none := by
  cases d with
  | node r => simp [Spec.plain] at hp
  | leaf f => simp [instantiate, Heap.alloc, node_append_new, Fields.toNode]
  | obj f vs =>
    have hs : h.length < (h ++ [({ f.toNode with value := some [] } : Node)]).length := by simp
    have hroot := fill_self vs (h ++ [({ f.toNode with value := some [] } : Node)]) h.length []
      hs (by rw [node_append_new])
    simp only [instantiate, Heap.alloc]
    rw [hroot, node_append_new]
    simp [Fields.toNode]

/-- C33. For every node `n` whose part of the heap has the shape of a finite
tree, `n.toObject()` returns a descriptor `d` (fuel at least the height of the
tree gives the result), and on every heap the node `new XmlNode(d)` has the
snapshot `d` again and no parent. -/
theorem toObject_round_trip (h : Heap) (t : Tree) (fuel : Nat)
    (hfit : t.fits h = true) (hfuel : t.height ≤ fuel) :
    ∃ d, toObject fuel h t.root = some d ∧
      ∀ h1 : Heap, toObject fuel (instantiate h1 d).1 (instantiate h1 d).2 = some d ∧
        ((instantiate h1 d).1.node (instantiate h1 d).2).parent = none := by
  refine ⟨t.snapshot h, toObject_tree h fuel t hfit hfuel, fun h1 => ?_⟩
  obtain ⟨hp, hh⟩ := snapshot_plain h t
  obtain ⟨e1, e2⟩ := instantiate_plain_parent (t.snapshot h) h1 hp
  refine ⟨?_, e2⟩
  rw [e1]
  exact toObject_instantiate (t.snapshot h) h1 (instantiate h1 (t.snapshot h)).1 fuel hp
    (by omega) (fun r _ _ => ⟨rfl, rfl⟩)

/-- C33, witness: the tree of the `getPath` test. -/
theorem toObject_round_trip_witness :
    ∃ d, toObject 4 pathTree 0 = some d ∧
      ∀ h1 : Heap, toObject 4 (instantiate h1 d).1 (instantiate h1 d).2 = some d ∧
        ((instantiate h1 d).1.node (instantiate h1 d).2).parent = none :=
  toObject_round_trip pathTree pathShape 4 (by decide) (by decide)

/-- The snapshot of the tree of the `getPath` test. -/
theorem toObject_pathTree :
    toObject 4 pathTree 0 = some (.obj {} [.obj { name := some "base" }
      [.obj { name := some "child" } [.leaf { text := some "text" },
        .leaf { cdata := some "cdata" }, .leaf { comment := some "comment" }],
       .leaf { name := some "second" }]]) := by
  rfl

theorem children_out_of_range (h : Heap) (p : Nat) (hp : h.length ≤ p) : children h p = [] := by
  simp [children, node_out_of_range h p hp]

theorem consistent_iff (h : Heap) :
    consistent h = true ↔ ∀ p c, c ∈ children h p → (h.node c).parent = some p := by
  simp only [consistent, List.all_eq_true, List.mem_range, beq_iff_eq]
  constructor
  · intro hc p c hmem
    by_cases hp : p < h.length
    · exact hc p hp c hmem
    · rw [children_out_of_range h p (by omega)] at hmem
      simp at hmem
  · intro hc p _ c hmem
    exact hc p c hmem

theorem listed_eq_false (h : Heap) (c : Nat) :
    listed h c = false ↔ ∀ q, c ∉ children h q := by
  simp only [listed, List.any_eq_false, List.mem_range, decide_eq_true_eq]
  constructor
  · intro hl q hmem
    by_cases hq : q < h.length
    · exact hl q hq hmem
    · rw [children_out_of_range h q (by omega)] at hmem
      simp at hmem
  · intro hl q _
    exact hl q

theorem mem_spliceInsert (cs : List Nat) (i : Int) (c x : Nat) :
    x ∈ spliceInsert cs i c ↔ x = c ∨ x ∈ cs := by
  unfold spliceInsert
  rw [List.mem_append, List.mem_cons]
  constructor
  · rintro (h1 | h1 | h1)
    · exact Or.inr (List.mem_of_mem_take h1)
    · exact Or.inl h1
    · exact Or.inr (List.mem_of_mem_drop h1)
  · rintro (h1 | h1)
    · exact Or.inr (Or.inl h1)
    · rw [← List.take_append_drop (spliceStart cs.length i) cs, List.mem_append] at h1
      rcases h1 with h1 | h1
      · exact Or.inl h1
      · exact Or.inr (Or.inr h1)

theorem parent_attachChild_ne (h : Heap) (p c r : Nat) (index : Option Int) (hne : r ≠ c) :
    ((attachChild h p c index).node r).parent = (h.node r).parent := by
  have hs : ((setParent h c p).node r).parent = (h.node r).parent := by
    rw [node_setParent_ne _ _ _ _ (Ne.symm hne)]
  cases index with
  | none => simp only [attachChild, pushValue]; rw [parent_setValue, hs]
  | some i =>
    simp only [attachChild]
    by_cases hi : 0 ≤ i
    · simp only [hi, if_true]; rw [parent_setValue, hs]
    · simp only [hi, if_false]; exact hs

theorem children_attachChild_ne (h : Heap) (p c q : Nat) (index : Option Int) (hq : q ≠ p) :
    children (attachChild h p c index) q = children h q := by
  have hs : children (setParent h c p) q = children h q := by
    by_cases hqc : c = q
    · subst hqc
      by_cases hc : c < h.length
      · simp [children, setParent, node_put_self _ _ _ hc]
      · simp [children, setParent, put_out_of_range _ _ _ (by omega : h.length ≤ c)]
    · exact children_put_ne _ _ _ _ hqc
  cases index with
  | none =>
    simp only [attachChild, pushValue, setValue]
    rw [children_put_ne _ _ _ _ (Ne.symm hq), hs]
  | some i =>
    simp only [attachChild]
    by_cases hi : 0 ≤ i
    · simp only [hi, if_true, setValue]
      rw [children_put_ne _ _ _ _ (Ne.symm hq), hs]
    · simp only [hi, if_false]; exact hs

/-- Attaching a node that no children list holds keeps the consistency of
parents and children, and the node is listed by its new parent. -/
theorem attachChild_consistent (h : Heap) (p c : Nat) (index : Option Int)
    (hc : ∀ q x, x ∈ children h q → (h.node x).parent = some q)
    (hp : p < h.length) (hcl : c < h.length) (hne : c ≠ p)
    (hun : ∀ q, c ∉ children h q) (hi : indexOk index = true) :
    (∀ q x, x ∈ children (attachChild h p c index) q →
        ((attachChild h p c index).node x).parent = some q) ∧
      c ∈ children (attachChild h p c index) p := by
  have hcs := children_attachChild h p c index hp hne
  have hmem : ∀ x, x ∈ children (attachChild h p c index) p ↔ x = c ∨ x ∈ children h p := by
    intro x
    rw [hcs]
    cases index with
    | none => simp [or_comm]
    | some i =>
      have h0 : 0 ≤ i := by simpa [indexOk] using hi
      simp only [h0, if_true]
      exact mem_spliceInsert _ _ _ _
  refine ⟨fun q x hx => ?_, (hmem c).mpr (Or.inl rfl)⟩
  by_cases hq : q = p
  · subst hq
    rcases (hmem x).mp hx with h1 | h1
    · subst h1
      rw [node_attachChild_child h q x index hcl hne]
    · have hxc : x ≠ c := fun heq => hun q (heq ▸ h1)
      rw [parent_attachChild_ne h q c x index hxc]
      exact hc q x h1
  · rw [children_attachChild_ne h p c q index hq] at hx
    have hxc : x ≠ c := fun heq => hun q (heq ▸ hx)
    rw [parent_attachChild_ne h p c x index hxc]
    exact hc q x hx

/-- A change of the heap that keeps every parent and every children list
keeps the consistency. -/
theorem consistent_of_links (h h1 : Heap)
    (hl : ∀ r, (h1.node r).parent = (h.node r).parent ∧ children h1 r = children h r)
    (hc : ∀ q x, x ∈ children h q → (h.node x).parent = some q) :
    ∀ q x, x ∈ children h1 q → (h1.node x).parent = some q := by
  intro q x hx
  rw [(hl q).2] at hx
  rw [(hl x).1]
  exact hc q x hx

theorem links_initValue (h : Heap) (p : Nat) :
    ∀ r, ((initValue h p).node r).parent = (h.node r).parent ∧
      children (initValue h p) r = children h r :=
  fun r => ⟨parent_initValue h p r, children_initValue h p r⟩

/-- Allocating a node without children keeps the consistency. -/
theorem alloc_consistent (h : Heap) (n : Node) (hn : n.value.getD [] = [])
    (hc : ∀ q x, x ∈ children h q → (h.node x).parent = some q) :
    ∀ q x, x ∈ children (h ++ [n]) q → ((h ++ [n]).node x).parent = some q := by
  intro q x hx
  by_cases hq : q < h.length
  · have hx2 : x ∈ children h q := by
      simpa [children, node_append_lt h [n] q hq] using hx
    have hxl : x < h.length := valid_of_parent h x q (hc q x hx2)
    rw [node_append_lt h [n] x hxl]
    exact hc q x hx2
  · by_cases hq2 : q = h.length
    · subst hq2
      simp [children, node_append_new, hn] at hx
    · rw [children_out_of_range _ q (by simp; omega)] at hx
      simp at hx

theorem unlisted_of_no_parent (h : Heap) (c : Nat)
    (hc : ∀ q x, x ∈ children h q → (h.node x).parent = some q)
    (hpar : (h.node c).parent = none) : ∀ q, c ∉ children h q := by
  intro q hmem
  rw [hc q c hmem] at hpar
  cases hpar

mutual
theorem instantiate_consistent : ∀ (d : Spec) (h : Heap), d.plain = true →
    (∀ q x, x ∈ children h q → (h.node x).parent = some q) →
    ∀ q x, x ∈ children (instantiate h d).1 q → ((instantiate h d).1.node x).parent = some q
  | .node r, _, hp, _ => by simp [Spec.plain] at hp
  | .leaf f, h, _, hc => by
    simp only [instantiate, Heap.alloc]
    exact alloc_consistent h f.toNode rfl hc
  | .obj f vs, h, hp, hc => by
    simp only [Spec.plain] at hp
    simp only [instantiate, Heap.alloc]
    exact fill_consistent vs (h ++ [({ f.toNode with value := some [] } : Node)]) h.length hp
      (by simp) (alloc_consistent h _ rfl hc)
theorem fill_consistent : ∀ (vs : List Spec) (h : Heap) (self : Nat),
    Spec.plainAll vs = true → self < h.length →
    (∀ q x, x ∈ children h q → (h.node x).parent = some q) →
    ∀ q x, x ∈ children (fill h self vs) q → ((fill h self vs).node x).parent = some q
  | [], h, self, _, _, hc => by simpa [fill] using hc
  | .node r :: vs, _, _, hp, _, _ => by simp [Spec.plainAll, Spec.plain] at hp
  | .leaf f :: vs, h, self, hp, hs, hc => by
    simp only [Spec.plainAll, Bool.and_eq_true] at hp
    have h1 := instantiate_consistent (.leaf f) h hp.1 hc
    obtain ⟨e1, e2⟩ := instantiate_plain_parent (.leaf f) h hp.1
    have hlen := length_instantiate (.leaf f) h
    have h2 := (attachChild_consistent (instantiate h (.leaf f)).1 self
      (instantiate h (.leaf f)).2 none h1 (by omega)
      (by rw [e1, hlen]; simp [Spec.size]) (by omega)
      (unlisted_of_no_parent _ _ h1 e2) rfl).1
    simp only [fill]
    exact fill_consistent vs _ self hp.2
      (by rw [length_pushValue, length_setParent]; omega) h2
  | .obj f ws :: vs, h, self, hp, hs, hc => by
    simp only [Spec.plainAll, Bool.and_eq_true] at hp
    have h1 := instantiate_consistent (.obj f ws) h hp.1 hc
    obtain ⟨e1, e2⟩ := instantiate_plain_parent (.obj f ws) h hp.1
    have hlen := length_instantiate (.obj f ws) h
    have h2 := (attachChild_consistent (instantiate h (.obj f ws)).1 self
      (instantiate h (.obj f ws)).2 none h1 (by omega)
      (by rw [e1, hlen]; simp [Spec.size]) (by omega)
      (unlisted_of_no_parent _ _ h1 e2) rfl).1
    simp only [fill]
    exact fill_consistent vs _ self hp.2
      (by rw [length_pushValue, length_setParent]; omega) h2
end

/-- Attaching a node allocated on top of the heap. -/
theorem attach_new_consistent (h : Heap) (p : Nat) (n : Node) (index : Option Int)
    (hn : n.value.getD [] = []) (hnp : n.parent = none)
    (hc : ∀ q x, x ∈ children h q → (h.node x).parent = some q)
    (hp : p < h.length) (hi : indexOk index = true) :
    (∀ q x, x ∈ children (attachChild (h ++ [n]) p h.length index) q →
        ((attachChild (h ++ [n]) p h.length index).node x).parent = some q) ∧
      h.length ∈ children (attachChild (h ++ [n]) p h.length index) p := by
  have h1 := alloc_consistent h n hn hc
  exact attachChild_consistent (h ++ [n]) p h.length index h1 (by simp; omega) (by simp)
    (by omega) (unlisted_of_no_parent _ _ h1 (by rw [node_append_new]; exact hnp)) hi

/-- The method `addChild` keeps the consistency of parents and children when
the child is not attached anywhere and the index is omitted or not negative. -/
theorem addChild_consistent (h : Heap) (p : Nat) (child : Child) (index : Option Int)
    (hc : ∀ q x, x ∈ children h q → (h.node x).parent = some q)
    (hp : p < h.length) (hf : child.fresh h p = true) (hi : indexOk index = true) :
    (∀ q x, x ∈ children (addChild h p child index).1 q →
        ((addChild h p child index).1.node x).parent = some q) ∧
      (child.addable h p = true → child.ref h ∈ children (addChild h p child index).1 p) := by
  have hc0 := consistent_of_links h (initValue h p) (links_initValue h p) hc
  have hp0 : p < (initValue h p).length := by rw [length_initValue]; exact hp
  have hl0 : (initValue h p).length = h.length := length_initValue h p
  cases child with
  | undefined => exact ⟨by simpa [addChild] using hc, by simp [Child.addable]⟩
  | null => exact ⟨by simpa [addChild] using hc, by simp [Child.addable]⟩
  | name s =>
    by_cases hs : s = ""
    · subst hs
      exact ⟨by simpa [addChild] using hc, by simp [Child.addable]⟩
    · have := attach_new_consistent (initValue h p) p
        { name := some s, attributes := none, parent := none } index rfl rfl hc0 hp0 hi
      simp only [addChild, hs, if_false, newNode, Heap.alloc, Child.ref]
      rw [hl0] at this ⊢
      exact ⟨this.1, fun _ => this.2⟩
  | spec d =>
    cases d with
    | node r =>
      simp only [Child.fresh, Bool.and_eq_true, decide_eq_true_eq, Bool.not_eq_true'] at hf
      obtain ⟨⟨hne, hr⟩, hun⟩ := hf
      have hun0 : ∀ q, r ∉ children (initValue h p) q := by
        intro q; rw [children_initValue]; exact (listed_eq_false h r).mp hun q
      have := attachChild_consistent (initValue h p) p r index hc0 hp0 (by omega) hne hun0 hi
      simp only [addChild, hne, if_false, Child.ref]
      exact ⟨this.1, fun _ => this.2⟩
    | leaf f =>
      have := attach_new_consistent (initValue h p) p f.toNode index rfl rfl hc0 hp0 hi
      simp only [addChild, instantiate, Heap.alloc, Child.ref]
      rw [hl0] at this ⊢
      exact ⟨this.1, fun _ => this.2⟩
    | obj f vs =>
      simp only [Child.fresh] at hf
      have h1 := instantiate_consistent (.obj f vs) (initValue h p) hf hc0
      obtain ⟨e1, e2⟩ := instantiate_plain_parent (.obj f vs) (initValue h p) hf
      have hlen := length_instantiate (.obj f vs) (initValue h p)
      have := attachChild_consistent (instantiate (initValue h p) (.obj f vs)).1 p
        (instantiate (initValue h p) (.obj f vs)).2 index h1 (by omega)
        (by rw [e1, hlen]; simp [Spec.size]) (by omega)
        (unlisted_of_no_parent _ _ h1 e2) hi
      simp only [addChild, Child.ref]
      rw [e1, hl0] at this
      rw [e1, hl0]
      exact ⟨this.1, fun _ => this.2⟩

/-- Adding a node allocated for the call (a Text, Comment or CData node). -/
theorem addChild_new_consistent (h : Heap) (p : Nat) (n : Node) (index : Option Int)
    (hn : n.value.getD [] = []) (hnp : n.parent = none)
    (hc : ∀ q x, x ∈ children h q → (h.node x).parent = some q)
    (hp : p < h.length) (hi : indexOk index = true) :
    ∀ q x, x ∈ children (addChild (h ++ [n]) p (.spec (.node h.length)) index).1 q →
      ((addChild (h ++ [n]) p (.spec (.node h.length)) index).1.node x).parent = some q := by
  have h1 := alloc_consistent h n hn hc
  refine (addChild_consistent (h ++ [n]) p (.spec (.node h.length)) index h1
    (by simp; omega) ?_ hi).1
  simp only [Child.fresh, Bool.and_eq_true, decide_eq_true_eq, Bool.not_eq_true']
  refine ⟨⟨by omega, by simp⟩, ?_⟩
  rw [listed_eq_false]
  exact unlisted_of_no_parent _ _ h1 (by rw [node_append_new]; exact hnp)

theorem addText_consistent (h : Heap) (p : Nat) (text : String) (index : Option Int)
    (hc : ∀ q x, x ∈ children h q → (h.node x).parent = some q)
    (hp : p < h.length) (hi : indexOk index = true) :
    ∀ q x, x ∈ children (addText h p text index).1 q →
      ((addText h p text index).1.node x).parent = some q := by
  have hc0 := consistent_of_links h (initValue h p) (links_initValue h p) hc
  have hp0 : p < (initValue h p).length := by rw [length_initValue]; exact hp
  have hnew := addChild_new_consistent (initValue h p) p { text := some text } index rfl rfl
    hc0 hp0 hi
  have hnew2 : ∀ q x,
      x ∈ children (addChild (newTextNode (initValue h p) text).1 p
        (.spec (.node (newTextNode (initValue h p) text).2)) index).1 q →
      ((addChild (newTextNode (initValue h p) text).1 p
        (.spec (.node (newTextNode (initValue h p) text).2)) index).1.node x).parent = some q := by
    rw [newTextNode_eq]
    exact hnew
  unfold addText
  cases hl : (children (initValue h p) p).getLast? with
  | none => exact hnew2
  | some last =>
    simp only []
    by_cases ht : truthy ((initValue h p).node last).text = true
    · simp only [ht, if_true]
      refine consistent_of_links (initValue h p) _ (fun r => ⟨parent_put _ _ _ _ rfl, ?_⟩) hc0
      simp only [children]
      by_cases hr : last = r
      · subst hr
        by_cases hlen : last < (initValue h p).length
        · rw [node_put_self _ _ _ hlen]
        · rw [put_out_of_range _ _ _ (by omega)]
      · rw [node_put_ne _ _ _ _ hr]
    · simp only [ht, Bool.false_eq_true, if_false]
      exact hnew2

theorem getIndex_nonneg (h : Heap) (c : Nat) (i : Int) (hg : getIndex h c = .ok i)
    (hi : ¬ i < 0) : ∃ p, (h.node c).parent = some p ∧ c ∈ children h p := by
  unfold getIndex at hg
  by_cases hr : isRoot h c = true
  · simp only [hr, if_true, Except.ok.injEq] at hg
    omega
  · simp only [hr, Bool.false_eq_true, if_false] at hg
    cases hpar : (h.node c).parent with
    | none => rw [hpar] at hg; cases hg
    | some p =>
      rw [hpar] at hg
      simp only [Except.ok.injEq] at hg
      refine ⟨p, rfl, ?_⟩
      by_contra hmem
      simp [indexOf, hmem] at hg
      omega

theorem siblingNode_fresh (h : Heap) (p : Nat) (x : Child) (hp : p < h.length)
    (hc : ∀ q y, y ∈ children h q → (h.node y).parent = some q)
    (hf : x.fresh h p = true) :
    (∀ q y, y ∈ children (siblingNode h x).1 q →
        ((siblingNode h x).1.node y).parent = some q) ∧
      (siblingNode h x).2.fresh (siblingNode h x).1 p = true ∧
      h.length ≤ (siblingNode h x).1.length ∧
      (∀ r, r < h.length → (siblingNode h x).1.node r = h.node r) := by
  have hdesc : ∀ d : Spec, d.plain = true →
      (∀ q y, y ∈ children (instantiate h d).1 q →
        ((instantiate h d).1.node y).parent = some q) ∧
      (Child.spec (.node (instantiate h d).2)).fresh (instantiate h d).1 p = true ∧
      h.length ≤ (instantiate h d).1.length ∧
      (∀ r, r < h.length → (instantiate h d).1.node r = h.node r) := by
    intro d hd
    have h1 := instantiate_consistent d h hd hc
    obtain ⟨e1, e2⟩ := instantiate_plain_parent d h hd
    obtain ⟨e3, e4⟩ := instantiate_frame d h
    have hlen := length_instantiate d h
    have hsize : 0 < d.size := by
      cases d with
      | node r => simp [Spec.plain] at hd
      | leaf f => simp [Spec.size]
      | obj f vs => simp [Spec.size]
    refine ⟨h1, ?_, e3, e4⟩
    simp only [Child.fresh, Bool.and_eq_true, decide_eq_true_eq, Bool.not_eq_true']
    refine ⟨⟨by omega, by omega⟩, ?_⟩
    rw [listed_eq_false]
    exact unlisted_of_no_parent _ _ h1 e2
  cases x with
  | undefined => exact ⟨hc, hf, Nat.le_refl _, fun _ _ => rfl⟩
  | null => exact ⟨hc, hf, Nat.le_refl _, fun _ _ => rfl⟩
  | name s => exact ⟨hc, hf, Nat.le_refl _, fun _ _ => rfl⟩
  | spec d =>
    cases d with
    | node r => exact ⟨hc, hf, Nat.le_refl _, fun _ _ => rfl⟩
    | leaf f => exact hdesc (.leaf f) rfl
    | obj f vs => exact hdesc (.obj f vs) (by simpa [Child.fresh, Spec.plain] using hf)

theorem insert_consistent (h : Heap) (c : Nat) (x : Child) (before : Bool)
    (hc : ∀ q y, y ∈ children h q → (h.node y).parent = some q)
    (hf : ∀ p, (h.node c).parent = some p → x.fresh h p = true) :
    ∀ q y, y ∈ children (insert h c x before).1 q →
      ((insert h c x before).1.node y).parent = some q := by
  unfold insert
  cases hg : getIndex h c with
  | error e => exact hc
  | ok i =>
    simp only []
    by_cases hi : i < 0
    · simp only [hi, if_true]; exact hc
    · simp only [hi, if_false]
      obtain ⟨p, hpar, hmem⟩ := getIndex_nonneg h c i hg hi
      have hp : p < h.length := valid_of_mem_children h p c hmem
      have hcl : c < h.length := valid_of_parent h c p hpar
      obtain ⟨h1, h2, h3, h4⟩ := siblingNode_fresh h p x hp hc (hf p hpar)
      have hpar1 : ((siblingNode h x).1.node c).parent = some p := by rw [h4 c hcl]; exact hpar
      have hmem1 : c ∈ children (siblingNode h x).1 p := by
        simp only [children]; rw [h4 p hp]; exact hmem
      have hplace := placeSibling_attached (siblingNode h x).1 c p (siblingNode h x).2 before
        hpar1 hmem1
      have hidx : indexOk (some (((children (siblingNode h x).1 p).indexOf c : Int)
          + (if (before && !decide (((children (siblingNode h x).1 p).indexOf c : Int) < 1))
              then 0 else 1))) = true := by
        simp only [indexOk, decide_eq_true_eq]
        split <;> omega
      have hres := (addChild_consistent (siblingNode h x).1 p (siblingNode h x).2 _ h1
        (by omega) h2 hidx).1
      rw [← hplace] at hres
      cases x with
      | null => exact hc
      | undefined => exact hres
      | name s => exact hres
      | spec d => exact hres

/-- In a consistent heap no node is held by the children lists of two
different nodes. -/
theorem consistent_one_parent (h : Heap) (hc : consistent h = true) (p q c : Nat)
    (hp : c ∈ children h p) (hq : c ∈ children h q) : p = q := by
  have h1 := (consistent_iff h).mp hc p c hp
  have h2 := (consistent_iff h).mp hc q c hq
  rw [h1] at h2
  exact Option.some.inj h2

theorem parentsListed_of_grown (h h1 : Heap) (hg : h.grown h1) : parentsListed h h1 = true := by
  unfold parentsListed
  rw [List.all_eq_true]
  intro x _
  cases hp : (h1.node x).parent with
  | none => rfl
  | some q =>
    simp only [Bool.or_eq_true, beq_iff_eq, decide_eq_true_eq]
    exact hg.1 x q hp

theorem grown_refl (h : Heap) : h.grown h :=
  ⟨fun _ _ hp => Or.inl hp, fun _ _ hx => hx⟩

theorem grown_trans (h h1 h2 : Heap) (h01 : h.grown h1) (h12 : h1.grown h2) : h.grown h2 := by
  refine ⟨fun x q hp => ?_, fun q x hx => h12.2 q x (h01.2 q x hx)⟩
  rcases h12.1 x q hp with h1p | hm
  · rcases h01.1 x q h1p with h0p | hm
    · exact Or.inl h0p
    · exact Or.inr (h12.2 q x hm)
  · exact Or.inr hm

/-- A step that keeps the parents and keeps or extends the children lists. -/
theorem grown_of_links (h h1 : Heap)
    (hp : ∀ r, (h1.node r).parent = (h.node r).parent)
    (hc : ∀ q x, x ∈ children h q → x ∈ children h1 q) : h.grown h1 :=
  ⟨fun x q hx => Or.inl (by rw [← hp x]; exact hx), hc⟩

theorem grown_initValue (h : Heap) (p : Nat) : h.grown (initValue h p) :=
  grown_of_links h _ (fun r => parent_initValue h p r)
    (fun q x hx => by rw [children_initValue]; exact hx)

theorem grown_alloc (h : Heap) (n : Node) (hn : n.parent = none) : h.grown (h ++ [n]) := by
  refine grown_of_links h _ (fun r => ?_) (fun q x hx => ?_)
  · rcases Nat.lt_trichotomy r h.length with hr | hr | hr
    · rw [node_append_lt _ _ _ hr]
    · subst hr
      rw [node_append_new, node_out_of_range h _ (Nat.le_refl _), hn]
    · rw [node_out_of_range h _ (by omega), node_out_of_range _ _ (by simp; omega)]
  · have hq := valid_of_mem_children h q x hx
    simp only [children] at hx ⊢
    rw [node_append_lt _ _ _ hq]
    exact hx

theorem parent_setValue_eq (h : Heap) (r r1 : Nat) (cs : List Nat) :
    ((setValue h r cs).node r1).parent = (h.node r1).parent :=
  parent_put _ _ _ _ rfl

theorem mem_children_setValue (h : Heap) (r : Nat) (cs : List Nat)
    (hsub : ∀ x, x ∈ children h r → x ∈ cs) :
    ∀ q x, x ∈ children h q → x ∈ children (setValue h r cs) q := by
  intro q x hx
  by_cases hq : r = q
  · subst hq
    have hr := valid_of_mem_children h r x hx
    rw [children_setValue_self _ _ _ hr]
    exact hsub x hx
  · simp only [children] at hx ⊢
    rw [node_setValue_ne _ _ _ _ hq]
    exact hx

theorem grown_pushValue (h : Heap) (self c : Nat) : h.grown (pushValue h self c) :=
  grown_of_links h _ (fun r => parent_setValue_eq h self r _)
    (mem_children_setValue h self _ (fun x hx => by simp [hx]))

/-- The statements `child.parent = self; self.value.push(child)` of the
constructor's loop, and the last statements of `addChild` with an index that is
omitted or not negative. -/
theorem grown_attachChild (h : Heap) (p c : Nat) (index : Option Int)
    (hp : p < h.length) (hne : c ≠ p) (hi : indexOk index = true) :
    h.grown (attachChild h p c index) := by
  have hcs := children_attachChild h p c index hp hne
  have hin : c ∈ children (attachChild h p c index) p := by
    rw [hcs]
    cases index with
    | none => simp
    | some i =>
      have : 0 ≤ i := by simpa [indexOk] using hi
      simp only [this, if_true]
      exact (mem_spliceInsert _ _ _ _).mpr (Or.inl rfl)
  refine ⟨fun x q hx => ?_, fun q x hx => ?_⟩
  · by_cases hxc : x = c
    · subst hxc
      by_cases hlen : x < h.length
      · rw [node_attachChild_child h p x index hlen hne] at hx
        simp only [Option.some.injEq] at hx
        subst hx
        exact Or.inr hin
      · rw [node_out_of_range _ _ (by rw [length_attachChild]; omega)] at hx
        cases hx
    · rw [parent_attachChild_ne h p c x index hxc] at hx
      exact Or.inl hx
  · by_cases hq : q = p
    · subst hq
      rw [hcs]
      cases index with
      | none => simp [hx]
      | some i =>
        have : 0 ≤ i := by simpa [indexOk] using hi
        simp only [this, if_true]
        exact (mem_spliceInsert _ _ _ _).mpr (Or.inr hx)
    · rw [children_attachChild_ne h p c q index hq]
      exact hx

theorem attachChild_none (h : Heap) (p c : Nat) :
    attachChild h p c none = pushValue (setParent h c p) p c := rfl

mutual
theorem instantiate_grown : ∀ (d : Spec) (h : Heap), h.grown (instantiate h d).1
  | .node r, h => grown_refl h
  | .leaf f, h => grown_alloc h f.toNode rfl
  | .obj f vs, h => by
    simp only [instantiate, Heap.alloc]
    exact grown_trans _ _ _ (grown_alloc h _ rfl)
      (fill_grown vs (h ++ [{ f.toNode with value := some [] }]) h.length (by simp))
theorem fill_grown : ∀ (vs : List Spec) (h : Heap) (self : Nat), self < h.length →
    h.grown (fill h self vs)
  | [], h, _, _ => grown_refl h
  | .node r :: vs, h, self, hs => by
    simp only [fill]
    exact grown_trans _ _ _ (grown_pushValue h self r)
      (fill_grown vs _ self (by rw [length_pushValue]; exact hs))
  | .leaf f :: vs, h, self, hs => by
    simp only [fill]
    have h1 := instantiate_grown (.leaf f) h
    have hl := length_instantiate (.leaf f) h
    have hr := instantiate_leaf_ref h f
    have h2 := grown_attachChild (instantiate h (.leaf f)).1 self (instantiate h (.leaf f)).2
      none (by omega) (by rw [hr.1]; omega) rfl
    rw [attachChild_none] at h2
    exact grown_trans _ _ _ (grown_trans _ _ _ h1 h2)
      (fill_grown vs _ self (by rw [length_pushValue, length_setParent]; omega))
  | .obj f ws :: vs, h, self, hs => by
    simp only [fill]
    have h1 := instantiate_grown (.obj f ws) h
    have hl := length_instantiate (.obj f ws) h
    have hr := instantiate_obj_ref h f ws
    have h2 := grown_attachChild (instantiate h (.obj f ws)).1 self
      (instantiate h (.obj f ws)).2 none (by omega) (by rw [hr.1]; omega) rfl
    rw [attachChild_none] at h2
    exact grown_trans _ _ _ (grown_trans _ _ _ h1 h2)
      (fill_grown vs _ self (by rw [length_pushValue, length_setParent]; omega))
end

/-- The method `addChild` with an index that is omitted or not negative: every
parent reference it sets is matched by a membership. -/
theorem addChild_grown (h : Heap) (p : Nat) (child : Child) (index : Option Int)
    (hp : p < h.length) (hi : indexOk index = true) : h.grown (addChild h p child index).1 := by
  have h0 := grown_initValue h p
  have hl0 : (initValue h p).length = h.length := length_initValue h p
  cases child with
  | undefined => exact grown_refl h
  | null => exact grown_refl h
  | name s =>
    by_cases hs : s = ""
    · simp only [addChild, hs, if_true]; exact grown_refl h
    · simp only [addChild, hs, if_false, newNode, Heap.alloc]
      exact grown_trans _ _ _ h0 (grown_trans _ _ _ (grown_alloc _ _ rfl)
        (grown_attachChild _ p _ index (by simp; omega) (by omega) hi))
  | spec d =>
    cases d with
    | node r =>
      by_cases hr : r = p
      · simp only [addChild, hr, if_true]; exact h0
      · simp only [addChild, hr, if_false]
        exact grown_trans _ _ _ h0 (grown_attachChild _ p r index (by omega) hr hi)
    | leaf f =>
      simp only [addChild]
      have hr := instantiate_leaf_ref (initValue h p) f
      exact grown_trans _ _ _ h0 (grown_trans _ _ _ (instantiate_grown (.leaf f) _)
        (grown_attachChild _ p _ index (by omega) (by rw [hr.1]; omega) hi))
    | obj f vs =>
      simp only [addChild]
      have hr := instantiate_obj_ref (initValue h p) f vs
      exact grown_trans _ _ _ h0 (grown_trans _ _ _ (instantiate_grown (.obj f vs) _)
        (grown_attachChild _ p _ index (by omega) (by rw [hr.1]; omega) hi))

/-- Adding a node allocated for the call (a Text, Comment or CData node): the
node is a member of the children list and has the parent. -/
theorem addChild_new_grown (h : Heap) (p : Nat) (n : Node) (index : Option Int)
    (hnp : n.parent = none) (hp : p < h.length) (hi : indexOk index = true) :
    h.grown (addChild (h ++ [n]) p (.spec (.node h.length)) index).1 ∧
      h.length ∈ children (addChild (h ++ [n]) p (.spec (.node h.length)) index).1 p ∧
      ((addChild (h ++ [n]) p (.spec (.node h.length)) index).1.node h.length).parent =
        some p := by
  have hg := grown_trans _ _ _ (grown_alloc h n hnp)
    (addChild_grown (h ++ [n]) p (.spec (.node h.length)) index (by simp; omega) hi)
  have hpar : ((addChild (h ++ [n]) p (.spec (.node h.length)) index).1.node h.length).parent =
      some p := by
    have hne : h.length ≠ p := by omega
    simp only [addChild, hne, if_false]
    rw [node_attachChild_child _ p h.length index (by rw [length_initValue]; simp) hne]
  refine ⟨hg, ?_, hpar⟩
  rcases hg.1 _ _ hpar with h0 | hm
  · rw [node_out_of_range h _ (Nat.le_refl _)] at h0
    cases h0
  · exact hm

theorem addText_grown (h : Heap) (p : Nat) (text : String) (index : Option Int)
    (hp : p < h.length) (hi : indexOk index = true) : h.grown (addText h p text index).1 := by
  have h0 := grown_initValue h p
  have hp0 : p < (initValue h p).length := by rw [length_initValue]; exact hp
  have hnew : h.grown (addChild (newTextNode (initValue h p) text).1 p
      (.spec (.node (newTextNode (initValue h p) text).2)) index).1 := by
    rw [newTextNode_eq]
    exact grown_trans _ _ _ h0
      (addChild_new_grown (initValue h p) p { text := some text } index rfl hp0 hi).1
  unfold addText
  cases hl : (children (initValue h p) p).getLast? with
  | none => exact hnew
  | some last =>
    simp only []
    by_cases ht : truthy ((initValue h p).node last).text = true
    · simp only [ht, if_true]
      refine grown_trans _ _ _ h0 (grown_of_links _ _ (fun r => parent_put _ _ _ _ rfl)
        (fun q x hx => ?_))
      simp only [children] at hx ⊢
      by_cases hr : last = q
      · subst hr
        by_cases hlen : last < (initValue h p).length
        · rw [node_put_self _ _ _ hlen]; exact hx
        · rw [put_out_of_range _ _ _ (by omega)]; exact hx
      · rw [node_put_ne _ _ _ _ hr]; exact hx
    · simp only [ht, Bool.false_eq_true, if_false]
      exact hnew

theorem siblingNode_grown (h : Heap) (x : Child) :
    h.grown (siblingNode h x).1 ∧ h.length ≤ (siblingNode h x).1.length ∧
      (∀ r, r < h.length → (siblingNode h x).1.node r = h.node r) := by
  cases x with
  | undefined => exact ⟨grown_refl h, Nat.le_refl _, fun _ _ => rfl⟩
  | null => exact ⟨grown_refl h, Nat.le_refl _, fun _ _ => rfl⟩
  | name s => exact ⟨grown_refl h, Nat.le_refl _, fun _ _ => rfl⟩
  | spec d =>
    cases d with
    | node r => exact ⟨grown_refl h, Nat.le_refl _, fun _ _ => rfl⟩
    | leaf f => exact ⟨instantiate_grown (.leaf f) h, instantiate_frame (.leaf f) h⟩
    | obj f vs => exact ⟨instantiate_grown (.obj f vs) h, instantiate_frame (.obj f vs) h⟩

theorem insert_grown (h : Heap) (c : Nat) (x : Child) (before : Bool) :
    h.grown (insert h c x before).1 := by
  unfold insert
  cases hg : getIndex h c with
  | error e => exact grown_refl h
  | ok i =>
    simp only []
    by_cases hi : i < 0
    · simp only [hi, if_true]; exact grown_refl h
    · simp only [hi, if_false]
      obtain ⟨p, hpar, hmem⟩ := getIndex_nonneg h c i hg hi
      have hp : p < h.length := valid_of_mem_children h p c hmem
      have hcl : c < h.length := valid_of_parent h c p hpar
      obtain ⟨h1, h3, h4⟩ := siblingNode_grown h x
      have hpar1 : ((siblingNode h x).1.node c).parent = some p := by rw [h4 c hcl]; exact hpar
      have hmem1 : c ∈ children (siblingNode h x).1 p := by
        simp only [children]; rw [h4 p hp]; exact hmem
      have hplace := placeSibling_attached (siblingNode h x).1 c p (siblingNode h x).2 before
        hpar1 hmem1
      have hidx : indexOk (some (((children (siblingNode h x).1 p).indexOf c : Int)
          + (if (before && !decide (((children (siblingNode h x).1 p).indexOf c : Int) < 1))
              then 0 else 1))) = true := by
        simp only [indexOk, decide_eq_true_eq]
        split <;> omega
      have hres := grown_trans _ _ _ h1
        (addChild_grown (siblingNode h x).1 p (siblingNode h x).2 _ (by omega) hidx)
      rw [← hplace] at hres
      cases x with
      | null => exact grown_refl h
      | undefined => exact hres
      | name s => exact hres
      | spec d => exact hres

/-- C30 (amended). From a heap in which every member of every children list
has the listing node as its parent, each of these calls on a node `p` leaves
such a heap, in which moreover every node whose parent reference was set by
the call is a member of the children list of that parent: `addChild` with a
child that is not attached anywhere (a name, a descriptor without instances,
or a node other than `p` that no children list holds) and an index that is
omitted or not negative, after which the child is a member of the list of `p`
and has the parent `p`; `addText` with such an index; `addComment` and
`addCData` with such an index, after which the new node is a member of the
list of `p` and has the parent `p`; `insert` of a sibling that is not attached
anywhere. -/
theorem mutation_keeps_consistency (h : Heap) (p : Nat)
    (hc : consistent h = true) (hp : p < h.length) :
    (∀ child index, Child.fresh h p child = true → indexOk index = true →
      consistent (addChild h p child index).1 = true ∧
      parentsListed h (addChild h p child index).1 = true ∧
      (Child.addable h p child = true →
        Child.ref h child ∈ children (addChild h p child index).1 p ∧
        ((addChild h p child index).1.node (Child.ref h child)).parent = some p)) ∧
    (∀ text index, indexOk index = true →
      consistent (addText h p text index).1 = true ∧
      parentsListed h (addText h p text index).1 = true) ∧
    (∀ comment index, indexOk index = true →
      consistent (addComment h p comment index).1 = true ∧
      parentsListed h (addComment h p comment index).1 = true ∧
      h.length ∈ children (addComment h p comment index).1 p ∧
      ((addComment h p comment index).1.node h.length).parent = some p) ∧
    (∀ cdata index, indexOk index = true →
      consistent (addCData h p cdata index).1 = true ∧
      parentsListed h (addCData h p cdata index).1 = true ∧
      h.length ∈ children (addCData h p cdata index).1 p ∧
      ((addCData h p cdata index).1.node h.length).parent = some p) ∧
    (∀ x before, (∀ q, (h.node p).parent = some q → Child.fresh h q x = true) →
      consistent (insert h p x before).1 = true ∧
      parentsListed h (insert h p x before).1 = true) := by
  have hc1 := (consistent_iff h).mp hc
  refine ⟨fun child index hf hi => ?_, fun text index hi => ?_, fun comment index hi => ?_,
    fun cdata index hi => ?_, fun x before hf => ?_⟩
  · obtain ⟨h1, h2⟩ := addChild_consistent h p child index hc1 hp hf hi
    refine ⟨(consistent_iff _).mpr h1,
      parentsListed_of_grown _ _ (addChild_grown h p child index hp hi),
      fun ha => ⟨h2 ha, ?_⟩⟩
    exact h1 p _ (h2 ha)
  · exact ⟨(consistent_iff _).mpr (addText_consistent h p text index hc1 hp hi),
      parentsListed_of_grown _ _ (addText_grown h p text index hp hi)⟩
  · obtain ⟨g1, g2, g3⟩ := addChild_new_grown h p { comment := comment } index rfl hp hi
    exact ⟨(consistent_iff _).mpr
        (addChild_new_consistent h p { comment := comment } index rfl rfl hc1 hp hi),
      parentsListed_of_grown _ _ g1, g2, g3⟩
  · obtain ⟨g1, g2, g3⟩ := addChild_new_grown h p { cdata := cdata } index rfl hp hi
    exact ⟨(consistent_iff _).mpr
        (addChild_new_consistent h p { cdata := cdata } index rfl rfl hc1 hp hi),
      parentsListed_of_grown _ _ g1, g2, g3⟩
  · exact ⟨(consistent_iff _).mpr (insert_consistent h p x before hc1 hf),
      parentsListed_of_grown _ _ (insert_grown h p x before)⟩

/-- C30, witness: in the test-suite tree, adding the element `x` under `root`,
adding a comment as the first child of `root`, adding text under `mid`, and
inserting the element `y` after `mid`. -/
theorem mutation_keeps_consistency_witness :
    consistent sampleTree = true ∧
      consistent (addChild sampleTree 1 (.name "x") none).1 = true ∧
      parentsListed sampleTree (addChild sampleTree 1 (.name "x") none).1 = true ∧
      consistent (addComment sampleTree 1 (some "c") (some 0)).1 = true ∧
      children (addComment sampleTree 1 (some "c") (some 0)).1 1 = [5, 2, 4, 3] ∧
      5 ∈ children (addComment sampleTree 1 (some "c") (some 0)).1 1 ∧
      ((addComment sampleTree 1 (some "c") (some 0)).1.node 5).parent = some 1 ∧
      consistent (addText sampleTree 4 "t" none).1 = true ∧
      parentsListed sampleTree (addText sampleTree 4 "t" none).1 = true ∧
      consistent (insert sampleTree 4 (.name "y") false).1 = true ∧
      parentsListed sampleTree (insert sampleTree 4 (.name "y") false).1 = true :=
  ⟨by decide,
    ((mutation_keeps_consistency sampleTree 1 (by decide) (by decide)).1 (.name "x") none
      (by decide) (by decide)).1,
    ((mutation_keeps_consistency sampleTree 1 (by decide) (by decide)).1 (.name "x") none
      (by decide) (by decide)).2.1,
    ((mutation_keeps_consistency sampleTree 1 (by decide) (by decide)).2.2.1 (some "c") (some 0)
      (by decide)).1,
    by decide,
    ((mutation_keeps_consistency sampleTree 1 (by decide) (by decide)).2.2.1 (some "c") (some 0)
      (by decide)).2.2.1,
    ((mutation_keeps_consistency sampleTree 1 (by decide) (by decide)).2.2.1 (some "c") (some 0)
      (by decide)).2.2.2,
    ((mutation_keeps_consistency sampleTree 4 (by decide) (by decide)).2.1 "t" none
      (by decide)).1,
    ((mutation_keeps_consistency sampleTree 4 (by decide) (by decide)).2.1 "t" none
      (by decide)).2,
    ((mutation_keeps_consistency sampleTree 4 (by decide) (by decide)).2.2.2.2 (.name "y") false
      (by decide)).1,
    ((mutation_keeps_consistency sampleTree 4 (by decide) (by decide)).2.2.2.2 (.name "y") false
      (by decide)).2⟩

/-- C30, counterexample. In the test-suite tree, which is consistent,
`doc.addChild(first)` with `first` attached under `root` leaves `first` in the
list of `root` with the parent `doc`; and `root.addChild("x", -1)` sets the
parent of the new node to `root` without listing it. -/
theorem addChild_breaks_consistency :
    consistent sampleTree = true ∧
      consistent (addChild sampleTree 0 (.spec (.node 2)) none).1 = false ∧
      2 ∈ children (addChild sampleTree 0 (.spec (.node 2)) none).1 1 ∧
      2 ∈ children (addChild sampleTree 0 (.spec (.node 2)) none).1 0 ∧
      ((addChild sampleTree 0 (.spec (.node 2)) none).1.node 2).parent = some 0 ∧
      ((addChild sampleTree 1 (.name "x") (some (-1))).1.node 5).parent = some 1 ∧
      5 ∉ children (addChild sampleTree 1 (.name "x") (some (-1))).1 1 := by
  decide

theorem nonBlank_truthy (t : String) (h : (jsTrim t != "") = true) : truthy (some t) = true := by
  have : t ≠ "" := by
    intro ht
    subst ht
    revert h
    decide
  simpa [truthy] using this

theorem elementName_some (name : Option String) (h : elementName name = true) :
    ∃ k, name = some k ∧ k ≠ "$" ∧ k ≠ "_" := by
  cases name with
  | none => simp [elementName] at h
  | some k =>
    simp only [elementName, elementKey, Bool.and_eq_true, bne_iff_ne, ne_eq] at h
    exact ⟨k, rfl, h.1.1.1, h.1.1.2⟩

theorem content_fields (f : ObjFields) (t : String) (h : f.content = some t) :
    f.name = none ∧ f.attributes = none ∧ f.comment = none ∧
      ((f.text = some t ∧ f.cdata = none) ∨ (f.cdata = some t ∧ f.text = none)) := by
  unfold ObjFields.content at h
  by_cases hT : f.isText = true
  · simp only [hT, if_true] at h
    simp only [ObjFields.isText, Bool.and_eq_true, Option.isNone_iff_eq_none] at hT
    exact ⟨hT.1.1.1.1.2, hT.1.1.1.2, hT.1.2, Or.inl ⟨h, hT.1.1.2⟩⟩
  · simp only [hT, Bool.false_eq_true, if_false] at h
    by_cases hC : f.isCData = true
    · simp only [hC, if_true] at h
      simp only [ObjFields.isCData, Bool.and_eq_true, Option.isNone_iff_eq_none] at hC
      exact ⟨hC.1.1.1.1.2, hC.1.1.1.2, hC.1.2, Or.inr ⟨h, hC.1.1.2⟩⟩
    · simp [hC] at h

theorem content_not_element (f : ObjFields) (t : String) (h : f.content = some t) :
    f.isElement = false := by
  obtain ⟨_, _, _, h1 | h1⟩ := content_fields f t h
  · simp [ObjFields.isElement, h1.1]
  · simp [ObjFields.isElement, h1.1]

theorem content_of_element (f : ObjFields) (hE : f.isElement = true) : f.content = none := by
  cases hc : f.content with
  | none => rfl
  | some t => rw [content_not_element f t hc] at hE; cases hE

theorem comment_not_element (f : ObjFields) (hC : f.isComment = true) :
    f.isElement = false := by
  simp only [ObjFields.isComment, Bool.and_eq_true] at hC
  have hc := hC.1.1.1.1.1
  cases hcm : f.comment with
  | none => rw [hcm] at hc; cases hc
  | some c => simp [ObjFields.isElement, hcm]

/-- The three kinds of leaf entries of a kept children list. -/
theorem keptAll_leaf (f : ObjFields)
    (hf : (f.content.isSome || f.isComment ||
      (f.isElement && f.attrsKept && elementName f.name)) = true) :
    (∃ t, f.content = some t) ∨
      (f.content = none ∧ f.isElement = true ∧ f.attrsKept = true ∧
        elementName f.name = true) ∨
      (f.content = none ∧ f.isElement = false ∧ f.isComment = true) := by
  cases hc : f.content with
  | some t => exact Or.inl ⟨t, rfl⟩
  | none =>
    right
    simp only [hc, Option.isSome_none, Bool.false_or, Bool.or_eq_true, Bool.and_eq_true] at hf
    rcases hf with hf | hf
    · exact Or.inr ⟨rfl, comment_not_element f hf, hf⟩
    · exact Or.inl ⟨rfl, hf.1.1, hf.1.2, hf.2⟩

theorem simpleEntries_keys_ne (vs : List Obj) (hk : Obj.keptAll vs = true) :
    "$" ∉ (Obj.simpleEntries vs).map Prod.fst := by
  induction vs with
  | nil => simp [Obj.simpleEntries]
  | cons v vs ih =>
    cases v with
    | undefined => simp [Obj.keptAll] at hk
    | leaf f =>
      simp only [Obj.keptAll, Bool.and_eq_true] at hk
      have ih := ih hk.2
      simp only [Obj.simpleEntries]
      rcases keptAll_leaf f hk.1 with ⟨t, hc⟩ | ⟨hc, hE, _, hname⟩ | ⟨hc, hE, _⟩
      · simp only [hc]
        split
        · simp only [List.map_cons, List.mem_cons, not_or]
          exact ⟨by decide, ih⟩
        · exact ih
      · simp only [hc, hE, if_true, List.map_cons, List.mem_cons, not_or]
        refine ⟨?_, ih⟩
        obtain ⟨k, hk1, hk2, _⟩ := elementName_some f.name hname
        rw [hk1]
        exact fun h => hk2 h.symm
      · simp only [hc, hE, Bool.false_eq_true, if_false]
        exact ih
    | node f ws =>
      simp only [Obj.keptAll, Bool.and_eq_true] at hk
      have ih := ih hk.2
      simp only [Obj.simpleEntries, List.map_cons, List.mem_cons, not_or]
      refine ⟨?_, ih⟩
      obtain ⟨k, hk1, hk2, _⟩ := elementName_some f.name hk.1.1
      rw [hk1]
      exact fun h => hk2 h.symm

/-- When the children hold an element, the entries of the children are not the
entry `"_"` alone. -/
theorem simpleEntries_element (vs : List Obj) (hk : Obj.keptAll vs = true)
    (he : vs.any Obj.isElementEntry = true) :
    ∃ k v, (k, v) ∈ Obj.simpleEntries vs ∧ k ≠ "_" := by
  induction vs with
  | nil => simp at he
  | cons v vs ih =>
    cases v with
    | undefined => simp [Obj.keptAll] at hk
    | leaf f =>
      simp only [Obj.keptAll, Bool.and_eq_true] at hk
      simp only [List.any_cons, Bool.or_eq_true, Obj.isElementEntry] at he
      simp only [Obj.simpleEntries]
      rcases keptAll_leaf f hk.1 with ⟨t, hc⟩ | ⟨hc, hE, _, hname⟩ | ⟨hc, hE, _⟩
      · rw [content_not_element f t hc] at he
        simp only [Bool.false_eq_true, false_or] at he
        obtain ⟨k, v, hm, hne⟩ := ih hk.2 he
        refine ⟨k, v, ?_, hne⟩
        simp only [hc]
        split
        · simp [hm]
        · exact hm
      · obtain ⟨k, hk1, _, hk3⟩ := elementName_some f.name hname
        exact ⟨k, .map f.front, by simp [hc, hE, hk1], hk3⟩
      · rw [hE] at he
        simp only [Bool.false_eq_true, false_or] at he
        obtain ⟨k, v, hm, hne⟩ := ih hk.2 he
        exact ⟨k, v, by simpa [hc, hE] using hm, hne⟩
    | node f ws =>
      simp only [Obj.keptAll, Bool.and_eq_true] at hk
      obtain ⟨k, hk1, _, hk3⟩ := elementName_some f.name hk.1.1
      exact ⟨k, .map (f.front ++ Obj.simpleEntries ws),
        by simp [Obj.simpleEntries, Obj.simple, hk1], hk3⟩

theorem finishSimple_drop (a : Plain) (out : List (String × Plain))
    (ht : a.truthy = true) (hk : a.keyCount = 0) (hE : "$" ∉ out.map Prod.fst) :
    finishSimple (("$", a) :: out) = finishSimple out := by
  have hl := lookup_absent out "$" hE
  have hf : (("$", a) :: out).filter (fun (kv : String × Plain) => kv.1 != "$") = out := by
    simp only [List.filter, bne_self_eq_false]
    exact filter_keeps out hE
  unfold finishSimple
  simp only [List.lookup, beq_self_eq_true, ht, hk, Bool.true_and, hl, hf]
  simp

theorem finishSimple_entries (out : List (String × Plain))
    (hE : "$" ∉ out.map Prod.fst) (he : ∃ k v, (k, v) ∈ out ∧ k ≠ "_") :
    finishSimple out = .map out := by
  obtain ⟨k, v, hm, hne⟩ := he
  refine finishSimple_keep out (fun a ha => ?_) (fun hnil => by rw [hnil] at hm; cases hm)
    (fun hlen => ?_)
  · rw [lookup_absent out "$" hE] at ha; cases ha
  · cases out with
    | nil => cases hm
    | cons e rest =>
      cases rest with
      | cons _ _ => simp at hlen
      | nil =>
        simp only [List.mem_singleton] at hm
        subst hm
        have : ("_" == k) = false := by simpa using fun h => hne h.symm
        simp [List.lookup, this]

theorem simpleText_element (f : ObjFields) (he : f.isElement = true) : simpleText f = none := by
  simp only [ObjFields.isElement, Bool.and_eq_true, Option.isNone_iff_eq_none] at he
  simp [simpleText, he.1.1, he.1.2, truthy]

/-- The mapping `simplify` returns for an element, from the entries of its
children. -/
theorem finishSimple_element (f : ObjFields) (out : List (String × Plain))
    (hE : "$" ∉ out.map Prod.fst)
    (hs : f.attrsKept = true ∨ ∃ k v, (k, v) ∈ out ∧ k ≠ "_") :
    finishSimple (simpleStart f ++ out) = .map (f.front ++ out) := by
  cases ha : f.attributes with
  | none =>
    have hnk : f.attrsKept = false := by simp [ObjFields.attrsKept, ha]
    simp only [simpleStart, ObjFields.front, ha, List.nil_append]
    rcases hs with hs | hs
    · rw [hnk] at hs; cases hs
    · exact finishSimple_entries out hE hs
  | some a =>
    by_cases hk : a.isKept = true
    · have ht := isKept_truthy a hk
      simp only [simpleStart, ObjFields.front, ha, ht, hk, if_true, List.singleton_append]
      refine finishSimple_keep _ (fun b hb => ?_) (by simp) (fun hlen => ?_)
      · simp only [List.lookup, beq_self_eq_true, Option.some.injEq] at hb
        rw [← hb]; exact hk
      · cases out with
        | nil => rfl
        | cons _ _ => simp at hlen
    · have hnk : f.attrsKept = false := by simp [ObjFields.attrsKept, ha, hk]
      have hs2 : ∃ k v, (k, v) ∈ out ∧ k ≠ "_" := by
        rcases hs with hs | hs
        · rw [hnk] at hs; cases hs
        · exact hs
      simp only [ObjFields.front, ha, hk, Bool.false_eq_true, if_false, List.nil_append]
      by_cases ht : a.truthy = true
      · have hkc : a.keyCount = 0 := by
          simp only [Plain.isKept, ht, Bool.true_and, bne_iff_ne, ne_eq, not_not] at hk
          exact hk
        simp only [simpleStart, ha, ht, if_true, List.singleton_append]
        rw [finishSimple_drop a out ht hkc hE]
        exact finishSimple_entries out hE hs2
      · simp only [simpleStart, ha, ht, Bool.false_eq_true, if_false, List.nil_append]
        exact finishSimple_entries out hE hs2

theorem simpleStart_lookup (f : ObjFields) (k : String) (hk : k ≠ "$") :
    (simpleStart f).lookup k = none := by
  have hb : (k == "$") = false := by simpa using hk
  unfold simpleStart
  cases f.attributes with
  | none => rfl
  | some a =>
    simp only []
    split
    · simp [List.lookup, hb]
    · rfl

theorem simplify_leaf_content (f : ObjFields) (t : String) (hc : f.content = some t)
    (hb : (jsTrim t != "") = true) : simplify (.leaf f) = .ok (.str (jsTrim t)) := by
  have htt := nonBlank_truthy t hb
  have hne : t ≠ "" := by simpa [truthy] using htt
  obtain ⟨_, _, _, h1 | h1⟩ := content_fields f t hc
  · simp [simplify, simpleText, truthy, h1.1, h1.2, hne]
  · simp [simplify, simpleText, truthy, h1.1, h1.2, hne]

theorem simplify_leaf_blank (f : ObjFields) (t : String) (hc : f.content = some t)
    (hb : ¬ (jsTrim t != "") = true) :
    ∃ child, simplify (.leaf f) = .ok child ∧ child.truthy = false := by
  have hj : jsTrim t = "" := by simpa using hb
  obtain ⟨_, ha, _, h1 | h1⟩ := content_fields f t hc
  · by_cases hne : t = ""
    · refine ⟨.null, ?_, rfl⟩
      simp [simplify, simpleText, truthy, h1.1, h1.2, hne, simpleStart, ha, finishSimple,
        Plain.keyCount]
    · refine ⟨.str "", ?_, rfl⟩
      simp [simplify, simpleText, truthy, h1.1, h1.2, hne, hj]
  · by_cases hne : t = ""
    · refine ⟨.null, ?_, rfl⟩
      simp [simplify, simpleText, truthy, h1.1, h1.2, hne, simpleStart, ha, finishSimple,
        Plain.keyCount]
    · refine ⟨.str "", ?_, rfl⟩
      simp [simplify, simpleText, truthy, h1.1, h1.2, hne, hj]

theorem simplify_leaf_comment (f : ObjFields) (hC : f.isComment = true) :
    simplify (.leaf f) = .ok .null := by
  obtain ⟨name, attributes, text, cdata, comment, instructions⟩ := f
  simp only [ObjFields.isComment, Bool.and_eq_true, Option.isNone_iff_eq_none] at hC
  obtain ⟨⟨⟨⟨⟨_, _⟩, ha⟩, ht⟩, hc⟩, _⟩ := hC
  subst ha; subst ht; subst hc
  rfl

theorem simplify_leaf_element (f : ObjFields) (hE : f.isElement = true)
    (hk : f.attrsKept = true) : simplify (.leaf f) = .ok (.map f.front) := by
  have h := finishSimple_element f [] (by simp) (Or.inl hk)
  simp only [List.append_nil] at h
  simp only [simplify, simpleText_element f hE, h]

theorem mergeChild_falsy (out : List (String × Plain)) (name : Option String) (child : Plain)
    (h : child.truthy = false) : mergeChild out name child = out := by
  simp [mergeChild, h]

mutual
theorem simplify_kept : ∀ (o : Obj), o.kept = true → simplify o = .ok o.simple
  | .undefined, h => by simp [Obj.kept] at h
  | .leaf f, h => by
    simp only [Obj.kept, Bool.and_eq_true] at h
    exact simplify_leaf_element f h.1 h.2
  | .node f vs, h => by
    simp only [Obj.kept, Bool.and_eq_true, decide_eq_true_eq, Bool.or_eq_true] at h
    obtain ⟨⟨⟨hE, hs⟩, hn⟩, hk⟩ := h
    have hkeys := simpleEntries_keys_ne vs hk
    have hin := simplifyInto_kept vs (simpleStart f) hk hn
      (fun k hm => simpleStart_lookup f k (fun heq => hkeys (by rw [← heq]; exact hm)))
    rw [simplify_node_eq f vs _ (simpleText_element f hE) hin]
    rw [finishSimple_element f _ hkeys]
    · rfl
    · rcases hs with hs | hs
      · exact Or.inl hs
      · exact Or.inr (simpleEntries_element vs hk hs)
theorem simplifyInto_kept : ∀ (vs : List Obj) (out : List (String × Plain)),
    Obj.keptAll vs = true → ((Obj.simpleEntries vs).map Prod.fst).Nodup →
    (∀ k ∈ (Obj.simpleEntries vs).map Prod.fst, out.lookup k = none) →
    simplifyInto out vs = .ok (out ++ Obj.simpleEntries vs)
  | [], out, _, _, _ => by simp [simplifyInto, Obj.simpleEntries]
  | .undefined :: vs, out, hk, _, _ => by simp [Obj.keptAll] at hk
  | .leaf f :: vs, out, hk, hn, ho => by
    simp only [Obj.keptAll, Bool.and_eq_true] at hk
    obtain ⟨hf, hk⟩ := hk
    rcases keptAll_leaf f hf with ⟨t, hc⟩ | ⟨hc, hE, hka, hname⟩ | ⟨hc, hE, hC⟩
    · have hnm : f.name = none := (content_fields f t hc).1
      by_cases hb : (jsTrim t != "") = true
      · simp only [Obj.simpleEntries, hc, hb, if_true, List.map_cons, List.nodup_cons] at hn ho
        have hok : out.lookup "_" = none := ho "_" (by simp)
        have hm : mergeChild out f.name (.str (jsTrim t)) = out ++ [("_", .str (jsTrim t))] := by
          rw [hnm, mergeChild_absent]
          · simp [childKey, truthy]
          · simpa [Plain.truthy] using hb
          · simpa [childKey, truthy] using hok
        have ih := simplifyInto_kept vs (out ++ [("_", .str (jsTrim t))]) hk hn.2
          (fun k hk' => lookup_append_single _ _ _ _
            (fun heq => hn.1 (by rw [← heq]; exact hk')) (ho k (by simp [hk'])))
        simp only [simplifyInto, simplify_leaf_content f t hc hb, hm, ih, Obj.simpleEntries, hc,
          hb, if_true]
        simp
      · obtain ⟨child, h1, h2⟩ := simplify_leaf_blank f t hc hb
        simp only [Obj.simpleEntries, hc, hb, Bool.false_eq_true, if_false] at hn ho
        have ih := simplifyInto_kept vs out hk hn ho
        simp only [simplifyInto, h1, mergeChild_falsy out f.name child h2, ih, Obj.simpleEntries,
          hc, hb, Bool.false_eq_true, if_false]
    · obtain ⟨k, hk1, _, _⟩ := elementName_some f.name hname
      simp only [Obj.simpleEntries, hc, hE, if_true, hk1, Option.getD_some, List.map_cons,
        List.nodup_cons] at hn ho
      have hok : out.lookup k = none := ho k (by simp)
      have hm : mergeChild out (some k) (.map f.front) = out ++ [(k, .map f.front)] := by
        rw [mergeChild_absent]
        · simp [childKey]
        · simp [Plain.truthy]
        · simpa [childKey] using hok
      have ih := simplifyInto_kept vs (out ++ [(k, .map f.front)]) hk hn.2
        (fun k' hk' => lookup_append_single _ _ _ _
          (fun heq => hn.1 (by rw [← heq]; exact hk')) (ho k' (by simp [hk'])))
      simp only [simplifyInto, simplify_leaf_element f hE hka, Obj.simpleEntries, hc, hE, if_true,
        hk1, Option.getD_some]
      rw [hm, ih]
      simp
    · simp only [Obj.simpleEntries, hc, hE, Bool.false_eq_true, if_false] at hn ho
      have ih := simplifyInto_kept vs out hk hn ho
      simp only [simplifyInto, simplify_leaf_comment f hC,
        mergeChild_falsy out f.name .null rfl, ih, Obj.simpleEntries, hc, hE,
        Bool.false_eq_true, if_false]
  | .node f ws :: vs, out, hk, hn, ho => by
    simp only [Obj.keptAll, Bool.and_eq_true] at hk
    obtain ⟨⟨hname, hkept⟩, hk⟩ := hk
    obtain ⟨k, hk1, _, _⟩ := elementName_some f.name hname
    have hs := simplify_kept (.node f ws) hkept
    simp only [Obj.simple] at hs
    simp only [Obj.simpleEntries, Obj.simple, hk1, Option.getD_some, List.map_cons,
      List.nodup_cons] at hn ho
    have hok : out.lookup k = none := ho k (by simp)
    have hm : mergeChild out f.name (.map (f.front ++ Obj.simpleEntries ws)) =
        out ++ [(k, .map (f.front ++ Obj.simpleEntries ws))] := by
      rw [hk1, mergeChild_absent]
      · simp [childKey]
      · simp [Plain.truthy]
      · simpa [childKey] using hok
    have ih := simplifyInto_kept vs (out ++ [(k, .map (f.front ++ Obj.simpleEntries ws))]) hk
      hn.2 (fun k' hk' => lookup_append_single _ _ _ _
        (fun heq => hn.1 (by rw [← heq]; exact hk')) (ho k' (by simp [hk'])))
    rw [hk1] at hm
    simp only [simplifyInto, hs, Obj.simpleEntries, Obj.simple, hk1, Option.getD_some]
    rw [hm, ih]
    simp
end

theorem nodifyEntries_front (f : ObjFields) (out : List (String × Plain)) :
    nodifyEntries (f.front ++ out) = nodifyEntries out := by
  unfold ObjFields.front
  cases f.attributes with
  | none => rfl
  | some a =>
    simp only []
    split
    · simp [nodifyEntries]
    · rfl

theorem nodify_front (f : ObjFields) (out : List (String × Plain))
    (hE : "$" ∉ out.map Prod.fst) (name : Option String) :
    nodify (.map (f.front ++ out)) name =
      .node { name := name, attributes := f.canonical.attributes } (nodifyEntries out) := by
  have hl := lookup_absent out "$" hE
  rw [nodify_map_eq, nodifyEntries_front]
  cases ha : f.attributes with
  | none => simp [ObjFields.front, ObjFields.canonical, ObjFields.attrsKept, ha, hl]
  | some a =>
    by_cases hk : a.isKept = true
    · have ht := isKept_truthy a hk
      simp [ObjFields.front, ObjFields.canonical, ObjFields.attrsKept, ha, hk, ht, List.lookup]
    · simp [ObjFields.front, ObjFields.canonical, ObjFields.attrsKept, ha, hk, hl]

mutual
theorem nodify_simple : ∀ (o : Obj), o.kept = true → nodify o.simple o.name = o.canonical
  | .undefined, h => by simp [Obj.kept] at h
  | .leaf f, _ => by
    have h := nodify_front f [] (by simp) f.name
    simp only [List.append_nil] at h
    simp only [Obj.simple, Obj.name, Obj.canonical, h]
    rfl
  | .node f vs, h => by
    simp only [Obj.kept, Bool.and_eq_true] at h
    have hk := h.2
    simp only [Obj.simple, Obj.name, Obj.canonical,
      nodify_front f _ (simpleEntries_keys_ne vs hk) f.name, nodifyEntries_simple vs hk]
    rfl
theorem nodifyEntries_simple : ∀ (vs : List Obj), Obj.keptAll vs = true →
    nodifyEntries (Obj.simpleEntries vs) = Obj.canonicalAll vs
  | [], _ => by simp [Obj.simpleEntries, nodifyEntries, Obj.canonicalAll]
  | .undefined :: vs, hk => by simp [Obj.keptAll] at hk
  | .leaf f :: vs, hk => by
    simp only [Obj.keptAll, Bool.and_eq_true] at hk
    obtain ⟨hf, hk⟩ := hk
    have ih := nodifyEntries_simple vs hk
    rcases keptAll_leaf f hf with ⟨t, hc⟩ | ⟨hc, hE, hka, hname⟩ | ⟨hc, hE, _⟩
    · by_cases hb : (jsTrim t != "") = true
      · simp [Obj.simpleEntries, Obj.canonicalAll, hc, hb, nodifyEntries, ih]
      · simp only [Obj.simpleEntries, Obj.canonicalAll, hc, hb, Bool.false_eq_true, if_false]
        exact ih
    · obtain ⟨k, hk1, hk2, _⟩ := elementName_some f.name hname
      have h := nodify_front f [] (by simp) (some k)
      simp only [List.append_nil] at h
      simp only [Obj.simpleEntries, Obj.canonicalAll, hc, hE, if_true, hk1, Option.getD_some,
        nodifyEntries, hk2, if_false, h, ih]
      simp [ObjFields.canonical, hk1, nodifyEntries]
    · simp only [Obj.simpleEntries, Obj.canonicalAll, hc, hE, Bool.false_eq_true, if_false]
      exact ih
  | .node f ws :: vs, hk => by
    simp only [Obj.keptAll, Bool.and_eq_true] at hk
    obtain ⟨⟨hname, hkept⟩, hk⟩ := hk
    obtain ⟨k, hk1, hk2, _⟩ := elementName_some f.name hname
    have ih := nodifyEntries_simple vs hk
    have hs := nodify_simple (.node f ws) hkept
    simp only [Obj.simple, Obj.name, Obj.canonical, hk1] at hs
    simp only [Obj.simpleEntries, Obj.canonicalAll, Obj.simple, Obj.canonical, hk1,
      Option.getD_some, nodifyEntries, hk2, if_false, hs, ih]
end

/-- C21 (amended). For every element descriptor `o` in which every element has
no `text`, `cdata` or `comment` field and has a non-empty attribute mapping or
one child element at least, and in which the children of every element are
Comment children, Text and CData children, at most one of which is not blank,
and child elements with distinct names other than `"$"`, `"_"`, the names of
the members of `Object.prototype` and names starting with a digit:
`simplify(o)` returns the plain value of `o`, and `nodify` of it, under the
name of `o`, is `o` with the same elements, names, attributes and text in the
same order (the character data trimmed and held by a Text child, empty
attribute mappings, Comment children and blank character data left out, every
element with a children list).  For a snapshot `o` without a name of a node `n`, the
tree `new XmlNode(nodify(simplify(n.toObject())))` is the tree built from that
descriptor. -/
theorem nodify_simplify_round_trip (o : Obj) (hk : o.kept = true) :
    simplify o = .ok o.simple ∧ nodify o.simple o.name = o.canonical ∧
      ∀ (fuel : Nat) (h : Heap) (n : Nat) (d : Spec),
        toObject fuel h n = some d → d.toObj = some o → o.name = none →
        rebuild fuel h n = (o.canonical.toSpec).map (instantiate h) := by
  have h1 := simplify_kept o hk
  have h2 := nodify_simple o hk
  refine ⟨h1, h2, fun fuel h n d ht hd hn => ?_⟩
  rw [hn] at h2
  simp only [rebuild, ht, hd, h1, h2]

/-- C21, witness: the tree of the document
`<tag foo="bar"> test<a k="v"/><!--c--><b><c x="1"/><![CDATA[d ]]></b></tag>`
as the parser builds it. -/
theorem nodify_simplify_round_trip_witness :
    toObject 4 keptTree 0 = some keptSnapshot ∧
    keptSnapshot.toObj = some keptExample ∧
    simplify keptExample =
      .ok (.map [("tag", .map [("$", .map [("foo", .str "bar")]), ("_", .str "test"),
        ("a", .map [("$", .map [("k", .str "v")])]),
        ("b", .map [("c", .map [("$", .map [("x", .str "1")])]), ("_", .str "d")])])]) ∧
    nodify (.map [("tag", .map [("$", .map [("foo", .str "bar")]), ("_", .str "test"),
        ("a", .map [("$", .map [("k", .str "v")])]),
        ("b", .map [("c", .map [("$", .map [("x", .str "1")])]), ("_", .str "d")])])]) none =
      .node {} [.node { name := some "tag", attributes := some (.map [("foo", .str "bar")]) }
        [.leaf { text := some "test" },
         .node { name := some "a", attributes := some (.map [("k", .str "v")]) } [],
         .node { name := some "b" }
           [.node { name := some "c", attributes := some (.map [("x", .str "1")]) } [],
            .leaf { text := some "d" }]]] ∧
    (rebuild 4 keptTree 0).bind (fun r => toObject 4 r.1 r.2) =
      some (.obj {} [.obj { name := some "tag", attributes := some [("foo", "bar")] }
        [.leaf { text := some "test" },
         .obj { name := some "a", attributes := some [("k", "v")] } [],
         .obj { name := some "b" }
           [.obj { name := some "c", attributes := some [("x", "1")] } [],
            .leaf { text := some "d" }]]]) :=
  ⟨rfl, rfl,
    (nodify_simplify_round_trip keptExample (by decide)).1,
    (nodify_simplify_round_trip keptExample (by decide)).2.1,
    by
      rw [(nodify_simplify_round_trip keptExample (by decide)).2.2 4 keptTree 0 keptSnapshot
        rfl rfl rfl]
      rfl⟩

/-- C21, counterexample. The tree of `<a k="v"><b/></a>` has no element with
children of different names.  Its snapshot simplifies to
`{ a: { $: { k: "v" } } }`, because an element without attributes and without
content simplifies to `null` and `simplify` leaves such a child out; the tree
built from `nodify` of that value is the tree of `<a k="v"/>`: the element `b`
of the original tree is not in it. -/
theorem rebuild_loses_element :
    toObject 3 emptyChildTree 0 =
      some (.obj {} [.obj { name := some "a", attributes := some [("k", "v")] }
        [.leaf { name := some "b", attributes := some [] }]]) ∧
    simplify (.leaf { name := some "b", attributes := some (.map []) }) = .ok .null ∧
    ((toObject 3 emptyChildTree 0).bind Spec.toObj).map simplify =
      some (.ok (.map [("a", .map [("$", .map [("k", .str "v")])])])) ∧
    nodify (.map [("a", .map [("$", .map [("k", .str "v")])])]) none =
      .node {} [.node { name := some "a", attributes := some (.map [("k", .str "v")]) } []] ∧
    (rebuild 3 emptyChildTree 0).bind (fun r => toObject 3 r.1 r.2) =
      some (.obj {} [.obj { name := some "a", attributes := some [("k", "v")] } []]) ∧
    getDescendants 3 emptyChildTree 0 (some (.str "b")) = some [2] ∧
    (rebuild 3 emptyChildTree 0).bind (fun r => getDescendants 3 r.1 r.2 (some (.str "b"))) =
      some [] :=
  ⟨rfl, rfl, rfl, rfl, rfl, by decide, by decide⟩

/-- Trees outside the class `Obj.kept`.  The tree of
`<a><b>x</b></a>`: its snapshot simplifies to `{ a: { b: "x" } }` and the tree
built from `nodify` of that value is the tree of `<a>x</a>`.  Two children of
one name: `<e><a k="1"/><a k="2"/></e>` simplifies to
`{ a: [{ $: { k: "1" } }, { $: { k: "2" } }] }`, and `nodify` of that value is
the element `e` with one child `a` without attributes.  Two Text children:
`{ _: ["x", "y"], b: ... }` comes back with a child element named `_`. -/
theorem rebuild_outside_class :
    toObject 4 nestedTree 0 =
      some (.obj {} [.obj { name := some "a", attributes := some [] }
        [.obj { name := some "b", attributes := some [] } [.leaf { text := some "x" }]]]) ∧
    ((toObject 4 nestedTree 0).bind Spec.toObj).map simplify =
      some (.ok (.map [("a", .map [("b", .str "x")])])) ∧
    nodify (.map [("a", .map [("b", .str "x")])]) none =
      .node {} [.node { name := some "a" } [.leaf { text := some "x" }]] ∧
    (rebuild 4 nestedTree 0).bind (fun r => toObject 4 r.1 r.2) =
      some (.obj {} [.obj { name := some "a" } [.leaf { text := some "x" }]]) ∧
    simplify (.node { name := some "e" }
      [.leaf { name := some "a", attributes := some (.map [("k", .str "1")]) },
       .leaf { name := some "a", attributes := some (.map [("k", .str "2")]) }]) =
      .ok (.map [("a", .arr [.map [("$", .map [("k", .str "1")])],
        .map [("$", .map [("k", .str "2")])]])]) ∧
    nodify (.map [("a", .arr [.map [("$", .map [("k", .str "1")])],
        .map [("$", .map [("k", .str "2")])]])]) (some "e") =
      .node { name := some "e" } [.node { name := some "a" } []] ∧
    simplify (.node { name := some "e" }
      [.leaf { text := some "x" },
       .leaf { name := some "b", attributes := some (.map [("k", .str "v")]) },
       .leaf { text := some "y" }]) =
      .ok (.map [("_", .arr [.str "x", .str "y"]), ("b", .map [("$", .map [("k", .str "v")])])]) ∧
    nodify (.map [("_", .arr [.str "x", .str "y"]),
        ("b", .map [("$", .map [("k", .str "v")])])]) (some "e") =
      .node { name := some "e" } [.node { name := some "_" } [],
        .node { name := some "b", attributes := some (.map [("k", .str "v")]) } []] :=
  ⟨rfl, rfl, rfl, rfl, rfl, rfl, rfl, rfl⟩

theorem ranked_same (h h1 : Heap) (hlen : h1.length = h.length)
    (hp : ∀ r, (h1.node r).parent = (h.node r).parent) (hr : h.ranked) : h1.ranked := by
  obtain ⟨hv, rank, h2, h3⟩ := hr
  refine ⟨fun r p hrp => ?_, rank, fun r p hrp => ?_, fun r hr => ?_⟩
  · rw [hlen]; exact hv r p (by rw [← hp]; exact hrp)
  · exact h2 r p (by rw [← hp]; exact hrp)
  · rw [hlen]; exact h3 r (by rw [← hlen]; exact hr)

theorem ranked_alloc (h h1 : Heap) (o : Option Nat) (hlen : h1.length = h.length + 1)
    (hp : ∀ r, r ≠ h.length → (h1.node r).parent = (h.node r).parent)
    (hnew : (h1.node h.length).parent = o) (ho : ∀ p, o = some p → p < h.length)
    (hr : h.ranked) : h1.ranked := by
  obtain ⟨hv, rank, h2, h3⟩ := hr
  refine ⟨fun r p hrp => ?_,
    fun r => if r = h.length then (match o with
      | some p => rank p + 1
      | none => 0) else rank r,
    fun r p hrp => ?_, fun r hr => ?_⟩
  · rw [hlen]
    by_cases hrl : r = h.length
    · subst hrl
      rw [hnew] at hrp
      have := ho p hrp
      omega
    · rw [hp r hrl] at hrp
      have := hv r p hrp
      omega
  · by_cases hrl : r = h.length
    · subst hrl
      rw [hnew] at hrp
      subst hrp
      have hpl := ho p rfl
      have hne : p ≠ h.length := by omega
      simp only [hne, if_false, if_true]
      omega
    · rw [hp r hrl] at hrp
      have hpl := hv r p hrp
      have hne : p ≠ h.length := by omega
      simp only [hne, hrl, if_false]
      exact h2 r p hrp
  · rw [hlen] at hr ⊢
    by_cases hrl : r = h.length
    · simp only [hrl, if_true]
      cases o with
      | none => simp
      | some p =>
        have := h3 p (ho p rfl)
        simp only []
        omega
    · simp only [hrl, if_false]
      have := h3 r (by omega)
      omega

theorem ranked_reparent (h h1 : Heap) (c : Nat) (hlen : h1.length = h.length + 1)
    (hc : c < h.length)
    (hp : ∀ r, r ≠ h.length → r ≠ c → (h1.node r).parent = (h.node r).parent)
    (hnew : (h1.node h.length).parent = none) (hcp : (h1.node c).parent = some h.length)
    (hr : h.ranked) : h1.ranked := by
  obtain ⟨hv, rank, h2, h3⟩ := hr
  refine ⟨fun r p hrp => ?_, fun r => if r = h.length then 0 else rank r + 1,
    fun r p hrp => ?_, fun r hr => ?_⟩
  · rw [hlen]
    by_cases hrl : r = h.length
    · subst hrl; rw [hnew] at hrp; cases hrp
    · by_cases hrc : r = c
      · subst hrc; rw [hcp] at hrp
        simp only [Option.some.injEq] at hrp
        omega
      · rw [hp r hrl hrc] at hrp
        have := hv r p hrp
        omega
  · by_cases hrl : r = h.length
    · subst hrl; rw [hnew] at hrp; cases hrp
    · by_cases hrc : r = c
      · subst hrc; rw [hcp] at hrp
        simp only [Option.some.injEq] at hrp
        subst hrp
        simp [hrl]
      · rw [hp r hrl hrc] at hrp
        have hpl := hv r p hrp
        have hne : p ≠ h.length := by omega
        simp only [hne, hrl, if_false]
        have := h2 r p hrp
        omega
  · rw [hlen] at hr ⊢
    by_cases hrl : r = h.length
    · simp [hrl]
    · simp only [hrl, if_false]
      have := h3 r (by omega)
      omega

theorem getRoot_returns (h : Heap) (rank : Nat → Nat)
    (hr : ∀ r p, (h.node r).parent = some p → rank p < rank r) :
    ∀ (fuel n : Nat), rank n + 2 ≤ fuel →
      (∃ r, getRoot fuel h n = some (h, r)) ∨
        getRoot fuel h n = some (h ++ [({} : Node)], h.length) := by
  intro fuel
  induction fuel with
  | zero => intro n hn; omega
  | succ fuel ih =>
    intro n hn
    unfold getRoot
    by_cases hcond : (!isEmpty h n && !isRoot h n) = true
    · simp only [hcond, if_true]
      cases hpar : (h.node n).parent with
      | some p =>
        have hlt := hr n p hpar
        simp only [getParent, hpar]
        exact ih p (by omega)
      | none =>
        simp only [getParent, hpar, newNode, Heap.alloc]
        right
        cases fuel with
        | zero => omega
        | succ k =>
          unfold getRoot
          have he : isEmpty (h ++ [({} : Node)]) h.length = true :=
            isEmpty_of_blank _ _ (node_append_new h {})
          simp [he]
    · simp only [hcond, Bool.false_eq_true, if_false]
      exact Or.inl ⟨n, rfl⟩

theorem addChild_node_links (h : Heap) (p c : Nat) (index : Option Int)
    (hne : c ≠ p) (hc : c < h.length) :
    (addChild h p (.spec (.node c)) index).2 = .ok () ∧
      (addChild h p (.spec (.node c)) index).1.length = h.length ∧
      ((addChild h p (.spec (.node c)) index).1.node c).parent = some p ∧
      ∀ r, r ≠ c → ((addChild h p (.spec (.node c)) index).1.node r).parent =
        (h.node r).parent := by
  simp only [addChild, hne, if_false]
  refine ⟨trivial, ?_, ?_, fun r hr => ?_⟩
  · rw [length_attachChild, length_initValue]
  · rw [node_attachChild_child _ _ _ _ (by rw [length_initValue]; exact hc) hne]
  · rw [parent_attachChild_ne _ _ _ _ _ hr, parent_initValue]

theorem parent_append_ne (h : Heap) (n : Node) (r : Nat) (hr : r ≠ h.length) :
    ((h ++ [n]).node r).parent = (h.node r).parent := by
  by_cases hlt : r < h.length
  · rw [node_append_lt h [n] r hlt]
  · rw [node_out_of_range _ r (by simp; omega), node_out_of_range h r (by omega)]

theorem addChild_new_links (h : Heap) (p : Nat) (n : Node) (index : Option Int)
    (hp : p < h.length) :
    (addChild (h ++ [n]) p (.spec (.node h.length)) index).2 = .ok () ∧
      (addChild (h ++ [n]) p (.spec (.node h.length)) index).1.length = h.length + 1 ∧
      ((addChild (h ++ [n]) p (.spec (.node h.length)) index).1.node h.length).parent
        = some p ∧
      ∀ r, r ≠ h.length →
        ((addChild (h ++ [n]) p (.spec (.node h.length)) index).1.node r).parent =
          (h.node r).parent := by
  obtain ⟨h1, h2, h3, h4⟩ := addChild_node_links (h ++ [n]) p h.length index (by omega)
    (by simp)
  refine ⟨h1, by rw [h2]; simp, h3, fun r hr => ?_⟩
  rw [h4 r hr, parent_append_ne h n r hr]

/-- What every handler keeps when it adds a node allocated for the call under
the cursor. -/
theorem sound_addChild_new (s : ParserState) (n : Node) (hs : s.sound) :
    ∃ h1, addChild (s.heap ++ [n]) s.node (.spec (.node s.heap.length)) none = (h1, .ok ()) ∧
      ({ s with heap := h1 } : ParserState).sound ∧ h1.length = s.heap.length + 1 := by
  obtain ⟨hn, hr⟩ := hs
  obtain ⟨e1, e2, e3, e4⟩ := addChild_new_links s.heap s.node n none hn
  refine ⟨(addChild (s.heap ++ [n]) s.node (.spec (.node s.heap.length)) none).1, ?_, ?_, e2⟩
  · exact Prod.ext rfl e1
  · refine ⟨by simp only [e2]; omega, ?_⟩
    exact ranked_alloc s.heap _ (some s.node) e2 e4 e3
      (fun p hp => by simp only [Option.some.injEq] at hp; omega) hr

theorem sound_of_heap (s s1 : ParserState) (hh : s1.heap = s.heap) (hn : s1.node = s.node)
    (hs : s.sound) : s1.sound := by
  unfold ParserState.sound at hs ⊢
  rw [hh, hn]
  exact hs

theorem sound_same_parents (s : ParserState) (h1 : Heap) (hlen : h1.length = s.heap.length)
    (hp : ∀ r, (h1.node r).parent = (s.heap.node r).parent) (hs : s.sound) :
    ({ s with heap := h1 } : ParserState).sound :=
  ⟨by simp only [hlen]; exact hs.1, ranked_same s.heap h1 hlen hp hs.2⟩

theorem handle_text_sound (fuel : Nat) (s : ParserState) (text : String) (hs : s.sound) :
    ∃ s1, handle fuel s (.text text) = some s1 ∧ s1.sound ∧
      s1.heap.length ≤ s.heap.length + 1 := by
  simp only [handle]
  by_cases hb : (jsTrim text != "") = true
  · simp only [hb, if_true]
    have hs0 : ({ s with heap := initValue s.heap s.node } : ParserState).sound :=
      sound_same_parents s _ (length_initValue _ _) (fun r => parent_initValue _ _ r) hs
    obtain ⟨h1, e1, e2, e3⟩ := sound_addChild_new _ { text := some text } hs0
    simp only [length_initValue] at e1 e3
    have hnew : addChild (newTextNode (initValue s.heap s.node) text).1 s.node
        (.spec (.node (newTextNode (initValue s.heap s.node) text).2)) none = (h1, .ok ()) := by
      rw [newTextNode_eq]
      simpa only [length_initValue] using e1
    unfold addText
    cases hl : (children (initValue s.heap s.node) s.node).getLast? with
    | none =>
      simp only [hnew, ParserState.after]
      exact ⟨_, rfl, e2, by simp only [e3]; omega⟩
    | some last =>
      simp only []
      by_cases ht : truthy ((initValue s.heap s.node).node last).text = true
      · simp only [ht, if_true, ParserState.after]
        refine ⟨_, rfl, ?_, ?_⟩
        · exact sound_same_parents s _ (by rw [length_put, length_initValue])
            (fun r => by
              refine Eq.trans (parent_put _ _ _ _ ?_) (parent_initValue _ _ r)
              rfl) hs
        · simp only [length_put, length_initValue]; omega
      · simp only [ht, Bool.false_eq_true, if_false, hnew, ParserState.after]
        exact ⟨_, rfl, e2, by simp only [e3]; omega⟩
  · simp only [hb, Bool.false_eq_true, if_false]
    exact ⟨s, rfl, hs, by omega⟩

theorem handle_closetag_sound (fuel : Nat) (s : ParserState) (name : String) (hs : s.sound) :
    ∃ s1, handle fuel s (.closetag name) = some s1 ∧ s1.sound ∧
      s1.heap.length ≤ s.heap.length + 1 := by
  obtain ⟨hn, hv, rank, h2, h3⟩ := hs
  have hs : s.sound := ⟨hn, hv, rank, h2, h3⟩
  simp only [handle]
  cases hpar : (s.heap.node s.node).parent with
  | some p =>
    have hne : s.node ≠ p := by
      have := h2 s.node p hpar
      intro heq; rw [← heq] at this; omega
    obtain ⟨e1, e2, e3, e4⟩ := addChild_node_links s.heap p s.node none hne hn
    have hg : getParent s.heap s.node = (s.heap, p) := by simp [getParent, hpar]
    rw [hg]
    simp only []
    have hres : addChild s.heap p (.spec (.node s.node)) none =
        ((addChild s.heap p (.spec (.node s.node)) none).1, .ok ()) := Prod.ext rfl e1
    rw [hres]
    refine ⟨_, rfl, ⟨?_, ?_⟩, ?_⟩
    · simp only [e2]; exact hv s.node p hpar
    · refine ranked_same s.heap _ e2 (fun r => ?_) hs.2
      by_cases hr : r = s.node
      · rw [hr, e3, hpar]
      · exact e4 r hr
    · simp only [e2]; omega
  | none =>
    have hg : getParent s.heap s.node = (s.heap ++ [({} : Node)], s.heap.length) := by
      simp [getParent, hpar, newNode, Heap.alloc]
    have hne : s.node ≠ s.heap.length := by omega
    obtain ⟨e1, e2, e3, e4⟩ := addChild_node_links (s.heap ++ [({} : Node)]) s.heap.length
      s.node none hne (by simp; omega)
    rw [hg]
    simp only []
    have hres : addChild (s.heap ++ [({} : Node)]) s.heap.length (.spec (.node s.node)) none =
        ((addChild (s.heap ++ [({} : Node)]) s.heap.length (.spec (.node s.node)) none).1,
          .ok ()) := Prod.ext rfl e1
    rw [hres]
    have hlen : (addChild (s.heap ++ [({} : Node)]) s.heap.length
        (.spec (.node s.node)) none).1.length = s.heap.length + 1 := by rw [e2]; simp
    refine ⟨_, rfl, ⟨?_, ?_⟩, ?_⟩
    · simp only [hlen]; omega
    · refine ranked_reparent s.heap _ s.node hlen hn (fun r hr1 hr2 => ?_) ?_ e3 hs.2
      · rw [e4 r hr2, parent_append_ne _ _ r hr1]
      · rw [e4 _ (Ne.symm hne), node_append_new]
    · simp only [hlen]; omega

theorem handle_instruction_sound (fuel : Nat) (s : ParserState) (name body : String)
    (hs : s.sound) (hf : s.heap.length + 1 ≤ fuel) :
    ∃ s1, handle fuel s (.processinginstruction name body) = some s1 ∧ s1.sound ∧
      s1.heap.length ≤ s.heap.length + 1 := by
  obtain ⟨hn, hv, rank, h2, h3⟩ := hs
  have hs : s.sound := ⟨hn, hv, rank, h2, h3⟩
  have hrank := h3 s.node hn
  simp only [handle, addInstruction]
  rcases getRoot_returns s.heap rank h2 fuel s.node (by omega) with ⟨r, hg⟩ | hg
  · rw [hg]
    simp only [Option.map_some']
    refine ⟨_, rfl, ?_, ?_⟩
    · exact sound_same_parents s _ (by simp [setInstruction, length_put])
        (fun r1 => by
          simp only [setInstruction]
          refine parent_put _ _ _ _ ?_
          rfl) hs
    · simp [setInstruction, length_put]
  · rw [hg]
    simp only [Option.map_some']
    have hlen : (setInstruction (s.heap ++ [({} : Node)]) s.heap.length name body).length =
        s.heap.length + 1 := by simp [setInstruction, length_put]
    refine ⟨_, rfl, ⟨?_, ?_⟩, ?_⟩
    · simp only [hlen]; omega
    · refine ranked_alloc s.heap _ none hlen (fun r hr => ?_) ?_ (fun p hp => by cases hp) hs.2
      · simp only [setInstruction]
        refine Eq.trans (parent_put _ _ _ _ ?_) (parent_append_ne _ _ r hr)
        rfl
      · simp only [setInstruction]
        refine Eq.trans (parent_put _ _ _ _ ?_) (by rw [node_append_new])
        rfl
    · simp only [hlen]; omega

/-- Every handler returns in a state that satisfies the invariant again, and
allocates one node at most. -/
theorem handle_sound (fuel : Nat) (s : ParserState) (ev : SaxEvent) (hs : s.sound)
    (hf : s.heap.length + 1 ≤ fuel) :
    ∃ s1, handle fuel s ev = some s1 ∧ s1.sound ∧ s1.heap.length ≤ s.heap.length + 1 := by
  cases ev with
  | error err => exact ⟨_, rfl, sound_of_heap s _ rfl rfl hs, by simp⟩
  | text text => exact handle_text_sound fuel s text hs
  | processinginstruction name body => exact handle_instruction_sound fuel s name body hs hf
  | opentag name attributes =>
    refine ⟨_, rfl, ⟨?_, ?_⟩, ?_⟩
    · simp [newNode, Heap.alloc]
    · refine ranked_alloc s.heap _ (some s.node) (by simp [newNode, Heap.alloc])
        (fun r hr => ?_) ?_ (fun p hp => by simp only [Option.some.injEq] at hp; have := hs.1; omega)
        hs.2
      · simp only [newNode, Heap.alloc]
        exact parent_append_ne _ _ r hr
      · simp only [newNode, Heap.alloc]
        rw [node_append_new]
    · simp [newNode, Heap.alloc]
  | closetag name => exact handle_closetag_sound fuel s name hs
  | attr name value => exact ⟨s, rfl, hs, by omega⟩
  | comment comment =>
    obtain ⟨h1, e1, e2, e3⟩ := sound_addChild_new s { comment := some comment } hs
    refine ⟨{ s with heap := h1 }, ?_, e2, by simp only [e3]; omega⟩
    simp only [handle, addComment, Heap.alloc, e1, ParserState.after]
  | opencdata => exact ⟨_, rfl, sound_of_heap s _ rfl rfl hs, by simp⟩
  | cdata cdata =>
    simp only [handle]
    cases s.cDataBlock with
    | none => exact ⟨s, rfl, hs, by omega⟩
    | some block => exact ⟨_, rfl, sound_of_heap s _ rfl rfl hs, by simp⟩
  | closecdata =>
    obtain ⟨h1, e1, e2, e3⟩ := sound_addChild_new s { cdata := s.cDataBlock } hs
    refine ⟨{ s with heap := h1, cDataBlock := none }, ?_,
      sound_of_heap _ _ rfl rfl e2, by simp only [e3]; omega⟩
    simp only [handle, addCData, Heap.alloc, e1, ParserState.after, Option.map_some']

theorem run_sound (fuel : Nat) : ∀ (evs : List SaxEvent) (s : ParserState), s.sound →
    s.heap.length + evs.length + 1 ≤ fuel →
    ∃ s1, run fuel s evs = some s1 ∧ s1.sound := by
  intro evs
  induction evs with
  | nil => intro s hs _; exact ⟨s, rfl, hs⟩
  | cons ev evs ih =>
    intro s hs hf
    simp only [List.length_cons] at hf
    obtain ⟨s1, e1, e2, e3⟩ := handle_sound fuel s ev hs (by omega)
    obtain ⟨s2, e4, e5⟩ := ih s1 e2 (by omega)
    exact ⟨s2, by simp only [run, e1, e4], e5⟩

theorem after_errs (s : ParserState) (errs : List String) (x : Heap × Except Err Unit) :
    ParserState.after { s with errs := errs } x =
      (s.after x).map (fun s1 => { s1 with errs := errs }) := by
  obtain ⟨h, e⟩ := x
  cases e <;> rfl

theorem after_keeps_errs (s s1 : ParserState) (x : Heap × Except Err Unit)
    (hx : s.after x = some s1) : s1.errs = s.errs := by
  obtain ⟨h, e⟩ := x
  cases e with
  | error _ => simp [ParserState.after] at hx
  | ok _ =>
    simp only [ParserState.after, Option.some.injEq] at hx
    rw [← hx]

/-- A handler other than `onerror` does not read the captured errors. -/
theorem handle_with_errs (fuel : Nat) (s : ParserState) (errs : List String) (ev : SaxEvent)
    (hd : ev.isData = true) :
    handle fuel { s with errs := errs } ev =
      (handle fuel s ev).map (fun s1 => { s1 with errs := errs }) := by
  cases ev with
  | error err => simp [SaxEvent.isData] at hd
  | text text =>
    simp only [handle]
    split
    · exact after_errs s errs _
    · rfl
  | processinginstruction name body =>
    simp only [handle]
    cases addInstruction fuel s.heap s.node name body <;> rfl
  | opentag name attributes => rfl
  | closetag name =>
    simp only [handle]
    rcases addChild (getParent s.heap s.node).1 (getParent s.heap s.node).2
      (.spec (.node s.node)) none with ⟨h, e⟩
    cases e <;> rfl
  | attr name value => rfl
  | comment comment => exact after_errs s errs _
  | opencdata => rfl
  | cdata cdata =>
    simp only [handle]
    cases hb : s.cDataBlock with
    | none => simp [hb]
    | some b => simp
  | closecdata =>
    simp only [handle]
    rw [after_errs]
    cases s.after (addCData s.heap s.node s.cDataBlock none) <;> rfl

/-- A handler other than `onerror` does not change the captured errors. -/
theorem handle_keeps_errs (fuel : Nat) (s s1 : ParserState) (ev : SaxEvent)
    (hd : ev.isData = true) (hh : handle fuel s ev = some s1) : s1.errs = s.errs := by
  cases ev with
  | error err => simp [SaxEvent.isData] at hd
  | text text =>
    simp only [handle] at hh
    split at hh
    · exact after_keeps_errs s s1 _ hh
    · simp only [Option.some.injEq] at hh; rw [← hh]
  | processinginstruction name body =>
    simp only [handle] at hh
    cases hi : addInstruction fuel s.heap s.node name body with
    | none => rw [hi] at hh; simp at hh
    | some h => rw [hi] at hh; simp only [Option.map_some', Option.some.injEq] at hh; rw [← hh]
  | opentag name attributes =>
    simp only [handle, Option.some.injEq] at hh; rw [← hh]
  | closetag name =>
    simp only [handle] at hh
    rcases hc : addChild (getParent s.heap s.node).1 (getParent s.heap s.node).2
      (.spec (.node s.node)) none with ⟨h, e⟩
    rw [hc] at hh
    cases e with
    | error _ => simp at hh
    | ok _ => simp only [Option.some.injEq] at hh; rw [← hh]
  | attr name value => simp only [handle, Option.some.injEq] at hh; rw [← hh]
  | comment comment => exact after_keeps_errs s s1 _ hh
  | opencdata => simp only [handle, Option.some.injEq] at hh; rw [← hh]
  | cdata cdata =>
    simp only [handle] at hh
    cases hb : s.cDataBlock with
    | none => rw [hb] at hh; simp only [Option.some.injEq] at hh; rw [← hh]
    | some b => rw [hb] at hh; simp only [Option.some.injEq] at hh; rw [← hh]
  | closecdata =>
    simp only [handle] at hh
    cases ha : s.after (addCData s.heap s.node s.cDataBlock none) with
    | none => rw [ha] at hh; simp at hh
    | some s2 =>
      rw [ha] at hh
      simp only [Option.map_some', Option.some.injEq] at hh
      rw [← hh]
      exact after_keeps_errs s s2 _ ha

/-- The run of the handlers, split into the run on the events that are not
error events and the captured errors. -/
theorem run_split (fuel : Nat) : ∀ (evs : List SaxEvent) (s : ParserState),
    run fuel s evs =
      (run fuel { s with errs := [] } (evs.filter SaxEvent.isData)).map
        (fun s1 => { s1 with errs := s.errs ++ capturedErrors evs }) := by
  intro evs
  induction evs with
  | nil => intro s; simp [run, capturedErrors]
  | cons ev evs ih =>
    intro s
    by_cases hd : ev.isData = true
    · have hc : capturedErrors (ev :: evs) = capturedErrors evs := by
        cases ev <;> first | rfl | simp [SaxEvent.isData] at hd
      simp only [List.filter, hd, run, hc]
      rw [handle_with_errs fuel s [] ev hd]
      cases hh : handle fuel s ev with
      | none => rfl
      | some s1 =>
        simp only [Option.map_some']
        rw [ih s1, handle_keeps_errs fuel s s1 ev hd hh]
    · cases ev with
      | error err =>
        simp only [List.filter, SaxEvent.isData, run, handle, capturedErrors]
        rw [ih]
        simp
      | _ => simp [SaxEvent.isData] at hd

theorem heap_ext (h1 h2 : Heap) (hlen : h1.length = h2.length)
    (hn : ∀ r, r < h1.length → h1.node r = h2.node r) : h1 = h2 := by
  apply List.ext_getElem hlen
  intro r hr1 hr2
  have := hn r hr1
  simp only [Heap.node, List.getD_eq_getElem?_getD, List.getElem?_eq_getElem hr1,
    List.getElem?_eq_getElem hr2, Option.getD_some] at this
  exact this

theorem put_comm (h : Heap) (a b : Nat) (x y : Node) (hab : a ≠ b) :
    (h.put a x).put b y = (h.put b y).put a x := by
  simp only [Heap.put]
  exact List.set_comm x y h hab

theorem put_put (h : Heap) (a : Nat) (x y : Node) : (h.put a x).put a y = h.put a y := by
  simp [Heap.put]

theorem put_append (h : Heap) (n x : Node) (r : Nat) (hr : r < h.length) :
    (h ++ [n]).put r x = h.put r x ++ [n] := by
  simp only [Heap.put]
  exact List.set_append_left _ _ hr

theorem setParent_put (h : Heap) (r c p : Nat) (n : Node) (hne : r ≠ c) :
    setParent (h.put r n) c p = (setParent h c p).put r n := by
  simp only [setParent]
  rw [node_put_ne _ _ _ _ hne, put_comm _ _ _ _ _ hne]

theorem pushValue_put (h : Heap) (r self c : Nat) (n : Node) (hne : r ≠ self) :
    pushValue (h.put r n) self c = (pushValue h self c).put r n := by
  simp only [pushValue, setValue]
  rw [children_put_ne _ _ _ _ hne, node_put_ne _ _ _ _ hne, put_comm _ _ _ _ _ hne]

mutual
theorem instantiate_put : ∀ (d : Spec) (h : Heap) (r : Nat) (n : Node), r < h.length →
    instantiate (h.put r n) d = ((instantiate h d).1.put r n, (instantiate h d).2)
  | .node c, h, r, n, _ => rfl
  | .leaf f, h, r, n, hr => by
    simp only [instantiate, Heap.alloc, length_put, put_append h _ _ r hr]
  | .obj f vs, h, r, n, hr => by
    simp only [instantiate, Heap.alloc, length_put]
    rw [← put_append h _ _ r hr,
      fill_put vs (h ++ [({ f.toNode with value := some [] } : Node)]) h.length r n
        (by simp; omega) (by omega)]
theorem fill_put : ∀ (vs : List Spec) (h : Heap) (self r : Nat) (n : Node),
    r < h.length → r ≠ self → fill (h.put r n) self vs = (fill h self vs).put r n
  | [], _, _, _, _, _, _ => rfl
  | .node c :: vs, h, self, r, n, hr, hne => by
    simp only [fill]
    rw [pushValue_put _ _ _ _ _ hne,
      fill_put vs _ self r n (by rw [length_pushValue]; exact hr) hne]
  | .leaf f :: vs, h, self, r, n, hr, hne => by
    simp only [fill]
    have hlen := length_instantiate (.leaf f) h
    have href := (instantiate_leaf_ref h f).1
    rw [instantiate_put (.leaf f) h r n hr]
    simp only []
    rw [setParent_put _ _ _ _ _ (by omega), pushValue_put _ _ _ _ _ hne,
      fill_put vs _ self r n (by rw [length_pushValue, length_setParent]; omega) hne]
  | .obj f ws :: vs, h, self, r, n, hr, hne => by
    simp only [fill]
    have hlen := length_instantiate (.obj f ws) h
    have href := (instantiate_obj_ref h f ws).1
    rw [instantiate_put (.obj f ws) h r n hr]
    simp only []
    rw [setParent_put _ _ _ _ _ (by omega), pushValue_put _ _ _ _ _ hne,
      fill_put vs _ self r n (by rw [length_pushValue, length_setParent]; omega) hne]
end

theorem pushValue_setParent_self (h : Heap) (self c p : Nat) (hs : self < h.length) :
    pushValue (setParent h self p) self c = setParent (pushValue h self c) self p := by
  simp only [pushValue, setValue, setParent]
  rw [node_put_self _ _ _ hs, node_put_self _ _ _ hs, put_put, put_put]
  simp [children, node_put_self _ _ _ hs]

theorem setParent_comm (h : Heap) (a b p q : Nat) (hab : a ≠ b) :
    setParent (setParent h a p) b q = setParent (setParent h b q) a p := by
  simp only [setParent]
  rw [node_put_ne _ _ _ _ hab, node_put_ne _ _ _ _ (Ne.symm hab), put_comm _ _ _ _ _ hab]

theorem instantiate_setParent (d : Spec) (h : Heap) (self p : Nat) (hs : self < h.length) :
    instantiate (setParent h self p) d =
      (setParent (instantiate h d).1 self p, (instantiate h d).2) := by
  simp only [setParent]
  rw [instantiate_put d h self _ hs, (instantiate_frame d h).2 self hs]

/-- The constructor's loop does not read the parent of the object under
construction. -/
theorem fill_setParent (vs : List Spec) : ∀ (h : Heap) (self p : Nat), self < h.length →
    fill (setParent h self p) self vs = setParent (fill h self vs) self p := by
  induction vs with
  | nil => intro h self p _; rfl
  | cons v vs ih =>
    intro h self p hs
    have hstep : ∀ d : Spec, d.isDescriptor = true →
        fill (pushValue (setParent (instantiate (setParent h self p) d).1
          (instantiate (setParent h self p) d).2 self) self
          (instantiate (setParent h self p) d).2) self vs =
        setParent (fill (pushValue (setParent (instantiate h d).1 (instantiate h d).2 self) self
          (instantiate h d).2) self vs) self p := by
      intro d hd
      have href : (instantiate h d).2 = h.length ∧ h.length < (instantiate h d).1.length := by
        cases d with
        | node r => simp [Spec.isDescriptor] at hd
        | leaf f => exact instantiate_leaf_ref h f
        | obj f ws => exact instantiate_obj_ref h f ws
      rw [instantiate_setParent d h self p hs]
      simp only []
      rw [setParent_comm _ _ _ _ _ (by omega : self ≠ (instantiate h d).2),
        pushValue_setParent_self _ _ _ _ (by rw [length_setParent]; omega),
        ih _ self p (by rw [length_pushValue, length_setParent]; omega)]
    cases v with
    | node c =>
      simp only [fill]
      rw [pushValue_setParent_self _ _ _ _ hs, ih _ self p (by rw [length_pushValue]; exact hs)]
    | leaf f => simp only [fill]; exact hstep (.leaf f) rfl
    | obj f ws => simp only [fill]; exact hstep (.obj f ws) rfl

theorem fill_opened_step (b : Heap) (self c : Nat) (m : Node) (hs : self < b.length)
    (hm : b.node self = m) (hmv : m.value = some []) (d : Spec) (vs : List Spec)
    (hd : d.isDescriptor = true) :
    fill (pushValue (setParent
        (instantiate (b.put self { m with parent := some c, value := none }) d).1
        (instantiate (b.put self { m with parent := some c, value := none }) d).2 self)
        self (instantiate (b.put self { m with parent := some c, value := none }) d).2)
        self vs =
      setParent (fill (pushValue (setParent (instantiate b d).1 (instantiate b d).2 self)
        self (instantiate b d).2) self vs) self c := by
  have href : (instantiate b d).2 = b.length ∧ b.length < (instantiate b d).1.length := by
    cases d with
    | node r => simp [Spec.isDescriptor] at hd
    | leaf f1 => exact instantiate_leaf_ref _ f1
    | obj f1 ws => exact instantiate_obj_ref _ f1 ws
  obtain ⟨e1, e2⟩ := href
  obtain ⟨_, e4⟩ := instantiate_frame d b
  rw [instantiate_put d _ self _ hs]
  simp only []
  rw [e1, setParent_put _ _ _ _ _ (by omega : self ≠ b.length)]
  have hlenZ : self < (setParent (instantiate b d).1 b.length self).length := by
    rw [length_setParent]; omega
  have hZ : (setParent (instantiate b d).1 b.length self).node self = m := by
    rw [node_setParent_ne _ _ _ _ (by omega), e4 self hs, hm]
  have hfs := fill_setParent vs
    (pushValue (setParent (instantiate b d).1 b.length self) self b.length) self c
    (by rw [length_pushValue, length_setParent]; omega)
  rw [← hfs]
  congr 1
  generalize hz : setParent (instantiate b d).1 b.length self = z at hlenZ hZ ⊢
  simp only [pushValue, setValue, children, setParent]
  simp only [node_put_self z self _ hlenZ, put_put, hZ, hmv]
  simp

/-- The children of an element can be added to the node the open tag created,
which has its parent and no `value` list yet, or to the node the constructor
creates, which has an empty `value` list and gets its parent afterwards. -/
theorem fill_opened (h : Heap) (f : Fields) (c : Nat) (d : Spec) (vs : List Spec)
    (hd : d.isDescriptor = true) :
    fill (h ++ [({ f.toNode with parent := some c } : Node)]) h.length (d :: vs) =
      setParent (fill (h ++ [({ f.toNode with value := some [] } : Node)]) h.length (d :: vs))
        h.length c := by
  have hA : h ++ [({ f.toNode with parent := some c } : Node)] =
      (h ++ [({ f.toNode with value := some [] } : Node)]).put h.length
        { ({ f.toNode with value := some [] } : Node) with parent := some c, value := none } := by
    simp [Heap.put, Fields.toNode]
  have hstep := fill_opened_step (h ++ [({ f.toNode with value := some [] } : Node)]) h.length c
    { f.toNode with value := some [] } (by simp) (node_append_new _ _) rfl d vs hd
  rw [hA]
  cases d with
  | node r => simp [Spec.isDescriptor] at hd
  | leaf f1 => simp only [fill]; exact hstep
  | obj f1 ws => simp only [fill]; exact hstep

theorem run_append (fuel : Nat) : ∀ (a b : List SaxEvent) (s : ParserState),
    run fuel s (a ++ b) = (run fuel s a).bind (fun s1 => run fuel s1 b) := by
  intro a
  induction a with
  | nil => intro b s; rfl
  | cons e a ih =>
    intro b s
    simp only [List.cons_append, run]
    cases handle fuel s e with
    | none => rfl
    | some s1 => exact ih b s1

theorem fill_append : ∀ (a b : List Spec) (h : Heap) (self : Nat),
    fill h self (a ++ b) = fill (fill h self a) self b
  | [], _, _, _ => rfl
  | .node r :: a, b, h, self => by
    simp only [List.cons_append, fill]; exact fill_append a b _ self
  | .leaf f :: a, b, h, self => by
    simp only [List.cons_append, fill]; exact fill_append a b _ self
  | .obj f ws :: a, b, h, self => by
    simp only [List.cons_append, fill]; exact fill_append a b _ self

theorem initValue_append (h : Heap) (c : Nat) (n : Node) (hc : c < h.length) :
    initValue (h ++ [n]) c = initValue h c ++ [n] := by
  unfold initValue
  rw [node_append_lt h [n] c hc]
  cases (h.node c).value with
  | some cs => rfl
  | none => exact put_append h n _ c hc

theorem push_initValue (a : Heap) (c l : Nat) (hc : c < a.length) (hne : l ≠ c) :
    pushValue (setParent (initValue a c) l c) c l = pushValue (setParent a l c) c l := by
  unfold initValue
  cases hv : (a.node c).value with
  | some cs => rfl
  | none =>
    simp only []
    rw [setParent_put _ _ _ _ _ (Ne.symm hne)]
    have hlen : c < (setParent a l c).length := by rw [length_setParent]; exact hc
    have hnode : (setParent a l c).node c = a.node c := node_setParent_ne _ _ _ _ hne
    simp only [pushValue, setValue, children]
    rw [node_put_self _ _ _ hlen, put_put, hnode]
    simp [hv]

theorem setParent_append_new (h : Heap) (n : Node) (c : Nat) :
    setParent (h ++ [n]) h.length c = h ++ [({ n with parent := some c } : Node)] := by
  simp [setParent, Heap.put, node_append_new]

theorem setParent_idem (h : Heap) (l c : Nat) :
    setParent (setParent h l c) l c = setParent h l c := by
  by_cases hl : l < h.length
  · simp only [setParent]
    rw [node_put_self _ _ _ hl, put_put]
  · simp only [setParent]
    rw [put_out_of_range h l _ (by omega), put_out_of_range h l _ (by omega)]

theorem parent_fill_self (vs : List Spec) : ∀ (h : Heap) (self : Nat), self < h.length →
    ((fill h self vs).node self).parent = (h.node self).parent := by
  induction vs with
  | nil => intro h self _; rfl
  | cons v vs ih =>
    intro h self hs
    have hstep : ∀ (d : Spec), d.isDescriptor = true →
        ((fill (pushValue (setParent (instantiate h d).1 (instantiate h d).2 self) self
          (instantiate h d).2) self vs).node self).parent = (h.node self).parent := by
      intro d hd
      have href : (instantiate h d).2 = h.length ∧ h.length < (instantiate h d).1.length := by
        cases d with
        | node r => simp [Spec.isDescriptor] at hd
        | leaf f => exact instantiate_leaf_ref h f
        | obj f ws => exact instantiate_obj_ref h f ws
      obtain ⟨e1, e2⟩ := href
      obtain ⟨_, e4⟩ := instantiate_frame d h
      rw [ih _ self (by rw [length_pushValue, length_setParent]; omega)]
      simp only [pushValue]
      rw [parent_setValue, e1, node_setParent_ne _ _ _ _ (by omega), e4 self hs]
    cases v with
    | node r =>
      simp only [fill]
      rw [ih _ self (by rw [length_pushValue]; exact hs)]
      simp only [pushValue]
      rw [parent_setValue]
    | leaf f => simp only [fill]; exact hstep (.leaf f) rfl
    | obj f ws => simp only [fill]; exact hstep (.obj f ws) rfl

/-- Adding a node allocated for the call under `c` builds the heap the
constructor's loop builds for the descriptor of that node. -/
theorem addChild_new_eq_fill (h : Heap) (c : Nat) (f : Fields) (hc : c < h.length) :
    addChild (h ++ [f.toNode]) c (.spec (.node h.length)) none =
      (fill h c [.leaf f], .ok ()) := by
  have hne : h.length ≠ c := by omega
  simp only [addChild, hne, if_false, attachChild, fill, instantiate, Heap.alloc]
  rw [push_initValue _ _ _ (by simp; omega) hne]

theorem isDescriptor_spec (i : Item) : i.spec.isDescriptor = true := by
  cases i with
  | element name attributes content =>
    simp only [Item.spec]
    split <;> rfl
  | text t => rfl
  | comment c => rfl

theorem fill_initValue_leaf (h : Heap) (c : Nat) (f : Fields) (hc : c < h.length) :
    fill (initValue h c) c [.leaf f] = fill h c [.leaf f] := by
  simp only [fill, instantiate, Heap.alloc, length_initValue]
  rw [← initValue_append h c f.toNode hc,
    push_initValue (h ++ [f.toNode]) c h.length (by simp; omega) (by omega)]

/-- The method `addText` on a node whose last child, if any, has no non-empty
`text`: the heap the constructor's loop builds for a Text descriptor. -/
theorem addText_eq_fill (h : Heap) (c : Nat) (t : String) (hc : c < h.length)
    (hl : ∀ last, (children h c).getLast? = some last → truthy (h.node last).text = false) :
    addText h c t none = (fill h c [.leaf { text := some t }], .ok ()) := by
  have hnew : addChild (newTextNode (initValue h c) t).1 c
      (.spec (.node (newTextNode (initValue h c) t).2)) none =
      (fill h c [.leaf { text := some t }], .ok ()) := by
    rw [newTextNode_eq]
    have := addChild_new_eq_fill (initValue h c) c { text := some t }
      (by rw [length_initValue]; exact hc)
    rw [fill_initValue_leaf h c _ hc] at this
    exact this
  unfold addText
  cases hlast : (children (initValue h c) c).getLast? with
  | none => exact hnew
  | some last =>
    simp only []
    have hf : truthy ((initValue h c).node last).text = false := by
      rw [text_initValue]
      exact hl last (by rw [← children_initValue h c c]; exact hlast)
    simp only [hf, Bool.false_eq_true, if_false]
    exact hnew

theorem handle_closetag_eq (fuel : Nat) (s : ParserState) (name : String) (c : Nat)
    (hpar : (s.heap.node s.node).parent = some c) (hne : s.node ≠ c) (hc : c < s.heap.length) :
    handle fuel s (.closetag name) =
      some { s with heap := pushValue (setParent s.heap s.node c) c s.node, node := c } := by
  have hg : getParent s.heap s.node = (s.heap, c) := by simp [getParent, hpar]
  simp only [handle, hg, addChild, hne, if_false, attachChild]
  rw [push_initValue _ _ _ hc hne]

/-- The node the constructor's loop builds for a single descriptor: the node
the constructor gives, with its parent set. -/
theorem node_fill_single (h : Heap) (c : Nat) (d : Spec) (hc : c < h.length)
    (hd : d.isDescriptor = true) :
    (fill h c [d]).node h.length =
      { (instantiate h d).1.node h.length with parent := some c } := by
  have href : (instantiate h d).2 = h.length ∧ h.length < (instantiate h d).1.length := by
    cases d with
    | node r => simp [Spec.isDescriptor] at hd
    | leaf f => exact instantiate_leaf_ref h f
    | obj f ws => exact instantiate_obj_ref h f ws
  have hnode : (pushValue (setParent (instantiate h d).1 (instantiate h d).2 c) c
      (instantiate h d).2).node h.length =
      { (instantiate h d).1.node h.length with parent := some c } := by
    rw [href.1, node_pushValue_ne _ _ _ _ (by omega)]
    exact node_put_self _ _ _ href.2
  cases d with
  | node r => simp [Spec.isDescriptor] at hd
  | leaf f => simp only [fill]; exact hnode
  | obj f ws => simp only [fill]; exact hnode

theorem text_fill_child (h : Heap) (c : Nat) (i : Item) (hc : c < h.length)
    (hi : i.isText = false) : ((fill h c [i.spec]).node h.length).text = none := by
  rw [node_fill_single h c i.spec hc (isDescriptor_spec i)]
  cases i with
  | text t => simp [Item.isText] at hi
  | comment x => simp [Item.spec, instantiate, Heap.alloc, node_append_new, Fields.toNode]
  | element name attributes content =>
    simp only [Item.spec]
    split
    · simp [instantiate, Heap.alloc, node_append_new, Fields.toNode]
    · simp only [instantiate, Heap.alloc]
      rw [fill_self _ _ h.length [] (by simp) (by rw [node_append_new]), node_append_new]
      rfl

theorem children_fill_single (h : Heap) (c : Nat) (d : Spec) (hc : c < h.length)
    (hd : d.isDescriptor = true) :
    children (fill h c [d]) c = children h c ++ [h.length] := by
  rw [children_fill _ _ _ hc]
  cases d with
  | node r => simp [Spec.isDescriptor] at hd
  | leaf f => simp [entryRefs]
  | obj f ws => simp [entryRefs]

/-- Appending to the text of a Text node that the constructor's loop built
gives the heap the loop builds for the longer text. -/
theorem put_text_fill (h : Heap) (c : Nat) (a b : String) (hc : c < h.length) :
    (fill h c [.leaf { text := some a }]).put h.length
        { (fill h c [.leaf { text := some a }]).node h.length with text := some (a ++ b) } =
      fill h c [.leaf { text := some (a ++ b) }] := by
  rw [node_fill_single h c (.leaf { text := some a }) hc rfl]
  simp only [fill, instantiate, Heap.alloc, node_append_new]
  rw [← pushValue_put _ _ _ _ _ (by omega : h.length ≠ c)]
  congr 1
  rw [setParent_append_new, setParent_append_new]
  simp [Heap.put, Fields.toNode]

theorem children_put_text (h : Heap) (l r : Nat) (x : Option String) :
    children (h.put l { h.node l with text := x }) r = children h r := by
  by_cases hlr : l = r
  · subst hlr
    by_cases hl : l < h.length
    · simp [children, node_put_self _ _ _ hl]
    · rw [put_out_of_range _ _ _ (by omega)]
  · exact children_put_ne _ _ _ _ hlr

theorem mergeHead_of_not_text (i : Item) (ms : List Item) (hi : i.isText = false) :
    Item.mergeHead i ms = i :: ms := by
  cases i with
  | text t => simp [Item.isText] at hi
  | comment x => rfl
  | element name attributes content => rfl

theorem isText_merged (i : Item) : i.merged.isText = i.isText := by
  cases i <;> rfl

theorem ne_empty_of_nonBlank (t : String) (h : (jsTrim t != "") = true) : t ≠ "" := by
  intro ht
  subst ht
  revert h
  decide

theorem append_ne_empty (a b : String) (ha : a ≠ "") : a ++ b ≠ "" := by
  intro h
  apply ha
  apply String.ext
  have := congrArg String.data h
  simp only [String.data_append] at this
  exact (List.append_eq_nil.mp this).1

/-- After an element or a comment is added under `c`, the last child of `c` has
no text. -/
theorem last_after_node (h : Heap) (c : Nat) (i : Item) (hc : c < h.length)
    (hi : i.isText = false) :
    ∀ last, (children (fill h c [i.merged.spec]) c).getLast? = some last →
      truthy ((fill h c [i.merged.spec]).node last).text = false := by
  intro last hlast
  rw [children_fill_single h c i.merged.spec hc (isDescriptor_spec i.merged)] at hlast
  simp only [List.getLast?_append, List.getLast?_singleton, Option.or_some,
    Option.some.injEq] at hlast
  rw [← hlast, text_fill_child h c i.merged hc (by rw [isText_merged]; exact hi)]
  rfl

theorem fill_cons (h : Heap) (c : Nat) (d : Spec) (vs : List Spec) :
    fill h c (d :: vs) = fill (fill h c [d]) c vs :=
  fill_append [d] vs h c

mutual
theorem run_node : ∀ (i : Item) (fuel : Nat) (s : ParserState), s.node < s.heap.length →
    i.nonBlank = true → i.isText = false →
    run fuel s i.events = some { s with heap := fill s.heap s.node [i.merged.spec] }
  | .text t, _, _, _, _, hi => by simp [Item.isText] at hi
  | .comment x, fuel, s, hn, _, _ => by
    have := addChild_new_eq_fill s.heap s.node { comment := some x } hn
    simp only [Item.events, run, handle, addComment, Heap.alloc, Item.merged, Item.spec]
    rw [show ({ comment := some x } : Node) = Fields.toNode { comment := some x } from rfl, this]
    rfl
  | .element name attributes content, fuel, s, hn, hnb, _ => by
    simp only [Item.nonBlank] at hnb
    have hkids := run_fresh content fuel
      { s with heap := (newNode s.heap (some name) (some attributes) (some s.node)).1,
               node := (newNode s.heap (some name) (some attributes) (some s.node)).2 }
      (by simp [newNode, Heap.alloc]) hnb
      (fun last hlast => by
        simp [newNode, Heap.alloc, children, node_append_new] at hlast)
    simp only [Item.events, run, handle]
    rw [run_append, hkids]
    simp only [Option.some_bind, run, newNode, Heap.alloc]
    have hpar : ((fill (s.heap ++
          [({ name := some name, attributes := some attributes, parent := some s.node } : Node)])
          s.heap.length (Item.specs (Item.mergedAll content))).node s.heap.length).parent =
          some s.node := by
      rw [parent_fill_self _ _ _ (by simp), node_append_new]
    have hlen : s.heap.length < (fill (s.heap ++
          [({ name := some name, attributes := some attributes, parent := some s.node } : Node)])
          s.heap.length (Item.specs (Item.mergedAll content))).length := by
      rw [length_fill]; simp; omega
    rw [handle_closetag_eq fuel _ name s.node hpar (by simp only []; omega)
      (by simp only []; omega)]
    simp only []
    have hheap : pushValue (setParent (fill (s.heap ++
          [({ name := some name, attributes := some attributes, parent := some s.node } : Node)])
          s.heap.length (Item.specs (Item.mergedAll content))) s.heap.length s.node) s.node
          s.heap.length =
        fill s.heap s.node [(Item.element name attributes content).merged.spec] := by
      simp only [Item.merged]
      cases Item.mergedAll content with
      | nil =>
        simp only [Item.specs, fill, Item.spec, List.isEmpty_nil, if_true, instantiate,
          Heap.alloc]
        rw [setParent_append_new, setParent_append_new]
        rfl
      | cons k ks =>
        simp only [Item.specs, Item.spec, List.isEmpty_cons, Bool.false_eq_true, if_false]
        have hop := fill_opened s.heap { name := some name, attributes := some attributes }
          s.node k.spec (Item.specs ks) (isDescriptor_spec k)
        have hN :
            ({ name := some name, attributes := some attributes, parent := some s.node } : Node) =
            { Fields.toNode { name := some name, attributes := some attributes } with parent := some s.node } :=
          rfl
        simp only [fill, instantiate, Heap.alloc, Item.specs]
        rw [hN, hop, setParent_idem]
    rw [hheap]
theorem run_fresh : ∀ (items : List Item) (fuel : Nat) (s : ParserState),
    s.node < s.heap.length → Item.nonBlankAll items = true →
    (∀ last, (children s.heap s.node).getLast? = some last →
      truthy (s.heap.node last).text = false) →
    run fuel s (Item.eventsAll items) =
      some { s with heap := fill s.heap s.node (Item.specs (Item.mergedAll items)) }
  | [], _, _, _, _, _ => rfl
  | .text a :: rest, fuel, s, hn, hnb, hl => by
    simp only [Item.nonBlankAll, Item.nonBlank, Bool.and_eq_true] at hnb
    obtain ⟨ha, hrest⟩ := hnb
    have hne := ne_empty_of_nonBlank a ha
    have h1 : run fuel s (Item.text a).events =
        some { s with heap := fill s.heap s.node [.leaf { text := some a }] } := by
      simp only [Item.events, run, handle, ha, if_true,
        addText_eq_fill s.heap s.node a hn hl, ParserState.after]
    have h2 := run_after_text rest fuel
      { s with heap := fill s.heap s.node [.leaf { text := some a }] } s.heap.length a
      (by simp only [length_fill]; omega) hrest
      (by simp only []; rw [children_fill_single s.heap s.node (.leaf { text := some a }) hn rfl]; simp)
      (by simp only [length_fill, Spec.sizes, Spec.size]; omega)
      (by simp only []; rw [node_fill_single s.heap s.node (.leaf { text := some a }) hn rfl]
          simp [instantiate, Heap.alloc, node_append_new, Fields.toNode])
      hne
    simp only [Item.eventsAll]
    rw [run_append, h1]
    simp only [Option.some_bind]
    rw [h2]
    simp only [Item.mergedAll, Item.merged]
    cases hm : Item.mergedAll rest with
    | nil => rfl
    | cons m ms =>
      cases m with
      | text b =>
        simp only [Item.mergeHead, appendItems, Item.specs, Item.spec]
        rw [put_text_fill s.heap s.node a b hn, ← fill_cons]
      | comment x =>
        simp only [Item.mergeHead, appendItems, Item.specs]
        rw [fill_cons s.heap s.node (Item.text a).spec]
        rfl
      | element name attributes content =>
        simp only [Item.mergeHead, appendItems, Item.specs]
        rw [fill_cons s.heap s.node (Item.text a).spec]
        rfl
  | .comment x :: rest, fuel, s, hn, hnb, _ => by
    simp only [Item.nonBlankAll, Bool.and_eq_true] at hnb
    have h1 := run_node (.comment x) fuel s hn hnb.1 rfl
    have h2 := run_fresh rest fuel { s with heap := fill s.heap s.node [(Item.comment x).merged.spec] }
      (by simp only [length_fill]; omega) hnb.2
      (last_after_node s.heap s.node (.comment x) hn rfl)
    simp only [Item.eventsAll]
    rw [run_append, h1]
    simp only [Option.some_bind]
    rw [h2]
    simp only [Item.mergedAll]
    rw [mergeHead_of_not_text (Item.comment x).merged _ rfl]
    simp only [Item.specs]
    rw [fill_cons s.heap s.node _ (Item.specs (Item.mergedAll rest))]
  | .element name attributes content :: rest, fuel, s, hn, hnb, _ => by
    simp only [Item.nonBlankAll, Bool.and_eq_true] at hnb
    have h1 := run_node (.element name attributes content) fuel s hn hnb.1 rfl
    have h2 := run_fresh rest fuel
      { s with heap := fill s.heap s.node [(Item.element name attributes content).merged.spec] }
      (by simp only [length_fill]; omega) hnb.2
      (last_after_node s.heap s.node (.element name attributes content) hn rfl)
    simp only [Item.eventsAll]
    rw [run_append, h1]
    simp only [Option.some_bind]
    rw [h2]
    simp only [Item.mergedAll]
    rw [mergeHead_of_not_text (Item.element name attributes content).merged _ rfl]
    simp only [Item.specs]
    rw [fill_cons s.heap s.node _ (Item.specs (Item.mergedAll rest))]
theorem run_after_text : ∀ (items : List Item) (fuel : Nat) (s : ParserState) (last : Nat)
    (old : String), s.node < s.heap.length → Item.nonBlankAll items = true →
    (children s.heap s.node).getLast? = some last → last < s.heap.length →
    (s.heap.node last).text = some old → old ≠ "" →
    run fuel s (Item.eventsAll items) =
      some { s with heap := appendItems s.heap s.node last old (Item.mergedAll items) }
  | [], _, _, _, _, _, _, _, _, _, _ => rfl
  | .text a :: rest, fuel, s, last, old, hn, hnb, hl, hlt, htext, hold => by
    simp only [Item.nonBlankAll, Item.nonBlank, Bool.and_eq_true] at hnb
    obtain ⟨ha, hrest⟩ := hnb
    have h1 : run fuel s (Item.text a).events =
        some { s with heap := s.heap.put last { s.heap.node last with text := some (old ++ a) } } := by
      simp only [Item.events, run, handle, ha, if_true,
        addText_append s.heap s.node last old a hl htext hold, ParserState.after]
    have h2 := run_after_text rest fuel
      { s with heap := s.heap.put last { s.heap.node last with text := some (old ++ a) } }
      last (old ++ a)
      (by simp only [length_put]; exact hn) hrest
      (by simp only []; rw [children_put_text]; exact hl)
      (by simp only [length_put]; exact hlt)
      (by simp only []; rw [node_put_self _ _ _ hlt])
      (append_ne_empty old a hold)
    simp only [Item.eventsAll]
    rw [run_append, h1]
    simp only [Option.some_bind]
    rw [h2]
    simp only [Item.mergedAll, Item.merged]
    cases hm : Item.mergedAll rest with
    | nil => rfl
    | cons m ms =>
      cases m with
      | text b =>
        simp only [Item.mergeHead, appendItems]
        rw [node_put_self _ _ _ hlt, put_put, String.append_assoc]
      | comment x => simp only [Item.mergeHead, appendItems]
      | element name attributes content => simp only [Item.mergeHead, appendItems]
  | .comment x :: rest, fuel, s, last, old, hn, hnb, _, _, _, _ => by
    simp only [Item.nonBlankAll, Bool.and_eq_true] at hnb
    have h1 := run_node (.comment x) fuel s hn hnb.1 rfl
    have h2 := run_fresh rest fuel { s with heap := fill s.heap s.node [(Item.comment x).merged.spec] }
      (by simp only [length_fill]; omega) hnb.2
      (last_after_node s.heap s.node (.comment x) hn rfl)
    simp only [Item.eventsAll]
    rw [run_append, h1]
    simp only [Option.some_bind]
    rw [h2]
    simp only [Item.mergedAll]
    rw [mergeHead_of_not_text (Item.comment x).merged _ rfl]
    simp only [appendItems, Item.merged, Item.specs]
    rw [fill_cons s.heap s.node _ (Item.specs (Item.mergedAll rest))]
  | .element name attributes content :: rest, fuel, s, last, old, hn, hnb, _, _, _, _ => by
    simp only [Item.nonBlankAll, Bool.and_eq_true] at hnb
    have h1 := run_node (.element name attributes content) fuel s hn hnb.1 rfl
    have h2 := run_fresh rest fuel
      { s with heap := fill s.heap s.node [(Item.element name attributes content).merged.spec] }
      (by simp only [length_fill]; omega) hnb.2
      (last_after_node s.heap s.node (.element name attributes content) hn rfl)
    simp only [Item.eventsAll]
    rw [run_append, h1]
    simp only [Option.some_bind]
    rw [h2]
    simp only [Item.mergedAll]
    rw [mergeHead_of_not_text (Item.element name attributes content).merged _ rfl]
    simp only [appendItems, Item.merged, Item.specs]
    rw [fill_cons s.heap s.node _ (Item.specs (Item.mergedAll rest))]
end

theorem run_keeps_errs (fuel : Nat) : ∀ (evs : List SaxEvent) (s s1 : ParserState),
    (∀ e ∈ evs, SaxEvent.isData e = true) → run fuel s evs = some s1 → s1.errs = s.errs := by
  intro evs
  induction evs with
  | nil =>
    intro s s1 _ hr
    simp only [run, Option.some.injEq] at hr
    rw [hr]
  | cons e evs ih =>
    intro s s1 hd hr
    simp only [run] at hr
    cases hh : handle fuel s e with
    | none => rw [hh] at hr; cases hr
    | some s2 =>
      rw [hh] at hr
      rw [ih s2 s1 (fun x hx => hd x (by simp [hx])) hr,
        handle_keeps_errs fuel s s2 e (hd e (by simp)) hh]

theorem initial_sound : ParserState.initial.sound := by
  refine ⟨by decide, fun r p hrp => ?_, fun _ => 0, fun r p hrp => ?_, fun r _ => Nat.zero_lt_one⟩
  all_goals
    exfalso
    have hnone : ∀ r, (ParserState.initial.heap.node r).parent = none := by
      intro r
      cases r with
      | zero => rfl
      | succ k => rw [node_out_of_range _ _ (by simp [ParserState.initial])]
    rw [hnone r] at hrp
    cases hrp

mutual
theorem plain_spec : ∀ (i : Item), i.spec.plain = true
  | .text t => rfl
  | .comment c => rfl
  | .element name attributes content => by
    simp only [Item.spec]
    split
    · rfl
    · simp only [Spec.plain]
      exact plainAll_specs content
theorem plainAll_specs : ∀ (items : List Item), Spec.plainAll (Item.specs items) = true
  | [] => rfl
  | i :: rest => by
    simp only [Item.specs, Spec.plainAll, Bool.and_eq_true]
    exact ⟨plain_spec i, plainAll_specs rest⟩
end

theorem length_specs (items : List Item) : (Item.specs items).length = items.length := by
  induction items with
  | nil => rfl
  | cons i rest ih => simp [Item.specs, ih]

theorem mergeHead_elements (i : Item) (l : List Item) :
    (Item.mergeHead i l).filter Item.isElement = (i :: l).filter Item.isElement := by
  cases i with
  | text a =>
    cases l with
    | nil => rfl
    | cons m ms =>
      cases m with
      | text b => rfl
      | comment x => rfl
      | element name attributes content => rfl
  | comment x => rfl
  | element name attributes content => rfl

theorem isElement_merged (i : Item) : i.merged.isElement = i.isElement := by
  cases i with
  | text a => rfl
  | comment x => rfl
  | element name attributes content => simp [Item.merged, Item.isElement]

/-- Merging adjacent texts keeps the elements of a list, in order. -/
theorem mergedAll_elements (items : List Item) :
    (Item.mergedAll items).filter Item.isElement =
      (items.filter Item.isElement).map Item.merged := by
  induction items with
  | nil => rfl
  | cons i rest ih =>
    simp only [Item.mergedAll]
    rw [mergeHead_elements, List.filter_cons, List.filter_cons, isElement_merged, ih]
    cases i.isElement with
    | true => simp
    | false => simp

/-- The parse of a well-nested event sequence: the handlers return, the cursor
is the synthetic Root again, and the heap is the one the constructor's loop
builds on the Root for the descriptors of the items, adjacent texts joined. -/
theorem run_initial_items (items : List Item) (fuel : Nat)
    (hnb : Item.nonBlankAll items = true) :
    run fuel ParserState.initial (Item.eventsAll items) =
      some { ParserState.initial with
        heap := fill [({} : Node)] 0 (Item.specs (Item.mergedAll items)) } :=
  run_fresh items fuel ParserState.initial (by decide) hnb
    (fun last hlast => by simp [ParserState.initial, children, Heap.node] at hlast)

/-- C25. For every well-nested sequence of open-tag, close-tag, comment and
non-blank text events, given as the events of a list of items: the handlers
return without error with the cursor on the synthetic Root; the heap is the one
the constructor's loop builds on the Root for the descriptors of the items
with every run of adjacent texts joined into one text, so the Root has one
child per top-level item of the joined list, in document order, and as many
element children as there are top-level elements, every member of every
children list has the listing node as its parent, and the snapshots of the
children of the Root are the descriptors of the joined items, at every
depth. -/
theorem toNode_items (items : List Item) (fuel : Nat)
    (hnb : Item.nonBlankAll items = true) :
    toNode fuel (Item.eventsAll items) =
        some (fill [({} : Node)] 0 (Item.specs (Item.mergedAll items)), .ok 0) ∧
      children (fill [({} : Node)] 0 (Item.specs (Item.mergedAll items))) 0 =
        entryRefs 1 (Item.specs (Item.mergedAll items)) ∧
      (children (fill [({} : Node)] 0 (Item.specs (Item.mergedAll items))) 0).length =
        (Item.mergedAll items).length ∧
      ((Item.mergedAll items).filter Item.isElement).length =
        (items.filter Item.isElement).length ∧
      consistent (fill [({} : Node)] 0 (Item.specs (Item.mergedAll items))) = true ∧
      ∀ depth, Spec.heights (Item.specs (Item.mergedAll items)) ≤ depth →
        (children (fill [({} : Node)] 0 (Item.specs (Item.mergedAll items))) 0).mapM
          (fun c => toObject depth
            (fill [({} : Node)] 0 (Item.specs (Item.mergedAll items))) c) =
          some (Item.specs (Item.mergedAll items)) := by
  have hcs : children (fill [({} : Node)] 0 (Item.specs (Item.mergedAll items))) 0 =
      entryRefs 1 (Item.specs (Item.mergedAll items)) := by
    rw [children_fill _ _ _ (by decide)]
    rfl
  refine ⟨?_, hcs, ?_, ?_, ?_, fun depth hd => ?_⟩
  · simp only [toNode, run_initial_items items fuel hnb, Option.map_some']
    rfl
  · rw [hcs, entryRefs_length, length_specs]
  · rw [mergedAll_elements, List.length_map]
  · rw [consistent_iff]
    refine fill_consistent _ _ 0 (plainAll_specs _) (by decide) (fun q x hx => ?_)
    cases q with
    | zero => simp [children, Heap.node] at hx
    | succ k => simp [children, Heap.node] at hx
  · rw [hcs]
    exact toObject_fill (Item.specs (Item.mergedAll items)) [({} : Node)] _ 0 depth (by decide)
      (plainAll_specs _) hd (fun r _ _ => ⟨rfl, rfl⟩)

/-- C25, witness: the events of `<a><b k="v">x</b><!--c--></a>` with the text
of `b` delivered in two events, "x" and "y". -/
theorem toNode_items_witness :
    toNode 0 [.opentag "a" [], .opentag "b" [("k", "v")], .text "x", .text "y", .closetag "b",
        .comment "c", .closetag "a"] =
      some ([ { value := some [1] },
              { name := some "a", attributes := some [], parent := some 0, value := some [2, 4] },
              { name := some "b", attributes := some [("k", "v")], parent := some 1,
                value := some [3] },
              { text := some "xy", parent := some 2 },
              { comment := some "c", parent := some 1 } ], .ok 0) ∧
      (children (fill [({} : Node)] 0 (Item.specs
          [.element "a" [] [.element "b" [("k", "v")] [.text "xy"], .comment "c"]])) 0).mapM
        (fun c => toObject 3 (fill [({} : Node)] 0 (Item.specs
          [.element "a" [] [.element "b" [("k", "v")] [.text "xy"], .comment "c"]])) c) =
        some (Item.specs
          [.element "a" [] [.element "b" [("k", "v")] [.text "xy"], .comment "c"]]) :=
  ⟨(toNode_items
      [.element "a" [] [.element "b" [("k", "v")] [.text "x", .text "y"], .comment "c"]] 0
      (by decide)).1,
    (toNode_items
      [.element "a" [] [.element "b" [("k", "v")] [.text "x", .text "y"], .comment "c"]] 0
      (by decide)).2.2.2.2.2 3 (by decide)⟩

/-- The run of the handlers on any sequence of events, with enough fuel for
`getRoot`: every handler returns, the captured errors are the messages of the
error events in order, and the heap, the cursor and the CDATA block at the end
are those of the run on the sequence without its error events. -/
theorem run_initial (evs : List SaxEvent) (fuel : Nat) (hf : evs.length + 2 ≤ fuel) :
    ∃ s, run fuel ParserState.initial evs = some s ∧
      s.errs = capturedErrors evs ∧
      run fuel ParserState.initial (evs.filter SaxEvent.isData) = some { s with errs := [] } := by
  obtain ⟨s, hrun, _⟩ := run_sound fuel evs ParserState.initial initial_sound
    (by simp only [ParserState.initial, List.length_singleton]; omega)
  have hsplit := run_split fuel evs ParserState.initial
  rw [hrun] at hsplit
  cases hfil : run fuel { ParserState.initial with errs := [] }
      (evs.filter SaxEvent.isData) with
  | none => rw [hfil] at hsplit; cases hsplit
  | some s0 =>
    rw [hfil] at hsplit
    simp only [Option.map_some', Option.some.injEq] at hsplit
    have h0 : s0.errs = [] :=
      run_keeps_errs fuel _ _ s0 (fun e he => (List.mem_filter.mp he).2) hfil
    refine ⟨s, hrun, by rw [hsplit]; rfl, ?_⟩
    show run fuel { ParserState.initial with errs := [] } _ = _
    rw [hfil, hsplit]
    cases s0
    simp_all

/-- When the events other than error events are the events of a list of items
without blank character data, the cursor at the end is the synthetic Root and
the heap is the one built for the descriptors of the items, whatever error
events are delivered in between. -/
theorem run_items_root (evs : List SaxEvent) (fuel : Nat) (items : List Item)
    (hnb : Item.nonBlankAll items = true)
    (hev : evs.filter SaxEvent.isData = Item.eventsAll items) :
    ∃ s, run fuel ParserState.initial evs = some s ∧ s.node = 0 ∧
      s.heap = fill [({} : Node)] 0 (Item.specs (Item.mergedAll items)) := by
  have hsplit := run_split fuel evs ParserState.initial
  rw [show ({ ParserState.initial with errs := [] } : ParserState) = ParserState.initial
    from rfl, hev, run_initial_items items fuel hnb] at hsplit
  exact ⟨_, hsplit, rfl, rfl⟩

theorem parentsKept_refl (h : Heap) : h.parentsKept h := ⟨Nat.le_refl _, fun _ _ => rfl⟩

theorem parentsKept_trans (h h1 h2 : Heap) (h01 : h.parentsKept h1) (h12 : h1.parentsKept h2) :
    h.parentsKept h2 :=
  ⟨Nat.le_trans h01.1 h12.1, fun r hr => by
    rw [h12.2 r (Nat.lt_of_lt_of_le hr h01.1), h01.2 r hr]⟩

theorem parentsKept_of_parents (h h1 : Heap) (hlen : h.length ≤ h1.length)
    (hp : ∀ r, (h1.node r).parent = (h.node r).parent) : h.parentsKept h1 :=
  ⟨hlen, fun r _ => hp r⟩

theorem parentsKept_addChild_new (h : Heap) (p : Nat) (n : Node) (hp : p < h.length) :
    h.parentsKept (addChild (h ++ [n]) p (.spec (.node h.length)) none).1 := by
  obtain ⟨_, e2, _, e4⟩ := addChild_new_links h p n none hp
  exact ⟨by omega, fun r hr => e4 r (by omega)⟩

theorem parentsKept_addText (h : Heap) (p : Nat) (text : String) (hp : p < h.length) :
    h.parentsKept (addText h p text none).1 := by
  have h0 : h.parentsKept (initValue h p) :=
    parentsKept_of_parents _ _ (by rw [length_initValue]) (fun r => parent_initValue h p r)
  have hnew : h.parentsKept (addChild (newTextNode (initValue h p) text).1 p
      (.spec (.node (newTextNode (initValue h p) text).2)) none).1 := by
    rw [newTextNode_eq]
    exact parentsKept_trans _ _ _ h0
      (parentsKept_addChild_new (initValue h p) p _ (by rw [length_initValue]; exact hp))
  unfold addText
  cases hl : (children (initValue h p) p).getLast? with
  | none => exact hnew
  | some last =>
    simp only []
    by_cases ht : truthy ((initValue h p).node last).text = true
    · simp only [ht, if_true]
      exact parentsKept_trans _ _ _ h0 (parentsKept_of_parents _ _ (by rw [length_put])
        (fun r => parent_put _ _ _ _ rfl))
    · simp only [ht, Bool.false_eq_true, if_false]
      exact hnew

/-- The heap `getRoot` returns is the heap it was called on, possibly with one
new empty node. -/
theorem getRoot_heap : ∀ (fuel : Nat) (h : Heap) (n : Nat) (h1 : Heap) (r : Nat),
    getRoot fuel h n = some (h1, r) → h1 = h ∨ h1 = h ++ [({} : Node)]
  | 0, _, _, _, _, hg => by simp [getRoot] at hg
  | fuel + 1, h, n, h1, r, hg => by
    simp only [getRoot] at hg
    by_cases hc : (!isEmpty h n && !isRoot h n) = true
    · rw [if_pos hc] at hg
      cases hpar : (h.node n).parent with
      | some p =>
        have hgp : getParent h n = (h, p) := by simp [getParent, hpar]
        rw [hgp] at hg
        exact getRoot_heap fuel h p h1 r hg
      | none =>
        have hgp : getParent h n = (h ++ [({} : Node)], h.length) := by
          simp [getParent, hpar, newNode, Heap.alloc]
        rw [hgp] at hg
        cases fuel with
        | zero => simp [getRoot] at hg
        | succ k =>
          have he : isEmpty (h ++ [({} : Node)]) h.length = true :=
            isEmpty_of_blank _ _ (node_append_new h {})
          simp only [getRoot, he, Bool.not_true, Bool.false_and, Bool.false_eq_true,
            if_false, Option.some.injEq, Prod.mk.injEq] at hg
          exact Or.inr hg.1.symm
    · rw [if_neg hc] at hg
      simp only [Option.some.injEq, Prod.mk.injEq] at hg
      exact Or.inl hg.1.symm

theorem parentsKept_setInstruction (h : Heap) (r : Nat) (name value : String) :
    h.parentsKept (setInstruction h r name value) :=
  parentsKept_of_parents _ _ (by simp [setInstruction, length_put])
    (fun r1 => by
      simp only [setInstruction]
      refine parent_put _ _ _ _ ?_
      rfl)

theorem parentsKept_append (h : Heap) (n : Node) : h.parentsKept (h ++ [n]) :=
  ⟨by simp, fun r hr => parent_append_ne h n r (by omega)⟩

/-- A handler other than those of the open tag and the close tag leaves the
cursor where it is and keeps the parents of the nodes. -/
theorem handle_single (fuel : Nat) (s s1 : ParserState) (ev : SaxEvent)
    (hn : s.node < s.heap.length) (ht : ev.isTag = false)
    (hh : handle fuel s ev = some s1) :
    s1.node = s.node ∧ s.heap.parentsKept s1.heap := by
  cases ev with
  | error err =>
    simp only [handle, Option.some.injEq] at hh
    subst hh
    exact ⟨rfl, parentsKept_refl _⟩
  | text text =>
    simp only [handle] at hh
    by_cases hb : (jsTrim text != "") = true
    · simp only [hb, if_true] at hh
      have hk := parentsKept_addText s.heap s.node text hn
      cases hr : addText s.heap s.node text none with
      | mk h1 res =>
        rw [hr] at hh hk
        cases res with
        | error e => simp [ParserState.after] at hh
        | ok u =>
          simp only [ParserState.after, Option.some.injEq] at hh
          subst hh
          exact ⟨rfl, hk⟩
    · simp only [hb, Bool.false_eq_true, if_false, Option.some.injEq] at hh
      subst hh
      exact ⟨rfl, parentsKept_refl _⟩
  | processinginstruction name body =>
    simp only [handle, addInstruction] at hh
    cases hg : getRoot fuel s.heap s.node with
    | none => simp [hg] at hh
    | some res =>
      obtain ⟨h1, r⟩ := res
      simp only [hg, Option.map_some', Option.some.injEq] at hh
      subst hh
      refine ⟨rfl, ?_⟩
      rcases getRoot_heap fuel s.heap s.node h1 r hg with he | he
      · subst he
        exact parentsKept_setInstruction _ _ _ _
      · subst he
        exact parentsKept_trans _ _ _ (parentsKept_append _ _)
          (parentsKept_setInstruction _ _ _ _)
  | opentag name attributes => simp [SaxEvent.isTag] at ht
  | closetag name => simp [SaxEvent.isTag] at ht
  | attr name value =>
    simp only [handle, Option.some.injEq] at hh
    subst hh
    exact ⟨rfl, parentsKept_refl _⟩
  | comment comment =>
    simp only [handle, addComment, Heap.alloc] at hh
    have hk := parentsKept_addChild_new s.heap s.node { comment := some comment } hn
    cases hr : addChild (s.heap ++ [({ comment := some comment } : Node)]) s.node
        (.spec (.node s.heap.length)) none with
    | mk h1 res =>
      rw [hr] at hh hk
      cases res with
      | error e => simp [ParserState.after] at hh
      | ok u =>
        simp only [ParserState.after, Option.some.injEq] at hh
        subst hh
        exact ⟨rfl, hk⟩
  | opencdata =>
    simp only [handle, Option.some.injEq] at hh
    subst hh
    exact ⟨rfl, parentsKept_refl _⟩
  | cdata cdata =>
    simp only [handle] at hh
    cases hb : s.cDataBlock with
    | none =>
      simp only [hb, Option.some.injEq] at hh
      subst hh
      exact ⟨rfl, parentsKept_refl _⟩
    | some block =>
      simp only [hb, Option.some.injEq] at hh
      subst hh
      exact ⟨rfl, parentsKept_refl _⟩
  | closecdata =>
    simp only [handle, addCData, Heap.alloc] at hh
    have hk := parentsKept_addChild_new s.heap s.node { cdata := s.cDataBlock } hn
    cases hr : addChild (s.heap ++ [({ cdata := s.cDataBlock } : Node)]) s.node
        (.spec (.node s.heap.length)) none with
    | mk h1 res =>
      rw [hr] at hh hk
      cases res with
      | error e => simp [ParserState.after] at hh
      | ok u =>
        simp only [ParserState.after, Option.map_some', Option.some.injEq] at hh
        subst hh
        exact ⟨rfl, hk⟩

/-- The handler of the close tag on a cursor that has a parent: the cursor
moves to the parent, and the parents of the nodes are kept. -/
theorem handle_closetag_parent (fuel : Nat) (s s1 : ParserState) (name : String) (p : Nat)
    (hn : s.node < s.heap.length) (hpar : (s.heap.node s.node).parent = some p)
    (hh : handle fuel s (.closetag name) = some s1) :
    s1.node = p ∧ s.heap.parentsKept s1.heap := by
  have hg : getParent s.heap s.node = (s.heap, p) := by simp [getParent, hpar]
  simp only [handle, hg] at hh
  by_cases hne : s.node = p
  · rw [← hne] at hh
    simp [addChild] at hh
  · obtain ⟨e1, e2, e3, e4⟩ := addChild_node_links s.heap p s.node none hne hn
    cases hr : addChild s.heap p (.spec (.node s.node)) none with
    | mk h1 res =>
      rw [hr] at hh e1 e2 e3 e4
      simp only at e1 e2 e3 e4
      subst e1
      simp only [Option.some.injEq] at hh
      subst hh
      refine ⟨rfl, by simp only; omega, fun r _ => ?_⟩
      by_cases hrc : r = s.node
      · subst hrc
        simp only
        rw [e3, hpar]
      · exact e4 r hrc

theorem run_cons (fuel : Nat) (s : ParserState) (e : SaxEvent) (es : List SaxEvent) :
    run fuel s (e :: es) = (handle fuel s e).bind (fun s1 => run fuel s1 es) := by
  simp only [run]
  cases handle fuel s e with
  | none => rfl
  | some s1 => rfl

mutual
/-- The run of the handlers on the events of a part leaves the cursor where it
was and keeps the parents of the nodes. -/
theorem run_part : ∀ (i : Part) (fuel : Nat) (s s1 : ParserState),
    i.nested = true → s.node < s.heap.length → run fuel s i.events = some s1 →
    s1.node = s.node ∧ s.heap.parentsKept s1.heap
  | .single ev, fuel, s, s1, hne, hn, hr => by
    simp only [Part.nested, Bool.and_eq_true, Bool.not_eq_true'] at hne
    simp only [Part.events, run_cons, run] at hr
    cases hh : handle fuel s ev with
    | none => simp [hh] at hr
    | some s2 =>
      simp only [hh, Option.some_bind, Option.some.injEq] at hr
      subst hr
      exact handle_single fuel s s2 ev hn hne.1 hh
  | .element name attributes content, fuel, s, s1, hne, hn, hr => by
    simp only [Part.nested] at hne
    simp only [Part.events, run_cons, run_append] at hr
    obtain ⟨n, hH, hnp⟩ : ∃ n : Node,
        (newNode s.heap (some name) (some attributes) (some s.node)).1 = s.heap ++ [n] ∧
          n.parent = some s.node := ⟨_, rfl, rfl⟩
    have ho : handle fuel s (.opentag name attributes) =
        some { s with heap := s.heap ++ [n], node := s.heap.length } := by
      rw [← hH]; rfl
    rw [ho] at hr
    simp only [Option.some_bind] at hr
    cases hc : run fuel { s with heap := s.heap ++ [n], node := s.heap.length }
        (Part.eventsAll content) with
    | none => simp [hc] at hr
    | some s2 =>
      simp only [hc, Option.some_bind, run] at hr
      obtain ⟨hnode, hk⟩ := run_parts content fuel _ s2 hne (by simp) hc
      simp only at hnode hk
      cases hh : handle fuel s2 (.closetag name) with
      | none => simp [hh] at hr
      | some s3 =>
        simp only [hh, Option.some_bind, Option.some.injEq] at hr
        subst hr
        have hpar : (s2.heap.node s2.node).parent = some s.node := by
          rw [hnode, hk.2 s.heap.length (by simp), node_append_new, hnp]
        obtain ⟨h3n, h3k⟩ := handle_closetag_parent fuel s2 s3 name s.node
          (by rw [hnode]; have := hk.1; simp at this; omega) hpar hh
        exact ⟨h3n, parentsKept_trans _ _ _
          (parentsKept_trans _ _ _ (parentsKept_append _ _) hk) h3k⟩
theorem run_parts : ∀ (parts : List Part) (fuel : Nat) (s s1 : ParserState),
    Part.nestedAll parts = true → s.node < s.heap.length →
    run fuel s (Part.eventsAll parts) = some s1 →
    s1.node = s.node ∧ s.heap.parentsKept s1.heap
  | [], _, s, s1, _, _, hr => by
    simp only [Part.eventsAll, run, Option.some.injEq] at hr
    subst hr
    exact ⟨rfl, parentsKept_refl _⟩
  | i :: rest, fuel, s, s1, hne, hn, hr => by
    simp only [Part.nestedAll, Bool.and_eq_true] at hne
    simp only [Part.eventsAll, run_append] at hr
    cases hi : run fuel s i.events with
    | none => simp [hi] at hr
    | some s2 =>
      simp only [hi, Option.some_bind] at hr
      obtain ⟨h2n, h2k⟩ := run_part i fuel s s2 hne.1 hn hi
      obtain ⟨h3n, h3k⟩ := run_parts rest fuel s2 s1 hne.2
        (by rw [h2n]; exact Nat.lt_of_lt_of_le hn h2k.1) hr
      exact ⟨by rw [h3n, h2n], parentsKept_trans _ _ _ h2k h3k⟩
end

/-- When the events other than error events are well nested, the cursor at the
end is the synthetic Root, which has no parent, whatever error events are
delivered in between. -/
theorem run_nested_root (evs : List SaxEvent) (fuel : Nat) (parts : List Part)
    (s : ParserState) (hne : Part.nestedAll parts = true)
    (hev : evs.filter SaxEvent.isData = Part.eventsAll parts)
    (hrun : run fuel ParserState.initial evs = some s) :
    s.node = 0 ∧ (s.heap.node 0).parent = none := by
  have hsplit := run_split fuel evs ParserState.initial
  rw [show ({ ParserState.initial with errs := [] } : ParserState) = ParserState.initial
    from rfl, hev, hrun] at hsplit
  cases hp : run fuel ParserState.initial (Part.eventsAll parts) with
  | none => rw [hp] at hsplit; cases hsplit
  | some s0 =>
    rw [hp] at hsplit
    simp only [Option.map_some', Option.some.injEq] at hsplit
    obtain ⟨h1, h2⟩ := run_parts parts fuel ParserState.initial s0 hne (by decide) hp
    rw [hsplit]
    exact ⟨h1, h2.2 0 (by decide)⟩

/-- C24. For every sequence of events and enough fuel for `getRoot`: every
handler returns; the captured errors are the messages of the error events in
order; the callback receives the first of them, and no node, when there is
one, and the cursor with no error when there is none; the heap and the cursor
at the end are those of the run on the sequence without its error events; and
when the events other than error events are well nested (the events of a list
of parts, with any character data, comments, processing instructions,
attributes and CDATA events between the tags), the cursor at the end is the
node `toNode` started with, the synthetic Root, which has no parent: without
error events the callback receives the tree rooted at the synthetic Root. -/
theorem toNode_errors (evs : List SaxEvent) (fuel : Nat) (hf : evs.length + 2 ≤ fuel) :
    ∃ s, run fuel ParserState.initial evs = some s ∧
      s.errs = capturedErrors evs ∧
      toNode fuel evs = some (s.heap,
        match capturedErrors evs with
        | [] => .ok s.node
        | e :: _ => .error e) ∧
      run fuel ParserState.initial (evs.filter SaxEvent.isData) =
        some { s with errs := [] } ∧
      ∀ parts, Part.nestedAll parts = true →
        evs.filter SaxEvent.isData = Part.eventsAll parts →
        s.node = ParserState.initial.node ∧ s.node = 0 ∧ (s.heap.node 0).parent = none ∧
          (capturedErrors evs = [] → toNode fuel evs = some (s.heap, .ok 0)) := by
  obtain ⟨s, hrun, herrs, hdata⟩ := run_initial evs fuel hf
  have hto : toNode fuel evs = some (s.heap,
      match capturedErrors evs with
      | [] => .ok s.node
      | e :: _ => .error e) := by
    simp only [toNode, hrun, Option.map_some', onend, herrs]
  refine ⟨s, hrun, herrs, hto, hdata, fun parts hne hev => ?_⟩
  obtain ⟨h1, h2⟩ := run_nested_root evs fuel parts s hne hev hrun
  refine ⟨h1, h1, h2, fun he => ?_⟩
  rw [hto, he, h1]

/-- C24, witness: an open tag, an error, a processing instruction and a second
error, where the callback receives the first error; and the events of
`<?xml version=1?><a k="v">  <![CDATA[x]]><!--c--><b/></a>` without an
error, where the callback receives the synthetic Root. -/
theorem toNode_errors_witness :
    (∃ h, toNode 6 [.opentag "a" [], .error "e1", .processinginstruction "xml" "version",
        .error "e2"] = some (h, .error "e1")) ∧
      (∃ h, toNode 13 [.processinginstruction "xml" "version=1",
          .attr "k" "v", .opentag "a" [("k", "v")], .text "  ", .opencdata, .cdata "x",
          .closecdata, .comment "c", .opentag "b" [], .closetag "b", .closetag "a"] =
          some (h, .ok 0) ∧ (h.node 0).parent = none) :=
  ⟨(toNode_errors [.opentag "a" [], .error "e1", .processinginstruction "xml" "version",
      .error "e2"] 6 (by decide)).elim (fun s hs => ⟨s.heap, hs.2.2.1⟩),
    (toNode_errors [.processinginstruction "xml" "version=1",
        .attr "k" "v", .opentag "a" [("k", "v")], .text "  ", .opencdata, .cdata "x",
        .closecdata, .comment "c", .opentag "b" [], .closetag "b", .closetag "a"] 13
      (by decide)).elim (fun s hs =>
        ⟨s.heap,
          (hs.2.2.2.2 [.single (.processinginstruction "xml" "version=1"),
            .single (.attr "k" "v"),
            .element "a" [("k", "v")] [.single (.text "  "), .single .opencdata,
              .single (.cdata "x"), .single .closecdata, .single (.comment "c"),
              .element "b" [] []]] (by decide) (by decide)).2.2.2 rfl,
          (hs.2.2.2.2 [.single (.processinginstruction "xml" "version=1"),
            .single (.attr "k" "v"),
            .element "a" [("k", "v")] [.single (.text "  "), .single .opencdata,
              .single (.cdata "x"), .single .closecdata, .single (.comment "c"),
              .element "b" [] []]] (by decide) (by decide)).2.2.1⟩)⟩

/-- The result of `toNode` on a sequence with two error events, on a
sequence without error events, and on an open tag that is not closed, where
the callback receives the element that is still open. -/
theorem toNode_examples :
    (toNode 6 [.opentag "a" [], .error "e1", .processinginstruction "xml" "version",
      .error "e2"]).map (fun r => r.2) = some (.error "e1") ∧
    (toNode 6 [.opentag "a" [], .text "x", .closetag "a"]).map (fun r => r.2) =
      some (.ok 0) ∧
    toNode 3 [.opentag "a" []] =
      some ([{}, { name := some "a", attributes := some [], parent := some 0 }], .ok 1) := by
  decide

end XmlNode
